import Mathlib

/-!
# A heap model of `nested.go`

`Nested` values are reached through Go pointers and stored by reference, so the
embedding is a store of `Nested` cells addressed by natural numbers.

* A `*Nested` is a `Ptr`: `none` is the nil pointer, `some a` the cell at address `a`.
* A `Heap` is the list of allocated cells; `&Nested{...}` appends a cell.
* `map[string]*Nested` is an association list, `none` standing for the nil map;
  a write to the nil map panics, a read from it finds nothing. A Go map is a
  reference: `GetMap` returns the map a cell holds and `SetMap` stores the map it is
  given, so that two cells can hold the same map. Each cell carries the entries of its
  map and a number `mapId` that tells which map it is; a write to a map (`putMap`)
  changes the entries in every cell that holds it.
* `[]*Nested` is a list, `none` standing for the nil slice.
* Every method returns a `Result`: a normal return with a value (`ok`), a normal
  return with a Go `error` (`error msg`), or a run-time panic (`panic`).
  Methods that mutate also return the heap they leave behind.
* The recursive `Clear` may not terminate on a cyclic structure; it takes a bound on
  the recursion depth and answers `none` when the bound is exceeded. So do `ToObject`
  and the functions `ToJSONString` and `Equals` that call it.
* `encoding/json` and `reflect.DeepEqual` are the functions `jsonEncode` and `deepEqual`
  on `GoAny`; what they do with a `float64` and with values of types outside `GoAny` is
  a parameter (`GoReflect`). A string is a sequence of Unicode characters, that is, a Go
  string that is valid UTF-8; a Go string with an invalid byte, which `encoding/json`
  writes as U+FFFD, is not represented.

Modelling assumption: the slice held by a cell is that cell's own storage (two cells
never share one backing array), except inside `ArrayDelete`, which edits the backing
array of the slice it read from the cell.
-/

/-- Go values of type `any`. `float64` carries the IEEE-754 bit pattern. -/
inductive GoAny where
  | nil
  | int (n : Int)
  | uint64 (n : Nat)
  | float64 (bits : Nat)
  | bool (b : Bool)
  | string (s : String)
  | other (typ : String) (id : Nat)
  | slice (xs : List GoAny)
  | map (kvs : List (String × GoAny))

/-- A `*Nested`: `none` is nil. -/
abbrev Ptr := Option Nat

/-- A non-nil `map[string]*Nested`. -/
abbrev GoMap := List (String × Ptr)

/-- The struct `Nested`. The field `mapId` is not a field of the Go struct: it tells
which Go map `nested` refers to. It is 0 for a map that no call of `SetMap` has stored
while a cell held it, which this cell alone holds; `SetMap` gives a non-zero number to a
map that it stores while a cell holds it (the map that `GetMap` returned for that cell),
and two cells hold the same Go map when they carry the same non-zero number. -/
structure Nested where
  isValue : Bool := false
  isArray : Bool := false
  nested : Option GoMap := none
  array : Option (List Ptr) := none
  value : GoAny := GoAny.nil
  mapId : Nat := 0

/-- The store of allocated `Nested` cells. -/
abbrev Heap := List Nested

/-- Outcome of a call: normal return, returned Go error, or run-time panic. -/
inductive Result (α : Type) where
  | ok (v : α)
  | error (msg : String)
  | panic
  deriving DecidableEq

/-- Library functions of Go that the package calls; they are parameters of the model.
`unmarshalMap`/`unmarshalSlice` are `json.Unmarshal` into `map[string]any`/`[]any`
(`none` when it returns an error), `parseInt` is `strconv.ParseInt(s, 10, 32)`,
`parseFloat` is `strconv.ParseFloat(s, 32)`, `parseBool` is `strconv.ParseBool`;
`floatToInt`, `intToFloat` and `floatEq` are the conversions `int(x)`, `float64(n)`
and the comparison `==` on `float64`. -/
structure GoLib where
  unmarshalMap : String → Option (List (String × GoAny))
  unmarshalSlice : String → Option (List GoAny)
  parseInt : String → Option Int
  parseFloat : String → Option Nat
  parseBool : String → Option Bool
  floatToInt : Nat → Int
  intToFloat : Int → Nat
  floatEq : Nat → Nat → Bool

/-- The comparison `==` of two float64 values given by their bits: a NaN (exponent bits
all ones, fraction bits not all zero) is equal to nothing, the two zeros are equal, and
otherwise two values are equal when their bits are. -/
def float64Eq (a b : Nat) : Bool :=
  !decide ((a / 2 ^ 52) % 2048 = 2047 ∧ a % 2 ^ 52 ≠ 0) &&
    !decide ((b / 2 ^ 52) % 2048 = 2047 ∧ b % 2 ^ 52 ≠ 0) &&
    (a == b || (a % 2 ^ 63 == 0 && b % 2 ^ 63 == 0))

/-- The biased exponent of a float64 given by its bits. -/
def float64Exp (x : Nat) : Nat := x / 2 ^ 52 % 2048

/-- The fraction field of a float64 given by its bits. -/
def float64Frac (x : Nat) : Nat := x % 2 ^ 52

/-- The magnitude of a finite float64 rounded toward zero to an integer: 0 below 1, and
the significand `2^52 + fraction` shifted by the exponent otherwise. -/
def float64Trunc (x : Nat) : Nat :=
  if float64Exp x < 1023 then 0
  else if 1075 ≤ float64Exp x then (2 ^ 52 + float64Frac x) * 2 ^ (float64Exp x - 1075)
  else (2 ^ 52 + float64Frac x) / 2 ^ (1075 - float64Exp x)

/-- The finite float64 rounded toward zero to an integer; for a float64 with zero
fractional part this is the integer equal to it. -/
def float64Whole (x : Nat) : Int :=
  if 2 ^ 63 ≤ x then -(float64Trunc x : Int) else (float64Trunc x : Int)

/-- The conversion `int(x)` of a float64 on a 64-bit platform, as amd64 computes it: the
value rounded toward zero when that lies in the range of `int`, and the smallest `int`
otherwise (for a NaN, an infinity and a value out of range). -/
def float64ToInt (x : Nat) : Int :=
  if float64Exp x = 2047 then -(2 ^ 63)
  else if -(2 ^ 63 : Int) ≤ float64Whole x ∧ float64Whole x < 2 ^ 63 then float64Whole x
  else -(2 ^ 63)

/-- The position of the highest bit of a positive number below `2 ^ fuel`. -/
def bitIndex : Nat → Nat → Nat
  | 0, _ => 0
  | fuel + 1, a => if a < 2 then 0 else bitIndex fuel (a / 2) + 1

/-- The conversion `float64(n)` of an `int`: the sign, the exponent of the highest bit
and the 52 bits below it, rounded to nearest with ties to even when `n` has more than 53
bits. -/
def intToFloat64 (n : Int) : Nat :=
  if n.natAbs = 0 then 0
  else if bitIndex 64 n.natAbs ≤ 52 then
    (if n < 0 then 2 ^ 63 else 0) + (1023 + bitIndex 64 n.natAbs) * 2 ^ 52 +
      (n.natAbs * 2 ^ (52 - bitIndex 64 n.natAbs) - 2 ^ 52)
  else
    (if n < 0 then 2 ^ 63 else 0) + (1023 + bitIndex 64 n.natAbs) * 2 ^ 52 +
      ((if 2 ^ (bitIndex 64 n.natAbs - 53) < n.natAbs % 2 ^ (bitIndex 64 n.natAbs - 52) ∨
          (n.natAbs % 2 ^ (bitIndex 64 n.natAbs - 52) = 2 ^ (bitIndex 64 n.natAbs - 53) ∧
            n.natAbs / 2 ^ (bitIndex 64 n.natAbs - 52) % 2 = 1)
        then n.natAbs / 2 ^ (bitIndex 64 n.natAbs - 52) + 1
        else n.natAbs / 2 ^ (bitIndex 64 n.natAbs - 52)) - 2 ^ 52)

/-- The read `m[k]` with its `ok` flag. -/
def mapLookup : GoMap → String → Option Ptr
  | [], _ => none
  | (k', v) :: m, k => if k' = k then some v else mapLookup m k

/-- The write `m[k] = v` on a non-nil map. -/
def mapStore : GoMap → String → Ptr → GoMap
  | [], k, v => [(k, v)]
  | (k', v') :: m, k, v => if k' = k then (k, v) :: m else (k', v') :: mapStore m k v

/-- The builtin `delete(m, k)`. -/
def mapDelete : GoMap → String → GoMap
  | [], _ => []
  | (k', v') :: m, k => if k' = k then mapDelete m k else (k', v') :: mapDelete m k

/-- Pointer dereference; `none` is the nil-pointer panic. -/
def deref (h : Heap) (p : Ptr) : Option Nested :=
  match p with
  | none => none
  | some a => h[a]?

/-- Whether the cell `x` holds the same Go map as the cell `n`: both carry the same
non-zero map number, and then the same entries. -/
def sameMap (n x : Nested) : Bool :=
  n.mapId != 0 && x.mapId == n.mapId && n.nested.isSome && decide (x.nested = n.nested)

/-- The heap after a write to the Go map of the cell `n` at address `a` that leaves the
map with the entries `m`: the cell and every cell that holds the same map see them. -/
def putMap (h : Heap) (a : Nat) (n : Nested) (m : GoMap) : Heap :=
  (h.map (fun x => if sameMap n x then { x with nested := some m } else x)).set a
    { n with nested := some m }

/-- The cell after `if j.nested == nil { j.nested = map[string]*Nested{} }`: a nil map
is replaced by a new empty map, which no other cell holds. -/
def Nested.ownMap (n : Nested) : Nested :=
  match n.nested with
  | none => { n with nested := some [], mapId := 0 }
  | some _ => n

/-- A map number that no cell of the heap carries. -/
def freshMapId (h : Heap) : Nat := (h.map Nested.mapId).foldr max 0 + 1

/-- A `map[string]*Nested` in the hands of a caller: `made m` is a map that no cell
holds (`none` the nil map), `heldBy b` is the map that the cell at `b` holds at the time
of the call, which is what `GetMap` returns. -/
inductive MapArg where
  | made (m : Option GoMap)
  | heldBy (b : Nat)
  deriving DecidableEq

/-- What storing a map in one more cell does to the heap, with the entries and the
number under which the map is stored: a map that a cell holds alone so far gets a
number that is not in use. -/
def shareMap (h : Heap) : MapArg → Heap × Option GoMap × Nat
  | .made m => (h, m, 0)
  | .heldBy b =>
    match h[b]? with
    | none => (h, none, 0)
    | some nb =>
      match nb.nested with
      | none => (h, none, 0)
      | some m =>
        if nb.mapId = 0 then
          (h.set b { nb with mapId := freshMapId h }, some m, freshMapId h)
        else (h, some m, nb.mapId)

/-- Entries of `j.nested`, the nil map having none. -/
def Nested.entries (n : Nested) : GoMap := n.nested.getD []

/-- Elements of `j.array`, the nil slice having none. -/
def Nested.elems (n : Nested) : List Ptr := n.array.getD []

/-- Method `IsArray`. -/
def Nested.IsArray (n : Nested) : Bool := n.isArray

/-- Method `IsValue`. -/
def Nested.IsValue (n : Nested) : Bool := n.isValue

/-- Method `IsNested`. -/
def Nested.IsNested (n : Nested) : Bool := !n.isArray && !n.isValue

/-- Method `IsEmpty`. -/
def Nested.IsEmpty (n : Nested) : Bool := !n.isArray && !n.isValue && n.entries.length == 0

/-- Method `Length`. -/
def Nested.Length (n : Nested) : Int :=
  if n.IsValue then -1
  else if n.IsArray then (n.elems.length : Int)
  else (n.entries.length : Int)

/-- The message of the empty key chain error. -/
def errNoKeys : String := "keys list must contain at least one key"

/-- The message `fmt.Errorf("key '%s' not found", k)`. -/
def errKeyNotFound (k : String) : String := "key '" ++ k ++ "' not found"

/-- Wrapping of an inner error by `Get`/`Set` at a level that was called with
`rest.length + 1` keys: `"%s: %s"` when two keys were given, `"%s.%s"` otherwise. -/
def wrapErr (currentKey : String) (rest : List String) (err : String) : String :=
  if rest.length = 1 then currentKey ++ ": " ++ err else currentKey ++ "." ++ err

/-- Method `Get`. -/
def Nested.Get (h : Heap) (j : Ptr) : List String → Result Ptr
  | [] => .error errNoKeys
  | currentKey :: rest =>
    match deref h j with
    | none => .panic
    | some n =>
      if n.IsValue then .error "is value"
      else if n.IsArray then .error "is array"
      else
        match mapLookup n.entries currentKey with
        | none => .error (errKeyNotFound currentKey)
        | some value =>
          if rest.length = 0 then .ok value
          else
            match Nested.Get h value rest with
            | .error err => .error (wrapErr currentKey rest err)
            | res => res

/-- Method `Set`. -/
def Nested.Set (h : Heap) (j : Ptr) (nested : Ptr) : List String → Heap × Result Unit
  | [] => (h, .error errNoKeys)
  | currentKey :: rest =>
    match j with
    | none => (h, .panic)
    | some a =>
      match h[a]? with
      | none => (h, .panic)
      | some n =>
        if n.IsValue then (h, .error "is value")
        else if n.IsArray then (h, .error "is array")
        else if rest.length = 0 then
          (putMap h a n.ownMap (mapStore n.entries currentKey nested), .ok ())
        else
          let hc : Heap × Ptr :=
            match mapLookup n.entries currentKey with
            | some c => (h.set a n.ownMap, c)
            | none =>
              (putMap h a n.ownMap (mapStore n.entries currentKey (some h.length)) ++ [{}],
                some h.length)
          match Nested.Set hc.1 hc.2 nested rest with
          | (h2, .error err) => (h2, .error (wrapErr currentKey rest err))
          | res => res

/-- The statements `x.nested[k] = nil; delete(x.nested, k)` on the cell `n` at address `a`. -/
def deleteEntry (h : Heap) (a : Nat) (n : Nested) (k : String) : Heap × Result Unit :=
  match n.nested with
  | none => (h, .panic)
  | some m => (putMap h a n (mapDelete (mapStore m k none) k), .ok ())

/-- Method `Delete`. -/
def Nested.Delete (h : Heap) (j : Ptr) (keys : List String) : Heap × Result Unit :=
  match keys with
  | [] => (h, .error errNoKeys)
  | k :: ks =>
    match j with
    | none => (h, .panic)
    | some a =>
      match h[a]? with
      | none => (h, .panic)
      | some n =>
        if n.IsValue then (h, .error "is value")
        else if n.IsArray then (h, .error "is array")
        else if ks.length = 0 then deleteEntry h a n k
        else
          let keysWithoutLast := (k :: ks).dropLast
          match Nested.Get h j keysWithoutLast with
          | .error err => (h, .error err)
          | .panic => (h, .panic)
          | .ok nested =>
            match nested with
            | none => (h, .panic)
            | some b =>
              match h[b]? with
              | none => (h, .panic)
              | some x =>
                if x.IsValue then
                  (h, .error (String.intercalate "." keysWithoutLast ++ ": is value"))
                else if x.IsArray then
                  (h, .error (String.intercalate "." keysWithoutLast ++ ": is array"))
                else deleteEntry h b x ((k :: ks).getLast (List.cons_ne_nil k ks))

/-- Method `GetValue`. -/
def Nested.GetValue (h : Heap) (j : Ptr) (keys : List String) : Result GoAny :=
  match deref h j with
  | none => .panic
  | some n =>
    if n.IsEmpty then .error "is empty"
    else if n.IsArray then .error "is array"
    else if keys.length = 0 ∧ n.IsValue then .ok n.value
    else if keys.length = 0 ∧ n.IsNested then .error "is nested"
    else
      match Nested.Get h j keys with
      | .error err => .error err
      | .panic => .panic
      | .ok nested =>
        match deref h nested with
        | none => .panic
        | some x =>
          if x.IsArray then .error (String.intercalate "." keys ++ ": is array")
          else if x.IsNested then .error (String.intercalate "." keys ++ ": is nested")
          else .ok x.value

/-- Method `SetValue`. -/
def Nested.SetValue (h : Heap) (j : Ptr) (value : GoAny) (keys : List String) :
    Heap × Result Unit :=
  match j with
  | none => (h, .panic)
  | some a =>
    match h[a]? with
    | none => (h, .panic)
    | some n =>
      if (n.IsEmpty || n.IsValue) && keys.length == 0 then
        (h.set a { n with isValue := true, value := value }, .ok ())
      else
        Nested.Set (h ++ [{ isValue := true, value := value }]) j (some h.length) keys

/-- Method `GetMap`: it returns the map that the addressed cell holds, not a copy. -/
def Nested.GetMap (h : Heap) (j : Ptr) (keys : List String) : Result MapArg :=
  match j with
  | none => .panic
  | some a =>
    match h[a]? with
    | none => .panic
    | some n =>
      if n.IsValue then .error "is value"
      else if n.IsArray then .error "is array"
      else if keys.length = 0 then .ok (.heldBy a)
      else
        match Nested.Get h j keys with
        | .error err => .error err
        | .panic => .panic
        | .ok nested =>
          match nested with
          | none => .panic
          | some b =>
            match h[b]? with
            | none => .panic
            | some x =>
              if x.IsValue then .error (String.intercalate "." keys ++ ": is value")
              else if x.IsArray then .error (String.intercalate "." keys ++ ": is array")
              else .ok (.heldBy b)

/-- Method `SetMap`: the cell, or the new cell stored under the keys, holds the map it
is given, not a copy. -/
def Nested.SetMap (h : Heap) (j : Ptr) (nested : MapArg) (keys : List String) :
    Heap × Result Unit :=
  match j with
  | none => (h, .panic)
  | some a =>
    match h[a]? with
    | none => (h, .panic)
    | some n =>
      let s := shareMap h nested
      if (n.IsEmpty || n.IsNested) && keys.length == 0 then
        (s.1.set a { n with nested := s.2.1, mapId := s.2.2 }, .ok ())
      else
        Nested.Set (s.1 ++ [{ nested := s.2.1, mapId := s.2.2 }]) j (some s.1.length) keys

/-- Method `GetArray`. -/
def Nested.GetArray (h : Heap) (j : Ptr) (keys : List String) : Result (Option (List Ptr)) :=
  match deref h j with
  | none => .panic
  | some n =>
    if n.IsEmpty then .error "is empty"
    else if n.IsValue then .error "is value"
    else if keys.length = 0 ∧ n.IsArray then .ok n.array
    else if keys.length = 0 ∧ n.IsNested then .error "is nested"
    else
      match Nested.Get h j keys with
      | .error err => .error err
      | .panic => .panic
      | .ok nested =>
        match deref h nested with
        | none => .panic
        | some x =>
          if x.IsValue then .error (String.intercalate "." keys ++ ": is value")
          else if x.IsNested then .error (String.intercalate "." keys ++ ": is nested")
          else .ok x.array

/-- Method `SetArray`. -/
def Nested.SetArray (h : Heap) (j : Ptr) (array : Option (List Ptr)) (keys : List String) :
    Heap × Result Unit :=
  match j with
  | none => (h, .panic)
  | some a =>
    match h[a]? with
    | none => (h, .panic)
    | some n =>
      if (n.IsEmpty || n.IsArray) && keys.length == 0 then
        (h.set a { n with isArray := true, array := array }, .ok ())
      else
        Nested.Set (h ++ [{ isArray := true, array := array }]) j (some h.length) keys

/-- Method `ArrayAdd`. -/
def Nested.ArrayAdd (h : Heap) (j : Ptr) (element : Ptr) (keys : List String) :
    Heap × Result Unit :=
  match j with
  | none => (h, .panic)
  | some a =>
    match h[a]? with
    | none => (h, .panic)
    | some n =>
      if keys.length = 0 then
        if n.IsValue then (h, .error "is value")
        else if n.IsNested then (h, .error "is nested")
        else (h.set a { n with array := some (n.elems ++ [element]) }, .ok ())
      else if n.IsEmpty then (h, .error "is empty")
      else if n.IsArray then (h, .error "is array")
      else
        match Nested.Get h j keys with
        | .error err => (h, .error err)
        | .panic => (h, .panic)
        | .ok nested =>
          match nested with
          | none => (h, .panic)
          | some b =>
            match h[b]? with
            | none => (h, .panic)
            | some x =>
              if x.IsValue then (h, .error (String.intercalate "." keys ++ ": is value"))
              else if x.IsNested then
                (h, .error (String.intercalate "." keys ++ ": is nested"))
              else (h.set b { x with array := some (x.elems ++ [element]) }, .ok ())

/-- Method `ArrayAddValue`. -/
def Nested.ArrayAddValue (h : Heap) (j : Ptr) (element : GoAny) (keys : List String) :
    Heap × Result Unit :=
  Nested.ArrayAdd (h ++ [{ isValue := true, value := element }]) j (some h.length) keys

/-- Method `ArrayAddArray`. -/
def Nested.ArrayAddArray (h : Heap) (j : Ptr) (element : Option (List Ptr))
    (keys : List String) : Heap × Result Unit :=
  Nested.ArrayAdd (h ++ [{ isArray := true, array := element }]) j (some h.length) keys

/-- The loop `for _, element := range j.array[:]` of `Clear`; `rec` is the recursive call. -/
def clearElems (rec : Heap → Ptr → Option (Heap × Result Unit)) :
    Heap → List Ptr → Option (Heap × Result Unit)
  | h, [] => some (h, .ok ())
  | h, element :: rest =>
    match rec h element with
    | none => none
    | some (h1, .panic) => some (h1, .panic)
    | some (h1, _) => clearElems rec h1 rest

/-- The loop `for k := range j.nested` of `Clear` on the cell at `a`, over the keys
in iteration order; a key removed in the meantime is not produced. -/
def clearKeys (rec : Heap → Ptr → Option (Heap × Result Unit)) (a : Nat) :
    Heap → List String → Option (Heap × Result Unit)
  | h, [] => some (h, .ok ())
  | h, k :: ks =>
    match h[a]? with
    | none => some (h, .panic)
    | some n =>
      match mapLookup n.entries k with
      | none => clearKeys rec a h ks
      | some child =>
        match rec h child with
        | none => none
        | some (h1, .panic) => some (h1, .panic)
        | some (h1, _) =>
          match h1[a]? with
          | none => some (h1, .panic)
          | some n1 =>
            match deleteEntry h1 a n1 k with
            | (h2, .ok _) => clearKeys rec a h2 ks
            | (h2, r) => some (h2, r)

/-- The body of `Clear`; `rec` is the recursive call. -/
def clearBody (rec : Heap → Ptr → Option (Heap × Result Unit)) (h : Heap) (j : Ptr) :
    Option (Heap × Result Unit) :=
  match j with
  | none => some (h, .panic)
  | some a =>
    match h[a]? with
    | none => some (h, .panic)
    | some n =>
      if n.IsValue then some (h.set a { n with isValue := false, value := .nil }, .ok ())
      else if n.IsArray then
        match clearElems rec h n.elems with
        | none => none
        | some (h1, .ok _) =>
          match h1[a]? with
          | none => some (h1, .panic)
          | some n1 => some (h1.set a { n1 with isArray := false, array := none }, .ok ())
        | some (h1, r) => some (h1, r)
      else clearKeys rec a h (n.entries.map Prod.fst)

/-- Method `Clear`, with a bound on the depth of the recursion: `none` when the bound
is exceeded. -/
def Nested.Clear : Nat → Heap → Ptr → Option (Heap × Result Unit)
  | 0 => fun _ _ => none
  | fuel + 1 => clearBody (Nested.Clear fuel)

/-- The cell whose slice `GetArray(keys...)` returns. -/
def arrayOwner (h : Heap) (j : Ptr) (keys : List String) : Ptr :=
  if keys.length = 0 then j
  else
    match Nested.Get h j keys with
    | .ok p => p
    | _ => none

/-- What `array[index] = nil; array = append(array[:index], array[index+1:]...)` leaves
in the slice `full` of the owning cell, which shares its backing array with `array`. -/
def spliceBacking (full array : List Ptr) (index : Nat) : List Ptr :=
  ((array.set index none).take index ++ (array.set index none).drop (index + 1))
    ++ (array.set index none).drop (array.length - 1) ++ full.drop array.length

/-- The heap after that edit of the backing array, seen through the slice of the
cell `owner`. -/
def spliceOwner (h : Heap) (owner : Ptr) (array : List Ptr) (index : Nat) : Heap :=
  match owner with
  | none => h
  | some o =>
    match h[o]? with
    | none => h
    | some n => h.set o { n with array := some (spliceBacking n.elems array index) }

/-- The loop of `ArrayDelete`, `count` being `index + 1`; `rec` is `Clear`, `owner` the
cell whose slice is being edited. -/
def arrayDeleteLoop (rec : Heap → Ptr → Option (Heap × Result Unit))
    (f : Heap → Ptr → Bool) (owner : Ptr) :
    Heap → List Ptr → Nat → Option (Heap × Result (List Ptr))
  | h, array, 0 => some (h, .ok array)
  | h, array, index + 1 =>
    match array[index]? with
    | none => some (h, .panic)
    | some element =>
      if f h element then
        match rec h element with
        | none => none
        | some (h1, .panic) => some (h1, .panic)
        | some (h1, _) =>
          arrayDeleteLoop rec f owner (spliceOwner h1 owner array index)
            ((array.set index none).take index ++ (array.set index none).drop (index + 1)) index
      else arrayDeleteLoop rec f owner h array index

/-- Method `ArrayDelete`; `fuel` bounds the recursion of the calls to `Clear`. -/
def Nested.ArrayDelete (fuel : Nat) (h : Heap) (j : Ptr) (f : Heap → Ptr → Bool)
    (keys : List String) : Option (Heap × Result Unit) :=
  match Nested.GetArray h j keys with
  | .error err => some (h, .error err)
  | .panic => some (h, .panic)
  | .ok array =>
    match arrayDeleteLoop (Nested.Clear fuel) f (arrayOwner h j keys) h (array.getD [])
        (array.getD []).length with
    | none => none
    | some (h1, .ok array1) => some (Nested.SetArray h1 j (array.map (fun _ => array1)) keys)
    | some (h1, .error err) => some (h1, .error err)
    | some (h1, .panic) => some (h1, .panic)

mutual
/-- Function `FromObject`. -/
def FromObject (lib : GoLib) (h : Heap) : GoAny → Heap × Ptr
  | .map kvObject =>
    let r := fromObjectEntries lib h [] kvObject
    (r.1 ++ [{ nested := some r.2 }], some r.1.length)
  | .slice arrayObject =>
    let r := fromObjectElems lib h none arrayObject
    (r.1 ++ [{ isArray := true, array := r.2 }], some r.1.length)
  | .float64 value =>
    if lib.floatEq value (lib.intToFloat (lib.floatToInt value)) then
      (h ++ [{ isValue := true, value := .int (lib.floatToInt value) }], some h.length)
    else (h ++ [{ isValue := true, value := .float64 value }], some h.length)
  | .nil => (h ++ [{ isValue := true, value := .nil }], some h.length)
  | .int n => (h ++ [{ isValue := true, value := .int n }], some h.length)
  | .uint64 n => (h ++ [{ isValue := true, value := .uint64 n }], some h.length)
  | .bool b => (h ++ [{ isValue := true, value := .bool b }], some h.length)
  | .string s => (h ++ [{ isValue := true, value := .string s }], some h.length)
  | .other typ id => (h ++ [{ isValue := true, value := .other typ id }], some h.length)
/-- The loop `for k := range kvObject` of `FromObject`, `nested` being the map built so far. -/
def fromObjectEntries (lib : GoLib) (h : Heap) (nested : GoMap) :
    List (String × GoAny) → Heap × GoMap
  | [] => (h, nested)
  | (k, v) :: rest =>
    fromObjectEntries lib (FromObject lib h v).1 (mapStore nested k (FromObject lib h v).2) rest
/-- The loop `for _, element := range arrayObject` of `FromObject`, `array` being the
slice built so far. -/
def fromObjectElems (lib : GoLib) (h : Heap) (array : Option (List Ptr)) :
    List GoAny → Heap × Option (List Ptr)
  | [] => (h, array)
  | element :: rest =>
    fromObjectElems lib (FromObject lib h element).1
      (some (array.getD [] ++ [(FromObject lib h element).2])) rest
end

/-- Function `FromJSONString`. -/
def FromJSONString (lib : GoLib) (h : Heap) (nested : String) : Heap × Ptr :=
  match lib.unmarshalMap nested with
  | some kvObject => FromObject lib h (.map kvObject)
  | none =>
    match lib.unmarshalSlice nested with
    | some arrayObject => FromObject lib h (.slice arrayObject)
    | none =>
      let value : GoAny :=
        match lib.parseInt nested with
        | some v => .int v
        | none =>
          match lib.parseFloat nested with
          | some v => .float64 v
          | none =>
            match lib.parseBool nested with
            | some v => .bool v
            | none => .string nested
      (h ++ [{ isValue := true, value := value }], some h.length)

/-- Successive map lookup along a key chain, in the words of the specification: start
at `x`, and for each key step from a map-shaped node to the entry stored under the key. -/
def lookupChain (h : Heap) : Ptr → List String → Option Ptr
  | x, [] => some x
  | x, k :: ks =>
    match deref h x with
    | none => none
    | some n =>
      if n.IsNested then
        match mapLookup n.entries k with
        | none => none
        | some y => lookupChain h y ks
      else none

/-- The cells in which the keys of a chain are looked up, in order: the start cell for
the first key, the entry found there for the second key, and so on. -/
def pathNodes (h : Heap) : Ptr → List String → List Nat
  | _, [] => []
  | none, _ :: _ => []
  | some a, k :: ks =>
    a :: (match h[a]? with
      | none => []
      | some n =>
        if n.IsNested then
          match mapLookup n.entries k with
          | none => []
          | some c => pathNodes h c ks
        else [])

/-- The nodes directly contained in a node: none for a scalar, the elements of an
array, the entries of a map. -/
def Nested.children (n : Nested) : List Ptr :=
  if n.IsValue then [] else if n.IsArray then n.elems else n.entries.map Prod.snd

/-- One active representation, as in the data model: the keys of the map are unique,
a scalar is not flagged as array, and a scalar or an array holds no map entries. -/
def Nested.wellShaped (n : Nested) : Bool :=
  decide ((n.entries.map Prod.fst).Nodup)
    && (!n.isValue || (!n.isArray && n.entries.length == 0))
    && (!n.isArray || n.entries.length == 0)

/-- The structure below `p` is a finite tree (sharing allowed) of depth less than `d`:
`p` is an allocated cell with one active representation, and so is everything it
contains; in particular no node contains itself and no nil pointer is stored. -/
def wellFormed : Nat → Heap → Ptr → Bool
  | 0, _, _ => false
  | d + 1, h, p =>
    match deref h p with
    | none => false
    | some n => n.wellShaped && n.children.all (wellFormed d h)

/-- Containment: `Contains h a c` when `c` is `a` itself or is reached from `a` through
arrays and maps. -/
inductive Contains (h : Heap) : Nat → Nat → Prop where
  | refl (a : Nat) : Contains h a a
  | step {a b c : Nat} {n : Nested} :
      h[a]? = some n → some b ∈ n.children → Contains h b c → Contains h a c

/-- Heaps that arise from freshly constructed nodes by a finite sequence of the public
mutating operations, with arbitrary arguments; the heap left by a call that returns an
error or panics counts as well. -/
inductive Reachable (lib : GoLib) : Heap → Prop where
  | init : Reachable lib []
  | construct {h : Heap} : Reachable lib h → Reachable lib (h ++ [({} : Nested)])
  | set {h : Heap} (j r : Ptr) (keys : List String) :
      Reachable lib h → Reachable lib (Nested.Set h j r keys).1
  | setValue {h : Heap} (j : Ptr) (v : GoAny) (keys : List String) :
      Reachable lib h → Reachable lib (Nested.SetValue h j v keys).1
  | setMap {h : Heap} (j : Ptr) (m : MapArg) (keys : List String) :
      Reachable lib h → Reachable lib (Nested.SetMap h j m keys).1
  | setArray {h : Heap} (j : Ptr) (arr : Option (List Ptr)) (keys : List String) :
      Reachable lib h → Reachable lib (Nested.SetArray h j arr keys).1
  | delete {h : Heap} (j : Ptr) (keys : List String) :
      Reachable lib h → Reachable lib (Nested.Delete h j keys).1
  | arrayAdd {h : Heap} (j e : Ptr) (keys : List String) :
      Reachable lib h → Reachable lib (Nested.ArrayAdd h j e keys).1
  | arrayAddValue {h : Heap} (j : Ptr) (v : GoAny) (keys : List String) :
      Reachable lib h → Reachable lib (Nested.ArrayAddValue h j v keys).1
  | arrayAddArray {h : Heap} (j : Ptr) (arr : Option (List Ptr)) (keys : List String) :
      Reachable lib h → Reachable lib (Nested.ArrayAddArray h j arr keys).1
  | arrayDelete {h h1 : Heap} {res : Result Unit} (fuel : Nat) (j : Ptr)
      (f : Heap → Ptr → Bool) (keys : List String) :
      Reachable lib h → Nested.ArrayDelete fuel h j f keys = some (h1, res) →
      Reachable lib h1
  | clear {h h1 : Heap} {res : Result Unit} (fuel : Nat) (j : Ptr) :
      Reachable lib h → Nested.Clear fuel h j = some (h1, res) → Reachable lib h1
  | fromObject {h : Heap} (obj : GoAny) :
      Reachable lib h → Reachable lib (FromObject lib h obj).1
  | fromJSONString {h : Heap} (s : String) :
      Reachable lib h → Reachable lib (FromJSONString lib h s).1

/-- No map of the heap is held by two cells: every map number is 0, that is, no call of
`SetMap` has stored a map while a cell held it. -/
def Unshared (h : Heap) : Prop := ∀ n ∈ h, n.mapId = 0

/-- Every lookup that a map-shaped node of `h` answers is answered the same in `h2`. -/
def LookupsKept (h h2 : Heap) : Prop :=
  ∀ (b : Nat) (n : Nested), h[b]? = some n → n.IsNested = true →
    ∃ n2, h2[b]? = some n2 ∧ n2.IsNested = true ∧
      ∀ k c, mapLookup n.entries k = some c → mapLookup n2.entries k = some c

/-- Two freshly constructed nodes, the second made the scalar 1 by `SetValue`, the
first then stored in itself under the key `a` by `Set`. -/
def selfHeap : Heap :=
  (Nested.Set (Nested.SetValue [{}, {}] (some 1) (.int 1) []).1 (some 0) (some 0) ["a"]).1

/-- Three freshly constructed nodes `j`, `c`, `r` (cells 0, 1, 2) after
`r.SetValue(1); j.Set(c, "a"); m, _ := j.GetMap(); c.SetMap(m)`: the nodes `j` and `c`
hold the same map, whose entry `a` is `c`. -/
def sharedMapHeap : Heap :=
  (Nested.SetMap (Nested.Set (Nested.SetValue [{}, {}, {}] (some 2) (.int 1) []).1
    (some 0) (some 1) ["a"]).1 (some 1) (.heldBy 0) []).1

/-- A cell flagged both as scalar and as array. -/
def bothFlagsHeap : Heap := [{ isValue := true, isArray := true }]

/-- The cell at `b` is allocated and reports `IsEmpty`. -/
def EmptyAt (h : Heap) (b : Nat) : Prop := ∃ nb, h[b]? = some nb ∧ nb.IsEmpty = true

/-- Below `x`, every cell of `h` is unchanged or empty in `h2`. -/
def SameOrEmptyBelow (h h2 : Heap) (x : Nat) : Prop :=
  ∀ b, Contains h x b → (h2[b]? = h[b]? ∨ EmptyAt h2 b)

/-- What a terminating `Clear` achieves on a well-formed node of a heap without shared
maps: it returns no error, allocates nothing, leaves every cell outside the node
unchanged and every cell contained in the node empty. -/
def ClearSpec (d : Nat) : Prop :=
  ∀ (h : Heap) (a : Nat), Unshared h → wellFormed d h (some a) = true →
    ∃ h2, Nested.Clear d h (some a) = some (h2, .ok ()) ∧ h2.length = h.length ∧
      (∀ b, ¬ Contains h a b → h2[b]? = h[b]?) ∧ (∀ b, Contains h a b → EmptyAt h2 b) ∧
      Unshared h2

/-- Contained in one of the children already cleared. -/
def Touched (h0 : Heap) (done : List Nat) (b : Nat) : Prop := ∃ x ∈ done, Contains h0 x b

/-- State of the loops of `Clear` on the cell `a` after the children `done` were
cleared. -/
structure LoopInv (h0 : Heap) (a : Nat) (done : List Nat) (hcur : Heap) : Prop where
  len : hcur.length = h0.length
  own : Unshared hcur
  same : ∀ b, b ≠ a → ¬ Touched h0 done b → hcur[b]? = h0[b]?
  empty : ∀ b, Touched h0 done b → EmptyAt hcur b

/-- A freshly constructed node in which the nil pointer was stored under `k` by `Set`. -/
def nilEntryHeap : Heap := (Nested.Set [{}] (some 0) none ["k"]).1

/-- A cell flagged as scalar that still carries a map entry, next to an empty cell. -/
def leftoverHeap : Heap := [{ isValue := true, nested := some [("x", some 1)] }, {}]

/-- The heap of the test of `Clear`: the node `newNested` (scalar 142, cell 1) was stored
in the freshly constructed node `clear` (cell 0) by `clear.Set(&newNested, "value")`. -/
def clearTestHeap : Heap :=
  (Nested.Set [{}, { isValue := true, value := .int 142 }] (some 0) (some 1) ["value"]).1

/-- The flags `isValue` and `isArray` are not both set. -/
def Nested.flagsOk (n : Nested) : Bool := !(n.isValue && n.isArray)

/-- Every allocated cell has at most one of the two flags set. -/
def FlagsOk (h : Heap) : Prop := ∀ n ∈ h, n.flagsOk = true

/-- A recursive call that keeps the flag invariant. -/
def KeepsFlags (rec : Heap → Ptr → Option (Heap × Result Unit)) : Prop :=
  ∀ h p h2 r, rec h p = some (h2, r) → FlagsOk h → FlagsOk h2

/-- Every allocated cell has one active representation. -/
def Shaped (h : Heap) : Prop := ∀ n ∈ h, n.wellShaped = true

/-- The second recursive call answers whatever the first answers. -/
def RecLe (r1 r2 : Heap → Ptr → Option (Heap × Result Unit)) : Prop :=
  ∀ h p x, r1 h p = some x → r2 h p = some x

/-- On a heap of well-shaped cells without shared maps, a `Clear` that returns normally
was given a well-formed node. -/
def ClearOkWellFormed (d : Nat) : Prop :=
  ∀ (h : Heap) (a : Nat) (h2 : Heap), Shaped h → Unshared h →
    Nested.Clear d h (some a) = some (h2, .ok ()) → ∃ D, wellFormed D h (some a) = true

/-- A property of heaps kept by the writes that `Clear` makes: resetting the scalar,
resetting the array and deleting a map entry (in every cell that holds the map). -/
structure ClearingInv (P : Heap → Prop) : Prop where
  value : ∀ (h : Heap) (a : Nat) (n : Nested), P h → h[a]? = some n →
    P (h.set a { n with isValue := false, value := GoAny.nil })
  array : ∀ (h : Heap) (a : Nat) (n : Nested), P h → h[a]? = some n →
    P (h.set a { n with isArray := false, array := none })
  entry : ∀ (h : Heap) (a : Nat) (n : Nested) (m : GoMap) (k : String), P h →
    h[a]? = some n → n.nested = some m →
    P (putMap h a n (mapDelete (mapStore m k none) k))

/-- A recursive call that keeps the property `P`. -/
def Keeps (P : Heap → Prop) (rec : Heap → Ptr → Option (Heap × Result Unit)) : Prop :=
  ∀ h p h2 r, rec h p = some (h2, r) → P h → P h2

/-- What `Clear` can have done to a cell by the time it is looked at again: no flag was
gained, the slice is the same as long as the array flag is set, keys and entries of the
map were only removed, and a map that was not nil is not nil. -/
structure WanedTo (n n2 : Nested) : Prop where
  isValue : n2.isValue = true → n.isValue = true
  isArray : n2.isArray = true → n.isArray = true
  array : n2.isArray = true → n2.array = n.array
  keys : (n2.entries.map Prod.fst).Sublist (n.entries.map Prod.fst)
  lookup : ∀ k c, mapLookup n2.entries k = some c → mapLookup n.entries k = some c
  nested : n.nested.isSome = true → n2.nested.isSome = true

/-- The heap `h2` has the cells of `h`, each as `Clear` can have left it. -/
def Waned (h h2 : Heap) : Prop :=
  h2.length = h.length ∧
    ∀ (a : Nat) (n : Nested), h[a]? = some n → ∃ n2, h2[a]? = some n2 ∧ WanedTo n n2

/-- `Clear` with recursion depth `d` returns normally on every node that is well formed
at depth `d`, and leaves the node empty. -/
def ClearTerminates (d : Nat) : Prop :=
  ∀ (h : Heap) (a : Nat), wellFormed d h (some a) = true →
    ∃ h2, Nested.Clear d h (some a) = some (h2, .ok ()) ∧ EmptyAt h2 a

/-- Everything that the node at `y` contained in `h0` is empty in `hc`. -/
def Gone (h0 hc : Heap) (y : Nat) : Prop := ∀ b, Contains h0 y b → EmptyAt hc b

/-- Every child that a cell had in `h0` is still a child of the cell in `hc`, unless
everything that the child contained is empty in `hc`. -/
def Kept (h0 hc : Heap) : Prop :=
  ∀ (x y : Nat) (n : Nested), h0[x]? = some n → some y ∈ n.children →
    (∃ nc, hc[x]? = some nc ∧ some y ∈ nc.children) ∨ Gone h0 hc y

/-- What a `Clear` that returns normally achieves in a heap that has waned from a heap
`h0` of cells with one active representation. -/
def ClearEmpties (h0 : Heap) (d : Nat) : Prop :=
  ∀ (hc : Heap) (a : Nat) (h2 : Heap), Waned h0 hc → Kept h0 hc →
    Nested.Clear d hc (some a) = some (h2, .ok ()) → Kept h0 h2 ∧ EmptyAt h2 a

/-- Four freshly constructed nodes `x`, `ref`, `y`, `a` (cells 0 to 3) after
`x.SetMap(map[string]*Nested{}); m, _ := x.GetMap(); ref.SetMap(m); ref.SetValue(5);
x.Set(y, "t"); a.Set(ref, "k")`: the scalar `ref` holds the map of `x`, which has the
entry `t`, and is stored in `a` under `k`. -/
def sharedScalarHeap : Heap :=
  (Nested.Set (Nested.Set (Nested.SetValue (Nested.SetMap (Nested.SetMap [{}, {}, {}, {}]
    (some 0) (.made (some [])) []).1 (some 1) (.heldBy 0) []).1 (some 1) (.int 5) []).1
    (some 0) (some 2) ["t"]).1 (some 3) (some 1) ["k"]).1

/-- The object of `testNested()` in the tests: cell 0 is the root map with the keys
`value` (cell 1), `array` (cell 2) and `nested` (cell 5). -/
def testHeap : Heap :=
  [ { nested := some [("value", some 1), ("array", some 2), ("nested", some 5)] },
    { isValue := true, value := .int 42 },
    { isArray := true, array := some [some 3, some 4] },
    { isValue := true, value := .int 142 },
    { isValue := true, value := .string "string in array" },
    { nested := some [("value", some 6), ("nested", some 7), ("array", some 9)] },
    { isValue := true, value := .string "string" },
    { nested := some [("value", some 8)] },
    { isValue := true, value := .string "string in nested" },
    { isArray := true, array := some [some 10, some 12, some 15] },
    { nested := some [("value", some 11)] },
    { isValue := true, value := .int 242 },
    { isArray := true, array := some [some 13] },
    { nested := some [("value", some 14)] },
    { isValue := true, value := .string "string in nested array" },
    { nested := some [("value", some 16)] },
    { isValue := true, value := .int 1242 } ]

/-- The map with the keys `value1` and `value2` of the test of `Delete`. -/
def twoValuesHeap : Heap :=
  [ { nested := some [("value1", some 1), ("value2", some 2)] },
    { isValue := true, value := .int 142 },
    { isValue := true, value := .int 242 } ]

/-- Two freshly constructed nodes. -/
def twoFreshHeap : Heap := [{}, {}]

/-- A library whose parsers reject every input. -/
def rejectingLib : GoLib where
  unmarshalMap := fun _ => none
  unmarshalSlice := fun _ => none
  parseInt := fun _ => none
  parseFloat := fun _ => none
  parseBool := fun _ => none
  floatToInt := float64ToInt
  intToFloat := intToFloat64
  floatEq := float64Eq

/-- The message that reaches the caller when the traversal of `keys` breaks after `i`
keys with the innermost message `err`: each level above the failure wraps the message
of the level below with its own key, as `Get` and `Set` do. -/
def errAt : List String → Nat → String → String
  | [], _, err => err
  | _ :: _, 0, err => err
  | k :: rest, i + 1, err => wrapErr k rest (errAt rest i err)

/-- The text `k1.k2.….ki` of the first `i` keys, the separator `sep` and the message
`err`; the bare message when no key was traversed. -/
def prefixed (keys : List String) (i : Nat) (sep : String) (err : String) : String :=
  if i = 0 then err else String.intercalate "." (keys.take i) ++ sep ++ err

/-- The separator the code puts before the innermost message when the traversal of `n`
keys breaks after `i` of them. -/
def sepAt (n i : Nat) : String := if i + 1 = n then ": " else "."

/-- The traversal of `keys` from `j` breaks after `i` keys with the innermost message
`err`: the first `i` keys resolve by successive lookup to a cell that is a scalar
("is value"), an array ("is array"), or a map without the next key
("key '…' not found"). -/
def BreaksAt (h : Heap) (j : Ptr) (keys : List String) (i : Nat) (err : String) : Prop :=
  ∃ k x n, keys[i]? = some k ∧ lookupChain h j (keys.take i) = some x ∧ deref h x = some n ∧
    ((n.IsValue = true ∧ err = "is value") ∨
     (n.IsValue = false ∧ n.IsArray = true ∧ err = "is array") ∨
     (n.IsNested = true ∧ mapLookup n.entries k = none ∧ err = errKeyNotFound k))

/-- Four freshly constructed nodes `root`, `A`, `B`, `z` (cells 0 to 3) after
`A.SetMap(map[string]*Nested{}); m, _ := A.GetMap(); B.SetMap(m); root.Set(A, "p");
root.Set(B, "q"); A.Set(z, "z")`: the nodes `A` and `B` are stored under `p` and `q`
and hold the same map, whose entry `z` is the node `z`. -/
def sharedSiblingsHeap : Heap :=
  (Nested.Set (Nested.Set (Nested.Set (Nested.SetMap (Nested.SetMap [{}, {}, {}, {}]
    (some 1) (.made (some [])) []).1 (some 2) (.heldBy 1) []).1
    (some 0) (some 1) ["p"]).1 (some 0) (some 2) ["q"]).1 (some 1) (some 3) ["z"]).1

/-- The library function `slices.IndexFunc(s, f)`: the first index whose element
satisfies `f`; `none` stands for -1. -/
def indexFunc (f : Ptr → Bool) : List Ptr → Option Nat
  | [] => none
  | x :: xs => if f x then some 0 else (indexFunc f xs).map (· + 1)

/-- Method `ArrayFindOne`. The predicate is given the element and reads the heap
through it. -/
def Nested.ArrayFindOne (h : Heap) (j : Ptr) (f : Heap → Ptr → Bool) (keys : List String) :
    Result Ptr :=
  match Nested.GetArray h j keys with
  | .error err => .error err
  | .panic => .panic
  | .ok array =>
    match indexFunc (f h) (array.getD []) with
    | none => .ok none
    | some index =>
      match (array.getD [])[index]? with
      | none => .panic
      | some element => .ok element

/-- The loop of `ArrayFindAll`, `found` being the slice built so far. -/
def findAllLoop (f : Ptr → Bool) : List Ptr → List Ptr → List Ptr
  | found, [] => found
  | found, element :: rest =>
    if f element then findAllLoop f (found ++ [element]) rest else findAllLoop f found rest

/-- Method `ArrayFindAll`; the slice `found` starts as the empty non-nil slice. -/
def Nested.ArrayFindAll (h : Heap) (j : Ptr) (f : Heap → Ptr → Bool) (keys : List String) :
    Result (Option (List Ptr)) :=
  match Nested.GetArray h j keys with
  | .error err => .error err
  | .panic => .panic
  | .ok array => .ok (some (findAllLoop (f h) [] (array.getD [])))

/-- Value of a non-empty text of decimal digits, as `strconv.ParseUint` reads it in
base 10 before any range check; `acc` is the value of the digits read so far. -/
def decimalDigits : Nat → List Char → Option Nat
  | acc, [] => some acc
  | acc, c :: cs => if c.isDigit then decimalDigits (acc * 10 + (c.toNat - 48)) cs else none

/-- The integer that a base-10 text denotes: an optional sign `+` or `-` followed by at
least one decimal digit; `none` for any other text. -/
def decimalValue (s : String) : Option Int :=
  match s.data with
  | [] => none
  | c :: cs =>
    if c = '+' then
      if cs = [] then none else (decimalDigits 0 cs).map (fun un => (un : Int))
    else if c = '-' then
      if cs = [] then none else (decimalDigits 0 cs).map (fun un => -(un : Int))
    else (decimalDigits 0 (c :: cs)).map (fun un => (un : Int))

/-- The library function `strconv.ParseInt(s, 10, bitSize)`: the integer denoted by the
text when it lies in the signed range of `bitSize` bits, an error (`none`) otherwise. -/
def parseIntDec (bitSize : Nat) (s : String) : Option Int :=
  match decimalValue s with
  | none => none
  | some n => if -(2 ^ (bitSize - 1) : Int) ≤ n ∧ n < (2 ^ (bitSize - 1) : Int) then some n else none

/-- A library fixed on the texts used in the examples: `json.Unmarshal` sets a map or a
slice to nil on the text `null` without an error and rejects the other example texts
(none is a JSON object or array), `ParseInt` is the decimal parser with bit size 32,
`ParseFloat` reads "3000000000" as the float64 with bits 0x41E65A0BC0000000 and "42.5" as
the one with bits 0x4045400000000000 and returns an error on the other example texts,
`ParseBool` reads "true" and "false", and the conversions between `float64` and `int` and
the comparison of float64 values are those of a 64-bit platform. -/
def sampleLib : GoLib where
  unmarshalMap := fun s => if s = "null" then some [] else none
  unmarshalSlice := fun s => if s = "null" then some [] else none
  parseInt := parseIntDec 32
  parseFloat := fun s =>
    if s = "3000000000" then some 0x41E65A0BC0000000
    else if s = "42.5" then some 0x4045400000000000 else none
  parseBool := fun s => if s = "true" then some true else if s = "false" then some false else none
  floatToInt := float64ToInt
  intToFloat := intToFloat64
  floatEq := float64Eq

/-- A property of heaps kept by the writes that `Clear` and the loop of `ArrayDelete`
make to a cell: those of `Clear` and replacing the slice. -/
structure DeletingInv (P : Heap → Prop) extends ClearingInv P : Prop where
  slice : ∀ (h : Heap) (a : Nat) (n : Nested) (arr : Option (List Ptr)), P h →
    h[a]? = some n → P (h.set a { n with array := arr })

/-- Every cell of `h` is still allocated in `h2`, with no flag and no map entry that it
did not have in `h`. -/
def Shrunk (h h2 : Heap) : Prop :=
  ∀ (a : Nat) (n : Nested), h[a]? = some n → ∃ n2, h2[a]? = some n2 ∧
    (n2.isValue = true → n.isValue = true) ∧ (n2.isArray = true → n.isArray = true) ∧
    ∀ k c, mapLookup n2.entries k = some c → mapLookup n.entries k = some c

/-- A link out of a cell that a call of `Clear` in progress is waiting on: an element of
the slice `arr` of a cell flagged as array, or the entry under the key `k` of a cell
that is not flagged. -/
inductive Link where
  | elem (arr : Option (List Ptr))
  | key (k : String)

/-- The cell at `c` is not a scalar and has the link to the cell `nxt`. -/
def HasLink (h : Heap) (c : Nat) (l : Link) (nxt : Nat) : Prop :=
  ∃ n, h[c]? = some n ∧ n.isValue = false ∧
    match l with
    | .elem arr => n.isArray = true ∧ n.array = arr ∧ some nxt ∈ arr.getD []
    | .key k => n.isArray = false ∧ mapLookup n.entries k = some (some nxt)

/-- Every link of the list is in the heap. -/
def Protected (h : Heap) (L : List (Nat × Link × Nat)) : Prop :=
  ∀ e ∈ L, HasLink h e.1 e.2.1 e.2.2

/-- Every link of the list leads to the cell `t` or to a cell that has a link of the
list. -/
def Closed (L : List (Nat × Link × Nat)) (t : Nat) : Prop :=
  ∀ e ∈ L, e.2.2 = t ∨ e.2.2 ∈ L.map Prod.fst

/-- A recursive call that, when it returns normally on a cell `t` to which the links of a
list lead, was not made on a cell that has a link of the list, and leaves the links in
the heap. -/
def Protects (rec : Heap → Ptr → Option (Heap × Result Unit)) : Prop :=
  ∀ (h : Heap) (L : List (Nat × Link × Nat)) (t : Nat) (h2 : Heap),
    Protected h L → Closed L t → rec h (some t) = some (h2, .ok ()) →
    t ∉ L.map Prod.fst ∧ Protected h2 L

/-- A recursive call that never returns an error and does not return normally on nil. -/
def NoError (rec : Heap → Ptr → Option (Heap × Result Unit)) : Prop :=
  (∀ h p h2 m, rec h p ≠ some (h2, .error m)) ∧ (∀ h h2, rec h none ≠ some (h2, .ok ()))

/-- State of the loop of `ArrayDelete` on the array `a` of the cell `xa` of the heap `h`
when the elements from position `idx` on have been visited: `arr` is the local slice,
`hc` the current heap. -/
structure DeleteInv (h : Heap) (f : Heap → Ptr → Bool) (a : List Ptr) (xa : Nat) (idx : Nat)
    (hc : Heap) (arr : List Ptr) : Prop where
  bound : idx ≤ a.length
  arr_eq : arr = a.take idx ++ (a.drop idx).filter (fun e => !f h e)
  shaped : Shaped hc
  own : Unshared hc
  same : ∀ c, c ≠ xa → (∀ b, some b ∈ a.drop idx → ¬ Contains h b c) → hc[c]? = h[c]?
  all : ∀ c, c ≠ xa → (hc[c]? = h[c]? ∨ EmptyAt hc c)
  owner : ∀ nx, h[xa]? = some nx → ∃ arrx, hc[xa]? = some { nx with array := arrx }

/-- What the theorem on `ArrayDelete` assumes about the array `a` of the cell `xa` and
the predicate: the elements are pairwise distinct, the structures below two different
elements share no cell, no element contains the array node, and the predicate gives the
same answer on heaps that agree on the cells contained in the element it is given. -/
structure DeleteHyp (h : Heap) (f : Heap → Ptr → Bool) (a : List Ptr) (xa : Nat) : Prop where
  nodup : a.Nodup
  disjoint : ∀ b b2 c, some b ∈ a → some b2 ∈ a → b ≠ b2 → Contains h b c → ¬ Contains h b2 c
  notOwner : ∀ b, some b ∈ a → ¬ Contains h b xa
  sameAnswer : ∀ (h1 h2 : Heap) (p : Ptr),
    (∀ b c, p = some b → Contains h1 b c → h2[c]? = h1[c]?) → f h2 p = f h1 p

/-- Library functions of Go behind `ToJSONString` and `Equals`, on the values whose
representation the model does not fix; they are parameters of the model.
`marshalFloat` is the text `encoding/json` writes for a `float64` given by its bits
(`none` when it reports an unsupported value), `marshalOther` the text it writes for a
value of a type outside `GoAny` (`none` when it returns an error), `equalOther` is
`reflect.DeepEqual` on two values of one such type. -/
structure GoReflect where
  marshalFloat : Nat → Option String
  marshalOther : String → Nat → Option String
  equalOther : String → Nat → Nat → Bool

/-- The read `m[k]` on a `map[string]any`, with its `ok` flag. -/
def anyLookup : List (String × GoAny) → String → Option GoAny
  | [], _ => none
  | (k2, v) :: m, k => if k2 = k then some v else anyLookup m k

/-- The write `m[k] = v` on a `map[string]any`. -/
def anyStore : List (String × GoAny) → String → GoAny → List (String × GoAny)
  | [], k, v => [(k, v)]
  | (k2, v2) :: m, k, v => if k2 = k then (k, v) :: m else (k2, v2) :: anyStore m k v

/-- The loop `for _, element := range j.array` of `ToObject`; `rec` is the recursive
call, `result` the slice built so far. -/
def toObjectElems (rec : Ptr → Option (Result GoAny)) :
    List GoAny → List Ptr → Option (Result (List GoAny))
  | result, [] => some (.ok result)
  | result, element :: rest =>
    match rec element with
    | none => none
    | some (.ok v) => toObjectElems rec (result ++ [v]) rest
    | some (.error err) => some (.error err)
    | some .panic => some .panic

/-- The loop `for k := range j.nested` of `ToObject` over the keys of the map `m`;
`rec` is the recursive call, `result` the map built so far. -/
def toObjectKeys (rec : Ptr → Option (Result GoAny)) (m : GoMap) :
    List (String × GoAny) → List String → Option (Result (List (String × GoAny)))
  | result, [] => some (.ok result)
  | result, k :: ks =>
    match rec ((mapLookup m k).getD none) with
    | none => none
    | some (.ok v) => toObjectKeys rec m (anyStore result k v) ks
    | some (.error err) => some (.error err)
    | some .panic => some .panic

/-- The body of `ToObject`; `rec` is the recursive call. -/
def toObjectBody (rec : Ptr → Option (Result GoAny)) (h : Heap) (j : Ptr) :
    Option (Result GoAny) :=
  match deref h j with
  | none => some .panic
  | some n =>
    if n.IsValue then some (.ok n.value)
    else if n.IsArray then
      match toObjectElems rec [] n.elems with
      | none => none
      | some (.ok result) => some (.ok (.slice result))
      | some (.error err) => some (.error err)
      | some .panic => some .panic
    else
      match toObjectKeys rec n.entries [] (n.entries.map Prod.fst) with
      | none => none
      | some (.ok result) => some (.ok (.map result))
      | some (.error err) => some (.error err)
      | some .panic => some .panic

/-- Method `ToObject`, with a bound on the depth of the recursion: `none` when the bound
is exceeded. -/
def Nested.ToObject : Nat → Heap → Ptr → Option (Result GoAny)
  | 0 => fun _ _ => none
  | fuel + 1 => fun h j => toObjectBody (Nested.ToObject fuel h) h j

mutual
/-- The library function `reflect.DeepEqual` on two values of type `any`: values of
different dynamic types are unequal; numbers, booleans and strings are compared with
`==`; slices are equal when they have the same length and equal elements index by
index; maps are equal when they have the same length and every key of the first has an
equal value in the second. Slices and maps are non-nil here, as `ToObject` makes them,
and are compared by content (the shortcut for two slices or maps with the same storage
only matters for a container holding a value unequal to itself). -/
def deepEqual (lib : GoLib) (rt : GoReflect) : GoAny → GoAny → Bool
  | .nil, y => (match y with | .nil => true | _ => false)
  | .int a, y => (match y with | .int b => a == b | _ => false)
  | .uint64 a, y => (match y with | .uint64 b => a == b | _ => false)
  | .float64 a, y => (match y with | .float64 b => lib.floatEq a b | _ => false)
  | .bool a, y => (match y with | .bool b => a == b | _ => false)
  | .string a, y => (match y with | .string b => a == b | _ => false)
  | .other typ a, y =>
    (match y with | .other typ2 b => typ == typ2 && rt.equalOther typ a b | _ => false)
  | .slice xs, y =>
    (match y with
      | .slice ys => xs.length == ys.length && deepEqualElems lib rt xs ys
      | _ => false)
  | .map kvs, y =>
    (match y with
      | .map kvs2 => kvs.length == kvs2.length && deepEqualEntries lib rt kvs kvs2
      | _ => false)
/-- The loop of `reflect.DeepEqual` over the indices of two slices. -/
def deepEqualElems (lib : GoLib) (rt : GoReflect) : List GoAny → List GoAny → Bool
  | [], _ => true
  | x :: xs, ys =>
    (match ys with
      | [] => false
      | y :: ys2 => deepEqual lib rt x y && deepEqualElems lib rt xs ys2)
/-- The loop of `reflect.DeepEqual` over the keys of the first of two maps. -/
def deepEqualEntries (lib : GoLib) (rt : GoReflect) :
    List (String × GoAny) → List (String × GoAny) → Bool
  | [], _ => true
  | (k, v) :: rest, m2 =>
    (match anyLookup m2 k with
      | none => false
      | some w => deepEqual lib rt v w) && deepEqualEntries lib rt rest m2
end

/-- Function `Equals`: `reflect.DeepEqual(a.ToObject(), b.ToObject())`; `fuel` bounds
the recursion of the two calls to `ToObject`. -/
def Equals (lib : GoLib) (rt : GoReflect) (fuel : Nat) (h : Heap) (a b : Ptr) :
    Option (Result Bool) :=
  match Nested.ToObject fuel h a with
  | none => none
  | some (.error err) => some (.error err)
  | some .panic => some .panic
  | some (.ok x) =>
    match Nested.ToObject fuel h b with
    | none => none
    | some (.error err) => some (.error err)
    | some .panic => some .panic
    | some (.ok y) => some (.ok (deepEqual lib rt x y))

/-- The lower-case hexadecimal digit of a number below 16. -/
def hexDigit (n : Nat) : Char := "0123456789abcdef".data.getD n '0'

/-- What `encoding/json` writes for one character of a string when HTML escaping is
switched off, the character being given by its code: a backslash escape for the double
quote (34), the backslash (92) and the control characters (below 32), `\u2028` and
`\u2029` for the two separator characters, the character itself otherwise. -/
def jsonEscapeChar (c : Char) : List Char :=
  if c.toNat = 34 then ['\\', '"']
  else if c.toNat = 92 then ['\\', '\\']
  else if c.toNat = 8 then ['\\', 'b']
  else if c.toNat = 12 then ['\\', 'f']
  else if c.toNat = 10 then ['\\', 'n']
  else if c.toNat = 13 then ['\\', 'r']
  else if c.toNat = 9 then ['\\', 't']
  else if c.toNat < 32 then
    ['\\', 'u', '0', '0', hexDigit (c.toNat / 16), hexDigit (c.toNat % 16)]
  else if c.toNat = 8232 then ['\\', 'u', '2', '0', '2', '8']
  else if c.toNat = 8233 then ['\\', 'u', '2', '0', '2', '9']
  else [c]

/-- The content of the JSON string literal for a string `s` that is valid UTF-8, without
the surrounding quotes. -/
def jsonEscape (s : String) : String := String.mk (s.data.flatMap jsonEscapeChar)

/-- The JSON string literal that `encoding/json` writes for `s`. -/
def jsonString (s : String) : String := "\"" ++ jsonEscape s ++ "\""

/-- Comparison of two texts character by character: `true` when the first is a prefix of
the second or has the smaller character at the first position where they differ. -/
def charsLe : List Char → List Char → Bool
  | [], _ => true
  | _ :: _, [] => false
  | a :: as, b :: bs =>
    if a.toNat < b.toNat then true else if b.toNat < a.toNat then false else charsLe as bs

/-- The order `strings.Compare(a, b) <= 0` in which `encoding/json` sorts the keys of a
map (for UTF-8 the comparison of characters is the comparison of bytes). -/
def keyLe (a b : String) : Bool := charsLe a.data b.data

/-- The order in which `encoding/json` writes the keys of a map: ascending. -/
def sortKeys (ks : List String) : List String :=
  List.insertionSort (fun a b => keyLe a b = true) ks

/-- The text stored under a key in a list of encoded entries. -/
def textLookup : List (String × String) → String → String
  | [], _ => ""
  | (k2, t) :: m, k => if k2 = k then t else textLookup m k

mutual
/-- The compact JSON text that `encoding/json` writes for a value of type `any`, `none`
when it returns an error: `null`, decimal integers, `true`/`false`, string literals,
`[` elements `]` separated by commas, and `{` entries `}` as `"key":value` separated
by commas with the keys in sorted order. -/
def jsonEncode (rt : GoReflect) : GoAny → Option String
  | .nil => some "null"
  | .int n => some (toString n)
  | .uint64 n => some (toString n)
  | .float64 x => rt.marshalFloat x
  | .bool b => some (if b then "true" else "false")
  | .string s => some (jsonString s)
  | .other typ id => rt.marshalOther typ id
  | .slice xs =>
    (jsonEncodeElems rt xs).map (fun parts => "[" ++ String.intercalate "," parts ++ "]")
  | .map kvs =>
    (jsonEncodeEntries rt kvs).map (fun parts =>
      "\x7b" ++ String.intercalate ","
        ((sortKeys (parts.map Prod.fst)).map (fun k => jsonString k ++ ":" ++ textLookup parts k))
        ++ "\x7d")
/-- The texts of the elements of a slice, `none` when one of them has none. -/
def jsonEncodeElems (rt : GoReflect) : List GoAny → Option (List String)
  | [] => some []
  | x :: xs =>
    match jsonEncode rt x with
    | none => none
    | some t => (jsonEncodeElems rt xs).map (fun ts => t :: ts)
/-- The texts of the values of a map with their keys, `none` when one of them has none. -/
def jsonEncodeEntries (rt : GoReflect) : List (String × GoAny) → Option (List (String × String))
  | [] => some []
  | (k, v) :: rest =>
    match jsonEncode rt v with
    | none => none
    | some t => (jsonEncodeEntries rt rest).map (fun ts => (k, t) :: ts)
end

/-- The closure `trim` of `ToJSONString`: drop a final line feed, then drop the first and
the last character when both are the double quote and the text has at least two
characters; reading the last character of the empty text panics. The tests on the first
and last byte are tests on the first and last character, a quote being one byte. -/
def trim (s : String) : Result String :=
  match s.data.getLast? with
  | none => .panic
  | some last =>
    let s1 : List Char := if last = '\n' then s.data.dropLast else s.data
    if 2 ≤ s1.length ∧ s1.head? = some '"' ∧ s1.getLast? = some '"' then
      .ok (String.mk s1.tail.dropLast)
    else .ok (String.mk s1)

/-- The closure `jsonMarshal` of `ToJSONString`: an encoder with HTML escaping switched
off writes the text of the value followed by a line feed; `none` when it returns an
error. -/
def jsonMarshal (rt : GoReflect) (t : GoAny) : Option String :=
  (jsonEncode rt t).map (fun text => text ++ "\n")

/-- Method `ToJSONString`: `trim` applied to what `jsonMarshal` returns for
`j.ToObject()`, and the empty text when `jsonMarshal` returns an error; `fuel` bounds the
recursion of `ToObject`. -/
def Nested.ToJSONString (rt : GoReflect) (fuel : Nat) (h : Heap) (j : Ptr) :
    Option (Result String) :=
  match Nested.ToObject fuel h j with
  | none => none
  | some (.error err) => some (.error err)
  | some .panic => some .panic
  | some (.ok obj) =>
    match jsonMarshal rt obj with
    | some objString => some (trim objString)
    | none => some (.ok "")

/-- The second recursive call returns every object the first returns. -/
def RecOkLe (r1 r2 : Ptr → Option (Result GoAny)) : Prop :=
  ∀ x v, r1 x = some (.ok v) → r2 x = some (.ok v)

/-- A library fixed on the values used in the examples: `encoding/json` writes the
float64 zero as `0`, the negative zero (bits 0x8000000000000000) as `-0` and 42.5 (bits
0x4045400000000000) as `42.5`, and reports the NaN with bits 0x7FF8000000000001 as an
unsupported value; the values of types outside the model are taken to be functions,
which have no JSON text and are not deeply equal to anything. -/
def sampleReflect : GoReflect where
  marshalFloat := fun x =>
    if x = 0 then some "0"
    else if x = 0x8000000000000000 then some "-0"
    else if x = 0x4045400000000000 then some "42.5" else none
  marshalOther := fun _ _ => none
  equalOther := fun _ _ _ => false

/-- The JSON text of the node behind a pointer: the text `encoding/json` writes for its
object; `none` when `ToObject` does not return an object within the bound or the encoder
returns an error. -/
def jsonOf (rt : GoReflect) (fuel : Nat) (h : Heap) (p : Ptr) : Option String :=
  match Nested.ToObject fuel h p with
  | some (.ok v) => jsonEncode rt v
  | _ => none

/-- The map `b: 1, a: 2` of the example, the keys set in this order by `SetValue` on a
freshly constructed node (cell 0). -/
def keysBAHeap : Heap :=
  (Nested.SetValue (Nested.SetValue [{}] (some 0) (.int 1) ["b"]).1 (some 0) (.int 2) ["a"]).1

/-- The same map with the keys set in the other order. -/
def keysABHeap : Heap :=
  (Nested.SetValue (Nested.SetValue [{}] (some 0) (.int 2) ["a"]).1 (some 0) (.int 1) ["b"]).1

/-- The dynamic type of a value of type `any`, by name. -/
def GoAny.typeName : GoAny → String
  | .nil => "nil"
  | .int _ => "int"
  | .uint64 _ => "uint64"
  | .float64 _ => "float64"
  | .bool _ => "bool"
  | .string _ => "string"
  | .other typ _ => typ
  | .slice _ => "[]any"
  | .map _ => "map[string]any"

/-- Three freshly constructed nodes made scalars by `SetValue`: the `int` 5, the `uint64` 5
and the `float64` 5 (bits 0x4014000000000000). -/
def fivesHeap : Heap :=
  (Nested.SetValue (Nested.SetValue (Nested.SetValue [{}, {}, {}] (some 0) (.int 5) []).1
    (some 1) (.uint64 5) []).1 (some 2) (.float64 0x4014000000000000) []).1

/-- Two arrays built by `SetArray` and `ArrayAddValue` from two freshly constructed nodes:
cell 0 holds the scalars 1, 2 and cell 1 the scalars 2, 1. -/
def swappedArraysHeap : Heap :=
  (Nested.ArrayAddValue (Nested.ArrayAddValue (Nested.ArrayAddValue (Nested.ArrayAddValue
    (Nested.SetArray (Nested.SetArray [{}, {}] (some 0) (some []) []).1 (some 1) (some []) []).1
    (some 0) (.int 1) []).1 (some 0) (.int 2) []).1 (some 1) (.int 2) []).1
    (some 1) (.int 1) []).1

/-- Two maps built by `SetValue` from two freshly constructed nodes: cell 0 gets `b: 1`
and then `a: 2`, cell 1 gets `a: 2` and then `b: 1`. -/
def twoOrdersHeap : Heap :=
  (Nested.SetValue (Nested.SetValue (Nested.SetValue (Nested.SetValue [{}, {}]
    (some 0) (.int 1) ["b"]).1 (some 0) (.int 2) ["a"]).1 (some 1) (.int 2) ["a"]).1
    (some 1) (.int 1) ["b"]).1

mutual
/-- The test `p` holds for the value and for every value it contains. -/
def GoAny.all (p : GoAny → Bool) : GoAny → Bool
  | .nil => p .nil
  | .int n => p (.int n)
  | .uint64 n => p (.uint64 n)
  | .float64 x => p (.float64 x)
  | .bool b => p (.bool b)
  | .string s => p (.string s)
  | .other typ id => p (.other typ id)
  | .slice xs => p (.slice xs) && GoAny.allElems p xs
  | .map kvs => p (.map kvs) && GoAny.allEntries p kvs
/-- The test holds throughout every element of a slice. -/
def GoAny.allElems (p : GoAny → Bool) : List GoAny → Bool
  | [] => true
  | x :: xs => GoAny.all p x && GoAny.allElems p xs
/-- The test holds throughout every value of a map. -/
def GoAny.allEntries (p : GoAny → Bool) : List (String × GoAny) → Bool
  | [] => true
  | (_, v) :: rest => GoAny.all p v && GoAny.allEntries p rest
end

/-- The keys of a mapping are distinct, as in every Go map. -/
def distinctKeys : GoAny → Bool
  | .map kvs => decide ((kvs.map Prod.fst).Nodup)
  | _ => true

/-- The value is not a float64 that `FromObject` replaces by an integer: it is not a
float64 `x` with `x == float64(int(x))`. -/
def keptAsIs (lib : GoLib) : GoAny → Bool
  | .float64 x => !lib.floatEq x (lib.intToFloat (lib.floatToInt x))
  | _ => true

/-- A scalar is deeply equal to itself: a float64 `x` has `x == x` (it is not a NaN), and
a value of a type outside the model is `reflect.DeepEqual` to itself (it is not a
function). -/
def selfEqual (lib : GoLib) (rt : GoReflect) : GoAny → Bool
  | .float64 x => lib.floatEq x x
  | .other typ id => rt.equalOther typ id id
  | _ => true

/-- The library of the examples with the comparison `==` of float64 values. -/
def ieeeLib : GoLib := { sampleLib with floatEq := float64Eq }

/-- No node is reached from `j` by two different key chains: the map-shaped part of the
structure below `j` is a tree without shared nodes. -/
def NoSharedNodes (h : Heap) (j : Ptr) : Prop :=
  ∀ (c1 c2 : List String) (x : Nat), lookupChain h j c1 = some (some x) →
    lookupChain h j c2 = some (some x) → c1 = c2

/-- The step of `Get` that looks up `k` in the node behind `y` goes the same way on both
heaps: the node is nil or unallocated on both, or it has the same flags and the same
entry under `k` on both. -/
def SameStep (h h2 : Heap) (y : Ptr) (k : String) : Prop :=
  match deref h y, deref h2 y with
  | none, none => True
  | some n, some n2 =>
    n2.IsValue = n.IsValue ∧ n2.IsArray = n.IsArray ∧
      mapLookup n2.entries k = mapLookup n.entries k
  | _, _ => False

/-- The map `a: (b: 1)` made by `SetValue` on a freshly constructed node: cell 0 is the
root, cell 2 the node under `a`, cell 1 the scalar under `b`. -/
def nestedPairHeap : Heap := (Nested.SetValue [{}] (some 0) (.int 1) ["a", "b"]).1

/-- Four freshly constructed nodes `root`, `A`, `B`, `r` (cells 0 to 3) after
`A.SetMap(map[string]*Nested{}); m, _ := A.GetMap(); B.SetMap(m); root.Set(A, "p");
root.Set(B, "q")`: the nodes `A` and `B` are stored under `p` and `q` and hold the same
empty map. -/
def emptySiblingsHeap : Heap :=
  (Nested.Set (Nested.Set (Nested.SetMap (Nested.SetMap [{}, {}, {}, {}]
    (some 1) (.made (some [])) []).1 (some 2) (.heldBy 1) []).1
    (some 0) (some 1) ["p"]).1 (some 0) (some 2) ["q"]).1

/-- The value is not a float64 zero, positive or negative. -/
def noFloatZero : GoAny → Bool
  | .float64 x => x % 2 ^ 63 != 0
  | _ => true

/-- The value is of one of the types of the model (nil, `int`, `uint64`, `float64`,
`bool`, `string`, `[]any`, `map[string]any`), not of another type. -/
def noOther : GoAny → Bool
  | .other _ _ => false
  | _ => true

/-- Two freshly constructed nodes made scalars by `SetValue`: the float64 zero (bits 0) in
cell 0 and the float64 negative zero (bits 0x8000000000000000) in cell 1. -/
def zerosHeap : Heap :=
  (Nested.SetValue (Nested.SetValue [{}, {}] (some 0) (.float64 0) []).1 (some 1)
    (.float64 0x8000000000000000) []).1

/-- A freshly constructed node, whose map is nil (cell 0), and a node given the empty
map by `SetMap` (cell 1). -/
def nilAndEmptyHeap : Heap := (Nested.SetMap [{}, {}] (some 1) (.made (some [])) []).1

/-- The round trip of the specification on the text `s`: `FromJSONString(s)` has a text
`t` under `ToJSONString`, and `Equals(FromJSONString(t), FromJSONString(s))` returns
true. -/
def RoundTrips (lib : GoLib) (rt : GoReflect) (h : Heap) (s : String) : Prop :=
  ∃ fuel t,
    Nested.ToJSONString rt fuel (FromJSONString lib h s).1 (FromJSONString lib h s).2 =
      some (.ok t) ∧
    Equals lib rt fuel (FromJSONString lib (FromJSONString lib h s).1 t).1
      (FromJSONString lib (FromJSONString lib h s).1 t).2 (FromJSONString lib h s).2 =
      some (.ok true)

mutual
/-- The value that `FromObject` keeps of a value: every float64 `x` with
`x == float64(int(x))` is replaced by the integer `int(x)`. -/
def narrow (lib : GoLib) : GoAny → GoAny
  | .nil => .nil
  | .int n => .int n
  | .uint64 n => .uint64 n
  | .float64 x =>
    if lib.floatEq x (lib.intToFloat (lib.floatToInt x)) then .int (lib.floatToInt x)
    else .float64 x
  | .bool b => .bool b
  | .string s => .string s
  | .other typ id => .other typ id
  | .slice xs => .slice (narrowElems lib xs)
  | .map kvs => .map (narrowEntries lib kvs)
/-- The elements of a sequence as `FromObject` keeps them. -/
def narrowElems (lib : GoLib) : List GoAny → List GoAny
  | [] => []
  | x :: xs => narrow lib x :: narrowElems lib xs
/-- The values of a mapping as `FromObject` keeps them. -/
def narrowEntries (lib : GoLib) : List (String × GoAny) → List (String × GoAny)
  | [] => []
  | (k, v) :: rest => (k, narrow lib v) :: narrowEntries lib rest
end

mutual
/-- The value with every integer as a float64, as `json.Unmarshal` reads numbers into a
value of type `any`. -/
def widen (lib : GoLib) : GoAny → GoAny
  | .nil => .nil
  | .int n => .float64 (lib.intToFloat n)
  | .uint64 n => .uint64 n
  | .float64 x => .float64 x
  | .bool b => .bool b
  | .string s => .string s
  | .other typ id => .other typ id
  | .slice xs => .slice (widenElems lib xs)
  | .map kvs => .map (widenEntries lib kvs)
/-- The elements of a sequence with every integer as a float64. -/
def widenElems (lib : GoLib) : List GoAny → List GoAny
  | [] => []
  | x :: xs => widen lib x :: widenElems lib xs
/-- The values of a mapping with every integer as a float64. -/
def widenEntries (lib : GoLib) : List (String × GoAny) → List (String × GoAny)
  | [] => []
  | (k, v) :: rest => (k, widen lib v) :: widenEntries lib rest
end

/-- What `json.Unmarshal` stores into a value of type `any`: nil, a float64, a boolean, a
string, a `[]any` or a `map[string]any`, whose keys are distinct; not an integer or a
value of another type. -/
def decoded : GoAny → Bool
  | .int _ => false
  | .uint64 _ => false
  | .other _ _ => false
  | .map kvs => decide ((kvs.map Prod.fst).Nodup)
  | _ => true

/-- A library fixed on the texts used in the examples of the round trip: `json.Unmarshal`
reads the two object texts with the keys `a` and `b` into the mapping of the float64
values 1 (bits 0x3FF0000000000000) and 1.5 (bits 0x3FF8000000000000) and rejects every
other text, `ParseInt` is the decimal parser with bit size 32, `ParseFloat` reads `1e3` as
the float64 1000 (bits 0x408F400000000000), `ParseBool` reads `true` and `false`, and the
conversions and the comparison of float64 values are those of a 64-bit platform. -/
def jsonLib : GoLib where
  unmarshalMap := fun s =>
    if s = "\x7b\"b\":1.5,\"a\":1\x7d" then
      some [("b", .float64 0x3FF8000000000000), ("a", .float64 0x3FF0000000000000)]
    else if s = "\x7b\"a\":1,\"b\":1.5\x7d" then
      some [("a", .float64 0x3FF0000000000000), ("b", .float64 0x3FF8000000000000)]
    else none
  unmarshalSlice := fun _ => none
  parseInt := parseIntDec 32
  parseFloat := fun s => if s = "1e3" then some 0x408F400000000000 else none
  parseBool := fun s => if s = "true" then some true else if s = "false" then some false else none
  floatToInt := float64ToInt
  intToFloat := intToFloat64
  floatEq := float64Eq

/-- An encoder fixed on the values of the examples of the round trip: the float64 1.5 is
written `1.5` and the float64 1000 is written `1000`. -/
def jsonReflect : GoReflect where
  marshalFloat := fun x =>
    if x = 0x3FF8000000000000 then some "1.5"
    else if x = 0x408F400000000000 then some "1000" else none
  marshalOther := fun _ _ => none
  equalOther := fun _ _ _ => false

/-! ## Lemmas and theorems -/

theorem mapLookup_mapStore_same (m : GoMap) (k : String) (v : Ptr) :
    mapLookup (mapStore m k v) k = some v := by
  induction m with
  | nil => simp [mapStore, mapLookup]
  | cons e m ih =>
    obtain ⟨k', v'⟩ := e
    by_cases hk : k' = k
    · simp [mapStore, mapLookup, hk]
    · simp [mapStore, mapLookup, hk, ih]

theorem mapLookup_mapStore_ne (m : GoMap) (k k2 : String) (v : Ptr) (hne : k ≠ k2) :
    mapLookup (mapStore m k v) k2 = mapLookup m k2 := by
  induction m with
  | nil => simp [mapStore, mapLookup, hne]
  | cons e m ih =>
    obtain ⟨k', v'⟩ := e
    by_cases hk : k' = k
    · subst hk
      simp [mapStore, mapLookup, hne]
    · by_cases hk2 : k' = k2
      · subst hk2
        simp [mapStore, mapLookup, hk]
      · simp [mapStore, mapLookup, hk, hk2, ih]

theorem mapDelete_mapStore (m : GoMap) (k : String) (v : Ptr) :
    mapDelete (mapStore m k v) k = mapDelete m k := by
  induction m with
  | nil => simp [mapStore, mapDelete]
  | cons e m ih =>
    obtain ⟨k', v'⟩ := e
    by_cases hk : k' = k
    · simp [mapStore, mapDelete, hk]
    · simp [mapStore, mapDelete, hk, ih]

theorem mapDelete_of_lookup_none (m : GoMap) (k : String) (hk : mapLookup m k = none) :
    mapDelete m k = m := by
  induction m with
  | nil => simp [mapDelete]
  | cons e m ih =>
    obtain ⟨k', v'⟩ := e
    by_cases hk' : k' = k
    · simp [mapLookup, hk'] at hk
    · simp [mapLookup, hk'] at hk
      simp [mapDelete, hk', ih hk]

theorem mapLookup_mapDelete_same (m : GoMap) (k : String) :
    mapLookup (mapDelete m k) k = none := by
  induction m with
  | nil => simp [mapDelete, mapLookup]
  | cons e m ih =>
    obtain ⟨k', v'⟩ := e
    by_cases hk' : k' = k
    · simp [mapDelete, hk', ih]
    · simp [mapDelete, mapLookup, hk', ih]

theorem mapLookup_mapDelete_ne (m : GoMap) (k k2 : String) (hne : k ≠ k2) :
    mapLookup (mapDelete m k) k2 = mapLookup m k2 := by
  induction m with
  | nil => simp [mapDelete, mapLookup]
  | cons e m ih =>
    obtain ⟨k', v'⟩ := e
    by_cases hk' : k' = k
    · subst hk'
      simp [mapDelete, mapLookup, hne, ih]
    · by_cases hk2 : k' = k2
      · subst hk2
        simp [mapDelete, mapLookup, hk']
      · simp [mapDelete, mapLookup, hk', hk2, ih]

theorem mapLookup_some_ne_nil {m : GoMap} {k : String} {v : Ptr} (hk : mapLookup m k = some v) :
    m ≠ [] := by
  intro hm
  subst hm
  simp [mapLookup] at hk

theorem mapStore_ne_nil (m : GoMap) (k : String) (v : Ptr) : mapStore m k v ≠ [] := by
  cases m with
  | nil => simp [mapStore]
  | cons e m =>
    obtain ⟨k', v'⟩ := e
    by_cases hk : k' = k <;> simp [mapStore, hk]

/-- A node whose map holds an entry has a non-nil map equal to its entries. -/
theorem nested_eq_some_entries {n : Nested} {k : String} {v : Ptr}
    (hk : mapLookup n.entries k = some v) : n.nested = some n.entries := by
  unfold Nested.entries at hk ⊢
  cases hn : n.nested with
  | none => simp [hn, mapLookup] at hk
  | some m => simp

theorem Get_nil (h : Heap) (j : Ptr) : Nested.Get h j [] = .error errNoKeys := by
  simp [Nested.Get]

theorem Get_cons (h : Heap) (j : Ptr) (k : String) (rest : List String) :
    Nested.Get h j (k :: rest) =
      match deref h j with
      | none => .panic
      | some n =>
        if n.IsValue then .error "is value"
        else if n.IsArray then .error "is array"
        else
          match mapLookup n.entries k with
          | none => .error (errKeyNotFound k)
          | some value =>
            if rest.length = 0 then .ok value
            else
              match Nested.Get h value rest with
              | .error err => .error (wrapErr k rest err)
              | res => res := by
  rw [Nested.Get]

theorem isNested_iff (n : Nested) : n.IsNested = true ↔ n.IsValue = false ∧ n.IsArray = false := by
  simp [Nested.IsNested, Nested.IsValue, Nested.IsArray]
  tauto

/-- `Get` on a map-shaped node holding the first key. -/
theorem Get_step {h : Heap} {j : Ptr} {n : Nested} {k : String} {c : Ptr}
    (rest : List String)
    (hj : deref h j = some n) (hn : n.IsNested = true) (hk : mapLookup n.entries k = some c) :
    Nested.Get h j (k :: rest) =
      if rest.length = 0 then .ok c
      else
        match Nested.Get h c rest with
        | .error err => .error (wrapErr k rest err)
        | res => res := by
  rw [Get_cons]
  obtain ⟨hv, ha⟩ := (isNested_iff n).1 hn
  simp [hj, hv, ha, hk]

theorem Get_ok_iff_lookupChain (h : Heap) (keys : List String) :
    ∀ (j y : Ptr), keys ≠ [] → (Nested.Get h j keys = .ok y ↔ lookupChain h j keys = some y) := by
  induction keys with
  | nil => intro j y hne; exact absurd rfl hne
  | cons k rest ih =>
    intro j y _
    rw [Get_cons, lookupChain]
    cases hj : deref h j with
    | none => simp
    | some n =>
      simp only
      by_cases hv : n.IsValue = true
      · have : n.IsNested = false := by
          simp [Nested.IsNested, Nested.IsValue] at hv ⊢; simp [hv]
        simp [hv, this]
      · by_cases ha : n.IsArray = true
        · have : n.IsNested = false := by
            simp [Nested.IsNested, Nested.IsArray] at ha ⊢; simp [ha]
          simp [hv, ha, this]
        · have hn : n.IsNested = true := (isNested_iff n).2 ⟨by simpa using hv, by simpa using ha⟩
          simp only [hv, ha, hn, if_true, if_false, Bool.false_eq_true]
          cases hk : mapLookup n.entries k with
          | none => simp
          | some c =>
            simp only
            cases rest with
            | nil => simp [lookupChain]
            | cons k2 rest2 =>
              have := ih c y (by simp)
              simp only [List.length_cons, Nat.add_one_ne_zero, if_false]
              rw [← this]
              cases hg : Nested.Get h c (k2 :: rest2) <;> simp

theorem wrapErr_append (k : String) (rest : List String) (pre msg : String) :
    wrapErr k rest (pre ++ msg) = (wrapErr k rest pre) ++ msg := by
  unfold wrapErr
  split <;> simp [String.append_assoc]

/-- Where the successive lookup breaks, `Get` reports the matching kind of error. -/
theorem Get_break (h : Heap) (keys : List String) :
    ∀ (j : Ptr) (i : Nat) (k : String) (x : Ptr) (n : Nested),
      keys[i]? = some k → lookupChain h j (keys.take i) = some x → deref h x = some n →
      (n.IsValue = true → ∃ pre, Nested.Get h j keys = .error (pre ++ "is value")) ∧
      (n.IsValue = false → n.IsArray = true →
        ∃ pre, Nested.Get h j keys = .error (pre ++ "is array")) ∧
      (n.IsNested = true → mapLookup n.entries k = none →
        ∃ pre, Nested.Get h j keys = .error (pre ++ errKeyNotFound k)) := by
  induction keys with
  | nil => intro j i k x n hi; simp at hi
  | cons k0 rest ih =>
    intro j i k x n hi hx hn
    cases i with
    | zero =>
      simp only [List.take_zero, lookupChain, Option.some.injEq] at hx
      subst hx
      simp only [List.getElem?_cons_zero, Option.some.injEq] at hi
      subst hi
      rw [Get_cons]
      simp only [hn]
      refine ⟨fun hv => ⟨"", by simp [hv]⟩, fun hv ha => ⟨"", by simp [hv, ha]⟩, fun hnest hk => ⟨"", ?_⟩⟩
      obtain ⟨hv, ha⟩ := (isNested_iff n).1 hnest
      simp [hv, ha, hk]
    | succ i =>
      simp only [List.getElem?_cons_succ] at hi
      simp only [List.take_succ_cons, lookupChain] at hx
      cases hj : deref h j with
      | none => simp [hj] at hx
      | some n0 =>
        simp only [hj] at hx
        by_cases hn0 : n0.IsNested = true
        · simp only [hn0, if_true] at hx
          cases hk0 : mapLookup n0.entries k0 with
          | none => simp [hk0] at hx
          | some c =>
            simp only [hk0] at hx
            have hrest : rest.length ≠ 0 := by
              intro h0
              have : rest = [] := List.length_eq_zero.mp h0
              subst this
              simp at hi
            obtain ⟨h1, h2, h3⟩ := ih c i k x n hi hx hn
            rw [Get_step rest hj hn0 hk0]
            simp only [hrest, if_false]
            refine ⟨fun hv => ?_, fun hv ha => ?_, fun hnest hk => ?_⟩
            · obtain ⟨pre, hp⟩ := h1 hv
              exact ⟨wrapErr k0 rest pre, by rw [hp]; simp [wrapErr_append]⟩
            · obtain ⟨pre, hp⟩ := h2 hv ha
              exact ⟨wrapErr k0 rest pre, by rw [hp]; simp [wrapErr_append]⟩
            · obtain ⟨pre, hp⟩ := h3 hnest hk
              exact ⟨wrapErr k0 rest pre, by rw [hp]; simp [wrapErr_append]⟩
        · simp [hn0] at hx

/-- C2. `Get` is successive map lookup: it fails with the empty-key-chain error on no
keys; on a non-empty chain it returns `y` exactly when the successive lookup through
map-shaped nodes reaches `y`; and when the lookup breaks at a node `x` reached by the
first `i` keys, it fails with "is value" if `x` is a scalar, with "is array" if `x` is
an array, and with "key 'k' not found" if `x` is map-shaped without the next key `k`
(each possibly behind a path text). -/
theorem Get_successive_lookup (h : Heap) (j : Ptr) (keys : List String) :
    (keys = [] → Nested.Get h j keys = .error errNoKeys) ∧
    (keys ≠ [] → ∀ y, Nested.Get h j keys = .ok y ↔ lookupChain h j keys = some y) ∧
    (∀ (i : Nat) (k : String) (x : Ptr) (n : Nested),
      keys[i]? = some k → lookupChain h j (keys.take i) = some x → deref h x = some n →
      (n.IsValue = true → ∃ pre, Nested.Get h j keys = .error (pre ++ "is value")) ∧
      (n.IsValue = false → n.IsArray = true →
        ∃ pre, Nested.Get h j keys = .error (pre ++ "is array")) ∧
      (n.IsNested = true → mapLookup n.entries k = none →
        ∃ pre, Nested.Get h j keys = .error (pre ++ errKeyNotFound k))) :=
  ⟨fun hk => by subst hk; exact Get_nil h j,
   fun hne y => Get_ok_iff_lookupChain h keys j y hne,
   Get_break h keys j⟩

theorem heap_set_self {h : Heap} {a : Nat} {n : Nested} (ha : h[a]? = some n) :
    h.set a n = h := by
  apply List.ext_getElem?
  intro i
  rw [List.getElem?_set]
  by_cases hi : a = i
  · subst hi
    simp [ha, (List.getElem?_eq_some_iff.1 ha).1]
  · simp [hi]

theorem getElem?_lt {h : Heap} {a : Nat} {n : Nested} (ha : h[a]? = some n) : a < h.length :=
  (List.getElem?_eq_some_iff.1 ha).1

theorem Set_nil (h : Heap) (j r : Ptr) : Nested.Set h j r [] = (h, .error errNoKeys) := by
  simp [Nested.Set]

theorem sameMap_private {n : Nested} (hn : n.mapId = 0) (x : Nested) : sameMap n x = false := by
  simp [sameMap, hn]

theorem sameMap_of_nested_ne {n x : Nested} (hx : x.nested ≠ n.nested) : sameMap n x = false := by
  simp [sameMap, hx]

theorem putMap_length (h : Heap) (a : Nat) (n : Nested) (m : GoMap) :
    (putMap h a n m).length = h.length := by
  simp [putMap]

theorem getElem?_putMap_self {h : Heap} {a : Nat} (n : Nested) (m : GoMap) (ha : a < h.length) :
    (putMap h a n m)[a]? = some { n with nested := some m } := by
  unfold putMap
  rw [List.getElem?_set_self (by simpa using ha)]

theorem getElem?_putMap_ne {h : Heap} {a b : Nat} (n : Nested) (m : GoMap) (hb : b ≠ a) :
    (putMap h a n m)[b]? =
      (h[b]?).map (fun x => if sameMap n x then { x with nested := some m } else x) := by
  unfold putMap
  rw [List.getElem?_set_ne (Ne.symm hb), List.getElem?_map]

/-- A write to a map leaves a cell that does not hold the map as it was. -/
theorem getElem?_putMap_other {h : Heap} {a b : Nat} {x : Nested} (n : Nested) (m : GoMap)
    (hb : b ≠ a) (hx : h[b]? = some x) (hs : sameMap n x = false) :
    (putMap h a n m)[b]? = some x := by
  rw [getElem?_putMap_ne n m hb, hx]
  simp [hs]

/-- A write to a map changes nothing but the field `nested` of a cell. -/
theorem getElem?_putMap_cell {h : Heap} {b : Nat} {x : Nested} (a : Nat) (n : Nested)
    (m : GoMap) (hb : b ≠ a) (hx : h[b]? = some x) :
    ∃ m2, (putMap h a n m)[b]? = some { x with nested := m2 } := by
  rw [getElem?_putMap_ne n m hb, hx]
  by_cases hs : sameMap n x = true
  · exact ⟨some m, by simp [hs]⟩
  · exact ⟨x.nested, by simp [hs]⟩

/-- A write to a map that no other cell holds changes the cell only. -/
theorem putMap_private (h : Heap) (a : Nat) {n : Nested} (m : GoMap) (hn : n.mapId = 0) :
    putMap h a n m = h.set a { n with nested := some m } := by
  unfold putMap
  congr 1
  conv_rhs => rw [← List.map_id h]
  apply List.map_congr_left
  intro x _
  simp [sameMap_private hn]

theorem ownMap_entries (n : Nested) : n.ownMap.entries = n.entries := by
  unfold Nested.ownMap
  cases hn : n.nested <;> simp [Nested.entries, hn]

theorem ownMap_of_some {n : Nested} {m : GoMap} (hn : n.nested = some m) : n.ownMap = n := by
  simp [Nested.ownMap, hn]

theorem ownMap_of_private {n : Nested} (hn : n.mapId = 0) (m : GoMap) :
    ({ n.ownMap with nested := some m } : Nested) = { n with nested := some m } := by
  unfold Nested.ownMap
  cases hnn : n.nested <;> simp [hn]

theorem ownMap_isValue (n : Nested) : n.ownMap.isValue = n.isValue := by
  unfold Nested.ownMap
  cases n.nested <;> rfl

theorem ownMap_isArray (n : Nested) : n.ownMap.isArray = n.isArray := by
  unfold Nested.ownMap
  cases n.nested <;> rfl

theorem ownMap_array (n : Nested) : n.ownMap.array = n.array := by
  unfold Nested.ownMap
  cases n.nested <;> rfl

theorem ownMap_value (n : Nested) : n.ownMap.value = n.value := by
  unfold Nested.ownMap
  cases n.nested <;> rfl

theorem ownMap_mapId_of_private {n : Nested} (hn : n.mapId = 0) : n.ownMap.mapId = 0 := by
  unfold Nested.ownMap
  cases n.nested <;> simp [hn]

theorem ownMap_nested_isSome (n : Nested) : n.ownMap.nested = some n.entries := by
  unfold Nested.ownMap
  cases hn : n.nested <;> simp [Nested.entries, hn]

theorem Unshared.unshared_get {h : Heap} (hu : Unshared h) {a : Nat} {n : Nested} (ha : h[a]? = some n) :
    n.mapId = 0 :=
  hu n (List.getElem?_mem ha)

theorem Unshared.unshared_set {h : Heap} (hu : Unshared h) (a : Nat) {v : Nested} (hv : v.mapId = 0) :
    Unshared (h.set a v) := by
  intro n hn
  rcases List.mem_or_eq_of_mem_set hn with hm | rfl
  · exact hu n hm
  · exact hv

theorem Unshared.append {h l : Heap} (hu : Unshared h) (hl : Unshared l) : Unshared (h ++ l) := by
  intro n hn
  rcases List.mem_append.1 hn with hm | hm
  · exact hu n hm
  · exact hl n hm

theorem Unshared.unshared_push {h : Heap} (hu : Unshared h) {v : Nested} (hv : v.mapId = 0) :
    Unshared (h ++ [v]) :=
  hu.append (by intro n hn; simp at hn; subst hn; exact hv)

theorem Unshared.nil : Unshared [] := by
  intro n hn
  simp at hn

/-- On a heap without shared maps a write to a map changes one cell. -/
theorem putMap_unshared {h : Heap} (hu : Unshared h) {a : Nat} {n : Nested} (m : GoMap)
    (ha : h[a]? = some n) : putMap h a n m = h.set a { n with nested := some m } :=
  putMap_private h a m (hu.unshared_get ha)

theorem putMap_ownMap_unshared {h : Heap} (hu : Unshared h) {a : Nat} {n : Nested} (m : GoMap)
    (ha : h[a]? = some n) : putMap h a n.ownMap m = h.set a { n with nested := some m } := by
  rw [putMap_private h a m (ownMap_mapId_of_private (hu.unshared_get ha)), ownMap_of_private (hu.unshared_get ha)]

/-- A write that leaves the map as it was leaves the heap as it was. -/
theorem putMap_same {h : Heap} {a : Nat} {n : Nested} {m : GoMap} (ha : h[a]? = some n)
    (hm : n.nested = some m) : putMap h a n m = h := by
  have hn : ({ n with nested := some m } : Nested) = n := by
    cases n
    simp only [Nested.mk.injEq, true_and, and_true] at hm ⊢
    exact hm.symm
  unfold putMap
  rw [hn]
  have hmap : h.map (fun x => if sameMap n x then { x with nested := some m } else x) = h := by
    conv_rhs => rw [← List.map_id h]
    apply List.map_congr_left
    intro x _
    by_cases hs : sameMap n x = true
    · have hx : x.nested = some m := by
        simp only [sameMap, Bool.and_eq_true, decide_eq_true_eq] at hs
        rw [hs.2, hm]
      simp only [hs, if_true, id]
      cases x
      simp only [Nested.mk.injEq, true_and, and_true] at hx ⊢
      exact hx.symm
    · simp [hs]
  rw [hmap]
  exact heap_set_self ha

/-- The last step of `Set`. -/
theorem Set_last_gen {h : Heap} {a : Nat} {n : Nested} (r : Ptr) (k : String)
    (ha : h[a]? = some n) (hn : n.IsNested = true) :
    Nested.Set h (some a) r [k] =
      (putMap h a n.ownMap (mapStore n.entries k r), .ok ()) := by
  obtain ⟨hv, har⟩ := (isNested_iff n).1 hn
  rw [Nested.Set]
  simp [ha, hv, har]

theorem Set_last {h : Heap} (hu : Unshared h) {a : Nat} {n : Nested} (r : Ptr) (k : String)
    (ha : h[a]? = some n) (hn : n.IsNested = true) :
    Nested.Set h (some a) r [k] =
      (h.set a { n with nested := some (mapStore n.entries k r) }, .ok ()) := by
  rw [Set_last_gen r k ha hn, putMap_ownMap_unshared hu _ ha]

theorem Set_existing {h : Heap} {a : Nat} {n : Nested} {k : String} {c : Ptr} (r : Ptr)
    {rest : List String} (hrest : rest ≠ [])
    (ha : h[a]? = some n) (hn : n.IsNested = true) (hk : mapLookup n.entries k = some c) :
    Nested.Set h (some a) r (k :: rest) =
      match Nested.Set h c r rest with
      | (h2, .error err) => (h2, .error (wrapErr k rest err))
      | res => res := by
  obtain ⟨hv, har⟩ := (isNested_iff n).1 hn
  have hlen : rest.length ≠ 0 := fun h0 => hrest (List.length_eq_zero.mp h0)
  have hself : n.ownMap = n := ownMap_of_some (nested_eq_some_entries hk)
  rw [Nested.Set]
  simp only [ha, hv, har, hlen, hk, hself, heap_set_self ha, if_false, Bool.false_eq_true]

/-- The step of `Set` at a key that is missing and not the last. -/
theorem Set_missing_gen {h : Heap} {a : Nat} {n : Nested} {k : String} (r : Ptr)
    {rest : List String} (hrest : rest ≠ [])
    (ha : h[a]? = some n) (hn : n.IsNested = true) (hk : mapLookup n.entries k = none) :
    Nested.Set h (some a) r (k :: rest) =
      match Nested.Set
          (putMap h a n.ownMap (mapStore n.entries k (some h.length)) ++ [({} : Nested)])
          (some h.length) r rest with
      | (h2, .error err) => (h2, .error (wrapErr k rest err))
      | res => res := by
  obtain ⟨hv, har⟩ := (isNested_iff n).1 hn
  have hlen : rest.length ≠ 0 := fun h0 => hrest (List.length_eq_zero.mp h0)
  rw [Nested.Set]
  simp only [ha, hv, har, hlen, hk, if_false, Bool.false_eq_true]

theorem Set_missing {h : Heap} (hu : Unshared h) {a : Nat} {n : Nested} {k : String} (r : Ptr)
    {rest : List String} (hrest : rest ≠ [])
    (ha : h[a]? = some n) (hn : n.IsNested = true) (hk : mapLookup n.entries k = none) :
    Nested.Set h (some a) r (k :: rest) =
      match Nested.Set
          (h.set a { n with nested := some (mapStore n.entries k (some h.length)) } ++ [({} : Nested)])
          (some h.length) r rest with
      | (h2, .error err) => (h2, .error (wrapErr k rest err))
      | res => res := by
  rw [Set_missing_gen r hrest ha hn hk, putMap_ownMap_unshared hu _ ha]

/-- The heap in which `Set` goes on after a missing key has no shared map either. -/
theorem Unshared.missing {h : Heap} (hu : Unshared h) {a : Nat} {n : Nested}
    (ha : h[a]? = some n) (m : GoMap) :
    Unshared (h.set a { n with nested := some m } ++ [({} : Nested)]) :=
  have hn0 : n.mapId = 0 := hu.unshared_get ha
  have hn : ({ n with nested := some m } : Nested).mapId = 0 := hn0
  Unshared.unshared_push (Unshared.unshared_set hu a hn) (v := ({} : Nested)) rfl

/-- Outcome of `Set` when the start is nil, unallocated, a scalar or an array. -/
theorem Set_not_nested_heap (h : Heap) (j r : Ptr) (keys : List String)
    (hj : ∀ n, deref h j = some n → n.IsNested = false) :
    (Nested.Set h j r keys).1 = h ∧ (Nested.Set h j r keys).2 ≠ .ok () := by
  cases keys with
  | nil => simp [Set_nil]
  | cons k rest =>
    cases j with
    | none => simp [Nested.Set]
    | some a =>
      rw [Nested.Set]
      cases ha : h[a]? with
      | none => simp
      | some n =>
        have := hj n (by simp [deref, ha])
        simp only
        by_cases hv : n.IsValue = true
        · simp [hv]
        · by_cases har : n.IsArray = true
          · simp [hv, har]
          · exact absurd ((isNested_iff n).2 ⟨by simpa using hv, by simpa using har⟩) (by simp [this])

theorem wrap_ok_iff (k : String) (rest : List String) (x : Heap × Result Unit) :
    (match x with
      | (h2, .error err) => ((h2, .error (wrapErr k rest err)) : Heap × Result Unit)
      | res => res).2 = .ok () ↔ x.2 = .ok () := by
  obtain ⟨h2, r⟩ := x
  cases r <;> simp

theorem wrap_fst (k : String) (rest : List String) (x : Heap × Result Unit) :
    (match x with
      | (h2, .error err) => ((h2, .error (wrapErr k rest err)) : Heap × Result Unit)
      | res => res).1 = x.1 := by
  obtain ⟨h2, r⟩ := x
  cases r <;> simp

theorem wrap_error_iff (k : String) (rest : List String) (x : Heap × Result Unit) :
    (∃ e, (match x with
      | (h2, .error err) => (h2, Result.error (wrapErr k rest err))
      | res => res).2 = Result.error e) ↔ ∃ e, x.2 = Result.error e := by
  obtain ⟨h2, r⟩ := x
  cases r <;> simp

/-- `Set` only appends cells. -/
theorem Set_length_le (keys : List String) :
    ∀ (h : Heap) (j r : Ptr), h.length ≤ (Nested.Set h j r keys).1.length := by
  induction keys with
  | nil => intro h j r; simp [Set_nil]
  | cons k rest ih =>
    intro h j r
    by_cases hj : ∃ a n, j = some a ∧ h[a]? = some n ∧ n.IsNested = true
    · obtain ⟨a, n, rfl, ha, hn⟩ := hj
      by_cases hrest : rest = []
      · subst hrest
        rw [Set_last_gen r k ha hn]
        simp [putMap_length]
      · cases hk : mapLookup n.entries k with
        | some c =>
          rw [Set_existing r hrest ha hn hk, wrap_fst]
          exact ih h c r
        | none =>
          rw [Set_missing_gen r hrest ha hn hk, wrap_fst]
          refine le_trans ?_ (ih _ _ r)
          simp [putMap_length]
    · have := (Set_not_nested_heap h j r (k :: rest) (by
        intro n hd
        by_contra hc
        apply hj
        cases j with
        | none => simp [deref] at hd
        | some a => exact ⟨a, n, rfl, by simpa [deref] using hd, by simpa using hc⟩)).1
      rw [this]

theorem pathNodes_existing {h : Heap} {a : Nat} {n : Nested} {k : String} {c : Ptr}
    (rest : List String)
    (ha : h[a]? = some n) (hn : n.IsNested = true) (hk : mapLookup n.entries k = some c) :
    pathNodes h (some a) (k :: rest) = a :: pathNodes h c rest := by
  simp [pathNodes, ha, hn, hk]

theorem pathNodes_missing {h : Heap} {a : Nat} {n : Nested} {k : String}
    (rest : List String)
    (ha : h[a]? = some n) (hk : mapLookup n.entries k = none) :
    pathNodes h (some a) (k :: rest) = [a] := by
  simp [pathNodes, ha, hk]

theorem pathNodes_head (h : Heap) (a : Nat) (k : String) (rest : List String) :
    a ∈ pathNodes h (some a) (k :: rest) := by
  simp [pathNodes]

/-- The three ways `Set` proceeds on a non-empty chain. -/
theorem Set_cases (h : Heap) (j : Ptr) :
    (∀ n, deref h j = some n → n.IsNested = false) ∨
    (∃ a n, j = some a ∧ h[a]? = some n ∧ n.IsNested = true) := by
  by_cases hj : ∃ a n, j = some a ∧ h[a]? = some n ∧ n.IsNested = true
  · exact Or.inr hj
  · left
    intro n hd
    by_contra hc
    apply hj
    cases j with
    | none => simp [deref] at hd
    | some a => exact ⟨a, n, rfl, by simpa [deref] using hd, by simpa using hc⟩

theorem getElem?_set_append_new (h : Heap) (a : Nat) (v x : Nested) (b : Nat)
    (hb : b < h.length) (hab : b ≠ a) : (h.set a v ++ [x])[b]? = h[b]? := by
  rw [List.getElem?_append_left (by simpa using hb), List.getElem?_set_ne (Ne.symm hab)]

theorem getElem?_set_append_self (h : Heap) (a : Nat) (v x : Nested)
    (ha : a < h.length) : (h.set a v ++ [x])[a]? = some v := by
  rw [List.getElem?_append_left (by simpa using ha), List.getElem?_set_self ha]

theorem getElem?_set_append_last (h : Heap) (a : Nat) (v x : Nested) :
    (h.set a v ++ [x])[h.length]? = some x := by
  rw [List.getElem?_append_right (by simp)]
  simp

/-- Frame of `Set`: an allocated cell in which no key of the chain is looked up is
left as it was. -/
theorem Set_frame (keys : List String) :
    ∀ (h : Heap) (j r : Ptr) (b : Nat), Unshared h → b < h.length →
      b ∉ pathNodes h j keys → (Nested.Set h j r keys).1[b]? = h[b]? := by
  induction keys with
  | nil => intro h j r b _ _ _; simp [Set_nil]
  | cons k rest ih =>
    intro h j r b hu hb hp
    rcases Set_cases h j with hj | ⟨a, n, rfl, ha, hn⟩
    · rw [(Set_not_nested_heap h j r (k :: rest) hj).1]
    · have hba : b ≠ a := fun e => hp (e ▸ pathNodes_head h a k rest)
      by_cases hrest : rest = []
      · subst hrest
        rw [Set_last hu r k ha hn]
        exact List.getElem?_set_ne (Ne.symm hba)
      · cases hk : mapLookup n.entries k with
        | some c =>
          rw [Set_existing r hrest ha hn hk, wrap_fst]
          rw [pathNodes_existing rest ha hn hk] at hp
          exact ih h c r b hu hb (fun hm => hp (List.mem_cons_of_mem _ hm))
        | none =>
          rw [Set_missing hu r hrest ha hn hk, wrap_fst]
          have hnew : (h.set a { n with nested := some (mapStore n.entries k (some h.length)) }
              ++ [({} : Nested)])[h.length]? = some {} := getElem?_set_append_last _ _ _ _
          obtain ⟨k2, rest2, rfl⟩ := List.exists_cons_of_ne_nil hrest
          rw [ih _ (some h.length) r b (Unshared.missing hu ha _) (by simp; omega) (by
            rw [pathNodes_missing rest2 hnew (by simp [Nested.entries, mapLookup])]
            simp; omega)]
          exact getElem?_set_append_new h a _ _ b hb hba

theorem Get_of_ok_wrap {h : Heap} {j : Ptr} {n : Nested} {k : String} {c r : Ptr}
    {rest : List String}
    (hj : deref h j = some n) (hn : n.IsNested = true) (hk : mapLookup n.entries k = some c)
    (hrest : rest ≠ []) (hg : Nested.Get h c rest = .ok r) :
    Nested.Get h j (k :: rest) = .ok r := by
  rw [Get_step rest hj hn hk, hg]
  have hlen : rest.length ≠ 0 := fun h0 => hrest (List.length_eq_zero.mp h0)
  simp [hlen]

theorem isNested_set_nested (n : Nested) (m : Option GoMap) :
    ({ n with nested := m } : Nested).IsNested = n.IsNested := rfl

theorem entries_set_nested (n : Nested) (m : GoMap) :
    ({ n with nested := some m } : Nested).entries = m := rfl

/-- Round trip of `Set` and `Get` when the chain does not run through a cycle. -/
theorem Set_then_Get (keys : List String) :
    ∀ (h : Heap) (j r : Ptr), Unshared h → (pathNodes h j keys).Nodup →
      (Nested.Set h j r keys).2 = .ok () →
      Nested.Get (Nested.Set h j r keys).1 j keys = .ok r := by
  induction keys with
  | nil => intro h j r _ _ hok; simp [Set_nil] at hok
  | cons k rest ih =>
    intro h j r hu hnd hok
    rcases Set_cases h j with hj | ⟨a, n, rfl, ha, hn⟩
    · exact absurd hok (Set_not_nested_heap h j r (k :: rest) hj).2
    · have halt := getElem?_lt ha
      by_cases hrest : rest = []
      · subst hrest
        rw [Set_last hu r k ha hn]
        rw [Get_step (n := { n with nested := some (mapStore n.entries k r) }) (c := r) []
          (by simp [deref, List.getElem?_set_self halt]) (by rw [isNested_set_nested]; exact hn)
          (by rw [entries_set_nested]; exact mapLookup_mapStore_same _ _ _)]
        simp
      · cases hk : mapLookup n.entries k with
        | some c =>
          rw [Set_existing r hrest ha hn hk] at hok ⊢
          rw [wrap_ok_iff] at hok
          rw [wrap_fst]
          rw [pathNodes_existing rest ha hn hk] at hnd
          have hnd' := List.nodup_cons.1 hnd
          have hfr := Set_frame rest h c r a hu halt hnd'.1
          exact Get_of_ok_wrap (by simpa [deref, hfr] using ha) hn hk hrest
            (ih h c r hu hnd'.2 hok)
        | none =>
          rw [Set_missing hu r hrest ha hn hk] at hok ⊢
          rw [wrap_ok_iff] at hok
          rw [wrap_fst]
          have hnew : (h.set a { n with nested := some (mapStore n.entries k (some h.length)) }
              ++ [({} : Nested)])[h.length]? = some {} := getElem?_set_append_last _ _ _ _
          obtain ⟨k2, rest2, rfl⟩ := List.exists_cons_of_ne_nil hrest
          have hpn := pathNodes_missing (k := k2) rest2 hnew (by simp [Nested.entries, mapLookup])
          have hfr := Set_frame (k2 :: rest2)
            (h.set a { n with nested := some (mapStore n.entries k (some h.length)) }
              ++ [({} : Nested)]) (some h.length) r a (Unshared.missing hu ha _)
            (by simp; omega) (by rw [hpn]; simp; omega)
          rw [getElem?_set_append_self h a _ _ halt] at hfr
          exact Get_of_ok_wrap (n := { n with nested := some (mapStore n.entries k (some h.length)) })
            (by simpa [deref] using hfr) (by rw [isNested_set_nested]; exact hn)
            (by rw [entries_set_nested]; exact mapLookup_mapStore_same _ _ _) (by simp)
            (ih _ (some h.length) r (Unshared.missing hu ha _) (by rw [hpn]; simp) hok)

/-- C1 (amended). Round trip of `Set` and `Get`: on a heap in which no map is held by
two cells, for every node `j`, reference `r` and key chain (necessarily non-empty, as
`Set` succeeded) that does not run through a cycle (no cell is visited twice while the
keys are looked up), if `Set(r, keys)` returns no error then `Get(keys)` on the
resulting heap returns `r` itself and no error, whether or not an entry was stored
there before. -/
theorem Set_Get_round_trip (h : Heap) (j r : Ptr) (keys : List String)
    (hown : Unshared h) (hpath : (pathNodes h j keys).Nodup)
    (hset : (Nested.Set h j r keys).2 = .ok ()) :
    Nested.Get (Nested.Set h j r keys).1 j keys = .ok r :=
  Set_then_Get keys h j r hown hpath hset

/-- `Set` changes nothing but the `nested` field of an allocated cell. -/
theorem Set_cell (keys : List String) :
    ∀ (h : Heap) (j r : Ptr) (b : Nat) (n0 : Nested), Unshared h → h[b]? = some n0 →
      ∃ m, (Nested.Set h j r keys).1[b]? = some { n0 with nested := m } := by
  induction keys with
  | nil => intro h j r b n0 _ hb; exact ⟨n0.nested, by simpa [Set_nil] using hb⟩
  | cons k rest ih =>
    intro h j r b n0 hu hb
    have hblt := getElem?_lt hb
    rcases Set_cases h j with hj | ⟨a, n, rfl, ha, hn⟩
    · rw [(Set_not_nested_heap h j r (k :: rest) hj).1]
      exact ⟨n0.nested, hb⟩
    · by_cases hrest : rest = []
      · subst hrest
        rw [Set_last hu r k ha hn]
        by_cases hba : b = a
        · subst hba
          rw [ha] at hb
          cases hb
          exact ⟨_, List.getElem?_set_self hblt⟩
        · exact ⟨n0.nested, by rw [List.getElem?_set_ne (Ne.symm hba)]; exact hb⟩
      · cases hk : mapLookup n.entries k with
        | some c =>
          rw [Set_existing r hrest ha hn hk, wrap_fst]
          exact ih h c r b n0 hu hb
        | none =>
          rw [Set_missing hu r hrest ha hn hk, wrap_fst]
          by_cases hba : b = a
          · subst hba
            rw [ha] at hb
            cases hb
            obtain ⟨m, hm⟩ := ih
              (h.set b { n0 with nested := some (mapStore n0.entries k (some h.length)) }
                ++ [({} : Nested)]) (some h.length) r b _ (Unshared.missing hu ha _)
              (getElem?_set_append_self h b _ _ hblt)
            exact ⟨m, hm⟩
          · exact ih _ (some h.length) r b n0 (Unshared.missing hu ha _)
              (by rw [getElem?_set_append_new h a _ _ b hblt hba]; exact hb)

theorem isEmpty_store (n : Nested) (m : GoMap) (k : String) (v : Ptr) :
    ({ n with nested := some (mapStore m k v) } : Nested).IsEmpty = false := by
  have := mapStore_ne_nil m k v
  simp [Nested.IsEmpty, Nested.entries, this]

theorem getElem?_putMap_append_self {h : Heap} {a : Nat} (n x : Nested) (m : GoMap)
    (ha : a < h.length) : (putMap h a n m ++ [x])[a]? = some { n with nested := some m } := by
  rw [List.getElem?_append_left (by simpa [putMap_length] using ha), getElem?_putMap_self n m ha]

theorem getElem?_putMap_append_last (h : Heap) (a : Nat) (n x : Nested) (m : GoMap) :
    (putMap h a n m ++ [x])[h.length]? = some x := by
  rw [List.getElem?_append_right (by simp [putMap_length])]
  simp [putMap_length]

theorem getElem?_putMap_append_other {h : Heap} {a b : Nat} {y : Nested} (n x : Nested)
    (m : GoMap) (hb : b ≠ a) (hy : h[b]? = some y) (hs : sameMap n y = false) :
    (putMap h a n m ++ [x])[b]? = some y := by
  rw [List.getElem?_append_left (by simpa [putMap_length] using getElem?_lt hy),
    getElem?_putMap_other n m hb hy hs]

theorem isNested_ownMap_set (n : Nested) (m : Option GoMap) :
    ({ n.ownMap with nested := m } : Nested).IsNested = n.IsNested := by
  simp [Nested.IsNested, ownMap_isValue, ownMap_isArray]

theorem sameMap_fresh (x : Nested) : sameMap ({} : Nested).ownMap x = false :=
  sameMap_private rfl x

/-- `Set` on a map-shaped node without entries: every key of the chain is missing, the
call succeeds, the chain resolves to the stored reference, every proper non-empty
initial segment of the chain resolves to a new non-empty map-shaped node, and no
other allocated cell changes, unless it holds the map of the node. -/
theorem Set_on_empty (rest : List String) :
    ∀ (h : Heap) (c : Nat) (n : Nested) (r : Ptr), rest ≠ [] → h[c]? = some n →
      n.IsNested = true → n.entries = [] →
      (Nested.Set h (some c) r rest).2 = .ok () ∧
      Nested.Get (Nested.Set h (some c) r rest).1 (some c) rest = .ok r ∧
      (∀ i, 0 < i → i < rest.length → ∃ y ny,
        Nested.Get (Nested.Set h (some c) r rest).1 (some c) (rest.take i) = .ok (some y) ∧
        (Nested.Set h (some c) r rest).1[y]? = some ny ∧ ny.IsNested = true ∧
        ny.IsEmpty = false ∧ h.length ≤ y) ∧
      (∃ nc, (Nested.Set h (some c) r rest).1[c]? = some nc ∧ nc.IsNested = true ∧
        nc.IsEmpty = false) ∧
      (∀ b x, b ≠ c → h[b]? = some x → sameMap n.ownMap x = false →
        (Nested.Set h (some c) r rest).1[b]? = some x) := by
  induction rest with
  | nil => intro h c n r hne; exact absurd rfl hne
  | cons k rest ih =>
    intro h c n r _ hc hn he
    have hclt := getElem?_lt hc
    have hnv : n.isValue = false ∧ n.isArray = false := by
      have := (isNested_iff n).1 hn
      simpa [Nested.IsValue, Nested.IsArray] using this
    by_cases hrest : rest = []
    · subst hrest
      rw [Set_last_gen r k hc hn]
      have hcell : (putMap h c n.ownMap (mapStore n.entries k r))[c]? =
          some { n.ownMap with nested := some (mapStore n.entries k r) } :=
        getElem?_putMap_self _ _ hclt
      refine ⟨rfl, ?_, ?_, ⟨_, hcell, by rw [isNested_ownMap_set]; exact hn, ?_⟩, ?_⟩
      · rw [Get_step (c := r) [] (by simpa [deref] using hcell)
          (by rw [isNested_ownMap_set]; exact hn)
          (by rw [entries_set_nested]; exact mapLookup_mapStore_same _ _ _)]
        simp
      · intro i hi hi2
        simp at hi2
        omega
      · exact isEmpty_store n.ownMap _ k r
      · intro b x hbc hx hs
        exact getElem?_putMap_other _ _ hbc hx hs
    · have hk : mapLookup n.entries k = none := by simp [he, mapLookup]
      rw [Set_missing_gen r hrest hc hn hk, wrap_fst, wrap_ok_iff]
      have hnew : (putMap h c n.ownMap (mapStore n.entries k (some h.length))
          ++ [({} : Nested)])[h.length]? = some {} := getElem?_putMap_append_last _ _ _ _ _
      have hlen : (putMap h c n.ownMap (mapStore n.entries k (some h.length))
          ++ [({} : Nested)]).length = h.length + 1 := by simp [putMap_length]
      obtain ⟨hok, hget, hmid, ⟨nl, hnl, hnl1, hnl2⟩, hfr⟩ := ih
        (putMap h c n.ownMap (mapStore n.entries k (some h.length))
          ++ [({} : Nested)]) h.length {} r hrest hnew (by rfl) (by rfl)
      have hcell := hfr c _ (by omega)
        (getElem?_putMap_append_self n.ownMap {} _ hclt) (sameMap_fresh _)
      have hcn : ({ n.ownMap with nested := some (mapStore n.entries k (some h.length)) } :
          Nested).IsNested = true := by rw [isNested_ownMap_set]; exact hn
      have hck : mapLookup ({ n.ownMap with
          nested := some (mapStore n.entries k (some h.length)) } :
          Nested).entries k = some (some h.length) := by
        rw [entries_set_nested]; exact mapLookup_mapStore_same _ _ _
      refine ⟨hok, ?_, ?_, ⟨_, hcell, hcn, ?_⟩, ?_⟩
      · exact Get_of_ok_wrap (by simpa [deref] using hcell) hcn hck hrest hget
      · intro i hi hi2
        obtain ⟨i', rfl⟩ : ∃ i', i = i' + 1 := ⟨i - 1, by omega⟩
        simp only [List.length_cons] at hi2
        by_cases hi0 : i' = 0
        · subst hi0
          refine ⟨h.length, nl, ?_, hnl, hnl1, hnl2, le_refl _⟩
          simp only [Nat.zero_add, List.take_succ_cons, List.take_zero]
          rw [Get_step [] (by simpa [deref] using hcell) hcn hck]
          simp
        · obtain ⟨y, ny, hy1, hy2, hy3, hy4, hy5⟩ := hmid i' (by omega) (by omega)
          refine ⟨y, ny, ?_, hy2, hy3, hy4, ?_⟩
          · rw [List.take_succ_cons]
            exact Get_of_ok_wrap (by simpa [deref] using hcell) hcn hck
              (by
                intro ht
                rcases List.take_eq_nil_iff.1 ht with h0 | h0
                · exact hi0 h0
                · exact hrest h0) hy1
          · rw [hlen] at hy5
            omega
      · exact isEmpty_store n.ownMap _ k _
      · intro b x hbc hx hs
        exact hfr b x (by have := getElem?_lt hx; omega)
          (getElem?_putMap_append_other n.ownMap {} _ hbc hx hs) (sameMap_fresh _)

theorem GetValue_of_Get {h : Heap} {j p : Ptr} {n x : Nested} {keys : List String}
    (hj : deref h j = some n) (he : n.IsEmpty = false) (ha : n.IsArray = false)
    (hne : keys ≠ []) (hg : Nested.Get h j keys = .ok p) (hp : deref h p = some x)
    (hxa : x.IsArray = false) (hxn : x.IsNested = false) :
    Nested.GetValue h j keys = .ok x.value := by
  have hlen : keys.length ≠ 0 := fun h0 => hne (List.length_eq_zero.mp h0)
  simp [Nested.GetValue, hj, he, ha, hlen, hg, hp, hxa, hxn]

/-- What `Get` tells about the start node when it succeeds. -/
theorem Get_ok_start {h : Heap} {j y : Ptr} {keys : List String}
    (hg : Nested.Get h j keys = .ok y) :
    ∃ n, deref h j = some n ∧ n.IsNested = true ∧ n.IsEmpty = false := by
  cases keys with
  | nil => simp [Get_nil] at hg
  | cons k rest =>
    rw [Get_cons] at hg
    cases hj : deref h j with
    | none => simp [hj] at hg
    | some n =>
      simp only [hj] at hg
      by_cases hv : n.IsValue = true
      · simp [hv] at hg
      · by_cases ha : n.IsArray = true
        · simp [hv, ha] at hg
        · cases hk : mapLookup n.entries k with
          | none => simp [hv, ha, hk] at hg
          | some c =>
            refine ⟨n, rfl, (isNested_iff n).2 ⟨by simpa using hv, by simpa using ha⟩, ?_⟩
            have hne := mapLookup_some_ne_nil hk
            simp [Nested.IsEmpty, hne]

/-- C4. Path auto-creation: on every empty node (as a freshly constructed one is), for
every non-empty key chain and every value `v`, `SetValue(v, keys)` succeeds,
`GetValue(keys)` afterwards returns `v`, and every proper non-empty initial segment of
the chain resolves through `Get` to a node that is map-shaped and not empty. -/
theorem SetValue_creates_path (h : Heap) (a : Nat) (n : Nested) (v : GoAny)
    (keys : List String) (hne : keys ≠ []) (ha : h[a]? = some n) (hempty : n.IsEmpty = true) :
    (Nested.SetValue h (some a) v keys).2 = .ok () ∧
    Nested.GetValue (Nested.SetValue h (some a) v keys).1 (some a) keys = .ok v ∧
    ∀ i, 0 < i → i < keys.length → ∃ y ny,
      Nested.Get (Nested.SetValue h (some a) v keys).1 (some a) (keys.take i) = .ok (some y) ∧
      (Nested.SetValue h (some a) v keys).1[y]? = some ny ∧
      ny.IsNested = true ∧ ny.IsEmpty = false := by
  have hlen : keys.length ≠ 0 := fun h0 => hne (List.length_eq_zero.mp h0)
  have halt := getElem?_lt ha
  have hsv : Nested.SetValue h (some a) v keys =
      Nested.Set (h ++ [{ isValue := true, value := v }]) (some a) (some h.length) keys := by
    simp [Nested.SetValue, ha, hlen]
  have hn : n.IsNested = true ∧ n.entries = [] := by
    simp [Nested.IsEmpty] at hempty
    simp [Nested.IsNested, hempty]
  have ha' : (h ++ [({ isValue := true, value := v } : Nested)])[a]? = some n := by
    rw [List.getElem?_append_left halt]; exact ha
  obtain ⟨hok, hget, hmid, ⟨nc, hnc, hnc1, hnc2⟩, hfr⟩ :=
    Set_on_empty keys (h ++ [{ isValue := true, value := v }]) a n (some h.length) hne ha'
      hn.1 hn.2
  rw [hsv]
  refine ⟨hok, ?_, ?_⟩
  · have hcell := hfr h.length { isValue := true, value := v } (by omega)
      (by rw [List.getElem?_append_right (by simp)]; simp)
      (sameMap_of_nested_ne (by rw [ownMap_nested_isSome]; simp))
    have hnca : nc.IsArray = false := ((isNested_iff nc).1 hnc1).2
    exact GetValue_of_Get (x := { isValue := true, value := v }) (by simpa [deref] using hnc)
      hnc2 hnca hne hget (by simpa [deref] using hcell) rfl rfl
  · intro i hi hi2
    obtain ⟨y, ny, h1, h2, h3, h4, _⟩ := hmid i hi hi2
    exact ⟨y, ny, h1, h2, h3, h4⟩

theorem lookupChain_append (h : Heap) (ks1 ks2 : List String) :
    ∀ j, lookupChain h j (ks1 ++ ks2) =
      (lookupChain h j ks1).bind (fun y => lookupChain h y ks2) := by
  induction ks1 with
  | nil => intro j; simp [lookupChain]
  | cons k ks ih =>
    intro j
    simp only [List.cons_append, lookupChain]
    cases deref h j with
    | none => simp
    | some n =>
      simp only
      split
      · cases mapLookup n.entries k with
        | none => simp
        | some y => simp [ih]
      · simp

theorem LookupsKept.kept_refl (h : Heap) : LookupsKept h h :=
  fun _ n hb hn => ⟨n, hb, hn, fun _ _ hk => hk⟩

theorem LookupsKept.kept_trans {h1 h2 h3 : Heap} (h12 : LookupsKept h1 h2) (h23 : LookupsKept h2 h3) :
    LookupsKept h1 h3 := by
  intro b n hb hn
  obtain ⟨n2, hb2, hn2, hk2⟩ := h12 b n hb hn
  obtain ⟨n3, hb3, hn3, hk3⟩ := h23 b n2 hb2 hn2
  exact ⟨n3, hb3, hn3, fun k c hk => hk3 k c (hk2 k c hk)⟩

theorem lookupChain_kept {h h2 : Heap} (hk : LookupsKept h h2) (keys : List String) :
    ∀ (j y : Ptr), keys ≠ [] → lookupChain h j keys = some y → lookupChain h2 j keys = some y := by
  induction keys with
  | nil => intro j y hne; exact absurd rfl hne
  | cons k rest ih =>
    intro j y _ hl
    simp only [lookupChain] at hl ⊢
    cases j with
    | none => simp [deref] at hl
    | some a =>
      cases ha : h[a]? with
      | none => simp [deref, ha] at hl
      | some n =>
        simp only [deref, ha] at hl
        by_cases hn : n.IsNested = true
        · simp only [hn, if_true] at hl
          cases hkk : mapLookup n.entries k with
          | none => simp [hkk] at hl
          | some c =>
            simp only [hkk] at hl
            obtain ⟨n2, hb2, hn2, hk2⟩ := hk a n ha hn
            simp only [deref, hb2, hn2, if_true, hk2 k c hkk]
            by_cases hrest : rest = []
            · subst hrest
              simpa [lookupChain] using hl
            · exact ih c y hrest hl
        · simp [hn] at hl

theorem Set_wrong_shape {h : Heap} {j : Ptr} {n : Nested} (r : Ptr) (k : String)
    (rest : List String) (hj : deref h j = some n) (hn : n.IsNested = false) :
    ∃ e, (Nested.Set h j r (k :: rest)).2 = .error e := by
  cases j with
  | none => simp [deref] at hj
  | some a =>
    simp only [deref] at hj
    rw [Nested.Set]
    simp only [hj]
    by_cases hv : n.IsValue = true
    · exact ⟨"is value", by simp [hv]⟩
    · by_cases ha : n.IsArray = true
      · exact ⟨"is array", by simp [hv, ha]⟩
      · exact absurd ((isNested_iff n).2 ⟨by simpa using hv, by simpa using ha⟩) (by simp [hn])

theorem Set_invalid {h : Heap} {j : Ptr} (r : Ptr) (k : String)
    (rest : List String) (hj : deref h j = none) :
    (Nested.Set h j r (k :: rest)).2 = .panic := by
  cases j with
  | none => simp [Nested.Set]
  | some a =>
    simp only [deref] at hj
    rw [Nested.Set]
    simp [hj]

/-- `Set` returns an error exactly when the successive lookup along a proper initial
segment of the chain reaches a scalar or an array. -/
theorem Set_error_iff (keys : List String) :
    ∀ (h : Heap) (j r : Ptr), keys ≠ [] →
      ((∃ e, (Nested.Set h j r keys).2 = .error e) ↔
        ∃ i x n, i < keys.length ∧ lookupChain h j (keys.take i) = some x ∧
          deref h x = some n ∧ n.IsNested = false) := by
  induction keys with
  | nil => intro h j r hne; exact absurd rfl hne
  | cons k rest ih =>
    intro h j r _
    cases hj : deref h j with
    | none =>
      rw [Set_invalid r k rest hj]
      constructor
      · rintro ⟨e, he⟩; cases he
      · rintro ⟨i, x, n, _, hl, hx, _⟩
        cases i with
        | zero =>
          simp only [List.take_zero, lookupChain, Option.some.injEq] at hl
          subst hl
          rw [hj] at hx; cases hx
        | succ i => simp [lookupChain, hj] at hl
    | some n =>
      by_cases hn : n.IsNested = true
      · obtain ⟨a, rfl⟩ : ∃ a, j = some a := by
          cases j with
          | none => simp [deref] at hj
          | some a => exact ⟨a, rfl⟩
        have ha : h[a]? = some n := by simpa [deref] using hj
        -- the start itself is map-shaped: only later nodes can be wrong-shaped
        have hshift : (∃ i x nx, i < (k :: rest).length ∧
            lookupChain h (some a) ((k :: rest).take i) = some x ∧
            deref h x = some nx ∧ nx.IsNested = false) ↔
            ∃ c, mapLookup n.entries k = some c ∧ ∃ i x nx, i < rest.length ∧
              lookupChain h c (rest.take i) = some x ∧ deref h x = some nx ∧
              nx.IsNested = false := by
          constructor
          · rintro ⟨i, x, nx, hi, hl, hx, hnx⟩
            cases i with
            | zero =>
              simp only [List.take_zero, lookupChain, Option.some.injEq] at hl
              subst hl
              rw [hj] at hx; cases hx
              rw [hn] at hnx; cases hnx
            | succ i =>
              simp only [List.take_succ_cons, lookupChain, hj, hn, if_true] at hl
              cases hk : mapLookup n.entries k with
              | none => simp [hk] at hl
              | some c =>
                simp only [hk] at hl
                exact ⟨c, rfl, i, x, nx, by simpa using hi, hl, hx, hnx⟩
          · rintro ⟨c, hk, i, x, nx, hi, hl, hx, hnx⟩
            refine ⟨i + 1, x, nx, by simpa using hi, ?_, hx, hnx⟩
            simp only [List.take_succ_cons, lookupChain, hj, hn, if_true, hk]
            exact hl
        rw [hshift]
        by_cases hrest : rest = []
        · subst hrest
          rw [Set_last_gen r k ha hn]
          constructor
          · rintro ⟨e, he⟩; cases he
          · rintro ⟨c, _, i, _, _, hi, _⟩; simp at hi
        · cases hk : mapLookup n.entries k with
          | some c =>
            rw [Set_existing r hrest ha hn hk, wrap_error_iff, ih h c r hrest]
            constructor
            · intro hx; exact ⟨c, rfl, hx⟩
            · rintro ⟨c2, hc2, hx⟩; cases hc2; exact hx
          | none =>
            rw [Set_missing_gen r hrest ha hn hk, wrap_error_iff]
            have hnew : (putMap h a n.ownMap (mapStore n.entries k (some h.length))
                ++ [({} : Nested)])[h.length]? = some {} := getElem?_putMap_append_last _ _ _ _ _
            have hok := (Set_on_empty rest _ h.length {} r hrest hnew (by rfl) (by rfl)).1
            rw [hok]
            constructor
            · rintro ⟨e, he⟩; cases he
            · rintro ⟨c, hc, _⟩; cases hc
      · have hn' : n.IsNested = false := by simpa using hn
        constructor
        · intro _
          exact ⟨0, j, n, by simp, by simp [lookupChain], hj, hn'⟩
        · intro _
          exact Set_wrong_shape r k rest hj hn'

/-- A missing intermediate key is materialised: `Set` succeeds, keeps every lookup that
a map-shaped node answered, and stores under the missing key a new map-shaped cell. -/
theorem Set_materialises (keys : List String) :
    ∀ (h : Heap) (j r : Ptr) (i x : Nat) (n : Nested) (kmiss : String),
      i + 1 < keys.length → lookupChain h j (keys.take i) = some (some x) →
      h[x]? = some n → n.IsNested = true → keys[i]? = some kmiss →
      mapLookup n.entries kmiss = none →
      (Nested.Set h j r keys).2 = .ok () ∧
      LookupsKept h (Nested.Set h j r keys).1 ∧
      (∃ nx, (Nested.Set h j r keys).1[x]? = some nx ∧ nx.IsNested = true ∧
        mapLookup nx.entries kmiss = some (some h.length)) ∧
      (∃ ny, (Nested.Set h j r keys).1[h.length]? = some ny ∧ ny.IsNested = true) := by
  induction keys with
  | nil => intro h j r i x n kmiss hi; simp at hi
  | cons k rest ih =>
    intro h j r i x n kmiss hi hl hx hn hkm hmiss
    have hrest : rest ≠ [] := by
      intro h0; subst h0; simp at hi
    cases i with
    | zero =>
      simp only [List.take_zero, lookupChain, Option.some.injEq] at hl
      subst hl
      simp only [List.getElem?_cons_zero, Option.some.injEq] at hkm
      subst hkm
      have hxlt := getElem?_lt hx
      rw [Set_missing_gen r hrest hx hn hmiss, wrap_fst, wrap_ok_iff]
      have hnew : (putMap h x n.ownMap (mapStore n.entries k (some h.length))
          ++ [({} : Nested)])[h.length]? = some {} := getElem?_putMap_append_last _ _ _ _ _
      obtain ⟨hok, _, _, ⟨nl, hnl, hnl1, _⟩, hfr⟩ :=
        Set_on_empty rest _ h.length {} r hrest hnew (by rfl) (by rfl)
      have hcell := hfr x _ (by omega)
        (getElem?_putMap_append_self n.ownMap {} _ hxlt) (sameMap_fresh _)
      refine ⟨hok, ?_, ⟨_, hcell, by rw [isNested_ownMap_set]; exact hn,
        by rw [entries_set_nested]; exact mapLookup_mapStore_same _ _ _⟩, ⟨nl, hnl, hnl1⟩⟩
      intro b nb hb hnb
      have hblt := getElem?_lt hb
      by_cases hbx : b = x
      · subst hbx
        rw [hx] at hb; cases hb
        refine ⟨_, hcell, by rw [isNested_ownMap_set]; exact hn, ?_⟩
        intro k2 c hk2
        rw [entries_set_nested, mapLookup_mapStore_ne]
        · exact hk2
        · intro hkk; subst hkk; rw [hmiss] at hk2; cases hk2
      · by_cases hs : sameMap n.ownMap nb = true
        · have hcb : (putMap h x n.ownMap (mapStore n.entries k (some h.length))
              ++ [({} : Nested)])[b]? =
              some { nb with nested := some (mapStore n.entries k (some h.length)) } := by
            rw [List.getElem?_append_left (by simpa [putMap_length] using hblt),
              getElem?_putMap_ne _ _ hbx, hb]
            simp [hs]
          have hent : nb.entries = n.entries := by
            simp only [sameMap, Bool.and_eq_true, decide_eq_true_eq] at hs
            simp [Nested.entries, hs.2, ownMap_nested_isSome]
          refine ⟨_, hfr b _ (by omega) hcb (sameMap_fresh _), hnb, ?_⟩
          intro k2 c hk2
          rw [entries_set_nested, mapLookup_mapStore_ne]
          · rw [← hent]; exact hk2
          · intro hkk; subst hkk; rw [hent, hmiss] at hk2; cases hk2
        · refine ⟨nb, ?_, hnb, fun _ _ hk2 => hk2⟩
          exact hfr b nb (by omega)
            (getElem?_putMap_append_other n.ownMap {} _ hbx hb (by simpa using hs))
            (sameMap_fresh _)
    | succ i =>
      simp only [List.take_succ_cons, lookupChain] at hl
      cases hj : deref h j with
      | none => simp [hj] at hl
      | some nj =>
        simp only [hj] at hl
        by_cases hnj : nj.IsNested = true
        · simp only [hnj, if_true] at hl
          cases hk : mapLookup nj.entries k with
          | none => simp [hk] at hl
          | some c =>
            simp only [hk] at hl
            obtain ⟨a, rfl⟩ : ∃ a, j = some a := by
              cases j with
              | none => simp [deref] at hj
              | some a => exact ⟨a, rfl⟩
            have ha : h[a]? = some nj := by simpa [deref] using hj
            rw [Set_existing r hrest ha hnj hk, wrap_fst, wrap_ok_iff]
            exact ih h c r i x n kmiss (by simpa using hi) hl hx hn (by simpa using hkm) hmiss
        · simp [hnj] at hl

/-- C3. `Set` never fails on a missing key: on a non-empty chain it returns an error
exactly when the node itself, or a node reached by successive lookup along a proper
initial segment of the chain, is a scalar or an array; and where a key before the last
is missing in a map-shaped node reached that way, the call succeeds and the chain up to
that key then resolves to a cell that was not allocated before and is map-shaped. -/
theorem Set_fails_only_on_wrong_shape (h : Heap) (j r : Ptr) (keys : List String)
    (hne : keys ≠ []) :
    ((∃ e, (Nested.Set h j r keys).2 = .error e) ↔
      ∃ i x n, i < keys.length ∧ lookupChain h j (keys.take i) = some x ∧
        deref h x = some n ∧ n.IsNested = false) ∧
    (∀ (i x : Nat) (n : Nested) (k : String),
      i + 1 < keys.length → lookupChain h j (keys.take i) = some (some x) →
      h[x]? = some n → n.IsNested = true → keys[i]? = some k →
      mapLookup n.entries k = none →
      (Nested.Set h j r keys).2 = .ok () ∧
      ∃ y ny, Nested.Get (Nested.Set h j r keys).1 j (keys.take (i + 1)) = .ok (some y) ∧
        h[y]? = none ∧ (Nested.Set h j r keys).1[y]? = some ny ∧ ny.IsNested = true) := by
  refine ⟨Set_error_iff keys h j r hne, ?_⟩
  intro i x n k hi hl hx hn hk hmiss
  obtain ⟨hok, hkept, ⟨nx, hnx, hnx1, hnx2⟩, ⟨ny, hny, hny1⟩⟩ :=
    Set_materialises keys h j r i x n k hi hl hx hn hk hmiss
  refine ⟨hok, h.length, ny, ?_, by simp, hny, hny1⟩
  have htake : keys.take (i + 1) = keys.take i ++ [k] := by
    rw [List.take_succ, hk]; rfl
  rw [Get_ok_iff_lookupChain _ _ _ _ (by rw [htake]; simp), htake, lookupChain_append]
  have hfirst : lookupChain (Nested.Set h j r keys).1 j (keys.take i) = some (some x) := by
    by_cases hi0 : keys.take i = []
    · rw [hi0] at hl ⊢
      simpa [lookupChain] using hl
    · exact lookupChain_kept hkept _ j _ hi0 hl
  rw [hfirst]
  simp [lookupChain, deref, hnx, hnx1, hnx2]

theorem pathNodes_append_scalar (h : Heap) (s : Nested) (hs : s.IsNested = false)
    (keys : List String) : ∀ j, pathNodes (h ++ [s]) j keys = pathNodes h j keys := by
  induction keys with
  | nil => intro j; simp [pathNodes]
  | cons k rest ih =>
    intro j
    cases j with
    | none => simp [pathNodes]
    | some a =>
      simp only [pathNodes]
      congr 1
      rcases Nat.lt_trichotomy a h.length with hlt | heq | hgt
      · rw [List.getElem?_append_left hlt]
        cases h[a]? with
        | none => rfl
        | some n =>
          simp only
          split
          · cases mapLookup n.entries k with
            | none => rfl
            | some c => exact ih c
          · rfl
      · subst heq
        rw [List.getElem?_append_right (le_refl _)]
        simp [hs]
      · rw [List.getElem?_append_right (by omega)]
        have h1 : h[a]? = none := List.getElem?_eq_none (by omega)
        have h2 : [s][a - h.length]? = none := List.getElem?_eq_none (by simp; omega)
        simp [h1, h2]

/-- Round trip of `SetValue` and `GetValue` for a node not flagged both ways and a key
chain that does not run through a cycle. -/
theorem SetValue_then_GetValue (h : Heap) (j : Ptr) (v : GoAny) (keys : List String)
    (hu : Unshared h) (hflags : ∀ n, deref h j = some n → (n.isValue && n.isArray) = false)
    (hpath : (pathNodes h j keys).Nodup)
    (hset : (Nested.SetValue h j v keys).2 = .ok ()) :
    Nested.GetValue (Nested.SetValue h j v keys).1 j keys = .ok v := by
  cases j with
  | none => simp [Nested.SetValue] at hset
  | some a =>
    cases ha : h[a]? with
    | none => simp [Nested.SetValue, ha] at hset
    | some n =>
      have halt := getElem?_lt ha
      have hfl := hflags n (by simpa [deref] using ha)
      by_cases hkeys : keys = []
      · subst hkeys
        by_cases hev : (n.IsEmpty || n.IsValue) = true
        · have hsv : Nested.SetValue h (some a) v [] =
              (h.set a { n with isValue := true, value := v }, .ok ()) := by
            simp only [Nested.SetValue, ha, hev]
            simp
          rw [hsv]
          have harr : n.isArray = false := by
            rcases Bool.or_eq_true _ _ ▸ hev with he | hv
            · simp [Nested.IsEmpty] at he; exact he.1.1
            · simp [Nested.IsValue] at hv; simpa [hv] using hfl
          simp [Nested.GetValue, deref, List.getElem?_set_self halt, Nested.IsEmpty,
            Nested.IsArray, Nested.IsValue, harr]
        · have hsv : Nested.SetValue h (some a) v [] =
              Nested.Set (h ++ [{ isValue := true, value := v }]) (some a) (some h.length) [] := by
            simp only [Nested.SetValue, ha]
            simp [hev]
          rw [hsv, Set_nil] at hset
          cases hset
      · have hlen : keys.length ≠ 0 := fun h0 => hkeys (List.length_eq_zero.mp h0)
        have hsv : Nested.SetValue h (some a) v keys =
            Nested.Set (h ++ [{ isValue := true, value := v }]) (some a) (some h.length) keys := by
          simp [Nested.SetValue, ha, hlen]
        rw [hsv] at hset ⊢
        have hu2 : Unshared (h ++ [({ isValue := true, value := v } : Nested)]) :=
          Unshared.unshared_push hu (v := ({ isValue := true, value := v } : Nested)) rfl
        have hget := Set_then_Get keys (h ++ [{ isValue := true, value := v }]) (some a)
          (some h.length) hu2 (by rw [pathNodes_append_scalar h { isValue := true, value := v } rfl]; exact hpath) hset
        obtain ⟨nj, hnj, hnj1, hnj2⟩ := Get_ok_start hget
        obtain ⟨m, hm⟩ := Set_cell keys (h ++ [{ isValue := true, value := v }]) (some a)
          (some h.length) h.length { isValue := true, value := v } hu2
          (by rw [List.getElem?_append_right (le_refl _)]; simp)
        exact GetValue_of_Get (x := { isValue := true, nested := m, value := v }) hnj hnj2
          ((isNested_iff nj).1 hnj1).2 hkeys hget (by simpa [deref] using hm) rfl rfl

/-- C1, counterexample. On the node that holds itself under `a`, `Set(r, "a", "a")`
succeeds and overwrites the entry `a` through which the chain leads, so that
`Get("a", "a")` does not return `r` but fails on the scalar `r`. The same happens
without a cycle when two nodes hold the same map: after `j.Set(c, "a")` and
`c.SetMap(m)` with the map `m` returned by `j.GetMap()`, the chain `a`, `a` visits the
two cells `j` and `c`, `j.Set(r, "a", "a")` succeeds, and `j.Get("a", "a")` fails on
the scalar `r`. -/
theorem Set_Get_round_trip_fails_on_cycle :
    ((Nested.Set selfHeap (some 0) (some 1) ["a", "a"]).2 = .ok () ∧
      Nested.Get (Nested.Set selfHeap (some 0) (some 1) ["a", "a"]).1 (some 0) ["a", "a"] =
        .error "a: is value" ∧
      Nested.Get (Nested.Set selfHeap (some 0) (some 1) ["a", "a"]).1 (some 0) ["a", "a"] ≠
        .ok (some 1)) ∧
    (Nested.GetMap (Nested.Set (Nested.SetValue [{}, {}, {}] (some 2) (.int 1) []).1
        (some 0) (some 1) ["a"]).1 (some 0) [] = .ok (.heldBy 0) ∧
      pathNodes sharedMapHeap (some 0) ["a", "a"] = [0, 1] ∧
      (Nested.Set sharedMapHeap (some 0) (some 2) ["a", "a"]).2 = .ok () ∧
      Nested.Get (Nested.Set sharedMapHeap (some 0) (some 2) ["a", "a"]).1 (some 0)
        ["a", "a"] = .error "a: is value") := by
  decide

/-- C5, counterexample. On the node that holds itself under `a`, `SetValue(5, "a", "a")`
succeeds and `GetValue("a", "a")` then fails with "a: is value"; on a cell flagged
both as scalar and as array, `SetValue(5)` succeeds and `GetValue()` fails with
"is array"; and on the two nodes `j` and `c` that hold the same map, with `c` stored
under `a`, `j.SetValue(5, "a", "a")` succeeds and `j.GetValue("a", "a")` fails with
"a: is value", although the chain visits two different cells. -/
theorem SetValue_GetValue_round_trip_fails :
    ((Nested.SetValue selfHeap (some 0) (.int 5) ["a", "a"]).2 = .ok () ∧
      Nested.GetValue (Nested.SetValue selfHeap (some 0) (.int 5) ["a", "a"]).1 (some 0)
        ["a", "a"] = .error "a: is value") ∧
    ((Nested.SetValue bothFlagsHeap (some 0) (.int 5) []).2 = .ok () ∧
      Nested.GetValue (Nested.SetValue bothFlagsHeap (some 0) (.int 5) []).1 (some 0) [] =
        .error "is array") ∧
    (pathNodes sharedMapHeap (some 0) ["a", "a"] = [0, 1] ∧
      (Nested.SetValue sharedMapHeap (some 0) (.int 5) ["a", "a"]).2 = .ok () ∧
      Nested.GetValue (Nested.SetValue sharedMapHeap (some 0) (.int 5) ["a", "a"]).1 (some 0)
        ["a", "a"] = .error "a: is value") := by
  refine ⟨⟨by decide, rfl⟩, ⟨by decide, rfl⟩, ⟨by decide, by decide, rfl⟩⟩

/-- C5 (amended). Round trip of `SetValue` and `GetValue`: on a heap in which no map is
held by two cells, for every node `j` that is not flagged both as scalar and as array,
every value `v` and every key chain (possibly empty) that does not run through a cycle,
if `SetValue(v, keys)` returns no error then `GetValue(keys)` afterwards returns exactly
`v` and no error. -/
theorem SetValue_GetValue_round_trip (h : Heap) (j : Ptr) (v : GoAny) (keys : List String)
    (hown : Unshared h)
    (hflags : ∀ n, deref h j = some n → (n.isValue && n.isArray) = false)
    (hpath : (pathNodes h j keys).Nodup)
    (hset : (Nested.SetValue h j v keys).2 = .ok ()) :
    Nested.GetValue (Nested.SetValue h j v keys).1 j keys = .ok v :=
  SetValue_then_GetValue h j v keys hown hflags hpath hset

theorem wellFormed_zero (h : Heap) (p : Ptr) : wellFormed 0 h p = false := rfl

theorem wellFormed_succ_iff (d : Nat) (h : Heap) (p : Ptr) :
    wellFormed (d + 1) h p = true ↔
      ∃ a n, p = some a ∧ h[a]? = some n ∧ n.wellShaped = true ∧
        ∀ c ∈ n.children, wellFormed d h c = true := by
  cases p with
  | none => simp [wellFormed, deref]
  | some a =>
    cases ha : h[a]? with
    | none => simp [wellFormed, deref, ha]
    | some n => simp [wellFormed, deref, ha, List.all_eq_true]

theorem wellFormed_none (d : Nat) (h : Heap) : wellFormed d h none = false := by
  cases d <;> simp [wellFormed, deref]

theorem wellFormed_mono (d : Nat) : ∀ (h : Heap) (p : Ptr),
    wellFormed d h p = true → wellFormed (d + 1) h p = true := by
  induction d with
  | zero => intro h p hw; simp [wellFormed_zero] at hw
  | succ d ih =>
    intro h p hw
    obtain ⟨a, n, rfl, ha, hs, hc⟩ := (wellFormed_succ_iff d h p).1 hw
    exact (wellFormed_succ_iff (d + 1) h (some a)).2
      ⟨a, n, rfl, ha, hs, fun c hcm => ih h c (hc c hcm)⟩

theorem children_of_isEmpty {n : Nested} (he : n.IsEmpty = true) : n.children = [] := by
  simp [Nested.IsEmpty] at he
  obtain ⟨⟨ha, hv⟩, hl⟩ := he
  simp [Nested.children, Nested.IsValue, Nested.IsArray, ha, hv, hl]

theorem wellShaped_of_isEmpty {n : Nested} (he : n.IsEmpty = true) : n.wellShaped = true := by
  simp [Nested.IsEmpty] at he
  obtain ⟨⟨ha, hv⟩, hl⟩ := he
  simp [Nested.wellShaped, ha, hv, hl]

theorem Contains.trans {h : Heap} {a b c : Nat} (hab : Contains h a b) (hbc : Contains h b c) :
    Contains h a c := by
  induction hab with
  | refl a => exact hbc
  | step hn hm _ ih => exact Contains.step hn hm (ih hbc)

theorem Contains.child {h : Heap} {a b : Nat} {n : Nested} (ha : h[a]? = some n)
    (hb : some b ∈ n.children) : Contains h a b :=
  Contains.step ha hb (Contains.refl b)

/-- Below a node without children there is only the node. -/
theorem Contains.eq_of_no_children {h : Heap} {a b : Nat} {n : Nested} (ha : h[a]? = some n)
    (hc : n.children = []) (hab : Contains h a b) : b = a := by
  cases hab with
  | refl => rfl
  | step hn hm _ =>
    rw [ha] at hn
    cases hn
    rw [hc] at hm
    simp at hm

/-- Either `b` is the node or it is contained in a child. -/
theorem Contains.cases_child {h : Heap} {a b : Nat} (hab : Contains h a b) :
    b = a ∨ ∃ n x, h[a]? = some n ∧ some x ∈ n.children ∧ Contains h x b := by
  cases hab with
  | refl => exact Or.inl rfl
  | step hn hm hrest => exact Or.inr ⟨_, _, hn, hm, hrest⟩

theorem wellFormed_contains {h : Heap} {a b : Nat} (hab : Contains h a b) :
    ∀ d, wellFormed d h (some a) = true → wellFormed d h (some b) = true := by
  induction hab with
  | refl a => intro d hw; exact hw
  | step hn hm _ ih =>
    intro d hw
    cases d with
    | zero => simp [wellFormed_zero] at hw
    | succ d =>
      obtain ⟨a', n', ha', hn', _, hc⟩ := (wellFormed_succ_iff d h _).1 hw
      cases ha'
      rw [hn] at hn'
      cases hn'
      exact wellFormed_mono d h _ (ih d (hc _ hm))

/-- A well-formed node is not contained in any of its children. -/
theorem wellFormed_acyclic (d : Nat) : ∀ {h : Heap} {a x : Nat} {n : Nested},
    wellFormed d h (some a) = true → h[a]? = some n → some x ∈ n.children →
    ¬ Contains h x a := by
  induction d with
  | zero => intro h a x n hw; simp [wellFormed_zero] at hw
  | succ d ih =>
    intro h a x n hw ha hx hcyc
    obtain ⟨a', n', ha', hn', _, hc⟩ := (wellFormed_succ_iff d h _).1 hw
    cases ha'
    rw [ha] at hn'
    cases hn'
    have hwx := hc _ hx
    have hwa := wellFormed_contains hcyc d hwx
    exact ih hwa ha hx hcyc

theorem wellFormed_child {d : Nat} {h : Heap} {a : Nat} {n : Nested} {c : Ptr}
    (hw : wellFormed (d + 1) h (some a) = true) (ha : h[a]? = some n) (hc : c ∈ n.children) :
    ∃ x, c = some x ∧ wellFormed d h (some x) = true := by
  obtain ⟨a', n', ha', hn', _, hch⟩ := (wellFormed_succ_iff d h _).1 hw
  cases ha'
  rw [ha] at hn'
  cases hn'
  have := hch c hc
  cases c with
  | none => simp [wellFormed_none] at this
  | some x => exact ⟨x, rfl, this⟩

theorem SameOrEmptyBelow.below_child {h h2 : Heap} {a x : Nat} {n : Nested}
    (hs : SameOrEmptyBelow h h2 a) (ha : h[a]? = some n) (hx : some x ∈ n.children) :
    SameOrEmptyBelow h h2 x :=
  fun b hb => hs b (Contains.step ha hx hb)

theorem wellFormed_sameOrEmpty (d : Nat) : ∀ {h h2 : Heap} {x : Nat},
    SameOrEmptyBelow h h2 x → wellFormed d h (some x) = true →
    wellFormed d h2 (some x) = true := by
  induction d with
  | zero => intro h h2 x _ hw; simp [wellFormed_zero] at hw
  | succ d ih =>
    intro h h2 x hs hw
    obtain ⟨a', n, ha', hn, hsh, hc⟩ := (wellFormed_succ_iff d h _).1 hw
    cases ha'
    rcases hs x (Contains.refl x) with hsame | ⟨nb, hnb, hemp⟩
    · refine (wellFormed_succ_iff d h2 _).2 ⟨x, n, rfl, by rw [hsame]; exact hn, hsh, ?_⟩
      intro c hcm
      obtain ⟨y, rfl, hwy⟩ := wellFormed_child hw hn hcm
      exact ih (hs.below_child hn hcm) hwy
    · refine (wellFormed_succ_iff d h2 _).2 ⟨x, nb, rfl, hnb, wellShaped_of_isEmpty hemp, ?_⟩
      rw [children_of_isEmpty hemp]
      intro c hcm
      simp at hcm

theorem Contains_of_sameOrEmpty {h h2 : Heap} {x b : Nat} (hc : Contains h2 x b) :
    SameOrEmptyBelow h h2 x → Contains h x b := by
  induction hc with
  | refl a => intro _; exact Contains.refl a
  | @step a b' c n hn hm _ ih =>
    intro hs
    rcases hs a (Contains.refl a) with hsame | ⟨nb, hnb, hemp⟩
    · have hn' : h[a]? = some n := by rw [← hsame]; exact hn
      exact Contains.step hn' hm (ih (hs.below_child hn' hm))
    · rw [hn] at hnb
      cases hnb
      rw [children_of_isEmpty hemp] at hm
      simp at hm

/-- A path of `h` survives in `h2`, or it runs through a cell that `h2` changed. -/
theorem Contains_or_changed {h : Heap} (h2 : Heap) {x b : Nat} (hc : Contains h x b) :
    Contains h2 x b ∨ ∃ y, Contains h x y ∧ h2[y]? ≠ h[y]? ∧ Contains h y b := by
  induction hc with
  | refl a => exact Or.inl (Contains.refl a)
  | @step a b' c n hn hm hrest ih =>
    by_cases hsame : h2[a]? = h[a]?
    · rcases ih with hcont | ⟨y, hy1, hy2, hy3⟩
      · exact Or.inl (Contains.step (by rw [hsame]; exact hn) hm hcont)
      · exact Or.inr ⟨y, Contains.step hn hm hy1, hy2, hy3⟩
    · exact Or.inr ⟨a, Contains.refl a, hsame, Contains.step hn hm hrest⟩

theorem EmptyAt_of_set {h : Heap} {a : Nat} {n : Nested} (ha : a < h.length)
    (hn : n.IsEmpty = true) : EmptyAt (h.set a n) a :=
  ⟨n, List.getElem?_set_self ha, hn⟩

theorem not_touched_self {d : Nat} {h0 : Heap} {a : Nat} {n : Nested} {done : List Nat}
    (hw : wellFormed (d + 1) h0 (some a) = true) (ha : h0[a]? = some n)
    (hdone : ∀ y ∈ done, some y ∈ n.children) : ¬ Touched h0 done a := by
  rintro ⟨x, hx, hc⟩
  exact wellFormed_acyclic (d + 1) hw ha (hdone x hx) hc

theorem LoopInv.init (h0 : Heap) (a : Nat) (hu : Unshared h0) : LoopInv h0 a [] h0 :=
  ⟨rfl, hu, fun _ _ _ => rfl, fun _ ⟨_, hx, _⟩ => by simp at hx⟩

theorem child_step {d : Nat} (hspec : ClearSpec d) {h0 hcur : Heap} {a x : Nat} {n : Nested}
    {done : List Nat}
    (hw : wellFormed (d + 1) h0 (some a) = true) (ha : h0[a]? = some n)
    (hx : some x ∈ n.children) (inv : LoopInv h0 a done hcur) :
    ∃ h1, Nested.Clear d hcur (some x) = some (h1, .ok ()) ∧
      LoopInv h0 a (x :: done) h1 ∧ h1[a]? = hcur[a]? := by
  have hacyc : ¬ Contains h0 x a := wellFormed_acyclic (d + 1) hw ha hx
  have hbelow : SameOrEmptyBelow h0 hcur x := by
    intro b hb
    have hba : b ≠ a := fun e => hacyc (e ▸ hb)
    by_cases ht : Touched h0 done b
    · exact Or.inr (inv.empty b ht)
    · exact Or.inl (inv.same b hba ht)
  obtain ⟨x', hx', hwx⟩ := wellFormed_child hw ha hx
  cases hx'
  have hwcur := wellFormed_sameOrEmpty d hbelow hwx
  obtain ⟨h1, hclear, hlen, hframe, hemp, hown⟩ := hspec hcur x inv.own hwcur
  have hkeep : ∀ b, EmptyAt hcur b → EmptyAt h1 b := by
    intro b hb
    by_cases hc : Contains hcur x b
    · exact hemp b hc
    · obtain ⟨nb, hnb, he⟩ := hb
      exact ⟨nb, by rw [hframe b hc]; exact hnb, he⟩
  refine ⟨h1, hclear, ⟨by rw [hlen, inv.len], hown, ?_, ?_⟩, ?_⟩
  · intro b hba ht
    have h1' : ¬ Contains h0 x b := fun hc => ht ⟨x, by simp, hc⟩
    have h2' : ¬ Touched h0 done b := fun ⟨y, hy, hc⟩ => ht ⟨y, by simp [hy], hc⟩
    have h3' : ¬ Contains hcur x b := fun hc => h1' (Contains_of_sameOrEmpty hc hbelow)
    rw [hframe b h3', inv.same b hba h2']
  · rintro b ⟨y, hy, hc⟩
    rcases List.mem_cons.1 hy with rfl | hy'
    · rcases Contains_or_changed hcur hc with hcc | ⟨z, hz1, hz2, hz3⟩
      · exact hemp b hcc
      · have hza : z ≠ a := fun e => hacyc (e ▸ hz1)
        have htz : Touched h0 done z := by
          by_contra hnt
          exact hz2 (inv.same z hza hnt)
        obtain ⟨w, hw1, hw2⟩ := htz
        exact hkeep b (inv.empty b ⟨w, hw1, hw2.trans hz3⟩)
    · exact hkeep b (inv.empty b ⟨y, hy', hc⟩)
  · exact hframe a (fun hc => hacyc (Contains_of_sameOrEmpty hc hbelow))

theorem elems_loop {d : Nat} (hspec : ClearSpec d) {h0 : Heap} {a : Nat} {n : Nested}
    (hw : wellFormed (d + 1) h0 (some a) = true) (ha : h0[a]? = some n) :
    ∀ (es : List Ptr) (done : List Nat) (hcur : Heap),
      (∀ e ∈ es, e ∈ n.children) → (∀ y ∈ done, some y ∈ n.children) →
      LoopInv h0 a done hcur →
      ∃ h1 done2, clearElems (Nested.Clear d) hcur es = some (h1, .ok ()) ∧
        LoopInv h0 a done2 h1 ∧ (∀ y ∈ done2, some y ∈ n.children) ∧
        (∀ x, some x ∈ es → x ∈ done2) ∧ (∀ y ∈ done, y ∈ done2) ∧ h1[a]? = hcur[a]? := by
  intro es
  induction es with
  | nil =>
    intro done hcur _ hdone inv
    exact ⟨hcur, done, rfl, inv, hdone, fun x hx => by simp at hx, fun _ hy => hy, rfl⟩
  | cons e es ih =>
    intro done hcur hes hdone inv
    have he := hes e (by simp)
    obtain ⟨x, rfl, _⟩ := wellFormed_child hw ha he
    obtain ⟨h1, hclear, inv1, hsame⟩ := child_step hspec hw ha he inv
    have hdone1 : ∀ y ∈ x :: done, some y ∈ n.children := by
      intro y hy
      rcases List.mem_cons.1 hy with rfl | hy'
      · exact he
      · exact hdone y hy'
    obtain ⟨h2, done2, hloop, inv2, hdone2, hall, hsub, hsame2⟩ :=
      ih (x :: done) h1 (fun e' he' => hes e' (by simp [he'])) hdone1 inv1
    refine ⟨h2, done2, ?_, inv2, hdone2, ?_, fun y hy => hsub y (by simp [hy]),
      by rw [hsame2, hsame]⟩
    · simp only [clearElems, hclear]
      exact hloop
    · intro y hy
      rcases List.mem_cons.1 hy with hyx | hy'
      · cases hyx
        exact hsub x (by simp)
      · exact hall y hy'

theorem mapLookup_mem_values {m : GoMap} {k : String} {c : Ptr} (hk : mapLookup m k = some c) :
    c ∈ m.map Prod.snd := by
  induction m with
  | nil => simp [mapLookup] at hk
  | cons e m ih =>
    obtain ⟨k', v'⟩ := e
    by_cases hkk : k' = k
    · simp [mapLookup, hkk] at hk
      simp [hk]
    · simp only [mapLookup, hkk, if_false] at hk
      simp [ih hk]

theorem mapLookup_of_mem_nodup {m : GoMap} {k : String} {c : Ptr}
    (hnd : (m.map Prod.fst).Nodup) (hm : (k, c) ∈ m) : mapLookup m k = some c := by
  induction m with
  | nil => simp at hm
  | cons e m ih =>
    obtain ⟨k', v'⟩ := e
    simp only [List.map_cons, List.nodup_cons] at hnd
    rcases List.mem_cons.1 hm with heq | hin
    · cases heq
      simp [mapLookup]
    · have hne : k' ≠ k := by
        intro e
        subst e
        exact hnd.1 (List.mem_map.2 ⟨(k', c), hin, rfl⟩)
      simp only [mapLookup, hne, if_false]
      exact ih hnd.2 hin

theorem mapLookup_isSome_of_mem_keys {m : GoMap} {k : String} (hk : k ∈ m.map Prod.fst) :
    ∃ c, mapLookup m k = some c := by
  induction m with
  | nil => simp at hk
  | cons e m ih =>
    obtain ⟨k', v'⟩ := e
    by_cases hkk : k' = k
    · exact ⟨v', by simp [mapLookup, hkk]⟩
    · simp only [List.map_cons, List.mem_cons] at hk
      rcases hk with heq | hin
      · exact absurd heq.symm hkk
      · obtain ⟨c, hc⟩ := ih hin
        exact ⟨c, by simp [mapLookup, hkk, hc]⟩

theorem mapLookup_none_of_not_mem_keys {m : GoMap} {k : String} (hk : k ∉ m.map Prod.fst) :
    mapLookup m k = none := by
  induction m with
  | nil => simp [mapLookup]
  | cons e m ih =>
    obtain ⟨k', v'⟩ := e
    simp only [List.map_cons, List.mem_cons, not_or] at hk
    simp only [mapLookup, Ne.symm hk.1, if_false]
    exact ih hk.2

theorem map_eq_nil_of_lookups_none {m : GoMap} (hm : ∀ k, mapLookup m k = none) : m = [] := by
  cases m with
  | nil => rfl
  | cons e m =>
    obtain ⟨k', v'⟩ := e
    have := hm k'
    simp [mapLookup] at this

theorem keys_loop {d : Nat} (hspec : ClearSpec d) {h0 : Heap} {a : Nat} {n : Nested}
    (hw : wellFormed (d + 1) h0 (some a) = true) (ha : h0[a]? = some n)
    (hn : n.IsNested = true) :
    ∀ (ks : List String) (done : List Nat) (hcur : Heap) (ncur : Nested),
      ks.Nodup → (∀ k ∈ ks, k ∈ n.entries.map Prod.fst) →
      (∀ y ∈ done, some y ∈ n.children) → LoopInv h0 a done hcur →
      hcur[a]? = some ncur → ncur.IsNested = true →
      (∀ k ∈ ks, mapLookup ncur.entries k = mapLookup n.entries k) →
      (∀ k, k ∉ ks → mapLookup ncur.entries k = none) →
      ∃ h1 done2 nfin, clearKeys (Nested.Clear d) a hcur ks = some (h1, .ok ()) ∧
        LoopInv h0 a done2 h1 ∧ (∀ y ∈ done2, some y ∈ n.children) ∧
        (∀ k ∈ ks, ∀ x, mapLookup n.entries k = some (some x) → x ∈ done2) ∧
        (∀ y ∈ done, y ∈ done2) ∧
        h1[a]? = some nfin ∧ nfin.IsEmpty = true := by
  have hchildren : n.children = n.entries.map Prod.snd := by
    obtain ⟨hv, har⟩ := (isNested_iff n).1 hn
    simp [Nested.children, hv, har]
  intro ks
  induction ks with
  | nil =>
    intro done hcur ncur _ _ hdone inv hcura hncur _ hnone
    refine ⟨hcur, done, ncur, rfl, inv, hdone, fun k hk => by simp at hk, fun _ hy => hy,
      hcura, ?_⟩
    have he : ncur.entries = [] := map_eq_nil_of_lookups_none (fun k => hnone k (by simp))
    obtain ⟨hv, har⟩ := (isNested_iff ncur).1 hncur
    simp only [Nested.IsValue, Nested.IsArray] at hv har
    simp [Nested.IsEmpty, hv, har, he]
  | cons k ks ih =>
    intro done hcur ncur hnd hkeys hdone inv hcura hncur hsame hnone
    obtain ⟨hk_notin, hnd'⟩ := List.nodup_cons.1 hnd
    obtain ⟨c, hc⟩ := mapLookup_isSome_of_mem_keys (hkeys k (by simp))
    have hccur : mapLookup ncur.entries k = some c := by rw [hsame k (by simp), hc]
    have hcchild : c ∈ n.children := by rw [hchildren]; exact mapLookup_mem_values hc
    obtain ⟨x, rfl, _⟩ := wellFormed_child hw ha hcchild
    obtain ⟨h1, hclear, inv1, hsame1⟩ := child_step hspec hw ha hcchild inv
    have hdone1 : ∀ y ∈ x :: done, some y ∈ n.children := by
      intro y hy
      rcases List.mem_cons.1 hy with rfl | hy'
      · exact hcchild
      · exact hdone y hy'
    have h1a : h1[a]? = some ncur := by rw [hsame1, hcura]
    have halt : a < h1.length := getElem?_lt h1a
    have hnested := nested_eq_some_entries hccur
    let ncur2 : Nested := { ncur with nested := some (mapDelete (mapStore ncur.entries k none) k) }
    have hdel : deleteEntry h1 a ncur k = (h1.set a ncur2, .ok ()) := by
      simp only [deleteEntry, hnested, putMap_unshared inv1.own _ h1a]
    have hid1 : ncur.mapId = 0 := inv1.own.unshared_get h1a
    have hid2 : ncur2.mapId = 0 := hid1
    have inv2 : LoopInv h0 a (x :: done) (h1.set a ncur2) := by
      refine ⟨by rw [List.length_set, inv1.len], inv1.own.unshared_set a hid2, ?_, ?_⟩
      · intro b hba ht
        rw [List.getElem?_set_ne (Ne.symm hba)]
        exact inv1.same b hba ht
      · intro b ht
        have hba : b ≠ a := by
          intro e
          subst e
          exact not_touched_self hw ha hdone1 ht
        obtain ⟨nb, hnb, he⟩ := inv1.empty b ht
        exact ⟨nb, by rw [List.getElem?_set_ne (Ne.symm hba)]; exact hnb, he⟩
    have hcur2 : (h1.set a ncur2)[a]? = some ncur2 := List.getElem?_set_self halt
    have hent2 : ncur2.entries = mapDelete ncur.entries k := by
      show mapDelete (mapStore ncur.entries k none) k = _
      exact mapDelete_mapStore _ _ _
    obtain ⟨h3, done3, nfin, hloop, inv3, hdone3, hall, hsub, hfin, hfe⟩ :=
      ih (x :: done) (h1.set a ncur2) ncur2 hnd' (fun k' hk' => hkeys k' (by simp [hk']))
        hdone1 inv2 hcur2 (by exact hncur)
        (by
          intro k' hk'
          have hne : k ≠ k' := fun e => hk_notin (e ▸ hk')
          rw [hent2, mapLookup_mapDelete_ne _ _ _ hne]
          exact hsame k' (by simp [hk']))
        (by
          intro k' hk'
          rw [hent2]
          by_cases hkk : k = k'
          · subst hkk
            exact mapLookup_mapDelete_same _ _
          · rw [mapLookup_mapDelete_ne _ _ _ hkk]
            exact hnone k' (by simp [hk', Ne.symm hkk]))
    refine ⟨h3, done3, nfin, ?_, inv3, hdone3, ?_, fun y hy => hsub y (by simp [hy]),
      hfin, hfe⟩
    · simp only [clearKeys, hcura, hccur, hclear, h1a, hdel]
      exact hloop
    · intro k' hk' y hy
      rcases List.mem_cons.1 hk' with heq | hin
      · subst heq
        rw [hc] at hy
        cases hy
        exact hsub x (by simp)
      · exact hall k' hin y hy

theorem Clear_succ (d : Nat) (h : Heap) (p : Ptr) :
    Nested.Clear (d + 1) h p = clearBody (Nested.Clear d) h p := rfl

/-- `Clear` terminates on a well-formed node and empties everything it contains. -/
theorem Clear_spec : ∀ d, ClearSpec d := by
  intro d
  induction d with
  | zero => intro h a _ hw; simp [wellFormed_zero] at hw
  | succ d ih =>
    intro h a hu hw
    have hida : ∀ n, h[a]? = some n → n.mapId = 0 := fun n hn => hu.unshared_get hn
    obtain ⟨a', n, ha', ha, hsh, hch⟩ := (wellFormed_succ_iff d h _).1 hw
    cases ha'
    have halt := getElem?_lt ha
    rw [Clear_succ]
    simp only [Nested.wellShaped, Bool.and_eq_true, decide_eq_true_eq, Bool.or_eq_true,
      Bool.not_eq_true', beq_iff_eq] at hsh
    obtain ⟨⟨hnd, hshv⟩, hsha⟩ := hsh
    by_cases hv : n.IsValue = true
    · -- scalar
      have hv' : n.isValue = true := hv
      have hx : n.isArray = false ∧ n.entries.length = 0 := by
        rcases hshv with h1 | h1
        · rw [hv'] at h1; cases h1
        · exact h1
      have hnc : n.children = [] := by simp [Nested.children, hv]
      refine ⟨h.set a { n with isValue := false, value := .nil }, ?_, by simp, ?_, ?_,
        hu.unshared_set a (v := { n with isValue := false, value := .nil }) (hida n ha)⟩
      · simp [clearBody, ha, hv]
      · intro b hb
        have hba : b ≠ a := fun e => hb (e ▸ Contains.refl b)
        exact List.getElem?_set_ne (Ne.symm hba)
      · intro b hb
        cases Contains.eq_of_no_children ha hnc hb
        refine EmptyAt_of_set halt ?_
        simp [Nested.IsEmpty, Nested.entries, hx.1, List.length_eq_zero.mp hx.2] 
        have := List.length_eq_zero.mp hx.2
        simpa [Nested.entries] using this
    · have hv' : n.IsValue = false := by simpa using hv
      by_cases har : n.IsArray = true
      · -- array
        have har' : n.isArray = true := har
        have hent : n.entries.length = 0 := by
          rcases hsha with h1 | h1
          · rw [har'] at h1; cases h1
          · exact h1
        have hnc : n.children = n.elems := by simp [Nested.children, hv', har]
        obtain ⟨h1, done2, hloop, inv, hdone2, hall, _, hsame⟩ :=
          elems_loop ih hw ha n.elems [] h (fun e he => by rw [hnc]; exact he)
            (fun y hy => by simp at hy) (LoopInv.init h a hu)
        have h1a : h1[a]? = some n := by rw [hsame, ha]
        have halt1 : a < h1.length := getElem?_lt h1a
        refine ⟨h1.set a { n with isArray := false, array := none }, ?_, ?_, ?_, ?_,
          inv.own.unshared_set a (v := { n with isArray := false, array := none }) (hida n ha)⟩
        · simp [clearBody, ha, hv', har, hloop, h1a]
        · rw [List.length_set, inv.len]
        · intro b hb
          have hba : b ≠ a := fun e => hb (e ▸ Contains.refl b)
          rw [List.getElem?_set_ne (Ne.symm hba)]
          refine inv.same b hba ?_
          rintro ⟨x, hx, hc⟩
          exact hb (Contains.step ha (hdone2 x hx) hc)
        · intro b hb
          have hself : EmptyAt (h1.set a { n with isArray := false, array := none }) a := by
            refine EmptyAt_of_set halt1 ?_
            have hv2 : n.isValue = false := hv'
            have := List.length_eq_zero.mp hent
            simp only [Nested.entries] at this
            simp [Nested.IsEmpty, Nested.entries, hv2, this]
          rcases hb.cases_child with rfl | ⟨n', x, hn', hx, hc⟩
          · exact hself
          · rw [ha] at hn'
            cases hn'
            by_cases hba : b = a
            · subst hba; exact hself
            · obtain ⟨nb, hnb, he⟩ := inv.empty b ⟨x, hall x (by rw [← hnc]; exact hx), hc⟩
              exact ⟨nb, by rw [List.getElem?_set_ne (Ne.symm hba)]; exact hnb, he⟩
      · -- map
        have har' : n.IsArray = false := by simpa using har
        have hn : n.IsNested = true := (isNested_iff n).2 ⟨hv', har'⟩
        have hnc : n.children = n.entries.map Prod.snd := by
          simp [Nested.children, hv', har']
        obtain ⟨h1, done2, nfin, hloop, inv, hdone2, hall, _, hfin, hfe⟩ :=
          keys_loop ih hw ha hn (n.entries.map Prod.fst) [] h n hnd (fun k hk => hk)
            (fun y hy => by simp at hy) (LoopInv.init h a hu) ha hn (fun _ _ => rfl)
            (fun k hk => mapLookup_none_of_not_mem_keys hk)
        refine ⟨h1, ?_, inv.len, ?_, ?_, inv.own⟩
        · simp [clearBody, ha, hv', har', hloop]
        · intro b hb
          have hba : b ≠ a := fun e => hb (e ▸ Contains.refl b)
          refine inv.same b hba ?_
          rintro ⟨x, hx, hc⟩
          exact hb (Contains.step ha (hdone2 x hx) hc)
        · intro b hb
          rcases hb.cases_child with rfl | ⟨n', x, hn', hx, hc⟩
          · exact ⟨nfin, hfin, hfe⟩
          · rw [ha] at hn'
            cases hn'
            rw [hnc] at hx
            obtain ⟨⟨k, c⟩, hmem, hsnd⟩ := List.mem_map.1 hx
            simp only at hsnd
            subst hsnd
            have hlk := mapLookup_of_mem_nodup hnd hmem
            exact inv.empty b ⟨x, hall k (List.mem_map.2 ⟨(k, some x), hmem, rfl⟩) x hlk, hc⟩

theorem Clear_selfHeap_diverges : ∀ fuel, Nested.Clear fuel selfHeap (some 0) = none := by
  intro fuel
  induction fuel with
  | zero => rfl
  | succ fuel ih =>
    rw [Clear_succ]
    have h0 : selfHeap[0]? = some { nested := some [("a", some 0)] } := rfl
    simp only [clearBody, h0]
    simp [Nested.IsValue, Nested.IsArray, Nested.entries, clearKeys, h0, mapLookup, ih]

theorem Clear_nilEntryHeap_not_ok :
    ∀ fuel h2, Nested.Clear fuel nilEntryHeap (some 0) ≠ some (h2, .ok ()) := by
  intro fuel h2
  have h0 : nilEntryHeap[0]? = some { nested := some [("k", none)] } := rfl
  cases fuel with
  | zero => simp [Nested.Clear]
  | succ fuel =>
    rw [Clear_succ]
    simp only [clearBody, h0]
    cases fuel with
    | zero =>
      simp [Nested.IsValue, Nested.IsArray, Nested.entries, clearKeys, h0, mapLookup,
        Nested.Clear]
    | succ fuel =>
      simp [Nested.IsValue, Nested.IsArray, Nested.entries, clearKeys, h0, mapLookup,
        Clear_succ, clearBody]

theorem isEmpty_facts {n : Nested} (he : n.IsEmpty = true) :
    n.IsValue = false ∧ n.IsArray = false ∧ n.Length = 0 := by
  simp [Nested.IsEmpty] at he
  obtain ⟨⟨ha, hv⟩, hl⟩ := he
  simp [Nested.IsValue, Nested.IsArray, Nested.Length, ha, hv, hl]

/-- Writing nil under an absent key and deleting the key leaves the cell as it was. -/
theorem deleteEntry_absent {h : Heap} {x : Nat} {n : Nested} {k : String}
    (hx : h[x]? = some n) (hent : n.entries ≠ []) (habs : mapLookup n.entries k = none) :
    deleteEntry h x n k = (h, .ok ()) := by
  have hnested : n.nested = some n.entries := by
    unfold Nested.entries at hent ⊢
    cases hn : n.nested with
    | none => simp [hn] at hent
    | some m => simp
  have hsame : mapDelete (mapStore n.entries k none) k = n.entries := by
    rw [mapDelete_mapStore, mapDelete_of_lookup_none _ _ habs]
  simp only [deleteEntry, hnested, hsame, putMap_same hx hnested]

/-- C10. `Delete` of an absent last key is a successful no-op: when the keys before the
last resolve by successive lookup through map-shaped nodes to a map-shaped node `x`
(the node itself for a single key) that holds entries but none under the last key,
`Delete(keys)` returns no error and leaves the whole heap unchanged. -/
theorem Delete_absent_last_key (h : Heap) (j : Ptr) (keys : List String) (hne : keys ≠ [])
    (x : Nat) (n : Nested)
    (hres : lookupChain h j keys.dropLast = some (some x))
    (hx : h[x]? = some n) (hn : n.IsNested = true) (hent : n.entries ≠ [])
    (habs : mapLookup n.entries (keys.getLast hne) = none) :
    Nested.Delete h j keys = (h, .ok ()) := by
  obtain ⟨hv, har⟩ := (isNested_iff n).1 hn
  cases keys with
  | nil => exact absurd rfl hne
  | cons k ks =>
    by_cases hks : ks = []
    · subst hks
      simp only [List.dropLast_single, lookupChain, Option.some.injEq] at hres
      subst hres
      simp only [List.getLast_singleton] at habs
      simp only [Nested.Delete, hx, hv, har, List.length_nil, if_true, if_false,
        Bool.false_eq_true]
      exact deleteEntry_absent hx hent habs
    · have hlen : ks.length ≠ 0 := fun h0 => hks (List.length_eq_zero.mp h0)
      have hdl : (k :: ks).dropLast ≠ [] := by
        obtain ⟨k2, ks2, rfl⟩ := List.exists_cons_of_ne_nil hks
        simp
      have hget := (Get_ok_iff_lookupChain h _ j (some x) hdl).2 hres
      obtain ⟨nj, hnj, hnj1, _⟩ := Get_ok_start hget
      obtain ⟨hvj, harj⟩ := (isNested_iff nj).1 hnj1
      cases j with
      | none => simp [deref] at hnj
      | some a =>
        simp only [deref] at hnj
        simp only [Nested.Delete, hnj, hvj, harj, hlen, hget, hx, hv, har, if_false,
          Bool.false_eq_true]
        exact deleteEntry_absent hx hent habs

theorem FlagsOk.set {h : Heap} (hf : FlagsOk h) (a : Nat) {v : Nested} (hv : v.flagsOk = true) :
    FlagsOk (h.set a v) := by
  intro n hn
  rcases List.mem_or_eq_of_mem_set hn with h1 | h1
  · exact hf n h1
  · exact h1 ▸ hv

theorem FlagsOk.push {h : Heap} (hf : FlagsOk h) (v : Nested) (hv : v.flagsOk = true) :
    FlagsOk (h ++ [v]) := by
  intro n hn
  rcases List.mem_append.1 hn with h1 | h1
  · exact hf n h1
  · simp at h1
    exact h1 ▸ hv

theorem FlagsOk.get {h : Heap} (hf : FlagsOk h) {a : Nat} {n : Nested} (ha : h[a]? = some n) :
    n.flagsOk = true :=
  hf n (List.getElem?_mem ha)

theorem flagsOk_set_nested (n : Nested) (m : Option GoMap) :
    ({ n with nested := m } : Nested).flagsOk = n.flagsOk := rfl

theorem flagsOk_set_array (n : Nested) (m : Option (List Ptr)) :
    ({ n with array := m } : Nested).flagsOk = n.flagsOk := rfl

theorem flagsOk_ownMap (n : Nested) : n.ownMap.flagsOk = n.flagsOk := by
  simp [Nested.flagsOk, ownMap_isValue, ownMap_isArray]

theorem flagsOk_putMap {h : Heap} (hf : FlagsOk h) (a : Nat) {n : Nested} (m : GoMap)
    (hn : n.flagsOk = true) : FlagsOk (putMap h a n m) := by
  unfold putMap
  refine FlagsOk.set ?_ a (by rw [flagsOk_set_nested]; exact hn)
  intro x hx
  obtain ⟨y, hy, rfl⟩ := List.mem_map.1 hx
  by_cases hs : sameMap n y = true
  · simp only [hs, if_true]
    exact hf y hy
  · simp only [hs, if_false]
    exact hf y hy

/-- Storing a map in one more cell changes at most the map number of one cell. -/
theorem shareMap_cases (h : Heap) (m : MapArg) :
    (shareMap h m).1 = h ∨
      ∃ b nb, h[b]? = some nb ∧ (shareMap h m).1 = h.set b { nb with mapId := freshMapId h } := by
  cases m with
  | made m => exact Or.inl rfl
  | heldBy b =>
    cases hb : h[b]? with
    | none => left; simp [shareMap, hb]
    | some nb =>
      cases hm : nb.nested with
      | none => left; simp [shareMap, hb, hm]
      | some entries =>
        by_cases hid : nb.mapId = 0
        · right
          exact ⟨b, nb, hb, by simp [shareMap, hb, hm, hid]⟩
        · left
          simp [shareMap, hb, hm, hid]

theorem shareMap_flagsOk (h : Heap) (m : MapArg) (hf : FlagsOk h) :
    FlagsOk (shareMap h m).1 := by
  rcases shareMap_cases h m with he | ⟨b, nb, hb, he⟩
  · rw [he]; exact hf
  · rw [he]
    have hnb : nb.flagsOk = true := hf.get hb
    exact hf.set b (v := { nb with mapId := freshMapId h }) hnb

theorem shareMap_getElem? (h : Heap) (m : MapArg) (a : Nat) (n : Nested)
    (ha : h[a]? = some n) :
    ∃ i, (shareMap h m).1[a]? = some { n with mapId := i } := by
  rcases shareMap_cases h m with he | ⟨b, nb, hb, he⟩
  · rw [he]; exact ⟨n.mapId, ha⟩
  · rw [he]
    by_cases hab : a = b
    · subst hab
      rw [ha] at hb
      cases hb
      exact ⟨freshMapId h, List.getElem?_set_self (getElem?_lt ha)⟩
    · exact ⟨n.mapId, by rw [List.getElem?_set_ne (Ne.symm hab)]; exact ha⟩

theorem shareMap_length (h : Heap) (m : MapArg) : (shareMap h m).1.length = h.length := by
  rcases shareMap_cases h m with he | ⟨b, nb, hb, he⟩
  · rw [he]
  · rw [he]; simp

theorem Set_flagsOk (keys : List String) :
    ∀ (h : Heap) (j r : Ptr), FlagsOk h → FlagsOk (Nested.Set h j r keys).1 := by
  induction keys with
  | nil => intro h j r hf; simpa [Set_nil] using hf
  | cons k rest ih =>
    intro h j r hf
    rcases Set_cases h j with hj | ⟨a, n, rfl, ha, hn⟩
    · rw [(Set_not_nested_heap h j r (k :: rest) hj).1]; exact hf
    · have hnf := hf.get ha
      by_cases hrest : rest = []
      · subst hrest
        rw [Set_last_gen r k ha hn]
        exact flagsOk_putMap hf a _ (by rw [flagsOk_ownMap]; exact hnf)
      · cases hk : mapLookup n.entries k with
        | some c =>
          rw [Set_existing r hrest ha hn hk, wrap_fst]
          exact ih h c r hf
        | none =>
          rw [Set_missing_gen r hrest ha hn hk, wrap_fst]
          exact ih _ _ r ((flagsOk_putMap hf a _ (by rw [flagsOk_ownMap]; exact hnf)).push {} rfl)

theorem flagsOk_mk_value {n : Nested} (v : GoAny) (hn : n.flagsOk = true)
    (hc : (n.IsEmpty || n.IsValue) = true) :
    ({ n with isValue := true, value := v } : Nested).flagsOk = true := by
  simp only [Nested.flagsOk, Bool.not_eq_true', Bool.and_eq_false_iff] at hn ⊢
  simp only [Bool.or_eq_true] at hc
  rcases hc with he | hv
  · simp [Nested.IsEmpty] at he
    simp [he.1.1]
  · simp only [Nested.IsValue] at hv
    rcases hn with h1 | h1
    · rw [hv] at h1; cases h1
    · simp [h1]

theorem flagsOk_mk_array {n : Nested} (arr : Option (List Ptr)) (hn : n.flagsOk = true)
    (hc : (n.IsEmpty || n.IsArray) = true) :
    ({ n with isArray := true, array := arr } : Nested).flagsOk = true := by
  simp only [Nested.flagsOk, Bool.not_eq_true', Bool.and_eq_false_iff] at hn ⊢
  simp only [Bool.or_eq_true] at hc
  rcases hc with he | hv
  · simp [Nested.IsEmpty] at he
    simp [he.1.2]
  · simp only [Nested.IsArray] at hv
    rcases hn with h1 | h1
    · simp [h1]
    · rw [hv] at h1; cases h1

theorem SetValue_flagsOk (h : Heap) (j : Ptr) (v : GoAny) (keys : List String)
    (hf : FlagsOk h) : FlagsOk (Nested.SetValue h j v keys).1 := by
  cases j with
  | none => simpa [Nested.SetValue] using hf
  | some a =>
    cases ha : h[a]? with
    | none => simpa [Nested.SetValue, ha] using hf
    | some n =>
      simp only [Nested.SetValue, ha]
      split
      · rename_i hc
        simp only [Bool.and_eq_true] at hc
        exact hf.set a (flagsOk_mk_value v (hf.get ha) hc.1)
      · exact Set_flagsOk keys _ _ _ (hf.push { isValue := true, value := v } rfl)

theorem SetMap_flagsOk (h : Heap) (j : Ptr) (m : MapArg) (keys : List String)
    (hf : FlagsOk h) : FlagsOk (Nested.SetMap h j m keys).1 := by
  cases j with
  | none => simpa [Nested.SetMap] using hf
  | some a =>
    cases ha : h[a]? with
    | none => simpa [Nested.SetMap, ha] using hf
    | some n =>
      simp only [Nested.SetMap, ha]
      have hs := shareMap_flagsOk h m hf
      split
      · have hn : n.flagsOk = true := hf.get ha
        exact hs.set a (v := { n with nested := _, mapId := _ }) hn
      · exact Set_flagsOk keys _ _ _ (hs.push _ rfl)

theorem SetArray_flagsOk (h : Heap) (j : Ptr) (arr : Option (List Ptr)) (keys : List String)
    (hf : FlagsOk h) : FlagsOk (Nested.SetArray h j arr keys).1 := by
  cases j with
  | none => simpa [Nested.SetArray] using hf
  | some a =>
    cases ha : h[a]? with
    | none => simpa [Nested.SetArray, ha] using hf
    | some n =>
      simp only [Nested.SetArray, ha]
      split
      · rename_i hc
        simp only [Bool.and_eq_true] at hc
        exact hf.set a (flagsOk_mk_array arr (hf.get ha) hc.1)
      · exact Set_flagsOk keys _ _ _ (hf.push { isArray := true, array := arr } rfl)

theorem deleteEntry_flagsOk (h : Heap) (a : Nat) (n : Nested) (k : String)
    (hf : FlagsOk h) (hn : n.flagsOk = true) : FlagsOk (deleteEntry h a n k).1 := by
  unfold deleteEntry
  cases n.nested with
  | none => exact hf
  | some m => exact flagsOk_putMap hf a _ hn

theorem Delete_flagsOk (h : Heap) (j : Ptr) (keys : List String)
    (hf : FlagsOk h) : FlagsOk (Nested.Delete h j keys).1 := by
  cases keys with
  | nil => simpa [Nested.Delete] using hf
  | cons k ks =>
    cases j with
    | none => simpa [Nested.Delete] using hf
    | some a =>
      cases ha : h[a]? with
      | none => simpa [Nested.Delete, ha] using hf
      | some n =>
        simp only [Nested.Delete, ha]
        split
        · exact hf
        · split
          · exact hf
          · split
            · exact deleteEntry_flagsOk h a n k hf (hf.get ha)
            · split
              · exact hf
              · exact hf
              · rename_i nested _
                cases nested with
                | none => exact hf
                | some b =>
                  cases hb : h[b]? with
                  | none => simpa [hb] using hf
                  | some x =>
                    simp only [hb]
                    split
                    · exact hf
                    · split
                      · exact hf
                      · exact deleteEntry_flagsOk h b x _ hf (hf.get hb)

theorem ArrayAdd_flagsOk (h : Heap) (j e : Ptr) (keys : List String)
    (hf : FlagsOk h) : FlagsOk (Nested.ArrayAdd h j e keys).1 := by
  cases j with
  | none => simpa [Nested.ArrayAdd] using hf
  | some a =>
    cases ha : h[a]? with
    | none => simpa [Nested.ArrayAdd, ha] using hf
    | some n =>
      simp only [Nested.ArrayAdd, ha]
      split
      · split
        · exact hf
        · split
          · exact hf
          · exact hf.set a (by rw [flagsOk_set_array]; exact hf.get ha)
      · split
        · exact hf
        · split
          · exact hf
          · split
            · exact hf
            · exact hf
            · rename_i nested _
              cases nested with
              | none => exact hf
              | some b =>
                cases hb : h[b]? with
                | none => simpa [hb] using hf
                | some x =>
                  simp only [hb]
                  split
                  · exact hf
                  · split
                    · exact hf
                    · exact hf.set b (by rw [flagsOk_set_array]; exact hf.get hb)

theorem ArrayAddValue_flagsOk (h : Heap) (j : Ptr) (v : GoAny) (keys : List String)
    (hf : FlagsOk h) : FlagsOk (Nested.ArrayAddValue h j v keys).1 :=
  ArrayAdd_flagsOk _ _ _ _ (hf.push { isValue := true, value := v } rfl)

theorem ArrayAddArray_flagsOk (h : Heap) (j : Ptr) (arr : Option (List Ptr))
    (keys : List String) (hf : FlagsOk h) : FlagsOk (Nested.ArrayAddArray h j arr keys).1 :=
  ArrayAdd_flagsOk _ _ _ _ (hf.push { isArray := true, array := arr } rfl)

theorem clearElems_flagsOk {rec : Heap → Ptr → Option (Heap × Result Unit)}
    (hrec : KeepsFlags rec) :
    ∀ (es : List Ptr) (h h2 : Heap) (r : Result Unit),
      clearElems rec h es = some (h2, r) → FlagsOk h → FlagsOk h2 := by
  intro es
  induction es with
  | nil =>
    intro h h2 r hc hf
    simp only [clearElems, Option.some.injEq, Prod.mk.injEq] at hc
    exact hc.1 ▸ hf
  | cons e es ih =>
    intro h h2 r hc hf
    simp only [clearElems] at hc
    cases hr : rec h e with
    | none => simp [hr] at hc
    | some x =>
      obtain ⟨h1, r1⟩ := x
      have hf1 := hrec h e h1 r1 hr hf
      cases r1 with
      | panic =>
        simp only [hr, Option.some.injEq, Prod.mk.injEq] at hc
        exact hc.1 ▸ hf1
      | ok v =>
        simp only [hr] at hc
        exact ih h1 h2 r hc hf1
      | error m =>
        simp only [hr] at hc
        exact ih h1 h2 r hc hf1

theorem clearKeys_flagsOk {rec : Heap → Ptr → Option (Heap × Result Unit)}
    (hrec : KeepsFlags rec) (a : Nat) :
    ∀ (ks : List String) (h h2 : Heap) (r : Result Unit),
      clearKeys rec a h ks = some (h2, r) → FlagsOk h → FlagsOk h2 := by
  intro ks
  induction ks with
  | nil =>
    intro h h2 r hc hf
    simp only [clearKeys, Option.some.injEq, Prod.mk.injEq] at hc
    exact hc.1 ▸ hf
  | cons k ks ih =>
    intro h h2 r hc hf
    simp only [clearKeys] at hc
    cases ha : h[a]? with
    | none =>
      simp only [ha, Option.some.injEq, Prod.mk.injEq] at hc
      exact hc.1 ▸ hf
    | some n =>
      simp only [ha] at hc
      cases hk : mapLookup n.entries k with
      | none =>
        simp only [hk] at hc
        exact ih h h2 r hc hf
      | some child =>
        simp only [hk] at hc
        cases hr : rec h child with
        | none => simp [hr] at hc
        | some x =>
          obtain ⟨h1, r1⟩ := x
          have hf1 := hrec h child h1 r1 hr hf
          have key : ∀ (h1 : Heap), FlagsOk h1 →
              (match h1[a]? with
                | none => some (h1, Result.panic)
                | some n1 =>
                  match deleteEntry h1 a n1 k with
                  | (h2, .ok _) => clearKeys rec a h2 ks
                  | (h2, r) => some (h2, r)) = some (h2, r) → FlagsOk h2 := by
            intro h1 hf1 hc
            cases h1a : h1[a]? with
            | none =>
              simp only [h1a, Option.some.injEq, Prod.mk.injEq] at hc
              exact hc.1 ▸ hf1
            | some n1 =>
              simp only [h1a] at hc
              have hfd := deleteEntry_flagsOk h1 a n1 k hf1 (hf1.get h1a)
              cases hd : deleteEntry h1 a n1 k with
              | mk h3 r3 =>
                rw [hd] at hfd hc
                cases r3 with
                | ok v => exact ih h3 h2 r hc hfd
                | error m =>
                  simp only [Option.some.injEq, Prod.mk.injEq] at hc
                  exact hc.1 ▸ hfd
                | panic =>
                  simp only [Option.some.injEq, Prod.mk.injEq] at hc
                  exact hc.1 ▸ hfd
          cases r1 with
          | panic =>
            simp only [hr, Option.some.injEq, Prod.mk.injEq] at hc
            exact hc.1 ▸ hf1
          | ok v =>
            simp only [hr] at hc
            exact key h1 hf1 hc
          | error m =>
            simp only [hr] at hc
            exact key h1 hf1 hc

theorem flagsOk_clear_value {n : Nested} :
    ({ n with isValue := false, value := GoAny.nil } : Nested).flagsOk = true := by
  simp [Nested.flagsOk]

theorem flagsOk_clear_array {n : Nested} :
    ({ n with isArray := false, array := none } : Nested).flagsOk = true := by
  simp [Nested.flagsOk]

theorem clearBody_flagsOk {rec : Heap → Ptr → Option (Heap × Result Unit)}
    (hrec : KeepsFlags rec) : KeepsFlags (clearBody rec) := by
  intro h p h2 r hc hf
  cases p with
  | none =>
    simp only [clearBody, Option.some.injEq, Prod.mk.injEq] at hc
    exact hc.1 ▸ hf
  | some a =>
    cases ha : h[a]? with
    | none =>
      simp only [clearBody, ha, Option.some.injEq, Prod.mk.injEq] at hc
      exact hc.1 ▸ hf
    | some n =>
      simp only [clearBody, ha] at hc
      split at hc
      · simp only [Option.some.injEq, Prod.mk.injEq] at hc
        exact hc.1 ▸ hf.set a flagsOk_clear_value
      · split at hc
        · cases he : clearElems rec h n.elems with
          | none => simp [he] at hc
          | some x =>
            obtain ⟨h1, r1⟩ := x
            have hf1 := clearElems_flagsOk hrec n.elems h h1 r1 he hf
            cases r1 with
            | ok v =>
              simp only [he] at hc
              cases h1a : h1[a]? with
              | none =>
                simp only [h1a, Option.some.injEq, Prod.mk.injEq] at hc
                exact hc.1 ▸ hf1
              | some n1 =>
                simp only [h1a, Option.some.injEq, Prod.mk.injEq] at hc
                exact hc.1 ▸ hf1.set a flagsOk_clear_array
            | error m =>
              simp only [he, Option.some.injEq, Prod.mk.injEq] at hc
              exact hc.1 ▸ hf1
            | panic =>
              simp only [he, Option.some.injEq, Prod.mk.injEq] at hc
              exact hc.1 ▸ hf1
        · exact clearKeys_flagsOk hrec a _ h h2 r hc hf

theorem Clear_flagsOk : ∀ fuel, KeepsFlags (Nested.Clear fuel) := by
  intro fuel
  induction fuel with
  | zero => intro h p h2 r hc; simp [Nested.Clear] at hc
  | succ fuel ih => exact clearBody_flagsOk ih

theorem spliceOwner_flagsOk (h : Heap) (owner : Ptr) (array : List Ptr) (index : Nat)
    (hf : FlagsOk h) : FlagsOk (spliceOwner h owner array index) := by
  cases owner with
  | none => simpa [spliceOwner] using hf
  | some o =>
    cases ho : h[o]? with
    | none => simpa [spliceOwner, ho] using hf
    | some n =>
      simp only [spliceOwner, ho]
      exact hf.set o (by rw [flagsOk_set_array]; exact hf.get ho)

theorem arrayDeleteLoop_flagsOk {rec : Heap → Ptr → Option (Heap × Result Unit)}
    (hrec : KeepsFlags rec) (f : Heap → Ptr → Bool) (owner : Ptr) :
    ∀ (count : Nat) (h : Heap) (array : List Ptr) (h2 : Heap) (r : Result (List Ptr)),
      arrayDeleteLoop rec f owner h array count = some (h2, r) → FlagsOk h → FlagsOk h2 := by
  intro count
  induction count with
  | zero =>
    intro h array h2 r hc hf
    simp only [arrayDeleteLoop, Option.some.injEq, Prod.mk.injEq] at hc
    exact hc.1 ▸ hf
  | succ index ih =>
    intro h array h2 r hc hf
    simp only [arrayDeleteLoop] at hc
    cases he : array[index]? with
    | none =>
      simp only [he, Option.some.injEq, Prod.mk.injEq] at hc
      exact hc.1 ▸ hf
    | some element =>
      simp only [he] at hc
      split at hc
      · cases hr : rec h element with
        | none => simp [hr] at hc
        | some x =>
          obtain ⟨h1, r1⟩ := x
          have hf1 := hrec h element h1 r1 hr hf
          have hwb := spliceOwner_flagsOk h1 owner array index hf1
          cases r1 with
          | panic =>
            simp only [hr, Option.some.injEq, Prod.mk.injEq] at hc
            exact hc.1 ▸ hf1
          | ok v =>
            simp only [hr] at hc
            exact ih _ _ h2 r hc hwb
          | error m =>
            simp only [hr] at hc
            exact ih _ _ h2 r hc hwb
      · exact ih h array h2 r hc hf

theorem ArrayDelete_flagsOk (fuel : Nat) (h : Heap) (j : Ptr) (f : Heap → Ptr → Bool)
    (keys : List String) (h2 : Heap) (r : Result Unit)
    (hc : Nested.ArrayDelete fuel h j f keys = some (h2, r)) (hf : FlagsOk h) : FlagsOk h2 := by
  simp only [Nested.ArrayDelete] at hc
  cases hg : Nested.GetArray h j keys with
  | error e =>
    simp only [hg, Option.some.injEq, Prod.mk.injEq] at hc
    exact hc.1 ▸ hf
  | panic =>
    simp only [hg, Option.some.injEq, Prod.mk.injEq] at hc
    exact hc.1 ▸ hf
  | ok array =>
    simp only [hg] at hc
    cases hl : arrayDeleteLoop (Nested.Clear fuel) f (arrayOwner h j keys) h (array.getD [])
        (array.getD []).length with
    | none => simp [hl] at hc
    | some x =>
      obtain ⟨h1, r1⟩ := x
      have hf1 := arrayDeleteLoop_flagsOk (Clear_flagsOk fuel) f _ _ _ _ _ _ hl hf
      cases r1 with
      | ok array1 =>
        simp only [hl, Option.some.injEq] at hc
        have := SetArray_flagsOk h1 j (array.map (fun _ => array1)) keys hf1
        rw [hc] at this
        exact this
      | error e =>
        simp only [hl, Option.some.injEq, Prod.mk.injEq] at hc
        exact hc.1 ▸ hf1
      | panic =>
        simp only [hl, Option.some.injEq, Prod.mk.injEq] at hc
        exact hc.1 ▸ hf1

mutual
theorem FromObject_flagsOk (lib : GoLib) : ∀ (obj : GoAny) (h : Heap),
    FlagsOk h → FlagsOk (FromObject lib h obj).1
  | .map kvObject, h, hf => by
    rw [FromObject]
    exact (fromObjectEntries_flagsOk lib kvObject h [] hf).push _ rfl
  | .slice arrayObject, h, hf => by
    rw [FromObject]
    exact (fromObjectElems_flagsOk lib arrayObject h none hf).push _ rfl
  | .float64 value, h, hf => by
    rw [FromObject]
    split
    · exact hf.push _ rfl
    · exact hf.push _ rfl
  | .nil, h, hf => by rw [FromObject]; exact hf.push _ rfl
  | .int n, h, hf => by rw [FromObject]; exact hf.push _ rfl
  | .uint64 n, h, hf => by rw [FromObject]; exact hf.push _ rfl
  | .bool b, h, hf => by rw [FromObject]; exact hf.push _ rfl
  | .string s, h, hf => by rw [FromObject]; exact hf.push _ rfl
  | .other typ id, h, hf => by rw [FromObject]; exact hf.push _ rfl
theorem fromObjectEntries_flagsOk (lib : GoLib) : ∀ (kvs : List (String × GoAny)) (h : Heap)
    (nested : GoMap), FlagsOk h → FlagsOk (fromObjectEntries lib h nested kvs).1
  | [], h, nested, hf => by rw [fromObjectEntries]; exact hf
  | (k, v) :: rest, h, nested, hf => by
    rw [fromObjectEntries]
    exact fromObjectEntries_flagsOk lib rest _ _ (FromObject_flagsOk lib v h hf)
theorem fromObjectElems_flagsOk (lib : GoLib) : ∀ (xs : List GoAny) (h : Heap)
    (array : Option (List Ptr)), FlagsOk h → FlagsOk (fromObjectElems lib h array xs).1
  | [], h, array, hf => by rw [fromObjectElems]; exact hf
  | element :: rest, h, array, hf => by
    rw [fromObjectElems]
    exact fromObjectElems_flagsOk lib rest _ _ (FromObject_flagsOk lib element h hf)
end

theorem FromJSONString_flagsOk (lib : GoLib) (h : Heap) (s : String) (hf : FlagsOk h) :
    FlagsOk (FromJSONString lib h s).1 := by
  unfold FromJSONString
  split
  · exact FromObject_flagsOk lib _ h hf
  · split
    · exact FromObject_flagsOk lib _ h hf
    · exact hf.push _ rfl

theorem Reachable_flagsOk {lib : GoLib} {h : Heap} (hr : Reachable lib h) : FlagsOk h := by
  induction hr with
  | init => intro n hn; simp at hn
  | construct _ ih => exact ih.push {} rfl
  | set j r keys _ ih => exact Set_flagsOk keys _ j r ih
  | setValue j v keys _ ih => exact SetValue_flagsOk _ j v keys ih
  | setMap j m keys _ ih => exact SetMap_flagsOk _ j m keys ih
  | setArray j arr keys _ ih => exact SetArray_flagsOk _ j arr keys ih
  | delete j keys _ ih => exact Delete_flagsOk _ j keys ih
  | arrayAdd j e keys _ ih => exact ArrayAdd_flagsOk _ j e keys ih
  | arrayAddValue j v keys _ ih => exact ArrayAddValue_flagsOk _ j v keys ih
  | arrayAddArray j arr keys _ ih => exact ArrayAddArray_flagsOk _ j arr keys ih
  | arrayDelete fuel j f keys _ hc ih => exact ArrayDelete_flagsOk fuel _ j f keys _ _ hc ih
  | clear fuel j _ hc ih => exact Clear_flagsOk fuel _ j _ _ hc ih
  | fromObject obj _ ih => exact FromObject_flagsOk lib obj _ ih
  | fromJSONString s _ ih => exact FromJSONString_flagsOk lib _ s ih

/-- C9. Shape invariant: in every heap that arises from freshly constructed nodes by a
finite sequence of the public operations, every cell has exactly one of `IsValue()`,
`IsArray()`, `IsNested()` true, and the flags `isValue` and `isArray` are not both set. -/
theorem shape_invariant (lib : GoLib) (h : Heap) (hr : Reachable lib h) (a : Nat) (n : Nested)
    (hn : h[a]? = some n) :
    ((n.IsValue && !n.IsArray && !n.IsNested) || (!n.IsValue && n.IsArray && !n.IsNested)
      || (!n.IsValue && !n.IsArray && n.IsNested)) = true ∧
    (n.isValue && n.isArray) = false := by
  have hf := (Reachable_flagsOk hr).get hn
  simp only [Nested.flagsOk, Bool.not_eq_true'] at hf
  refine ⟨?_, hf⟩
  simp only [Nested.IsValue, Nested.IsArray, Nested.IsNested]
  cases hv : n.isValue <;> cases ha : n.isArray <;> simp [hv, ha] at hf ⊢

theorem clearElems_mono {r1 r2 : Heap → Ptr → Option (Heap × Result Unit)} (hle : RecLe r1 r2) :
    ∀ (es : List Ptr) (h : Heap) (x : Heap × Result Unit),
      clearElems r1 h es = some x → clearElems r2 h es = some x := by
  intro es
  induction es with
  | nil => intro h x hc; simpa [clearElems] using hc
  | cons e es ih =>
    intro h x hc
    simp only [clearElems] at hc ⊢
    cases hr : r1 h e with
    | none => simp [hr] at hc
    | some y =>
      rw [hle h e y hr]
      rw [hr] at hc
      obtain ⟨h1, res⟩ := y
      cases res with
      | panic => exact hc
      | ok v => exact ih h1 x hc
      | error m => exact ih h1 x hc

theorem clearKeys_mono {r1 r2 : Heap → Ptr → Option (Heap × Result Unit)} (hle : RecLe r1 r2)
    (a : Nat) :
    ∀ (ks : List String) (h : Heap) (x : Heap × Result Unit),
      clearKeys r1 a h ks = some x → clearKeys r2 a h ks = some x := by
  intro ks
  induction ks with
  | nil => intro h x hc; simpa [clearKeys] using hc
  | cons k ks ih =>
    intro h x hc
    simp only [clearKeys] at hc ⊢
    cases ha : h[a]? with
    | none => simpa [ha] using hc
    | some n =>
      simp only [ha] at hc ⊢
      cases hk : mapLookup n.entries k with
      | none =>
        simp only [hk] at hc ⊢
        exact ih h x hc
      | some child =>
        simp only [hk] at hc ⊢
        cases hr : r1 h child with
        | none => simp [hr] at hc
        | some y =>
          rw [hle h child y hr]
          rw [hr] at hc
          obtain ⟨h1, res⟩ := y
          have key : ∀ (h1 : Heap),
              (match h1[a]? with
                | none => some (h1, Result.panic)
                | some n1 =>
                  match deleteEntry h1 a n1 k with
                  | (h2, .ok _) => clearKeys r1 a h2 ks
                  | (h2, r) => some (h2, r)) = some x →
              (match h1[a]? with
                | none => some (h1, Result.panic)
                | some n1 =>
                  match deleteEntry h1 a n1 k with
                  | (h2, .ok _) => clearKeys r2 a h2 ks
                  | (h2, r) => some (h2, r)) = some x := by
            intro h1 hc
            cases h1a : h1[a]? with
            | none => simpa [h1a] using hc
            | some n1 =>
              simp only [h1a] at hc ⊢
              cases hd : deleteEntry h1 a n1 k with
              | mk h3 r3 =>
                rw [hd] at hc
                cases r3 with
                | ok v => exact ih h3 x hc
                | error m => exact hc
                | panic => exact hc
          cases res with
          | panic => exact hc
          | ok v => exact key h1 hc
          | error m => exact key h1 hc

theorem clearBody_mono {r1 r2 : Heap → Ptr → Option (Heap × Result Unit)} (hle : RecLe r1 r2) :
    RecLe (clearBody r1) (clearBody r2) := by
  intro h p x hc
  cases p with
  | none => simpa [clearBody] using hc
  | some a =>
    cases ha : h[a]? with
    | none => simpa [clearBody, ha] using hc
    | some n =>
      simp only [clearBody, ha] at hc ⊢
      split
      · rename_i hv
        simpa [hv] using hc
      · rename_i hv
        simp only [hv, if_false, Bool.false_eq_true] at hc
        split
        · rename_i har
          simp only [har, if_true] at hc
          cases he : clearElems r1 h n.elems with
          | none => simp [he] at hc
          | some y =>
            rw [clearElems_mono hle n.elems h y he]
            rw [he] at hc
            exact hc
        · rename_i har
          simp only [har, if_false, Bool.false_eq_true] at hc
          exact clearKeys_mono hle a _ h x hc

theorem Clear_mono : ∀ d, RecLe (Nested.Clear d) (Nested.Clear (d + 1)) := by
  intro d
  induction d with
  | zero => intro h p x hc; simp [Nested.Clear] at hc
  | succ d ih => exact clearBody_mono ih

theorem Clear_mono_le {d d2 : Nat} (hle : d ≤ d2) : RecLe (Nested.Clear d) (Nested.Clear d2) := by
  induction hle with
  | refl => intro h p x hc; exact hc
  | step _ ih => intro h p x hc; exact Clear_mono _ h p x (ih h p x hc)

/-- The result of `Clear` does not depend on the bound, once the bound suffices. -/
theorem Clear_deterministic {d d2 : Nat} {h : Heap} {p : Ptr} {x y : Heap × Result Unit}
    (hx : Nested.Clear d h p = some x) (hy : Nested.Clear d2 h p = some y) : x = y := by
  rcases Nat.le_total d d2 with hle | hle
  · have := Clear_mono_le hle h p x hx
    rw [hy] at this
    exact (Option.some.inj this).symm
  · have := Clear_mono_le hle h p y hy
    rw [hx] at this
    exact Option.some.inj this

theorem clearElems_no_error {rec : Heap → Ptr → Option (Heap × Result Unit)} :
    ∀ (es : List Ptr) (h h2 : Heap) (e : String), clearElems rec h es ≠ some (h2, .error e) := by
  intro es
  induction es with
  | nil => intro h h2 e hc; simp [clearElems] at hc
  | cons x es ih =>
    intro h h2 e hc
    simp only [clearElems] at hc
    cases hr : rec h x with
    | none => simp [hr] at hc
    | some y =>
      rw [hr] at hc
      obtain ⟨h1, res⟩ := y
      cases res with
      | panic => simp at hc
      | ok v => exact ih h1 h2 e hc
      | error m => exact ih h1 h2 e hc

theorem deleteEntry_no_error (h : Heap) (a : Nat) (n : Nested) (k : String) (h2 : Heap)
    (e : String) : deleteEntry h a n k ≠ (h2, .error e) := by
  unfold deleteEntry
  cases n.nested <;> simp

theorem clearKeys_no_error {rec : Heap → Ptr → Option (Heap × Result Unit)} (a : Nat) :
    ∀ (ks : List String) (h h2 : Heap) (e : String),
      clearKeys rec a h ks ≠ some (h2, .error e) := by
  intro ks
  induction ks with
  | nil => intro h h2 e hc; simp [clearKeys] at hc
  | cons k ks ih =>
    intro h h2 e hc
    simp only [clearKeys] at hc
    cases ha : h[a]? with
    | none => simp [ha] at hc
    | some n =>
      simp only [ha] at hc
      cases hk : mapLookup n.entries k with
      | none =>
        simp only [hk] at hc
        exact ih h h2 e hc
      | some child =>
        simp only [hk] at hc
        cases hr : rec h child with
        | none => simp [hr] at hc
        | some y =>
          rw [hr] at hc
          obtain ⟨h1, res⟩ := y
          have key : ∀ (h1 : Heap),
              (match h1[a]? with
                | none => some (h1, Result.panic)
                | some n1 =>
                  match deleteEntry h1 a n1 k with
                  | (h2, .ok _) => clearKeys rec a h2 ks
                  | (h2, r) => some (h2, r)) ≠ some (h2, .error e) := by
            intro h1 hc
            cases h1a : h1[a]? with
            | none => simp [h1a] at hc
            | some n1 =>
              simp only [h1a] at hc
              cases hd : deleteEntry h1 a n1 k with
              | mk h3 r3 =>
                rw [hd] at hc
                cases r3 with
                | ok v => exact ih h3 h2 e hc
                | error m =>
                  exact deleteEntry_no_error h1 a n1 k h3 m hd
                | panic => simp at hc
          cases res with
          | panic => simp at hc
          | ok v => exact key h1 hc
          | error m => exact key h1 hc

/-- `Clear` never returns a Go error. -/
theorem Clear_no_error (d : Nat) (h : Heap) (p : Ptr) (h2 : Heap) (e : String) :
    Nested.Clear d h p ≠ some (h2, .error e) := by
  cases d with
  | zero => simp [Nested.Clear]
  | succ d =>
    rw [Clear_succ]
    intro hc
    cases p with
    | none => simp [clearBody] at hc
    | some a =>
      cases ha : h[a]? with
      | none => simp [clearBody, ha] at hc
      | some n =>
        simp only [clearBody, ha] at hc
        split at hc
        · simp at hc
        · split at hc
          · cases he : clearElems (Nested.Clear d) h n.elems with
            | none => simp [he] at hc
            | some y =>
              rw [he] at hc
              obtain ⟨h1, res⟩ := y
              cases res with
              | ok v =>
                simp only at hc
                cases h1a : h1[a]? with
                | none => simp [h1a] at hc
                | some n1 => simp [h1a] at hc
              | error m => exact clearElems_no_error _ _ _ _ he
              | panic => simp at hc
          · exact clearKeys_no_error a _ h h2 e hc

theorem Clear_nil_not_ok (d : Nat) (h h2 : Heap) :
    Nested.Clear d h none ≠ some (h2, .ok ()) := by
  cases d with
  | zero => simp [Nested.Clear]
  | succ d => simp [Clear_succ, clearBody]

theorem wellFormed_mono_le {d d2 : Nat} (hle : d ≤ d2) (h : Heap) (p : Ptr)
    (hw : wellFormed d h p = true) : wellFormed d2 h p = true := by
  induction hle with
  | refl => exact hw
  | step _ ih => exact wellFormed_mono _ h p ih

theorem uniform_depth (h : Heap) : ∀ (l : List Ptr),
    (∀ c ∈ l, ∃ D, wellFormed D h c = true) → ∃ D, ∀ c ∈ l, wellFormed D h c = true := by
  intro l
  induction l with
  | nil => intro _; exact ⟨0, fun c hc => by simp at hc⟩
  | cons c l ih =>
    intro hall
    obtain ⟨D1, hD1⟩ := hall c (by simp)
    obtain ⟨D2, hD2⟩ := ih (fun c2 hc2 => hall c2 (by simp [hc2]))
    refine ⟨max D1 D2, ?_⟩
    intro c2 hc2
    rcases List.mem_cons.1 hc2 with rfl | hin
    · exact wellFormed_mono_le (le_max_left _ _) h _ hD1
    · exact wellFormed_mono_le (le_max_right _ _) h _ (hD2 c2 hin)

/-- A node that is well formed in `hc` is well formed in `h` when every cell below it
is the same in both heaps or was well formed in `h`. -/
theorem wellFormed_unclear (d : Nat) : ∀ {hc h : Heap} {x : Nat},
    (∀ b, Contains hc x b → (hc[b]? = h[b]? ∨ ∃ D, wellFormed D h (some b) = true)) →
    wellFormed d hc (some x) = true → ∃ D, wellFormed D h (some x) = true := by
  induction d with
  | zero => intro hc h x _ hw; simp [wellFormed_zero] at hw
  | succ d ih =>
    intro hc h x hrel hw
    obtain ⟨x2, n, hx2, hn, hsh, hch⟩ := (wellFormed_succ_iff d hc _).1 hw
    cases hx2
    rcases hrel x (Contains.refl x) with hsame | hwf
    · have hall : ∀ c ∈ n.children, ∃ D, wellFormed D h c = true := by
        intro c hc2
        obtain ⟨y, rfl, hwy⟩ := wellFormed_child hw hn hc2
        exact ih (fun b hb => hrel b (Contains.step hn hc2 hb)) hwy
      obtain ⟨D, hD⟩ := uniform_depth h n.children hall
      exact ⟨D + 1, (wellFormed_succ_iff D h _).2 ⟨x, n, rfl, by rw [← hsame]; exact hn, hsh, hD⟩⟩
    · exact hwf

theorem sub_post {d : Nat} (hT : ClearOkWellFormed d) {hc hc2 : Heap} {x : Nat}
    (hs : Shaped hc) (hu : Unshared hc)
    (hclear : Nested.Clear d hc (some x) = some (hc2, .ok ())) :
    ∃ D0, wellFormed D0 hc (some x) = true ∧ hc2.length = hc.length ∧
      (∀ b, ¬ Contains hc x b → hc2[b]? = hc[b]?) ∧ (∀ b, Contains hc x b → EmptyAt hc2 b) ∧
      Unshared hc2 := by
  obtain ⟨D0, hD0⟩ := hT hc x hc2 hs hu hclear
  obtain ⟨h3, hc3, hlen, hframe, hemp, hown⟩ := Clear_spec D0 hc x hu hD0
  have := Clear_deterministic hclear hc3
  cases this
  exact ⟨D0, hD0, hlen, hframe, hemp, hown⟩

theorem Shaped_of_same_or_empty {hc hc2 : Heap} (hs : Shaped hc)
    (hrel : ∀ b, hc2[b]? = hc[b]? ∨ EmptyAt hc2 b) : Shaped hc2 := by
  intro n hn
  obtain ⟨b, hb⟩ := List.mem_iff_getElem?.1 hn
  rcases hrel b with hsame | ⟨nb, hnb, he⟩
  · exact hs n (List.getElem?_mem (by rw [← hsame]; exact hb))
  · rw [hb] at hnb
    cases hnb
    exact wellShaped_of_isEmpty he

theorem elems_wf {d : Nat} (hT : ClearOkWellFormed d) {h : Heap} :
    ∀ (es : List Ptr) (hc h1 : Heap), Shaped hc → Unshared hc →
      (∀ b, hc[b]? = h[b]? ∨ ∃ D, wellFormed D h (some b) = true) →
      clearElems (Nested.Clear d) hc es = some (h1, .ok ()) →
      ∀ e ∈ es, ∃ D, wellFormed D h e = true := by
  intro es
  induction es with
  | nil => intro hc h1 _ _ _ _ e he; simp at he
  | cons e0 es ih =>
    intro hc h1 hs hu hrel hloop e he
    simp only [clearElems] at hloop
    cases hr : Nested.Clear d hc e0 with
    | none => simp [hr] at hloop
    | some y =>
      rw [hr] at hloop
      obtain ⟨hc2, res⟩ := y
      cases res with
      | panic => simp at hloop
      | error m => exact absurd hr (Clear_no_error d hc e0 hc2 m)
      | ok v =>
        simp only at hloop
        cases e0 with
        | none => exact absurd hr (Clear_nil_not_ok d hc hc2)
        | some x =>
          obtain ⟨D0, hD0, _, hframe, hemp, hown⟩ := sub_post hT hs hu hr
          have hx : ∃ D, wellFormed D h (some x) = true :=
            wellFormed_unclear D0 (fun b _ => hrel b) hD0
          have hs2 : Shaped hc2 := Shaped_of_same_or_empty hs (fun b => by
            by_cases hcb : Contains hc x b
            · exact Or.inr (hemp b hcb)
            · exact Or.inl (hframe b hcb))
          have hrel2 : ∀ b, hc2[b]? = h[b]? ∨ ∃ D, wellFormed D h (some b) = true := by
            intro b
            by_cases hcb : Contains hc x b
            · exact Or.inr (wellFormed_unclear D0 (fun b2 _ => hrel b2)
                (wellFormed_contains hcb D0 hD0))
            · rcases hrel b with hsame | hwf
              · exact Or.inl (by rw [hframe b hcb, hsame])
              · exact Or.inr hwf
          rcases List.mem_cons.1 he with rfl | hin
          · exact hx
          · exact ih hc2 h1 hs2 hown hrel2 hloop e hin

theorem mapDelete_keys_sublist (m : GoMap) (k : String) :
    ((mapDelete m k).map Prod.fst).Sublist (m.map Prod.fst) := by
  induction m with
  | nil => simp [mapDelete]
  | cons e m ih =>
    obtain ⟨k2, v2⟩ := e
    by_cases hk : k2 = k
    · simp only [mapDelete, hk, if_true, List.map_cons]
      exact List.Sublist.cons _ ih
    · simp only [mapDelete, hk, if_false, List.map_cons]
      exact List.Sublist.cons₂ _ ih

theorem wellShaped_delete {n : Nested} (hn : n.IsNested = true) (hs : n.wellShaped = true)
    (k : String) :
    ({ n with nested := some (mapDelete (mapStore n.entries k none) k) } : Nested).wellShaped
      = true := by
  obtain ⟨hv, ha⟩ := (isNested_iff n).1 hn
  simp only [Nested.IsValue, Nested.IsArray] at hv ha
  simp only [Nested.wellShaped, Bool.and_eq_true, decide_eq_true_eq, Bool.or_eq_true,
    Bool.not_eq_true', beq_iff_eq] at hs ⊢
  refine ⟨⟨?_, Or.inl hv⟩, Or.inl ha⟩
  show ((mapDelete (mapStore n.entries k none) k).map Prod.fst).Nodup
  rw [mapDelete_mapStore]
  exact hs.1.1.sublist (mapDelete_keys_sublist _ _)

theorem Shaped_set {h : Heap} (hs : Shaped h) (a : Nat) {v : Nested} (hv : v.wellShaped = true) :
    Shaped (h.set a v) := by
  intro n hn
  rcases List.mem_or_eq_of_mem_set hn with h1 | h1
  · exact hs n h1
  · exact h1 ▸ hv

theorem keys_wf {d : Nat} (hT : ClearOkWellFormed d) {h : Heap} {a : Nat} {n : Nested} :
    ∀ (ks : List String) (hc h1 : Heap) (acur : Nested), ks.Nodup → Shaped hc →
      Unshared hc → (∀ b, b ≠ a → (hc[b]? = h[b]? ∨ ∃ D, wellFormed D h (some b) = true)) →
      hc[a]? = some acur → acur.IsNested = true →
      (∀ k ∈ ks, mapLookup acur.entries k = mapLookup n.entries k) →
      clearKeys (Nested.Clear d) a hc ks = some (h1, .ok ()) →
      ∀ k ∈ ks, ∀ c, mapLookup n.entries k = some c → ∃ D, wellFormed D h c = true := by
  intro ks
  induction ks with
  | nil => intro hc h1 acur _ _ _ _ _ _ _ _ k hk; simp at hk
  | cons k0 ks ih =>
    intro hc h1 acur hnd hs hu hrel hca hnest hsame hloop k hk c hc0
    obtain ⟨hk0_notin, hnd2⟩ := List.nodup_cons.1 hnd
    simp only [clearKeys, hca] at hloop
    cases hl : mapLookup acur.entries k0 with
    | none =>
      simp only [hl] at hloop
      rcases List.mem_cons.1 hk with rfl | hin
      · rw [← hsame k (by simp), hl] at hc0
        cases hc0
      · exact ih hc h1 acur hnd2 hs hu hrel hca hnest
          (fun k2 hk2 => hsame k2 (by simp [hk2])) hloop k hin c hc0
    | some child =>
      simp only [hl] at hloop
      cases hr : Nested.Clear d hc child with
      | none => simp [hr] at hloop
      | some y =>
        rw [hr] at hloop
        obtain ⟨hc2, res⟩ := y
        cases res with
        | panic => simp at hloop
        | error m => exact absurd hr (Clear_no_error d hc child hc2 m)
        | ok v =>
          simp only at hloop
          cases child with
          | none => exact absurd hr (Clear_nil_not_ok d hc hc2)
          | some x =>
            obtain ⟨D0, hD0, _, hframe, hemp, hown⟩ := sub_post hT hs hu hr
            have hchild : some x ∈ acur.children := by
              obtain ⟨hv, har⟩ := (isNested_iff acur).1 hnest
              simp only [Nested.children, hv, har, if_false, Bool.false_eq_true]
              exact mapLookup_mem_values hl
            have hacyc : ¬ Contains hc x a := by
              intro hcont
              exact wellFormed_acyclic D0 (wellFormed_contains hcont D0 hD0) hca hchild hcont
            have hbelow : ∀ y2, Contains hc x y2 → ∀ b, Contains hc y2 b →
                (hc[b]? = h[b]? ∨ ∃ D, wellFormed D h (some b) = true) := by
              intro y2 hy2 b hb
              have hba : b ≠ a := fun e => hacyc (e ▸ Contains.trans hy2 hb)
              exact hrel b hba
            have hx : ∃ D, wellFormed D h (some x) = true :=
              wellFormed_unclear D0 (hbelow x (Contains.refl x)) hD0
            have hca2 : hc2[a]? = some acur := by rw [hframe a hacyc, hca]
            have halt : a < hc2.length := getElem?_lt hca2
            have hnested := nested_eq_some_entries hl
            have hfacts : ∃ acur2 : Nested, deleteEntry hc2 a acur k0 = (hc2.set a acur2, .ok ()) ∧
                acur2.IsNested = true ∧ acur2.wellShaped = true ∧
                acur2.entries = mapDelete acur.entries k0 :=
              ⟨{ acur with nested := some (mapDelete (mapStore acur.entries k0 none) k0) },
                by simp only [deleteEntry, hnested, putMap_unshared hown _ hca2], hnest,
                wellShaped_delete hnest (hs acur (List.getElem?_mem hca)) k0,
                mapDelete_mapStore _ _ _⟩
            obtain ⟨acur2, hdel, hnest2, hsh2, hent2⟩ := hfacts
            simp only [hca2, hdel] at hloop
            have hs2 : Shaped hc2 := Shaped_of_same_or_empty hs (fun b => by
              by_cases hcb : Contains hc x b
              · exact Or.inr (hemp b hcb)
              · exact Or.inl (hframe b hcb))
            have hs3 := Shaped_set hs2 a hsh2
            have hid : acur2.mapId = 0 := by
              have h0 : acur.mapId = 0 := hown.unshared_get hca2
              have h1 := congrArg Prod.fst hdel
              simp only [deleteEntry, hnested, putMap_unshared hown _ hca2] at h1
              have h2 := congrArg (fun l => l[a]?) h1
              simp only [List.getElem?_set_self halt, Option.some.injEq] at h2
              rw [← h2]
              exact h0
            have hown3 : Unshared (hc2.set a acur2) := hown.unshared_set a hid
            have hrel3 : ∀ b, b ≠ a →
                ((hc2.set a acur2)[b]? = h[b]? ∨ ∃ D, wellFormed D h (some b) = true) := by
              intro b hba
              rw [List.getElem?_set_ne (Ne.symm hba)]
              by_cases hcb : Contains hc x b
              · exact Or.inr (wellFormed_unclear D0 (hbelow b hcb)
                  (wellFormed_contains hcb D0 hD0))
              · rcases hrel b hba with hsame2 | hwf
                · exact Or.inl (by rw [hframe b hcb, hsame2])
                · exact Or.inr hwf
            rcases List.mem_cons.1 hk with rfl | hin
            · rw [← hsame k (by simp), hl] at hc0
              cases hc0
              exact hx
            · refine ih _ h1 acur2 hnd2 hs3 hown3 hrel3 (List.getElem?_set_self halt) hnest2
                ?_ hloop k hin c hc0
              intro k2 hk2
              have hne : k0 ≠ k2 := fun e => hk0_notin (e ▸ hk2)
              rw [hent2, mapLookup_mapDelete_ne _ _ _ hne]
              exact hsame k2 (by simp [hk2])

/-- On a heap of well-shaped cells `Clear` returns normally only on well-formed nodes. -/
theorem Clear_ok_wellFormed : ∀ d, ClearOkWellFormed d := by
  intro d
  induction d with
  | zero => intro h a h2 _ _ hc; simp [Nested.Clear] at hc
  | succ d ih =>
    intro h a h2 hs hu hc
    rw [Clear_succ] at hc
    cases ha : h[a]? with
    | none => simp [clearBody, ha] at hc
    | some n =>
      have hsh := hs n (List.getElem?_mem ha)
      simp only [clearBody, ha] at hc
      by_cases hv : n.IsValue = true
      · refine ⟨1, (wellFormed_succ_iff 0 h _).2 ⟨a, n, rfl, ha, hsh, ?_⟩⟩
        simp [Nested.children, hv]
      · have hv2 : n.IsValue = false := by simpa using hv
        simp only [hv2, if_false, Bool.false_eq_true] at hc
        by_cases har : n.IsArray = true
        · simp only [har, if_true] at hc
          have hnc : n.children = n.elems := by simp [Nested.children, hv2, har]
          cases he : clearElems (Nested.Clear d) h n.elems with
          | none => simp [he] at hc
          | some y =>
            rw [he] at hc
            obtain ⟨h1, res⟩ := y
            cases res with
            | error m => simp at hc
            | panic => simp at hc
            | ok v =>
              have hall := elems_wf ih n.elems h h1 hs hu (fun b => Or.inl rfl) he
              obtain ⟨D, hD⟩ := uniform_depth h n.children (by rw [hnc]; exact hall)
              exact ⟨D + 1, (wellFormed_succ_iff D h _).2 ⟨a, n, rfl, ha, hsh, hD⟩⟩
        · have har2 : n.IsArray = false := by simpa using har
          simp only [har2, if_false, Bool.false_eq_true] at hc
          have hn : n.IsNested = true := (isNested_iff n).2 ⟨hv2, har2⟩
          have hnc : n.children = n.entries.map Prod.snd := by
            simp [Nested.children, hv2, har2]
          have hnd : (n.entries.map Prod.fst).Nodup := by
            simp only [Nested.wellShaped, Bool.and_eq_true, decide_eq_true_eq] at hsh
            exact hsh.1.1
          have hall := keys_wf ih (n := n) (n.entries.map Prod.fst) h h2 n hnd hs hu
            (fun b _ => Or.inl rfl) ha hn (fun _ _ => rfl) hc
          have hall2 : ∀ c ∈ n.children, ∃ D, wellFormed D h c = true := by
            intro c hcm
            rw [hnc] at hcm
            obtain ⟨⟨k, c2⟩, hmem, hsnd⟩ := List.mem_map.1 hcm
            simp only at hsnd
            subst hsnd
            exact hall k (List.mem_map.2 ⟨(k, c2), hmem, rfl⟩) c2
              (mapLookup_of_mem_nodup hnd hmem)
          obtain ⟨D, hD⟩ := uniform_depth h n.children hall2
          exact ⟨D + 1, (wellFormed_succ_iff D h _).2 ⟨a, n, rfl, ha, hsh, hD⟩⟩

/-- Whenever `Clear` returns normally on a heap of well-shaped cells without shared
maps, it has allocated nothing, left every cell outside the node unchanged and every
cell contained in the node empty. -/
theorem Clear_post_of_ok {d : Nat} {h h2 : Heap} {a : Nat} (hs : Shaped h) (hu : Unshared h)
    (hc : Nested.Clear d h (some a) = some (h2, .ok ())) :
    (∃ D, wellFormed D h (some a) = true) ∧ h2.length = h.length ∧
      (∀ b, ¬ Contains h a b → h2[b]? = h[b]?) ∧ (∀ b, Contains h a b → EmptyAt h2 b) := by
  obtain ⟨D0, hD0, hlen, hframe, hemp, _⟩ := sub_post (Clear_ok_wellFormed d) hs hu hc
  exact ⟨⟨D0, hD0⟩, hlen, hframe, hemp⟩

theorem deleteEntry_inv {P : Heap → Prop} (hP : ClearingInv P) (h : Heap) (a : Nat)
    (n : Nested) (k : String) (hp : P h) (ha : h[a]? = some n) :
    P (deleteEntry h a n k).1 := by
  unfold deleteEntry
  cases hn : n.nested with
  | none => simpa using hp
  | some m => exact hP.entry h a n m k hp ha hn

theorem clearElems_inv {P : Heap → Prop} {rec : Heap → Ptr → Option (Heap × Result Unit)}
    (hrec : Keeps P rec) :
    ∀ (es : List Ptr) (h h2 : Heap) (r : Result Unit),
      clearElems rec h es = some (h2, r) → P h → P h2 := by
  intro es
  induction es with
  | nil =>
    intro h h2 r hc hf
    simp only [clearElems, Option.some.injEq, Prod.mk.injEq] at hc
    exact hc.1 ▸ hf
  | cons e es ih =>
    intro h h2 r hc hf
    simp only [clearElems] at hc
    cases hr : rec h e with
    | none => simp [hr] at hc
    | some x =>
      obtain ⟨h1, r1⟩ := x
      have hf1 := hrec h e h1 r1 hr hf
      cases r1 with
      | panic =>
        simp only [hr, Option.some.injEq, Prod.mk.injEq] at hc
        exact hc.1 ▸ hf1
      | ok v =>
        simp only [hr] at hc
        exact ih h1 h2 r hc hf1
      | error m =>
        simp only [hr] at hc
        exact ih h1 h2 r hc hf1

theorem clearKeys_inv {P : Heap → Prop} (hP : ClearingInv P)
    {rec : Heap → Ptr → Option (Heap × Result Unit)} (hrec : Keeps P rec) (a : Nat) :
    ∀ (ks : List String) (h h2 : Heap) (r : Result Unit),
      clearKeys rec a h ks = some (h2, r) → P h → P h2 := by
  intro ks
  induction ks with
  | nil =>
    intro h h2 r hc hf
    simp only [clearKeys, Option.some.injEq, Prod.mk.injEq] at hc
    exact hc.1 ▸ hf
  | cons k ks ih =>
    intro h h2 r hc hf
    simp only [clearKeys] at hc
    cases ha : h[a]? with
    | none =>
      simp only [ha, Option.some.injEq, Prod.mk.injEq] at hc
      exact hc.1 ▸ hf
    | some n =>
      simp only [ha] at hc
      cases hk : mapLookup n.entries k with
      | none =>
        simp only [hk] at hc
        exact ih h h2 r hc hf
      | some child =>
        simp only [hk] at hc
        cases hr : rec h child with
        | none => simp [hr] at hc
        | some x =>
          obtain ⟨h1, r1⟩ := x
          have hf1 := hrec h child h1 r1 hr hf
          have key : ∀ (h1 : Heap), P h1 →
              (match h1[a]? with
                | none => some (h1, Result.panic)
                | some n1 =>
                  match deleteEntry h1 a n1 k with
                  | (h2, .ok _) => clearKeys rec a h2 ks
                  | (h2, r) => some (h2, r)) = some (h2, r) → P h2 := by
            intro h1 hf1 hc
            cases h1a : h1[a]? with
            | none =>
              simp only [h1a, Option.some.injEq, Prod.mk.injEq] at hc
              exact hc.1 ▸ hf1
            | some n1 =>
              simp only [h1a] at hc
              have hfd := deleteEntry_inv hP h1 a n1 k hf1 h1a
              cases hd : deleteEntry h1 a n1 k with
              | mk h3 r3 =>
                rw [hd] at hfd hc
                cases r3 with
                | ok v => exact ih h3 h2 r hc hfd
                | error m =>
                  simp only [Option.some.injEq, Prod.mk.injEq] at hc
                  exact hc.1 ▸ hfd
                | panic =>
                  simp only [Option.some.injEq, Prod.mk.injEq] at hc
                  exact hc.1 ▸ hfd
          cases r1 with
          | panic =>
            simp only [hr, Option.some.injEq, Prod.mk.injEq] at hc
            exact hc.1 ▸ hf1
          | ok v =>
            simp only [hr] at hc
            exact key h1 hf1 hc
          | error m =>
            simp only [hr] at hc
            exact key h1 hf1 hc

theorem clearBody_inv {P : Heap → Prop} (hP : ClearingInv P)
    {rec : Heap → Ptr → Option (Heap × Result Unit)} (hrec : Keeps P rec) :
    Keeps P (clearBody rec) := by
  intro h p h2 r hc hf
  cases p with
  | none =>
    simp only [clearBody, Option.some.injEq, Prod.mk.injEq] at hc
    exact hc.1 ▸ hf
  | some a =>
    cases ha : h[a]? with
    | none =>
      simp only [clearBody, ha, Option.some.injEq, Prod.mk.injEq] at hc
      exact hc.1 ▸ hf
    | some n =>
      simp only [clearBody, ha] at hc
      split at hc
      · simp only [Option.some.injEq, Prod.mk.injEq] at hc
        exact hc.1 ▸ hP.value h a n hf ha
      · split at hc
        · cases he : clearElems rec h n.elems with
          | none => simp [he] at hc
          | some x =>
            obtain ⟨h1, r1⟩ := x
            have hf1 := clearElems_inv hrec n.elems h h1 r1 he hf
            cases r1 with
            | ok v =>
              simp only [he] at hc
              cases h1a : h1[a]? with
              | none =>
                simp only [h1a, Option.some.injEq, Prod.mk.injEq] at hc
                exact hc.1 ▸ hf1
              | some n1 =>
                simp only [h1a, Option.some.injEq, Prod.mk.injEq] at hc
                exact hc.1 ▸ hP.array h1 a n1 hf1 h1a
            | error m =>
              simp only [he, Option.some.injEq, Prod.mk.injEq] at hc
              exact hc.1 ▸ hf1
            | panic =>
              simp only [he, Option.some.injEq, Prod.mk.injEq] at hc
              exact hc.1 ▸ hf1
        · exact clearKeys_inv hP hrec a _ h h2 r hc hf

theorem Clear_inv {P : Heap → Prop} (hP : ClearingInv P) : ∀ fuel, Keeps P (Nested.Clear fuel) := by
  intro fuel
  induction fuel with
  | zero => intro h p h2 r hc; simp [Nested.Clear] at hc
  | succ fuel ih => exact clearBody_inv hP ih

theorem unshared_clearingInv : ClearingInv Unshared where
  value := fun h a n hu ha => by
    have hn0 : n.mapId = 0 := hu.unshared_get ha
    have hn : ({ n with isValue := false, value := GoAny.nil } : Nested).mapId = 0 := hn0
    exact Unshared.unshared_set hu a hn
  array := fun h a n hu ha => by
    have hn0 : n.mapId = 0 := hu.unshared_get ha
    have hn : ({ n with isArray := false, array := none } : Nested).mapId = 0 := hn0
    exact Unshared.unshared_set hu a hn
  entry := fun h a n m k hu ha _ => by
    rw [putMap_unshared hu _ ha]
    have hn0 : n.mapId = 0 := hu.unshared_get ha
    have hn : ({ n with nested := some (mapDelete (mapStore m k none) k) } : Nested).mapId = 0 :=
      hn0
    exact Unshared.unshared_set hu a hn

/-- Method `Clear` makes no map shared. -/
theorem Clear_unshared {fuel : Nat} {h h2 : Heap} {p : Ptr} {r : Result Unit}
    (hc : Nested.Clear fuel h p = some (h2, r)) (hu : Unshared h) : Unshared h2 :=
  Clear_inv unshared_clearingInv fuel h p h2 r hc hu

theorem WanedTo.wanedTo_same (n : Nested) : WanedTo n n :=
  ⟨id, id, fun _ => rfl, List.Sublist.refl _, fun _ _ hk => hk, id⟩

theorem WanedTo.wanedTo_trans {n1 n2 n3 : Nested} (h12 : WanedTo n1 n2) (h23 : WanedTo n2 n3) :
    WanedTo n1 n3 :=
  ⟨fun x => h12.isValue (h23.isValue x), fun x => h12.isArray (h23.isArray x),
    fun x => (h23.array x).trans (h12.array (h23.isArray x)),
    h23.keys.trans h12.keys, fun k c hk => h12.lookup k c (h23.lookup k c hk),
    fun x => h23.nested (h12.nested x)⟩

theorem Waned.waned_same (h : Heap) : Waned h h :=
  ⟨rfl, fun _ n ha => ⟨n, ha, WanedTo.wanedTo_same n⟩⟩

theorem Waned.waned_trans {h1 h2 h3 : Heap} (h12 : Waned h1 h2) (h23 : Waned h2 h3) : Waned h1 h3 := by
  refine ⟨h23.1.trans h12.1, ?_⟩
  intro a n ha
  obtain ⟨n2, ha2, hw2⟩ := h12.2 a n ha
  obtain ⟨n3, ha3, hw3⟩ := h23.2 a n2 ha2
  exact ⟨n3, ha3, hw2.wanedTo_trans hw3⟩

/-- The cell that a cell of the later heap came from. -/
theorem Waned.waned_get {h h2 : Heap} (hw : Waned h h2) {a : Nat} {n2 : Nested}
    (ha : h2[a]? = some n2) : ∃ n, h[a]? = some n ∧ WanedTo n n2 := by
  have hlt : a < h.length := by rw [← hw.1]; exact getElem?_lt ha
  obtain ⟨n3, ha3, hw3⟩ := hw.2 a h[a] (List.getElem?_eq_getElem hlt)
  rw [ha] at ha3
  cases ha3
  exact ⟨h[a], List.getElem?_eq_getElem hlt, hw3⟩

theorem Waned.waned_set {h : Heap} {a : Nat} {n v : Nested} (ha : h[a]? = some n)
    (hv : WanedTo n v) : Waned h (h.set a v) := by
  refine ⟨by simp, ?_⟩
  intro b nb hb
  by_cases hba : b = a
  · subst hba
    rw [ha] at hb
    cases hb
    exact ⟨v, List.getElem?_set_self (getElem?_lt ha), hv⟩
  · exact ⟨nb, by rw [List.getElem?_set_ne (Ne.symm hba)]; exact hb, WanedTo.wanedTo_same nb⟩

/-- Removing a key from the map of a cell. -/
theorem WanedTo.wanedTo_delete {x : Nested} {m : GoMap} (hx : x.nested = some m) (k : String) :
    WanedTo x { x with nested := some (mapDelete (mapStore m k none) k) } := by
  have hent : x.entries = m := by simp [Nested.entries, hx]
  refine ⟨id, id, fun _ => rfl, ?_, ?_, fun _ => rfl⟩
  · rw [entries_set_nested, mapDelete_mapStore, hent]
    exact mapDelete_keys_sublist m k
  · intro k2 c hk
    rw [entries_set_nested, mapDelete_mapStore] at hk
    rw [hent]
    by_cases hkk : k = k2
    · subst hkk
      rw [mapLookup_mapDelete_same] at hk
      cases hk
    · rw [mapLookup_mapDelete_ne _ _ _ hkk] at hk
      exact hk

/-- Deleting an entry of a map, in every cell that holds the map. -/
theorem Waned.waned_delete {h : Heap} {a : Nat} {n : Nested} {m : GoMap} (ha : h[a]? = some n)
    (hn : n.nested = some m) (k : String) :
    Waned h (putMap h a n (mapDelete (mapStore m k none) k)) := by
  refine ⟨putMap_length _ _ _ _, ?_⟩
  intro b nb hb
  by_cases hba : b = a
  · subst hba
    rw [ha] at hb
    cases hb
    exact ⟨_, getElem?_putMap_self _ _ (getElem?_lt ha), WanedTo.wanedTo_delete hn k⟩
  · rw [getElem?_putMap_ne _ _ hba, hb]
    by_cases hs : sameMap n nb = true
    · have hnb : nb.nested = some m := by
        simp only [sameMap, Bool.and_eq_true, decide_eq_true_eq] at hs
        rw [hs.2, hn]
      exact ⟨_, by simp [hs], WanedTo.wanedTo_delete hnb k⟩
    · exact ⟨nb, by simp [hs], WanedTo.wanedTo_same nb⟩

/-- Resetting the scalar of a cell. -/
theorem WanedTo.resetValue (n : Nested) :
    WanedTo n { n with isValue := false, value := GoAny.nil } where
  isValue := fun x => by cases x
  isArray := id
  array := fun _ => rfl
  keys := List.Sublist.refl _
  lookup := fun _ _ hk => hk
  nested := id

/-- Resetting the array of a cell. -/
theorem WanedTo.resetArray (n : Nested) :
    WanedTo n { n with isArray := false, array := none } where
  isValue := id
  isArray := fun x => by cases x
  array := fun x => by cases x
  keys := List.Sublist.refl _
  lookup := fun _ _ hk => hk
  nested := id

theorem waned_clearingInv (h : Heap) : ClearingInv (Waned h) where
  value := fun _ _ n hw ha => hw.waned_trans (Waned.waned_set ha (WanedTo.resetValue n))
  array := fun _ _ n hw ha => hw.waned_trans (Waned.waned_set ha (WanedTo.resetArray n))
  entry := fun _ _ _ _ k hw ha hn => hw.waned_trans (Waned.waned_delete ha hn k)

theorem WanedTo.entries_nil {n n2 : Nested} (hw : WanedTo n n2) (hn : n.entries = []) :
    n2.entries = [] := by
  have := hw.keys
  rw [hn] at this
  simpa using this

theorem WanedTo.wellShaped {n n2 : Nested} (hw : WanedTo n n2) (hn : n.wellShaped = true) :
    n2.wellShaped = true := by
  simp only [Nested.wellShaped, Bool.and_eq_true, decide_eq_true_eq, Bool.or_eq_true,
    Bool.not_eq_true', beq_iff_eq] at hn ⊢
  obtain ⟨⟨hnd, hv⟩, har⟩ := hn
  refine ⟨⟨hnd.sublist hw.keys, ?_⟩, ?_⟩
  · by_cases h2v : n2.isValue = true
    · right
      have h1 := hw.isValue h2v
      rcases hv with h0 | ⟨h0, h3⟩
      · rw [h1] at h0; cases h0
      · refine ⟨?_, ?_⟩
        · by_contra hc
          have := hw.isArray (by simpa using hc)
          rw [h0] at this
          cases this
        · rw [hw.entries_nil (List.length_eq_zero.mp h3)]
          rfl
    · left
      simpa using h2v
  · by_cases h2a : n2.isArray = true
    · right
      have h1 := hw.isArray h2a
      rcases har with h0 | h0
      · rw [h1] at h0; cases h0
      · rw [hw.entries_nil (List.length_eq_zero.mp h0)]
        rfl
    · left
      simpa using h2a

theorem WanedTo.isEmpty {n n2 : Nested} (hw : WanedTo n n2) (hn : n.IsEmpty = true) :
    n2.IsEmpty = true := by
  simp only [Nested.IsEmpty, Bool.and_eq_true, Bool.not_eq_true', beq_iff_eq] at hn ⊢
  obtain ⟨⟨ha, hv⟩, he⟩ := hn
  refine ⟨⟨?_, ?_⟩, ?_⟩
  · by_contra hc
    have := hw.isArray (by simpa using hc)
    rw [ha] at this
    cases this
  · by_contra hc
    have := hw.isValue (by simpa using hc)
    rw [hv] at this
    cases this
  · rw [hw.entries_nil (List.length_eq_zero.mp he)]
    rfl

/-- A cell with one active representation gains no child. -/
theorem WanedTo.children {n n2 : Nested} (hw : WanedTo n n2) (hn : n.wellShaped = true)
    {c : Ptr} (hc : c ∈ n2.children) : c ∈ n.children := by
  have hn2 := hw.wellShaped hn
  simp only [Nested.wellShaped, Bool.and_eq_true, decide_eq_true_eq, Bool.or_eq_true,
    Bool.not_eq_true', beq_iff_eq] at hn hn2
  obtain ⟨⟨hnd, hv⟩, har⟩ := hn
  by_cases h2v : n2.isValue = true
  · simp [Nested.children, Nested.IsValue, h2v] at hc
  · have h2v' : n2.isValue = false := by simpa using h2v
    by_cases h2a : n2.isArray = true
    · have h1a := hw.isArray h2a
      have h1v : n.isValue = false := by
        rcases hv with h0 | ⟨h0, _⟩
        · exact h0
        · rw [h1a] at h0; cases h0
      simp only [Nested.children, Nested.IsValue, Nested.IsArray, h2v', h2a, if_true,
        if_false, Bool.false_eq_true] at hc
      simp only [Nested.children, Nested.IsValue, Nested.IsArray, h1v, h1a, if_true,
        if_false, Bool.false_eq_true]
      simpa [Nested.elems, hw.array h2a] using hc
    · have h2a' : n2.isArray = false := by simpa using h2a
      simp only [Nested.children, Nested.IsValue, Nested.IsArray, h2v', h2a', if_false,
        Bool.false_eq_true] at hc
      obtain ⟨⟨k, c2⟩, hmem, hsnd⟩ := List.mem_map.1 hc
      simp only at hsnd
      subst hsnd
      have hlk := hw.lookup k c2 (mapLookup_of_mem_nodup hn2.1.1 hmem)
      have hne := mapLookup_some_ne_nil hlk
      have h1v : n.isValue = false := by
        rcases hv with h0 | ⟨_, h0⟩
        · exact h0
        · exact absurd (List.length_eq_zero.mp h0) hne
      have h1a : n.isArray = false := by
        rcases har with h0 | h0
        · exact h0
        · exact absurd (List.length_eq_zero.mp h0) hne
      simp only [Nested.children, Nested.IsValue, Nested.IsArray, h1v, h1a, if_false,
        Bool.false_eq_true]
      exact mapLookup_mem_values hlk

/-- A well-formed node stays well formed while cells only wane. -/
theorem wellFormed_waned (d : Nat) : ∀ {h h2 : Heap} {p : Ptr}, Waned h h2 →
    wellFormed d h p = true → wellFormed d h2 p = true := by
  induction d with
  | zero => intro h h2 p _ hw; simp [wellFormed_zero] at hw
  | succ d ih =>
    intro h h2 p hwan hw
    obtain ⟨a, n, hp, hn, hsh, hc⟩ := (wellFormed_succ_iff d h _).1 hw
    obtain ⟨n2, hn2, hw2⟩ := hwan.2 a n hn
    refine (wellFormed_succ_iff d h2 _).2 ⟨a, n2, hp, hn2, hw2.wellShaped hsh, ?_⟩
    intro c hcm
    exact ih hwan (hc c (hw2.children hsh hcm))

theorem Waned.emptyAt {h h2 : Heap} (hw : Waned h h2) {b : Nat} (hb : EmptyAt h b) :
    EmptyAt h2 b := by
  obtain ⟨nb, hnb, he⟩ := hb
  obtain ⟨n2, hn2, hw2⟩ := hw.2 b nb hnb
  exact ⟨n2, hn2, hw2.isEmpty he⟩

/-- `Clear` leaves cells waned. -/
theorem Clear_waned {d : Nat} {h h2 : Heap} {p : Ptr} {r : Result Unit}
    (hc : Nested.Clear d h p = some (h2, r)) : Waned h h2 :=
  Clear_inv (waned_clearingInv h) d h p h2 r hc (Waned.waned_same h)

theorem clearElems_terminates {d : Nat} (hT : ClearTerminates d) {h0 : Heap} :
    ∀ (es : List Ptr) (hcur : Heap), Waned h0 hcur → (∀ e ∈ es, wellFormed d h0 e = true) →
      ∃ h1, clearElems (Nested.Clear d) hcur es = some (h1, .ok ()) ∧ Waned hcur h1 := by
  intro es
  induction es with
  | nil => intro hcur _ _; exact ⟨hcur, rfl, Waned.waned_same hcur⟩
  | cons e es ih =>
    intro hcur hw hall
    have he := wellFormed_waned d hw (hall e (by simp))
    cases e with
    | none => simp [wellFormed_none] at he
    | some x =>
      obtain ⟨h1, hc, _⟩ := hT hcur x he
      have hw1 := Clear_waned hc
      obtain ⟨h2, hloop, hw2⟩ := ih h1 (hw.waned_trans hw1) (fun e' he' => hall e' (by simp [he']))
      refine ⟨h2, ?_, hw1.waned_trans hw2⟩
      simp only [clearElems, hc]
      exact hloop

theorem clearKeys_terminates {d : Nat} (hT : ClearTerminates d) {h0 : Heap} {a : Nat}
    (hch : ∀ (n : Nested) (k : String) (c : Ptr), h0[a]? = some n →
      mapLookup n.entries k = some c → wellFormed d h0 c = true) :
    ∀ (ks : List String) (hcur : Heap), Waned h0 hcur → a < h0.length →
      ∃ h1, clearKeys (Nested.Clear d) a hcur ks = some (h1, .ok ()) ∧ Waned hcur h1 ∧
        ∀ n1, h1[a]? = some n1 → ∀ k ∈ ks, mapLookup n1.entries k = none := by
  intro ks
  induction ks with
  | nil =>
    intro hcur _ _
    exact ⟨hcur, rfl, Waned.waned_same hcur, fun _ _ k hk => by simp at hk⟩
  | cons k ks ih =>
    intro hcur hw halt
    obtain ⟨ncur, hcura, hwc⟩ := hw.2 a h0[a] (List.getElem?_eq_getElem halt)
    cases hl : mapLookup ncur.entries k with
    | none =>
      obtain ⟨h1, hloop, hw1, hnone⟩ := ih hcur hw halt
      refine ⟨h1, ?_, hw1, ?_⟩
      · simp only [clearKeys, hcura, hl]
        exact hloop
      · intro n1 hn1 k2 hk2
        rcases List.mem_cons.1 hk2 with rfl | hin
        · obtain ⟨n1', hn1', hw1'⟩ := hw1.2 a ncur hcura
          rw [hn1] at hn1'
          cases hn1'
          cases hx : mapLookup n1.entries k2 with
          | none => rfl
          | some c =>
            have := hw1'.lookup k2 c hx
            rw [hl] at this
            cases this
        · exact hnone n1 hn1 k2 hin
    | some child =>
      have hchild := wellFormed_waned d hw
        (hch h0[a] k child (List.getElem?_eq_getElem halt) (hwc.lookup k child hl))
      cases child with
      | none => simp [wellFormed_none] at hchild
      | some x =>
        obtain ⟨h1, hc, _⟩ := hT hcur x hchild
        have hw1 := Clear_waned hc
        obtain ⟨n1, hn1, hwn1⟩ := hw1.2 a ncur hcura
        have hsome : n1.nested.isSome = true :=
          hwn1.nested (by rw [nested_eq_some_entries hl]; rfl)
        obtain ⟨m1, hm1⟩ := Option.isSome_iff_exists.1 hsome
        have hdel : deleteEntry h1 a n1 k =
            (putMap h1 a n1 (mapDelete (mapStore m1 k none) k), .ok ()) := by
          simp only [deleteEntry, hm1]
        have hw2 : Waned h1 (putMap h1 a n1 (mapDelete (mapStore m1 k none) k)) :=
          Waned.waned_delete hn1 hm1 k
        obtain ⟨h3, hloop, hw3, hnone⟩ := ih _ ((hw.waned_trans hw1).waned_trans hw2) halt
        refine ⟨h3, ?_, (hw1.waned_trans hw2).waned_trans hw3, ?_⟩
        · simp only [clearKeys, hcura, hl, hc, hn1, hdel]
          exact hloop
        · intro n3 hn3 k2 hk2
          rcases List.mem_cons.1 hk2 with rfl | hin
          · have hcell : (putMap h1 a n1 (mapDelete (mapStore m1 k2 none) k2))[a]? =
                some { n1 with nested := some (mapDelete (mapStore m1 k2 none) k2) } :=
              getElem?_putMap_self _ _ (getElem?_lt hn1)
            obtain ⟨n3', hn3', hw3'⟩ := hw3.2 a _ hcell
            rw [hn3] at hn3'
            cases hn3'
            cases hx : mapLookup n3.entries k2 with
            | none => rfl
            | some c =>
              have := hw3'.lookup k2 c hx
              rw [entries_set_nested, mapDelete_mapStore, mapLookup_mapDelete_same] at this
              cases this
          · exact hnone n3 hn3 k2 hin

/-- `Clear` returns on every well-formed node and leaves it empty, whether or not maps
are shared. -/
theorem Clear_terminates : ∀ d, ClearTerminates d := by
  intro d
  induction d with
  | zero => intro h a hw; simp [wellFormed_zero] at hw
  | succ d ih =>
    intro h a hw
    obtain ⟨a', n, ha', ha, hsh, hch⟩ := (wellFormed_succ_iff d h _).1 hw
    cases ha'
    have halt := getElem?_lt ha
    rw [Clear_succ]
    have hsh' := hsh
    simp only [Nested.wellShaped, Bool.and_eq_true, decide_eq_true_eq, Bool.or_eq_true,
      Bool.not_eq_true', beq_iff_eq] at hsh
    obtain ⟨⟨hnd, hshv⟩, hsha⟩ := hsh
    by_cases hv : n.IsValue = true
    · have hv' : n.isValue = true := hv
      have hx : n.isArray = false ∧ n.entries.length = 0 := by
        rcases hshv with h1 | h1
        · rw [hv'] at h1; cases h1
        · exact h1
      refine ⟨h.set a { n with isValue := false, value := .nil }, ?_, ?_⟩
      · simp [clearBody, ha, hv]
      · refine EmptyAt_of_set halt ?_
        have := List.length_eq_zero.mp hx.2
        simp only [Nested.entries] at this
        simp [Nested.IsEmpty, Nested.entries, hx.1, this]
    · have hv' : n.IsValue = false := by simpa using hv
      have hv2 : n.isValue = false := hv'
      by_cases har : n.IsArray = true
      · have har' : n.isArray = true := har
        have hent : n.entries = [] := by
          rcases hsha with h1 | h1
          · rw [har'] at h1; cases h1
          · exact List.length_eq_zero.mp h1
        have hnc : n.children = n.elems := by simp [Nested.children, hv', har]
        obtain ⟨h1, hloop, hw1⟩ := clearElems_terminates ih n.elems h (Waned.waned_same h)
          (fun e he => hch e (by rw [hnc]; exact he))
        obtain ⟨n1, hn1, hwn1⟩ := hw1.2 a n ha
        refine ⟨h1.set a { n1 with isArray := false, array := none }, ?_, ?_⟩
        · simp [clearBody, ha, hv', har, hloop, hn1]
        · refine EmptyAt_of_set (getElem?_lt hn1) ?_
          have h1v : n1.isValue = false := by
            by_contra hc
            have := hwn1.isValue (by simpa using hc)
            rw [hv2] at this
            cases this
          have h1e := hwn1.entries_nil hent
          simp only [Nested.entries] at h1e
          simp [Nested.IsEmpty, Nested.entries, h1v, h1e]
      · have har' : n.IsArray = false := by simpa using har
        have har2 : n.isArray = false := har'
        have hnc : n.children = n.entries.map Prod.snd := by
          simp [Nested.children, hv', har']
        obtain ⟨h1, hloop, hw1, hnone⟩ := @clearKeys_terminates _ ih h a
          (fun n' k c hn' hk => by
            rw [ha] at hn'
            cases hn'
            exact hch c (by rw [hnc]; exact mapLookup_mem_values hk))
          (n.entries.map Prod.fst) h (Waned.waned_same h) halt
        obtain ⟨n1, hn1, hwn1⟩ := hw1.2 a n ha
        refine ⟨h1, ?_, n1, hn1, ?_⟩
        · simp [clearBody, ha, hv', har', hloop]
        · have h1v : n1.isValue = false := by
            by_contra hc
            have := hwn1.isValue (by simpa using hc)
            rw [hv2] at this
            cases this
          have h1a : n1.isArray = false := by
            by_contra hc
            have := hwn1.isArray (by simpa using hc)
            rw [har2] at this
            cases this
          have h1e : n1.entries = [] := by
            apply map_eq_nil_of_lookups_none
            intro k
            by_cases hk : k ∈ n.entries.map Prod.fst
            · exact hnone n1 hn1 k hk
            · cases hx : mapLookup n1.entries k with
              | none => rfl
              | some c =>
                have := hwn1.lookup k c hx
                rw [mapLookup_none_of_not_mem_keys hk] at this
                cases this
          simp [Nested.IsEmpty, h1v, h1a, h1e]

theorem Shaped_waned {h h2 : Heap} (hs : Shaped h) (hw : Waned h h2) : Shaped h2 := by
  intro n2 hn2
  obtain ⟨b, hb⟩ := List.mem_iff_getElem?.1 hn2
  obtain ⟨n, hn, hwn⟩ := hw.waned_get hb
  exact hwn.wellShaped (hs n (List.getElem?_mem hn))

theorem Gone.waned {h0 hc hc2 : Heap} {y : Nat} (hg : Gone h0 hc y) (hw : Waned hc hc2) :
    Gone h0 hc2 y :=
  fun b hb => hw.emptyAt (hg b hb)

theorem Kept.kept_same (h : Heap) : Kept h h :=
  fun _ _ n hx hy => Or.inl ⟨n, hx, hy⟩

theorem Kept.step {h0 hc hc2 : Heap} (hk : Kept h0 hc) (hw : Waned hc hc2)
    (hstep : ∀ (x y : Nat) (nc : Nested), hc[x]? = some nc → some y ∈ nc.children →
      (∃ nc2, hc2[x]? = some nc2 ∧ some y ∈ nc2.children) ∨ Gone h0 hc2 y) :
    Kept h0 hc2 := by
  intro x y n hx hy
  rcases hk x y n hx hy with ⟨nc, hnc, hyc⟩ | hg
  · exact hstep x y nc hnc hyc
  · exact Or.inr (hg.waned hw)

/-- Once a node is empty, all that it contained is empty. -/
theorem gone_of_empty {h0 hc : Heap} {a : Nat} (hk : Kept h0 hc) (ha : EmptyAt hc a) :
    Gone h0 hc a := by
  intro b hb
  rcases hb.cases_child with rfl | ⟨n, x, hn, hx, hrest⟩
  · exact ha
  · rcases hk a x n hn hx with ⟨nc, hnc, hxc⟩ | hg
    · obtain ⟨na, hna, he⟩ := ha
      rw [hnc] at hna
      cases hna
      rw [children_of_isEmpty he] at hxc
      simp at hxc
    · exact hg b hrest

theorem mem_mapDelete_of_ne {m : GoMap} {k k2 : String} {v : Ptr} (hm : (k2, v) ∈ m)
    (hk : k2 ≠ k) : (k2, v) ∈ mapDelete m k := by
  induction m with
  | nil => simp at hm
  | cons e m ih =>
    obtain ⟨k3, v3⟩ := e
    rcases List.mem_cons.1 hm with heq | hin
    · cases heq
      simp [mapDelete, hk]
    · by_cases hk3 : k3 = k
      · simp only [mapDelete, hk3, if_true]
        exact ih hin
      · simp only [mapDelete, hk3, if_false]
        exact List.mem_cons_of_mem _ (ih hin)

theorem clearElems_waned {d : Nat} {h h2 : Heap} {es : List Ptr} {r : Result Unit}
    (hc : clearElems (Nested.Clear d) h es = some (h2, r)) : Waned h h2 :=
  clearElems_inv (Clear_inv (waned_clearingInv h) d) es h h2 r hc (Waned.waned_same h)

theorem clearKeys_waned {d : Nat} {h h2 : Heap} {a : Nat} {ks : List String} {r : Result Unit}
    (hc : clearKeys (Nested.Clear d) a h ks = some (h2, r)) : Waned h h2 :=
  clearKeys_inv (waned_clearingInv h) (Clear_inv (waned_clearingInv h) d) a ks h h2 r hc
    (Waned.waned_same h)

theorem clearElems_empties {h0 : Heap} {d : Nat} (hT : ClearEmpties h0 d) :
    ∀ (es : List Ptr) (hc h1 : Heap), Waned h0 hc → Kept h0 hc →
      clearElems (Nested.Clear d) hc es = some (h1, .ok ()) →
      Kept h0 h1 ∧ ∀ y, some y ∈ es → Gone h0 h1 y := by
  intro es
  induction es with
  | nil =>
    intro hc h1 _ hk hloop
    simp only [clearElems, Option.some.injEq, Prod.mk.injEq] at hloop
    rw [← hloop.1]
    exact ⟨hk, fun y hy => by simp at hy⟩
  | cons e es ih =>
    intro hc h1 hw hk hloop
    simp only [clearElems] at hloop
    cases hr : Nested.Clear d hc e with
    | none => simp [hr] at hloop
    | some y =>
      rw [hr] at hloop
      obtain ⟨hc2, res⟩ := y
      cases res with
      | panic => simp at hloop
      | error m => exact absurd hr (Clear_no_error d hc e hc2 m)
      | ok v =>
        simp only at hloop
        cases e with
        | none => exact absurd hr (Clear_nil_not_ok d hc hc2)
        | some x =>
          obtain ⟨hk2, hex⟩ := hT hc x hc2 hw hk hr
          have hw2 := Clear_waned hr
          obtain ⟨hk3, hall⟩ := ih hc2 h1 (hw.waned_trans hw2) hk2 hloop
          refine ⟨hk3, ?_⟩
          intro y hy
          rcases List.mem_cons.1 hy with heq | hin
          · cases heq
            exact (gone_of_empty hk2 hex).waned (clearElems_waned hloop)
          · exact hall y hin

theorem clearKeys_empties {h0 : Heap} (hs0 : Shaped h0) {d : Nat} (hT : ClearEmpties h0 d)
    (a : Nat) :
    ∀ (ks : List String) (hc h1 : Heap), Waned h0 hc → Kept h0 hc →
      clearKeys (Nested.Clear d) a hc ks = some (h1, .ok ()) →
      Kept h0 h1 ∧ ∀ n1, h1[a]? = some n1 → ∀ k ∈ ks, mapLookup n1.entries k = none := by
  intro ks
  induction ks with
  | nil =>
    intro hc h1 _ hk hloop
    simp only [clearKeys, Option.some.injEq, Prod.mk.injEq] at hloop
    rw [← hloop.1]
    exact ⟨hk, fun _ _ k hk => by simp at hk⟩
  | cons k ks ih =>
    intro hc h1 hw hk hloop
    have hwall := clearKeys_waned hloop
    simp only [clearKeys] at hloop
    cases hca : hc[a]? with
    | none => simp [hca] at hloop
    | some ncur =>
      simp only [hca] at hloop
      cases hl : mapLookup ncur.entries k with
      | none =>
        simp only [hl] at hloop
        obtain ⟨hk1, hnone⟩ := ih hc h1 hw hk hloop
        refine ⟨hk1, ?_⟩
        intro n1 hn1 k2 hk2
        rcases List.mem_cons.1 hk2 with rfl | hin
        · obtain ⟨n1', hn1', hw1'⟩ := hwall.2 a ncur hca
          rw [hn1] at hn1'
          cases hn1'
          cases hx : mapLookup n1.entries k2 with
          | none => rfl
          | some c =>
            have := hw1'.lookup k2 c hx
            rw [hl] at this
            cases this
        · exact hnone n1 hn1 k2 hin
      | some child =>
        simp only [hl] at hloop
        cases hr : Nested.Clear d hc child with
        | none => simp [hr] at hloop
        | some y =>
          rw [hr] at hloop
          obtain ⟨hc2, res⟩ := y
          cases res with
          | panic => simp at hloop
          | error m => exact absurd hr (Clear_no_error d hc child hc2 m)
          | ok v =>
            simp only at hloop
            cases child with
            | none => exact absurd hr (Clear_nil_not_ok d hc hc2)
            | some x =>
              obtain ⟨hk2, hex⟩ := hT hc x hc2 hw hk hr
              have hw2 := Clear_waned hr
              have hgx := gone_of_empty hk2 hex
              cases hca2 : hc2[a]? with
              | none => simp [hca2] at hloop
              | some n1 =>
                simp only [hca2] at hloop
                obtain ⟨n1', hn1', hwn1⟩ := hw2.2 a ncur hca
                rw [hca2] at hn1'
                cases hn1'
                cases hm1 : n1.nested with
                | none => simp [deleteEntry, hm1] at hloop
                | some m1 =>
                  have hdel : deleteEntry hc2 a n1 k =
                      (putMap hc2 a n1 (mapDelete (mapStore m1 k none) k), .ok ()) := by
                    simp only [deleteEntry, hm1]
                  simp only [hdel] at hloop
                  have hw3 : Waned hc2 (putMap hc2 a n1 (mapDelete (mapStore m1 k none) k)) :=
                    Waned.waned_delete hca2 hm1 k
                  have hs2 : Shaped hc2 := Shaped_waned hs0 (hw.waned_trans hw2)
                  have hk3 : Kept h0 (putMap hc2 a n1 (mapDelete (mapStore m1 k none) k)) := by
                    refine hk2.step hw3 ?_
                    intro x2 y2 nc hnc hy2
                    -- the cell after the write
                    have hcell : ∃ nc2, (putMap hc2 a n1
                        (mapDelete (mapStore m1 k none) k))[x2]? = some nc2 ∧
                        (nc2 = nc ∨ (nc.nested = some m1 ∧
                          nc2 = { nc with nested := some (mapDelete (mapStore m1 k none) k) })) := by
                      by_cases hxa : x2 = a
                      · subst hxa
                        rw [hca2] at hnc
                        cases hnc
                        exact ⟨_, getElem?_putMap_self _ _ (getElem?_lt hca2),
                          Or.inr ⟨hm1, rfl⟩⟩
                      · rw [getElem?_putMap_ne _ _ hxa, hnc]
                        by_cases hsm : sameMap n1 nc = true
                        · have hncm : nc.nested = some m1 := by
                            simp only [sameMap, Bool.and_eq_true, decide_eq_true_eq] at hsm
                            rw [hsm.2, hm1]
                          exact ⟨_, by simp [hsm], Or.inr ⟨hncm, rfl⟩⟩
                        · exact ⟨nc, by simp [hsm], Or.inl rfl⟩
                    obtain ⟨nc2, hnc2, hcase⟩ := hcell
                    rcases hcase with rfl | ⟨hncm, rfl⟩
                    · exact Or.inl ⟨_, hnc2, hy2⟩
                    · have hnent : nc.entries = m1 := by simp [Nested.entries, hncm]
                      have hnsh := hs2 nc (List.getElem?_mem hnc)
                      by_cases hnv : nc.isValue = true
                      · simp [Nested.children, Nested.IsValue, hnv] at hy2
                      · have hnv' : nc.isValue = false := by simpa using hnv
                        by_cases hna : nc.isArray = true
                        · left
                          refine ⟨_, hnc2, ?_⟩
                          simp only [Nested.children, Nested.IsValue, Nested.IsArray, hnv',
                            hna, if_true, if_false, Bool.false_eq_true] at hy2 ⊢
                          exact hy2
                        · have hna' : nc.isArray = false := by simpa using hna
                          simp only [Nested.children, Nested.IsValue, Nested.IsArray, hnv',
                            hna', if_false, Bool.false_eq_true] at hy2
                          obtain ⟨⟨k2, c2⟩, hmem, hsnd⟩ := List.mem_map.1 hy2
                          simp only at hsnd
                          subst hsnd
                          rw [hnent] at hmem
                          by_cases hkk : k2 = k
                          · right
                            subst hkk
                            have hnd : (m1.map Prod.fst).Nodup := by
                              simp only [Nested.wellShaped, Bool.and_eq_true,
                                decide_eq_true_eq] at hnsh
                              rw [← hnent]
                              exact hnsh.1.1
                            have hlk := mapLookup_of_mem_nodup hnd hmem
                            have hn1ent : n1.entries = m1 := by simp [Nested.entries, hm1]
                            have := hwn1.lookup k2 (some y2) (by rw [hn1ent]; exact hlk)
                            rw [hl] at this
                            cases this
                            exact hgx.waned hw3
                          · left
                            refine ⟨_, hnc2, ?_⟩
                            have hch : ∀ m2 : GoMap,
                                ({ nc with nested := some m2 } : Nested).children =
                                  m2.map Prod.snd := by
                              intro m2
                              simp [Nested.children, Nested.IsValue, Nested.IsArray, hnv',
                                hna', Nested.entries]
                            rw [hch, mapDelete_mapStore]
                            exact List.mem_map.2 ⟨(k2, some y2),
                              mem_mapDelete_of_ne hmem hkk, rfl⟩
                  obtain ⟨hk4, hnone⟩ := ih _ h1 ((hw.waned_trans hw2).waned_trans hw3) hk3 hloop
                  refine ⟨hk4, ?_⟩
                  intro n3 hn3 k2 hk2
                  rcases List.mem_cons.1 hk2 with rfl | hin
                  · have hcell : (putMap hc2 a n1 (mapDelete (mapStore m1 k2 none) k2))[a]? =
                        some { n1 with nested := some (mapDelete (mapStore m1 k2 none) k2) } :=
                      getElem?_putMap_self _ _ (getElem?_lt hca2)
                    obtain ⟨n3', hn3', hw3'⟩ := (clearKeys_waned hloop).2 a _ hcell
                    rw [hn3] at hn3'
                    cases hn3'
                    cases hx : mapLookup n3.entries k2 with
                    | none => rfl
                    | some c =>
                      have := hw3'.lookup k2 c hx
                      rw [entries_set_nested, mapDelete_mapStore,
                        mapLookup_mapDelete_same] at this
                      cases this
                  · exact hnone n3 hn3 k2 hin

/-- Whenever `Clear` returns normally in a heap of cells with one active representation,
every child of a cell is still its child or has been emptied with all that it contained,
and the node is empty; maps may be shared. -/
theorem Clear_empties_step {h0 : Heap} (hs0 : Shaped h0) : ∀ d, ClearEmpties h0 d := by
  intro d
  induction d with
  | zero => intro hc a h2 _ _ hcl; simp [Nested.Clear] at hcl
  | succ d ih =>
    intro hc a h2 hw hk hcl
    have hwall := Clear_waned hcl
    have hsc : Shaped hc := Shaped_waned hs0 hw
    rw [Clear_succ] at hcl
    cases ha : hc[a]? with
    | none => simp [clearBody, ha] at hcl
    | some n =>
      have hsh := hsc n (List.getElem?_mem ha)
      have halt := getElem?_lt ha
      simp only [Nested.wellShaped, Bool.and_eq_true, decide_eq_true_eq, Bool.or_eq_true,
        Bool.not_eq_true', beq_iff_eq] at hsh
      obtain ⟨⟨hnd, hshv⟩, hsha⟩ := hsh
      simp only [clearBody, ha] at hcl
      by_cases hv : n.IsValue = true
      · have hv' : n.isValue = true := hv
        have hx : n.isArray = false ∧ n.entries.length = 0 := by
          rcases hshv with h1 | h1
          · rw [hv'] at h1; cases h1
          · exact h1
        simp only [hv, if_true, Option.some.injEq, Prod.mk.injEq, and_true] at hcl
        subst hcl
        refine ⟨?_, ?_⟩
        · refine hk.step hwall ?_
          intro x y nc hnc hy
          by_cases hxa : x = a
          · subst hxa
            rw [ha] at hnc
            cases hnc
            simp [Nested.children, hv] at hy
          · exact Or.inl ⟨nc, by rw [List.getElem?_set_ne (Ne.symm hxa)]; exact hnc, hy⟩
        · refine EmptyAt_of_set halt ?_
          have := List.length_eq_zero.mp hx.2
          simp only [Nested.entries] at this
          simp [Nested.IsEmpty, Nested.entries, hx.1, this]
      · have hv' : n.IsValue = false := by simpa using hv
        have hv2 : n.isValue = false := hv'
        simp only [hv', if_false, Bool.false_eq_true] at hcl
        by_cases har : n.IsArray = true
        · have har' : n.isArray = true := har
          have hent : n.entries = [] := by
            rcases hsha with h1 | h1
            · rw [har'] at h1; cases h1
            · exact List.length_eq_zero.mp h1
          simp only [har, if_true] at hcl
          cases he : clearElems (Nested.Clear d) hc n.elems with
          | none => simp [he] at hcl
          | some y =>
            rw [he] at hcl
            obtain ⟨h1, res⟩ := y
            cases res with
            | error m => simp at hcl
            | panic => simp at hcl
            | ok v =>
              simp only at hcl
              have hw1 := clearElems_waned he
              obtain ⟨hk1, hall⟩ := clearElems_empties ih n.elems hc h1 hw hk he
              obtain ⟨n1, hn1, hwn1⟩ := hw1.2 a n ha
              simp only [hn1, Option.some.injEq, Prod.mk.injEq, and_true] at hcl
              subst hcl
              have h1v : n1.isValue = false := by
                by_contra hc0
                have := hwn1.isValue (by simpa using hc0)
                rw [hv2] at this
                cases this
              have h1e := hwn1.entries_nil hent
              have hwlast : Waned h1 (h1.set a { n1 with isArray := false, array := none }) :=
                Waned.waned_set hn1 (WanedTo.resetArray n1)
              refine ⟨?_, ?_⟩
              · refine hk1.step hwlast ?_
                intro x y nc hnc hy
                by_cases hxa : x = a
                · subst hxa
                  rw [hn1] at hnc
                  cases hnc
                  right
                  by_cases h1a : n1.isArray = true
                  · have harr := hwn1.array h1a
                    simp only [Nested.children, Nested.IsValue, Nested.IsArray, h1v, h1a,
                      if_true, if_false, Bool.false_eq_true] at hy
                    have hy' : some y ∈ n.elems := by
                      simpa [Nested.elems, harr] using hy
                    exact (hall y hy').waned hwlast
                  · have h1a' : n1.isArray = false := by simpa using h1a
                    simp [Nested.children, Nested.IsValue, Nested.IsArray, h1v, h1a',
                      h1e] at hy
                · exact Or.inl ⟨nc, by rw [List.getElem?_set_ne (Ne.symm hxa)]; exact hnc, hy⟩
              · refine EmptyAt_of_set (getElem?_lt hn1) ?_
                simp only [Nested.entries] at h1e
                simp [Nested.IsEmpty, Nested.entries, h1v, h1e]
        · have har' : n.IsArray = false := by simpa using har
          have har2 : n.isArray = false := har'
          simp only [har', if_false, Bool.false_eq_true] at hcl
          obtain ⟨hk1, hnone⟩ := clearKeys_empties hs0 ih a _ hc h2 hw hk hcl
          obtain ⟨n1, hn1, hwn1⟩ := hwall.2 a n ha
          refine ⟨hk1, n1, hn1, ?_⟩
          have h1v : n1.isValue = false := by
            by_contra hc0
            have := hwn1.isValue (by simpa using hc0)
            rw [hv2] at this
            cases this
          have h1a : n1.isArray = false := by
            by_contra hc0
            have := hwn1.isArray (by simpa using hc0)
            rw [har2] at this
            cases this
          have h1e : n1.entries = [] := by
            apply map_eq_nil_of_lookups_none
            intro k
            by_cases hkm : k ∈ n.entries.map Prod.fst
            · exact hnone n1 hn1 k hkm
            · cases hx : mapLookup n1.entries k with
              | none => rfl
              | some c =>
                have := hwn1.lookup k c hx
                rw [mapLookup_none_of_not_mem_keys hkm] at this
                cases this
          simp [Nested.IsEmpty, h1v, h1a, h1e]

/-- Whenever `Clear` returns normally on a node of a heap of cells with one active
representation each, every cell that the node contained is empty afterwards; maps may
be shared between cells. -/
theorem Clear_empties {d : Nat} {h h2 : Heap} {a : Nat} (hs : Shaped h)
    (hc : Nested.Clear d h (some a) = some (h2, .ok ())) :
    ∀ b, Contains h a b → EmptyAt h2 b := by
  obtain ⟨hk, he⟩ := Clear_empties_step hs d h a h2 (Waned.waned_same h) (Kept.kept_same h) hc
  exact gone_of_empty hk he

/-- C7, counterexample. `Clear` does not return on the node that holds itself (no bound
on the recursion depth gives a result), it does not return normally on a node in which
a nil pointer is stored, and on a cell flagged as scalar that still carries a map entry
it returns leaving the cell non-empty. -/
theorem Clear_fails_to_reset :
    (¬ ∃ fuel h2, Nested.Clear fuel selfHeap (some 0) = some (h2, .ok ())) ∧
    (¬ ∃ fuel h2, Nested.Clear fuel nilEntryHeap (some 0) = some (h2, .ok ())) ∧
    Nested.Clear 3 nilEntryHeap (some 0) = some (nilEntryHeap, .panic) ∧
    ((Nested.Clear 1 leftoverHeap (some 0)).map
      (fun r => (r.2, r.1.map Nested.IsEmpty))) = some (.ok (), [false, true]) := by
  refine ⟨?_, ?_, rfl, by decide⟩
  · rintro ⟨fuel, h2, hc⟩
    rw [Clear_selfHeap_diverges] at hc
    cases hc
  · rintro ⟨fuel, h2, hc⟩
    exact Clear_nilEntryHeap_not_ok fuel h2 hc

/-- C7 (amended). `Clear` resets to the empty-map state: for every node of any shape
whose structure is well formed (a finite tree of allocated cells, each with one active
representation, of depth less than `d`), `Clear()` with recursion depth `d` returns no
error and afterwards `IsEmpty()` is true, `IsValue()` and `IsArray()` are false and
`Length()` is 0. -/
theorem Clear_resets (d : Nat) (h : Heap) (a : Nat) (hwf : wellFormed d h (some a) = true) :
    ∃ h2 n2, Nested.Clear d h (some a) = some (h2, .ok ()) ∧ h2[a]? = some n2 ∧
      n2.IsEmpty = true ∧ n2.IsValue = false ∧ n2.IsArray = false ∧ n2.Length = 0 := by
  obtain ⟨h2, hc, n2, hn2, he⟩ := Clear_terminates d h a hwf
  exact ⟨h2, n2, hc, hn2, he, isEmpty_facts he⟩

/-- C8, counterexample. In the structure built by `x.SetMap(map[string]*Nested{})`,
`ref.SetMap(m)` with the map `m` returned by `x.GetMap()`, `ref.SetValue(5)`,
`x.Set(y, "t")` and `a.Set(ref, "k")`, the node `ref` (cell 1) is contained in `a`
(cell 3); `a.Clear()` returns no error, and afterwards `a` is empty but `ref` is not:
`Clear` has reset the scalar of `ref` and left the entry `t` of its map. -/
theorem Clear_leaves_contained_node :
    Nested.GetMap (Nested.SetMap [{}, {}, {}, {}] (some 0) (.made (some [])) []).1
      (some 0) [] = .ok (.heldBy 0) ∧
    Contains sharedScalarHeap 3 1 ∧
    ((Nested.Clear 2 sharedScalarHeap (some 3)).map
      (fun r => (r.2, r.1.map Nested.IsEmpty))) = some (.ok (), [false, false, true, true]) := by
  refine ⟨by decide, ?_, by decide⟩
  exact Contains.step (n := { nested := some [("k", some 1)] }) rfl (by decide)
    (Contains.refl 1)

/-- C8 (amended). `Clear` is recursive: on a heap of cells with one active
representation each (a scalar or an array holds no map entries, map keys are unique),
whenever `j.Clear()` returns, every cell that was contained in `j` before the call,
directly or through arrays and maps, reports `IsEmpty()` afterwards (the cell keeps its
address, so a reference held by the caller sees the emptied node); and `Clear()` does
return when `j` is well formed (a finite tree of allocated cells of depth less than
`d`). Maps may be shared between cells. -/
theorem Clear_is_recursive (h : Heap) (a : Nat) (hshape : Shaped h) :
    (∀ d h2, Nested.Clear d h (some a) = some (h2, .ok ()) →
      ∀ b, Contains h a b → ∃ nb, h2[b]? = some nb ∧ nb.IsEmpty = true) ∧
    (∀ d, wellFormed d h (some a) = true →
      ∃ h2, Nested.Clear d h (some a) = some (h2, .ok ())) := by
  constructor
  · intro d h2 hc
    exact Clear_empties hshape hc
  · intro d hwf
    obtain ⟨h2, hc, _⟩ := Clear_terminates d h a hwf
    exact ⟨h2, hc⟩

/-- C1, witness: `Set(newNested, "nested", "nested", "somekey")` on the test object, as
in `Test_Set`. -/
theorem Set_Get_round_trip_witness :
    Unshared testHeap ∧
    (pathNodes testHeap (some 0) ["nested", "nested", "somekey"]).Nodup ∧
    (Nested.Set testHeap (some 0) (some 1) ["nested", "nested", "somekey"]).2 = .ok () ∧
    Nested.Get (Nested.Set testHeap (some 0) (some 1) ["nested", "nested", "somekey"]).1
      (some 0) ["nested", "nested", "somekey"] = .ok (some 1) :=
  ⟨by unfold Unshared; decide, by decide, by decide,
    Set_Get_round_trip testHeap (some 0) (some 1) ["nested", "nested", "somekey"]
      (by unfold Unshared; decide) (by decide) (by decide)⟩

/-- C2, witness: on the test object `Get("nested", "nested", "value")` returns the cell
found by successive lookup, and `Get("array", "somekey")` fails with "is array". -/
theorem Get_successive_lookup_witness :
    Nested.Get testHeap (some 0) ["nested", "nested", "value"] = .ok (some 8) ∧
    ∃ pre, Nested.Get testHeap (some 0) ["array", "somekey"] = .error (pre ++ "is array") :=
  ⟨((Get_successive_lookup testHeap (some 0) ["nested", "nested", "value"]).2.1
      (by decide) (some 8)).2 (by decide),
    ((Get_successive_lookup testHeap (some 0) ["array", "somekey"]).2.2 1 "somekey" (some 2)
      { isArray := true, array := some [some 3, some 4] } (by decide) (by decide) rfl).2.1
      rfl rfl⟩

/-- C3, witness: on the test object `Set(r, "array", "somekey")` returns an error
because `array` is an array, and `Set(r, "somekey", "x")` succeeds and materialises a
map-shaped cell under the missing key `somekey`. -/
theorem Set_fails_only_on_wrong_shape_witness :
    (∃ e, (Nested.Set testHeap (some 0) (some 1) ["array", "somekey"]).2 = .error e) ∧
    ((Nested.Set testHeap (some 0) (some 1) ["somekey", "x"]).2 = .ok () ∧
      ∃ y ny, Nested.Get (Nested.Set testHeap (some 0) (some 1) ["somekey", "x"]).1 (some 0)
          (["somekey", "x"].take (0 + 1)) = .ok (some y) ∧
        testHeap[y]? = none ∧
        (Nested.Set testHeap (some 0) (some 1) ["somekey", "x"]).1[y]? = some ny ∧
        ny.IsNested = true) :=
  ⟨(Set_fails_only_on_wrong_shape testHeap (some 0) (some 1) ["array", "somekey"]
      (by decide)).1.2
      ⟨1, some 2, { isArray := true, array := some [some 3, some 4] }, by decide, by decide,
        rfl, rfl⟩,
    (Set_fails_only_on_wrong_shape testHeap (some 0) (some 1) ["somekey", "x"]
      (by decide)).2 0 0
      { nested := some [("value", some 1), ("array", some 2), ("nested", some 5)] } "somekey"
      (by decide) (by decide) rfl rfl rfl (by decide)⟩

/-- C4, witness: `SetValue(5, "a", "b", "c")` on a freshly constructed node. -/
theorem SetValue_creates_path_witness :
    (Nested.SetValue [{}] (some 0) (.int 5) ["a", "b", "c"]).2 = .ok () ∧
    Nested.GetValue (Nested.SetValue [{}] (some 0) (.int 5) ["a", "b", "c"]).1 (some 0)
      ["a", "b", "c"] = .ok (.int 5) ∧
    ∀ i, 0 < i → i < ["a", "b", "c"].length → ∃ y ny,
      Nested.Get (Nested.SetValue [{}] (some 0) (.int 5) ["a", "b", "c"]).1 (some 0)
        (["a", "b", "c"].take i) = .ok (some y) ∧
      (Nested.SetValue [{}] (some 0) (.int 5) ["a", "b", "c"]).1[y]? = some ny ∧
      ny.IsNested = true ∧ ny.IsEmpty = false :=
  SetValue_creates_path [{}] 0 {} (.int 5) ["a", "b", "c"] (by decide) rfl rfl

/-- C5, witness: `SetValue(1042, "somekey")` on the test object, as in `Test_SetValue`. -/
theorem SetValue_GetValue_round_trip_witness :
    Unshared testHeap ∧
    (pathNodes testHeap (some 0) ["somekey"]).Nodup ∧
    (Nested.SetValue testHeap (some 0) (.int 1042) ["somekey"]).2 = .ok () ∧
    Nested.GetValue (Nested.SetValue testHeap (some 0) (.int 1042) ["somekey"]).1 (some 0)
      ["somekey"] = .ok (.int 1042) :=
  ⟨by unfold Unshared; decide, by decide, by decide,
    SetValue_GetValue_round_trip testHeap (some 0) (.int 1042) ["somekey"]
      (by unfold Unshared; decide) (by intro n hn; cases hn; rfl) (by decide) (by decide)⟩

/-- C7, witness: `Clear` on the whole test object. -/
theorem Clear_resets_witness :
    wellFormed 6 testHeap (some 0) = true ∧
    ∃ h2 n2, Nested.Clear 6 testHeap (some 0) = some (h2, .ok ()) ∧ h2[0]? = some n2 ∧
      n2.IsEmpty = true ∧ n2.IsValue = false ∧ n2.IsArray = false ∧ n2.Length = 0 :=
  ⟨by decide, Clear_resets 6 testHeap 0 (by decide)⟩

/-- C8, witness: the test `clear.Set(&newNested, "value"); clear.Clear()` leaves
`newNested` (cell 1) empty. -/
theorem Clear_is_recursive_witness :
    Shaped clearTestHeap ∧
    Nested.Clear 2 clearTestHeap (some 0) = some ([{ nested := some [] }, {}], .ok ()) ∧
    (∃ nb, ([{ nested := some [] }, {}] : Heap)[1]? = some nb ∧ nb.IsEmpty = true) ∧
    wellFormed 2 clearTestHeap (some 0) = true ∧
    ∃ h2, Nested.Clear 2 clearTestHeap (some 0) = some (h2, .ok ()) :=
  ⟨by unfold Shaped; decide, rfl,
    (Clear_is_recursive clearTestHeap 0 (by unfold Shaped; decide)).1 2 _ rfl 1
      (Contains.child (n := { nested := some [("value", some 1)] }) rfl (by decide)),
    by decide,
    (Clear_is_recursive clearTestHeap 0 (by unfold Shaped; decide)).2 2 (by decide)⟩

/-- C9, witness: a freshly constructed node made a scalar by `SetValue(5)`. -/
theorem shape_invariant_witness :
    Reachable rejectingLib (Nested.SetValue ([] ++ [({} : Nested)]) (some 0) (.int 5) []).1 ∧
    (({ isValue := true, value := .int 5 } : Nested).isValue &&
      ({ isValue := true, value := .int 5 } : Nested).isArray) = false :=
  ⟨Reachable.setValue (some 0) (.int 5) [] (Reachable.construct Reachable.init),
    (shape_invariant rejectingLib _
      (Reachable.setValue (some 0) (.int 5) [] (Reachable.construct Reachable.init)) 0
      { isValue := true, value := .int 5 } rfl).2⟩

/-- C10, witness: `Delete("somekey")` on the map with the keys `value1` and `value2`,
as in `Test_Delete`. -/
theorem Delete_absent_last_key_witness :
    Nested.Delete twoValuesHeap (some 0) ["somekey"] = (twoValuesHeap, .ok ()) :=
  Delete_absent_last_key twoValuesHeap (some 0) ["somekey"] (by decide) 0
    { nested := some [("value1", some 1), ("value2", some 2)] } rfl rfl rfl (by decide)
    (by decide)

theorem intercalate_go_append (s : String) (l : List String) :
    ∀ (x acc : String), String.intercalate.go (x ++ acc) s l = x ++ String.intercalate.go acc s l := by
  induction l with
  | nil => intro x acc; simp [String.intercalate.go]
  | cons a l ih =>
    intro x acc
    simp only [String.intercalate.go]
    rw [String.append_assoc, String.append_assoc, ih, String.append_assoc]

theorem intercalate_cons_cons (s a b : String) (l : List String) :
    String.intercalate s (a :: b :: l) = a ++ s ++ String.intercalate s (b :: l) := by
  simp only [String.intercalate, String.intercalate.go]
  rw [String.append_assoc, intercalate_go_append, intercalate_go_append, String.append_assoc]

theorem intercalate_singleton (s a : String) : String.intercalate s [a] = a := by
  simp [String.intercalate, String.intercalate.go]

/-- Closed form of the wrapped message. -/
theorem errAt_eq_prefixed (keys : List String) :
    ∀ (i : Nat) (err : String), i < keys.length →
      errAt keys i err = prefixed keys i (sepAt keys.length i) err := by
  induction keys with
  | nil => intro i err hi; simp at hi
  | cons k rest ih =>
    intro i err hi
    cases i with
    | zero => simp [errAt, prefixed]
    | succ i =>
      have hi2 : i < rest.length := by simpa using hi
      rw [errAt, ih i err hi2]
      cases i with
      | zero =>
        simp only [prefixed, if_true, wrapErr, sepAt, List.length_cons, List.take_succ_cons,
          List.take_zero, intercalate_singleton, Nat.add_eq_zero, one_ne_zero, and_false,
          if_false]
        by_cases h1 : rest.length = 1
        · simp [h1]
        · have : ¬ (0 + 1 + 1 = rest.length + 1) := by omega
          simp [h1, this]
      | succ i =>
        obtain ⟨k2, rest2, rfl⟩ : ∃ k2 rest2, rest = k2 :: rest2 := by
          cases rest with
          | nil => simp at hi2
          | cons k2 rest2 => exact ⟨k2, rest2, rfl⟩
        have hlen : ¬ ((k2 :: rest2).length = 1) := by
          simp only [List.length_cons] at hi2 ⊢; omega
        have hlen2 : ¬ (rest2.length + 1 = 1) := by simpa using hlen
        simp only [prefixed, wrapErr, hlen, if_false, Nat.add_eq_zero, one_ne_zero, and_false,
          List.take_succ_cons, intercalate_cons_cons, sepAt, List.length_cons,
          Nat.add_right_cancel_iff, String.append_assoc, hlen2]

theorem BreaksAt.lt {h : Heap} {j : Ptr} {keys : List String} {i : Nat} {err : String}
    (hb : BreaksAt h j keys i err) : i < keys.length := by
  obtain ⟨k, _, _, hk, _⟩ := hb
  by_contra hlt
  rw [List.getElem?_eq_none (by omega)] at hk
  cases hk

/-- A break at the start node. -/
theorem BreaksAt.zero_iff {h : Heap} {j : Ptr} {k : String} {rest : List String} {err : String} :
    BreaksAt h j (k :: rest) 0 err ↔ ∃ n, deref h j = some n ∧
      ((n.IsValue = true ∧ err = "is value") ∨
       (n.IsValue = false ∧ n.IsArray = true ∧ err = "is array") ∨
       (n.IsNested = true ∧ mapLookup n.entries k = none ∧ err = errKeyNotFound k)) := by
  constructor
  · rintro ⟨k2, x, n, hk, hl, hx, hc⟩
    simp only [List.getElem?_cons_zero, Option.some.injEq] at hk
    subst hk
    simp only [List.take_zero, lookupChain, Option.some.injEq] at hl
    subst hl
    exact ⟨n, hx, hc⟩
  · rintro ⟨n, hx, hc⟩
    exact ⟨k, j, n, by simp, by simp [lookupChain], hx, hc⟩

/-- A break after the first key is a break of the rest of the chain from the entry. -/
theorem BreaksAt.succ_iff {h : Heap} {j : Ptr} {k : String} {rest : List String} {i : Nat}
    {err : String} :
    BreaksAt h j (k :: rest) (i + 1) err ↔ ∃ n c, deref h j = some n ∧ n.IsNested = true ∧
      mapLookup n.entries k = some c ∧ BreaksAt h c rest i err := by
  constructor
  · rintro ⟨k2, x, nx, hk, hl, hx, hc⟩
    simp only [List.getElem?_cons_succ] at hk
    simp only [List.take_succ_cons, lookupChain] at hl
    cases hj : deref h j with
    | none => simp [hj] at hl
    | some n =>
      simp only [hj] at hl
      by_cases hn : n.IsNested = true
      · simp only [hn, if_true] at hl
        cases hk0 : mapLookup n.entries k with
        | none => simp [hk0] at hl
        | some c =>
          simp only [hk0] at hl
          exact ⟨n, c, rfl, hn, hk0, k2, x, nx, hk, hl, hx, hc⟩
      · simp [hn] at hl
  · rintro ⟨n, c, hj, hn, hk0, k2, x, nx, hk, hl, hx, hc⟩
    refine ⟨k2, x, nx, by simpa using hk, ?_, hx, hc⟩
    simp only [List.take_succ_cons, lookupChain, hj, hn, if_true, hk0]
    exact hl

/-- Where the successive lookup breaks, `Get` returns the wrapped innermost message. -/
theorem Get_error_at (h : Heap) (keys : List String) :
    ∀ (j : Ptr) (i : Nat) (err : String), BreaksAt h j keys i err →
      Nested.Get h j keys = .error (errAt keys i err) := by
  induction keys with
  | nil => intro j i err hb; exact absurd hb.lt (by simp)
  | cons k rest ih =>
    intro j i err hb
    cases i with
    | zero =>
      obtain ⟨n, hj, hc⟩ := BreaksAt.zero_iff.1 hb
      rw [Get_cons]
      simp only [hj, errAt]
      rcases hc with ⟨hv, rfl⟩ | ⟨hv, ha, rfl⟩ | ⟨hn, hk, rfl⟩
      · simp [hv]
      · simp [hv, ha]
      · obtain ⟨hv, ha⟩ := (isNested_iff n).1 hn
        simp [hv, ha, hk]
    | succ i =>
      obtain ⟨n, c, hj, hn, hk, hrest⟩ := BreaksAt.succ_iff.1 hb
      have hlen : rest.length ≠ 0 := by have := hrest.lt; omega
      rw [Get_step rest hj hn hk, ih c i err hrest]
      simp [hlen, errAt]

/-- Every error of `Get` on a non-empty chain comes from a break of the traversal. -/
theorem Get_error_inv (h : Heap) (keys : List String) :
    ∀ (j : Ptr) (e : String), keys ≠ [] → Nested.Get h j keys = .error e →
      ∃ i err, BreaksAt h j keys i err ∧ e = errAt keys i err := by
  induction keys with
  | nil => intro j e hne; exact absurd rfl hne
  | cons k rest ih =>
    intro j e _ hg
    rw [Get_cons] at hg
    cases hj : deref h j with
    | none => simp [hj] at hg
    | some n =>
      simp only [hj] at hg
      by_cases hv : n.IsValue = true
      · simp only [hv, if_true, Result.error.injEq] at hg
        exact ⟨0, "is value", BreaksAt.zero_iff.2 ⟨n, hj, Or.inl ⟨hv, rfl⟩⟩, by simp [errAt, hg]⟩
      · have hv2 : n.IsValue = false := by simpa using hv
        by_cases ha : n.IsArray = true
        · simp only [hv2, ha, if_true, if_false, Bool.false_eq_true, Result.error.injEq] at hg
          exact ⟨0, "is array", BreaksAt.zero_iff.2 ⟨n, hj, Or.inr (Or.inl ⟨hv2, ha, rfl⟩)⟩,
            by simp [errAt, hg]⟩
        · have ha2 : n.IsArray = false := by simpa using ha
          have hn : n.IsNested = true := (isNested_iff n).2 ⟨hv2, ha2⟩
          simp only [hv2, ha2, if_false, Bool.false_eq_true] at hg
          cases hk : mapLookup n.entries k with
          | none =>
            simp only [hk, Result.error.injEq] at hg
            exact ⟨0, errKeyNotFound k,
              BreaksAt.zero_iff.2 ⟨n, hj, Or.inr (Or.inr ⟨hn, hk, rfl⟩)⟩, by simp [errAt, hg]⟩
          | some c =>
            simp only [hk] at hg
            by_cases hlen : rest.length = 0
            · simp [hlen] at hg
            · simp only [hlen, if_false] at hg
              cases hr : Nested.Get h c rest with
              | ok v => simp [hr] at hg
              | panic => simp [hr] at hg
              | error e2 =>
                simp only [hr, Result.error.injEq] at hg
                have hrne : rest ≠ [] := fun h0 => hlen (by simp [h0])
                obtain ⟨i, err, hb, he⟩ := ih c e2 hrne hr
                exact ⟨i + 1, err, BreaksAt.succ_iff.2 ⟨n, c, hj, hn, hk, hb⟩,
                  by simp [errAt, ← hg, he]⟩

/-- C15. Exact error-prefix rule of `Get`: for a map-shaped node `j` holding an entry
`k1 -> x` and a chain `k1 :: rest` of at least two keys, if `x.Get(rest)` fails with the
message `m` then `j.Get(k1 :: rest)` fails with `k1 ++ ": " ++ m` when exactly two keys
were given and with `k1 ++ "." ++ m` when more were given. -/
theorem Get_error_prefix_rule (h : Heap) (j x : Ptr) (n : Nested) (k1 : String)
    (rest : List String) (m : String)
    (hj : deref h j = some n) (hn : n.IsNested = true)
    (hk : mapLookup n.entries k1 = some x) (hrest : rest ≠ [])
    (hm : Nested.Get h x rest = .error m) :
    Nested.Get h j (k1 :: rest) =
      .error (if (k1 :: rest).length = 2 then k1 ++ ": " ++ m else k1 ++ "." ++ m) := by
  have hlen : rest.length ≠ 0 := fun h0 => hrest (List.length_eq_zero.mp h0)
  rw [Get_step rest hj hn hk, hm]
  simp [hlen, wrapErr]

/-- C15, witness: `Get("nested", "somekey")` and `Get("nested", "nested", "somekey")` on
the test object, as in `Test_Get`. -/
theorem Get_error_prefix_rule_witness :
    Nested.Get testHeap (some 5) ["somekey"] = .error "key 'somekey' not found" ∧
    Nested.Get testHeap (some 0) ["nested", "somekey"]
      = .error "nested: key 'somekey' not found" ∧
    Nested.Get testHeap (some 5) ["nested", "somekey"]
      = .error "nested: key 'somekey' not found" ∧
    Nested.Get testHeap (some 0) ["nested", "nested", "somekey"]
      = .error "nested.nested: key 'somekey' not found" :=
  ⟨by decide,
    Get_error_prefix_rule testHeap (some 0) (some 5) _ "nested" ["somekey"] _ rfl (by decide)
      (by decide) (by decide) (by decide),
    by decide,
    Get_error_prefix_rule testHeap (some 0) (some 5) _ "nested" ["nested", "somekey"] _ rfl
      (by decide) (by decide) (by decide) (by decide)⟩

/-- C16, counterexample: on the test object `Get("value", "a", "b")` breaks after the
key `value` at a scalar; the message is "value.is value", not the dotted prefix followed
by ": " and the innermost message. -/
theorem Get_error_segment_not_colon :
    BreaksAt testHeap (some 0) ["value", "a", "b"] 1 "is value" ∧
    Nested.Get testHeap (some 0) ["value", "a", "b"] = .error "value.is value" ∧
    Nested.Get testHeap (some 0) ["value", "a", "b"] ≠
      .error (String.intercalate "." (["value", "a", "b"].take 1) ++ ": " ++ "is value") :=
  ⟨⟨"a", some 1, { isValue := true, value := .int 42 }, rfl, by decide, rfl,
      Or.inl ⟨rfl, rfl⟩⟩,
    by decide, by decide⟩

/-- C16. Errors identify the failing segment by the traversed key prefix: when `Get` on
a chain of `n` keys breaks after `i >= 1` keys were traversed (so `n >= 2`), the message is the
dotted prefix `k1.k2.….ki`, then ": " if exactly one key remained (`i + 1 = n`) and "."
otherwise, then the innermost message ("is value", "is array" or
"key '<k(i+1)>' not found"). -/
theorem Get_error_identifies_segment (h : Heap) (j : Ptr) (keys : List String) (i : Nat)
    (err : String) (hi : 1 ≤ i) (hb : BreaksAt h j keys i err) :
    Nested.Get h j keys =
      .error (String.intercalate "." (keys.take i) ++
        (if i + 1 = keys.length then ": " else ".") ++ err) := by
  rw [Get_error_at h keys j i err hb, errAt_eq_prefixed keys i err hb.lt]
  have hi0 : i ≠ 0 := by omega
  simp [prefixed, sepAt, hi0]

/-- C16, witness: `Get("nested", "nested", "value", "somekey")` on the test object, as
in `Test_Get`: the break comes after three keys, one key remains. -/
theorem Get_error_identifies_segment_witness :
    BreaksAt testHeap (some 0) ["nested", "nested", "value", "somekey"] 3 "is value" ∧
    Nested.Get testHeap (some 0) ["nested", "nested", "value", "somekey"] =
      .error (String.intercalate "." (["nested", "nested", "value", "somekey"].take 3) ++
        (if 3 + 1 = ["nested", "nested", "value", "somekey"].length then ": " else ".") ++
        "is value") :=
  ⟨⟨"somekey", some 8, { isValue := true, value := .string "string in nested" }, rfl,
      by decide, rfl, Or.inl ⟨rfl, rfl⟩⟩,
    Get_error_identifies_segment testHeap (some 0) ["nested", "nested", "value", "somekey"] 3
      "is value" (by decide)
      ⟨"somekey", some 8, { isValue := true, value := .string "string in nested" }, rfl,
        by decide, rfl, Or.inl ⟨rfl, rfl⟩⟩⟩

/-- Where the successive lookup reaches a scalar or an array before the last key, `Set`
leaves the heap as it was and returns the wrapped message. -/
theorem Set_error_at (keys : List String) :
    ∀ (h : Heap) (j r : Ptr) (i : Nat) (x : Ptr) (n : Nested), i < keys.length →
      lookupChain h j (keys.take i) = some x → deref h x = some n → n.IsNested = false →
      Nested.Set h j r keys =
        (h, .error (errAt keys i (if n.IsValue = true then "is value" else "is array"))) := by
  induction keys with
  | nil => intro h j r i x n hi; simp at hi
  | cons k rest ih =>
    intro h j r i x n hi hl hx hn
    cases i with
    | zero =>
      simp only [List.take_zero, lookupChain, Option.some.injEq] at hl
      subst hl
      cases j with
      | none => simp [deref] at hx
      | some a =>
        simp only [deref] at hx
        rw [Nested.Set]
        simp only [hx, errAt]
        by_cases hv : n.IsValue = true
        · simp [hv]
        · by_cases ha : n.IsArray = true
          · simp [hv, ha]
          · exact absurd ((isNested_iff n).2 ⟨by simpa using hv, by simpa using ha⟩)
              (by simp [hn])
    | succ i =>
      have hi2 : i < rest.length := by simpa using hi
      have hrest : rest ≠ [] := by
        intro h0; subst h0; simp at hi2
      simp only [List.take_succ_cons, lookupChain] at hl
      cases hj : deref h j with
      | none => simp [hj] at hl
      | some n0 =>
        simp only [hj] at hl
        by_cases hn0 : n0.IsNested = true
        · simp only [hn0, if_true] at hl
          cases hk : mapLookup n0.entries k with
          | none => simp [hk] at hl
          | some c =>
            simp only [hk] at hl
            cases j with
            | none => simp [deref] at hj
            | some a =>
              simp only [deref] at hj
              rw [Set_existing r hrest hj hn0 hk, ih h c r i x n hi2 hl hx hn]
              simp [errAt]
        · simp [hn0] at hl

theorem lookupsKept_append (h l : Heap) : LookupsKept h (h ++ l) := by
  intro b n hb hn
  refine ⟨n, ?_, hn, fun _ _ hk => hk⟩
  rw [List.getElem?_append_left (getElem?_lt hb)]
  exact hb

theorem deref_append {h : Heap} {p : Ptr} {n : Nested} (l : Heap) (hp : deref h p = some n) :
    deref (h ++ l) p = some n := by
  cases p with
  | none => simp [deref] at hp
  | some a =>
    simp only [deref] at hp ⊢
    rw [List.getElem?_append_left (getElem?_lt hp)]
    exact hp

/-- Where the successive lookup reaches a scalar or an array after at least one key and
before the last key, `SetValue` fails with the wrapped message. -/
theorem SetValue_error_at (h : Heap) (j : Ptr) (v : GoAny) (keys : List String) (i : Nat)
    (p : Ptr) (np : Nested) (hi : 1 ≤ i) (hlt : i < keys.length)
    (hl : lookupChain h j (keys.take i) = some p) (hp : deref h p = some np)
    (hn : np.IsNested = false) :
    (Nested.SetValue h j v keys).2 =
      .error (errAt keys i (if np.IsValue = true then "is value" else "is array")) := by
  have htake : keys.take i ≠ [] := by
    intro h0
    have := congrArg List.length h0
    simp only [List.length_take, List.length_nil] at this
    omega
  obtain ⟨k0, rest0, hk0⟩ := List.exists_cons_of_ne_nil htake
  cases j with
  | none => simp [hk0, lookupChain, deref] at hl
  | some a =>
    cases ha : h[a]? with
    | none => simp [hk0, lookupChain, deref, ha] at hl
    | some n =>
      have hlen : keys.length ≠ 0 := by omega
      simp only [Nested.SetValue, ha]
      have hcond : ((n.IsEmpty || n.IsValue) && keys.length == 0) = false := by
        simp [hlen]
      simp only [hcond, Bool.false_eq_true, if_false]
      rw [Set_error_at keys _ (some a) _ i p np hlt
        (lookupChain_kept (lookupsKept_append h _) _ _ _ htake hl) (deref_append _ hp) hn]

/-- C17, counterexample: after `SetValue(1, "x")` on a freshly constructed node,
`SetValue(2, "x", "y", "z")` runs into the scalar under `x` with two keys left and fails
with "x.is value", not with "x: is value". -/
theorem SetValue_shape_guard_not_colon :
    (Nested.SetValue [{}] (some 0) (.int 1) ["x"]).2 = .ok () ∧
    lookupChain (Nested.SetValue [{}] (some 0) (.int 1) ["x"]).1 (some 0) ["x"]
      = some (some 1) ∧
    deref (Nested.SetValue [{}] (some 0) (.int 1) ["x"]).1 (some 1)
      = some { isValue := true, value := .int 1 } ∧
    (Nested.SetValue (Nested.SetValue [{}] (some 0) (.int 1) ["x"]).1 (some 0) (.int 2)
      ["x", "y", "z"]).2 = .error "x.is value" ∧
    (Nested.SetValue (Nested.SetValue [{}] (some 0) (.int 1) ["x"]).1 (some 0) (.int 2)
      ["x", "y", "z"]).2 ≠ .error ("x" ++ ": is value") :=
  ⟨by decide, by decide, rfl, by decide, by decide⟩

/-- C17. Shape guard: for every map-shaped node `n`, keys `x`, `y` and values `v1`,
`v2`, `n.SetValue(v1, x)` succeeds and `n.SetValue(v2, x, y)` afterwards fails with
exactly `x ++ ": is value"`. More generally, when the keys `k1..ki` (`i >= 1`) of a
chain of `n` keys resolve to an existing scalar or array entry and keys remain, `Set`
and `SetValue` fail with the dotted prefix `k1.….ki`, then ": " if exactly one key
remains (`i + 1 = n`) and "." otherwise, then "is value" or "is array". -/
theorem SetValue_shape_guard (h : Heap) (a : Nat) (n : Nested) (x y : String) (v1 v2 : GoAny)
    (ha : h[a]? = some n) (hn : n.IsNested = true) :
    (Nested.SetValue h (some a) v1 [x]).2 = .ok () ∧
    (Nested.SetValue (Nested.SetValue h (some a) v1 [x]).1 (some a) v2 [x, y]).2
      = .error (x ++ ": is value") ∧
    (∀ (h0 : Heap) (j r : Ptr) (v : GoAny) (keys : List String) (i : Nat) (p : Ptr)
      (np : Nested), 1 ≤ i → i < keys.length → lookupChain h0 j (keys.take i) = some p →
      deref h0 p = some np → np.IsNested = false →
      (Nested.Set h0 j r keys).2 = .error (String.intercalate "." (keys.take i) ++
        (if i + 1 = keys.length then ": " else ".") ++
        (if np.IsValue = true then "is value" else "is array")) ∧
      (Nested.SetValue h0 j v keys).2 = .error (String.intercalate "." (keys.take i) ++
        (if i + 1 = keys.length then ": " else ".") ++
        (if np.IsValue = true then "is value" else "is array"))) := by
  obtain ⟨hv, har⟩ := (isNested_iff n).1 hn
  have halt : a < h.length := getElem?_lt ha
  have hcond : ((n.IsEmpty || n.IsValue) && ([x].length == 0)) = false := by simp
  have ha2 : (h ++ [({ isValue := true, value := v1 } : Nested)])[a]? = some n := by
    rw [List.getElem?_append_left halt]; exact ha
  have h1 : Nested.SetValue h (some a) v1 [x] =
      (putMap (h ++ [({ isValue := true, value := v1 } : Nested)]) a n.ownMap
        (mapStore n.entries x (some h.length)), .ok ()) := by
    simp only [Nested.SetValue, ha, hcond, Bool.false_eq_true, if_false]
    rw [Set_last_gen _ x ha2 hn]
  refine ⟨by rw [h1], ?_, ?_⟩
  · rw [h1]
    simp only
    have hcell : (putMap (h ++ [({ isValue := true, value := v1 } : Nested)]) a n.ownMap
        (mapStore n.entries x (some h.length)))[a]? =
        some { n.ownMap with nested := some (mapStore n.entries x (some h.length)) } :=
      getElem?_putMap_self _ _ (by simp; omega)
    have hnew : (putMap (h ++ [({ isValue := true, value := v1 } : Nested)]) a n.ownMap
        (mapStore n.entries x (some h.length)))[h.length]? =
        some { isValue := true, value := v1 } :=
      getElem?_putMap_other _ _ (by omega)
        (by rw [List.getElem?_append_right (by simp)]; simp)
        (sameMap_of_nested_ne (by rw [ownMap_nested_isSome]; simp))
    have hl : lookupChain (putMap (h ++ [({ isValue := true, value := v1 } : Nested)]) a
        n.ownMap (mapStore n.entries x (some h.length))) (some a)
        ([x, y].take 1) = some (some h.length) := by
      simp only [List.take_succ_cons, List.take_zero, lookupChain, deref, hcell,
        isNested_ownMap_set, hn, if_true, entries_set_nested, mapLookup_mapStore_same]
    rw [SetValue_error_at _ (some a) v2 [x, y] 1 (some h.length) _ (le_refl 1) (by simp) hl
      (by simpa [deref] using hnew) (by simp [Nested.IsNested])]
    simp [errAt, wrapErr, Nested.IsValue, String.append_assoc]
  · intro h0 j r v keys i p np hi hlt hl hp hnp
    have hi0 : i ≠ 0 := by omega
    constructor
    · rw [Set_error_at keys h0 j r i p np hlt hl hp hnp, errAt_eq_prefixed keys i _ hlt]
      simp [prefixed, sepAt, hi0]
    · rw [SetValue_error_at h0 j v keys i p np hi hlt hl hp hnp, errAt_eq_prefixed keys i _ hlt]
      simp [prefixed, sepAt, hi0]

/-- C17, witness: the guard on a freshly constructed node, and
`SetValue(42, "array", "somekey")` on the test object, as in `Test_SetValue`. -/
theorem SetValue_shape_guard_witness :
    (Nested.SetValue [{}] (some 0) (.int 1) ["x"]).2 = .ok () ∧
    (Nested.SetValue (Nested.SetValue [{}] (some 0) (.int 1) ["x"]).1 (some 0) (.int 2)
      ["x", "y"]).2 = .error ("x" ++ ": is value") ∧
    (Nested.SetValue testHeap (some 0) (.int 42) ["array", "somekey"]).2 =
      .error (String.intercalate "." (["array", "somekey"].take 1) ++
        (if 1 + 1 = ["array", "somekey"].length then ": " else ".") ++
        (if ({ isArray := true, array := some [some 3, some 4] } : Nested).IsValue = true
          then "is value" else "is array")) :=
  ⟨(SetValue_shape_guard [{}] 0 {} "x" "y" (.int 1) (.int 2) rfl rfl).1,
    (SetValue_shape_guard [{}] 0 {} "x" "y" (.int 1) (.int 2) rfl rfl).2.1,
    ((SetValue_shape_guard [{}] 0 {} "x" "y" (.int 1) (.int 2) rfl rfl).2.2 testHeap (some 0)
      none (.int 42) ["array", "somekey"] 1 (some 2) _ (by decide) (by decide) (by decide) rfl
      (by decide)).2⟩

/-- In a reachable heap a scalar is not flagged as array. -/
theorem Reachable_value_not_array {lib : GoLib} {h : Heap} (hr : Reachable lib h) {p : Ptr}
    {n : Nested} (hp : deref h p = some n) (hv : n.IsValue = true) : n.IsArray = false := by
  cases p with
  | none => simp [deref] at hp
  | some a =>
    have hf := (Reachable_flagsOk hr).get (by simpa [deref] using hp)
    simp only [Nested.flagsOk, Nested.IsValue, Nested.IsArray] at hf hv ⊢
    cases ha : n.isArray
    · rfl
    · simp [hv, ha] at hf

/-- C19. No-key `GetValue` distinguishes four states: on every node `j` of a heap built
by the public operations, `j.GetValue()` returns a value and no error exactly when `j`
is scalar, and the value is the stored one; it fails with "is empty" when `j` is an
empty map-shaped node, with "is nested" when `j` is a non-empty map, and with
"is array" when `j` is an array. -/
theorem GetValue_no_keys (lib : GoLib) (h : Heap) (hr : Reachable lib h) (j : Ptr)
    (n : Nested) (hj : deref h j = some n) :
    ((∃ v, Nested.GetValue h j [] = .ok v) ↔ n.IsValue = true) ∧
    (n.IsValue = true → Nested.GetValue h j [] = .ok n.value) ∧
    (n.IsEmpty = true → Nested.GetValue h j [] = .error "is empty") ∧
    (n.IsNested = true → n.IsEmpty = false → Nested.GetValue h j [] = .error "is nested") ∧
    (n.IsArray = true → Nested.GetValue h j [] = .error "is array") := by
  have hok : n.IsValue = true → Nested.GetValue h j [] = .ok n.value := by
    intro hv
    have ha := Reachable_value_not_array hr hj hv
    have he : n.IsEmpty = false := by
      simp only [Nested.IsEmpty, Nested.IsValue] at hv ⊢
      simp [hv]
    simp [Nested.GetValue, hj, he, ha, hv]
  have hempty : n.IsEmpty = true → Nested.GetValue h j [] = .error "is empty" := by
    intro he
    simp [Nested.GetValue, hj, he]
  have hnested : n.IsNested = true → n.IsEmpty = false →
      Nested.GetValue h j [] = .error "is nested" := by
    intro hn he
    obtain ⟨hv, ha⟩ := (isNested_iff n).1 hn
    simp [Nested.GetValue, hj, he, ha, hv, hn]
  have harr : n.IsArray = true → Nested.GetValue h j [] = .error "is array" := by
    intro ha
    have he : n.IsEmpty = false := by
      simp only [Nested.IsEmpty, Nested.IsArray] at ha ⊢
      simp [ha]
    simp [Nested.GetValue, hj, he, ha]
  refine ⟨⟨?_, fun hv => ⟨n.value, hok hv⟩⟩, hok, hempty, hnested, harr⟩
  rintro ⟨v, hv⟩
  by_contra hnv
  have hnv2 : n.IsValue = false := by simpa using hnv
  by_cases ha : n.IsArray = true
  · rw [harr ha] at hv; cases hv
  · have hn : n.IsNested = true := (isNested_iff n).2 ⟨hnv2, by simpa using ha⟩
    by_cases he : n.IsEmpty = true
    · rw [hempty he] at hv; cases hv
    · rw [hnested hn (by simpa using he)] at hv; cases hv

/-- C19, witness: a freshly constructed node made a scalar by `SetValue(42)`, as the
scalar node of `Test_GetValue`. -/
theorem GetValue_no_keys_witness :
    Reachable rejectingLib (Nested.SetValue ([] ++ [({} : Nested)]) (some 0) (.int 42) []).1 ∧
    Nested.GetValue (Nested.SetValue ([] ++ [({} : Nested)]) (some 0) (.int 42) []).1 (some 0) []
      = .ok (.int 42) :=
  ⟨Reachable.setValue (some 0) (.int 42) [] (Reachable.construct Reachable.init),
    (GetValue_no_keys rejectingLib _
      (Reachable.setValue (some 0) (.int 42) [] (Reachable.construct Reachable.init)) (some 0)
      { isValue := true, value := .int 42 } rfl).2.1 rfl⟩

/-- C18, counterexample: on a freshly constructed node `Get("a")` fails with
"key 'a' not found" but `GetValue("a")` fails with "is empty"; and when the nil pointer
was stored under `k`, `Get("k")` returns it and `GetValue("k")` panics. -/
theorem GetValue_not_Get_on_empty :
    Nested.Get [{}] (some 0) ["a"] = .error "key 'a' not found" ∧
    Nested.GetValue [{}] (some 0) ["a"] = .error "is empty" ∧
    Nested.GetValue [{}] (some 0) ["a"] ≠ .error "key 'a' not found" ∧
    Nested.Get nilEntryHeap (some 0) ["k"] = .ok none ∧
    Nested.GetValue nilEntryHeap (some 0) ["k"] = .panic :=
  ⟨by decide, rfl, fun hc => absurd (Result.error.inj hc) (by decide), by decide, rfl⟩

/-- C18. `GetValue` with keys is `Get` followed by a scalar check, behind a guard for
the empty node: on a heap built by the public operations, for a non-empty key chain,
`j.GetValue(keys)` fails with "is empty" when `j` is an empty map-shaped node;
otherwise, if `j.Get(keys)` fails then `j.GetValue(keys)` fails with exactly the same
message, and if `j.Get(keys)` returns an allocated node `x` then `j.GetValue(keys)`
returns `x`'s value when `x` is scalar, fails with "<k1.….kn>: is array" when `x` is
an array and with "<k1.….kn>: is nested" when `x` is map-shaped. -/
theorem GetValue_is_Get_then_scalar_check (lib : GoLib) (h : Heap) (hr : Reachable lib h)
    (j : Ptr) (n : Nested) (keys : List String) (hj : deref h j = some n) (hne : keys ≠ []) :
    (n.IsEmpty = true → Nested.GetValue h j keys = .error "is empty") ∧
    (n.IsEmpty = false → ∀ e, Nested.Get h j keys = .error e →
      Nested.GetValue h j keys = .error e) ∧
    (∀ x nx, Nested.Get h j keys = .ok x → deref h x = some nx →
      (nx.IsValue = true → Nested.GetValue h j keys = .ok nx.value) ∧
      (nx.IsArray = true →
        Nested.GetValue h j keys = .error (String.intercalate "." keys ++ ": is array")) ∧
      (nx.IsNested = true →
        Nested.GetValue h j keys = .error (String.intercalate "." keys ++ ": is nested"))) := by
  have hlen : keys.length ≠ 0 := fun h0 => hne (List.length_eq_zero.mp h0)
  refine ⟨fun he => by simp [Nested.GetValue, hj, he], ?_, ?_⟩
  · intro he e hg
    by_cases ha : n.IsArray = true
    · obtain ⟨k, rest, rfl⟩ := List.exists_cons_of_ne_nil hne
      have hv : n.IsValue = false := by
        by_contra hv
        have := Reachable_value_not_array hr hj (by simpa using hv)
        rw [ha] at this; cases this
      rw [Get_cons] at hg
      simp only [hj, hv, ha, if_true, if_false, Bool.false_eq_true, Result.error.injEq] at hg
      simp [Nested.GetValue, hj, he, ha, hg]
    · simp [Nested.GetValue, hj, he, ha, hlen, hg]
  · intro x nx hg hx
    obtain ⟨n0, hn0, hnest, he⟩ := Get_ok_start hg
    rw [hj] at hn0
    cases hn0
    obtain ⟨_, ha⟩ := (isNested_iff n).1 hnest
    refine ⟨fun hv => ?_, fun hxa => ?_, fun hxn => ?_⟩
    · have hxa := Reachable_value_not_array hr hx hv
      have hxn : nx.IsNested = false := by
        simp only [Nested.IsNested, Nested.IsValue] at hv ⊢
        simp [hv]
      exact GetValue_of_Get hj he ha hne hg hx hxa hxn
    · simp [Nested.GetValue, hj, he, ha, hlen, hg, hx, hxa]
    · obtain ⟨_, hxa⟩ := (isNested_iff nx).1 hxn
      simp [Nested.GetValue, hj, he, ha, hlen, hg, hx, hxa, hxn]

/-- C18, witness: on the node built by `SetValue(42, "value")` from a freshly
constructed one, `GetValue("value")` returns 42 and `GetValue("somekey")` fails with the
message of `Get("somekey")`. -/
theorem GetValue_is_Get_then_scalar_check_witness :
    Reachable rejectingLib
      (Nested.SetValue ([] ++ [({} : Nested)]) (some 0) (.int 42) ["value"]).1 ∧
    Nested.Get (Nested.SetValue ([] ++ [({} : Nested)]) (some 0) (.int 42) ["value"]).1
      (some 0) ["value"] = .ok (some 1) ∧
    Nested.GetValue (Nested.SetValue ([] ++ [({} : Nested)]) (some 0) (.int 42) ["value"]).1
      (some 0) ["value"] = .ok (.int 42) ∧
    Nested.Get (Nested.SetValue ([] ++ [({} : Nested)]) (some 0) (.int 42) ["value"]).1
      (some 0) ["somekey"] = .error "key 'somekey' not found" ∧
    Nested.GetValue (Nested.SetValue ([] ++ [({} : Nested)]) (some 0) (.int 42) ["value"]).1
      (some 0) ["somekey"] = .error "key 'somekey' not found" :=
  ⟨Reachable.setValue (some 0) (.int 42) ["value"] (Reachable.construct Reachable.init),
    by decide,
    ((GetValue_is_Get_then_scalar_check rejectingLib _
      (Reachable.setValue (some 0) (.int 42) ["value"] (Reachable.construct Reachable.init))
      (some 0) { nested := some [("value", some 1)] } ["value"] rfl (by decide)).2.2
      (some 1) { isValue := true, value := .int 42 } (by decide) rfl).1 rfl,
    by decide,
    (GetValue_is_Get_then_scalar_check rejectingLib _
      (Reachable.setValue (some 0) (.int 42) ["value"] (Reachable.construct Reachable.init))
      (some 0) { nested := some [("value", some 1)] } ["somekey"] rfl (by decide)).2.1
      rfl _ (by decide)⟩

/-- Writing nil under a present key and deleting the key removes the entry. -/
theorem deleteEntry_present {h : Heap} {p : Nat} {n : Nested} {k : String} {x : Ptr}
    (hk : mapLookup n.entries k = some x) :
    deleteEntry h p n k = (putMap h p n (mapDelete n.entries k), .ok ()) := by
  have hnested := nested_eq_some_entries hk
  simp only [deleteEntry, hnested, mapDelete_mapStore]

theorem dropLast_snoc_cons (k1 : String) (rest : List String) (k : String) :
    (k1 :: (rest ++ [k])).dropLast = k1 :: rest := by
  rw [← List.cons_append, List.dropLast_concat]

theorem getLast_snoc_cons (k1 : String) (rest : List String) (k : String)
    (hne : k1 :: (rest ++ [k]) ≠ []) : (k1 :: (rest ++ [k])).getLast hne = k := by
  simp [List.getLast_cons]

/-- `Delete` of a chain whose keys before the last resolve to the map-shaped cell `p`
holding the last key removes that entry from `p`. -/
theorem Delete_resolved {h : Heap} {j : Ptr} {ks : List String} {k : String} {p : Nat}
    {n : Nested} {x : Ptr} (hl : lookupChain h j ks = some (some p)) (hp : h[p]? = some n)
    (hn : n.IsNested = true) (hk : mapLookup n.entries k = some x) :
    Nested.Delete h j (ks ++ [k]) = (putMap h p n (mapDelete n.entries k), .ok ()) := by
  obtain ⟨hv, har⟩ := (isNested_iff n).1 hn
  cases ks with
  | nil =>
    simp only [lookupChain, Option.some.injEq] at hl
    subst hl
    simp only [List.nil_append, Nested.Delete, hp, hv, har, List.length_nil, if_true, if_false,
      Bool.false_eq_true]
    exact deleteEntry_present hk
  | cons k1 rest =>
    have hne : k1 :: rest ≠ [] := by simp
    have hget := (Get_ok_iff_lookupChain h _ j (some p) hne).2 hl
    obtain ⟨nj, hnj, hnj1, _⟩ := Get_ok_start hget
    obtain ⟨hvj, harj⟩ := (isNested_iff nj).1 hnj1
    cases j with
    | none => simp [deref] at hnj
    | some a =>
      simp only [deref] at hnj
      have hlen : (rest ++ [k]).length ≠ 0 := by simp
      simp only [List.cons_append, Nested.Delete, hnj, hvj, harj, hlen, dropLast_snoc_cons,
        getLast_snoc_cons, hget, hp, hv, har, if_false, Bool.false_eq_true]
      exact deleteEntry_present hk

/-- A chain that `Get` resolves splits into the keys before the last, which lead to a
map-shaped cell, and the last key, which that cell holds. -/
theorem Get_ok_parent {h : Heap} {j x : Ptr} {ks : List String} {k : String}
    (hg : Nested.Get h j (ks ++ [k]) = .ok x) :
    ∃ p n, lookupChain h j ks = some (some p) ∧ h[p]? = some n ∧ n.IsNested = true ∧
      mapLookup n.entries k = some x := by
  have hl := (Get_ok_iff_lookupChain h _ j x (by simp)).1 hg
  rw [lookupChain_append] at hl
  cases hy : lookupChain h j ks with
  | none => simp [hy] at hl
  | some y =>
    simp only [hy, Option.some_bind, lookupChain] at hl
    cases hd : deref h y with
    | none => simp [hd] at hl
    | some n =>
      simp only [hd] at hl
      by_cases hn : n.IsNested = true
      · simp only [hn, if_true] at hl
        cases hk : mapLookup n.entries k with
        | none => simp [hk] at hl
        | some c =>
          simp only [hk, Option.some.injEq] at hl
          subst hl
          cases y with
          | none => simp [deref] at hd
          | some p => exact ⟨p, n, rfl, by simpa [deref] using hd, hn, hk⟩
      · simp [hn] at hl

/-- Deleting a present key of a map with unique keys removes one entry. -/
theorem mapDelete_length {m : GoMap} {k : String} {x : Ptr} (hnd : (m.map Prod.fst).Nodup)
    (hk : mapLookup m k = some x) : (mapDelete m k).length + 1 = m.length := by
  induction m with
  | nil => simp [mapLookup] at hk
  | cons e m ih =>
    obtain ⟨k', v'⟩ := e
    simp only [List.map_cons, List.nodup_cons] at hnd
    by_cases hk' : k' = k
    · subst hk'
      have hnone : mapLookup m k' = none := mapLookup_none_of_not_mem_keys hnd.1
      simp [mapDelete, mapDelete_of_lookup_none _ _ hnone]
    · simp only [mapLookup, hk', if_false] at hk
      simp [mapDelete, hk', ih hnd.2 hk]

/-- A cell of the heap after the entry `k` was removed from the map of the cell `p`:
the cell as it was, or the cell with the entries of `p` less those of `k` when it holds
the same map. -/
theorem cell_after_delete {h : Heap} {p : Nat} {n : Nested} (k : String) (hp : h[p]? = some n)
    {a : Nat} {n0 : Nested} (ha : h[a]? = some n0) :
    (a ≠ p ∧ sameMap n n0 = false ∧ (putMap h p n (mapDelete n.entries k))[a]? = some n0) ∨
    ((a = p ∨ sameMap n n0 = true) ∧ n0.entries = n.entries ∧
      (putMap h p n (mapDelete n.entries k))[a]? =
        some { n0 with nested := some (mapDelete n.entries k) }) := by
  by_cases hap : a = p
  · subst hap
    rw [hp] at ha
    cases ha
    exact Or.inr ⟨Or.inl rfl, rfl, getElem?_putMap_self _ _ (getElem?_lt hp)⟩
  · rw [getElem?_putMap_ne _ _ hap, ha]
    by_cases hs : sameMap n n0 = true
    · right
      refine ⟨Or.inr hs, ?_, by simp [hs]⟩
      simp only [sameMap, Bool.and_eq_true, decide_eq_true_eq] at hs
      simp [Nested.entries, hs.2]
    · exact Or.inl ⟨hap, by simpa using hs, by simp [hs]⟩

/-- After the entry `k` was removed from the map of the map-shaped cell `p`, a traversal
that led to `p` along `ks` and then asks for `k` breaks at a missing key `k`: at `p`
after all of `ks` when neither `p` nor a cell holding the map of `p` is met earlier on
the way, otherwise at the first visit of such a cell that asks for `k`. -/
theorem Get_after_delete {h : Heap} {p : Nat} {n : Nested} (k : String)
    (hp : h[p]? = some n) (hn : n.IsNested = true) :
    ∀ (ks : List String) (j : Ptr), lookupChain h j ks = some (some p) →
      ∃ i, i ≤ ks.length ∧
        BreaksAt (putMap h p n (mapDelete n.entries k)) j (ks ++ [k]) i (errKeyNotFound k) ∧
        ((∀ q ∈ pathNodes h j ks, q ≠ p ∧ ∀ x, h[q]? = some x → sameMap n x = false) →
          i = ks.length) := by
  have hplt : p < h.length := getElem?_lt hp
  have hcell : (putMap h p n (mapDelete n.entries k))[p]? =
      some { n with nested := some (mapDelete n.entries k) } :=
    getElem?_putMap_self _ _ hplt
  intro ks
  induction ks with
  | nil =>
    intro j hl
    simp only [lookupChain, Option.some.injEq] at hl
    subst hl
    refine ⟨0, le_refl _, ?_, fun _ => rfl⟩
    exact BreaksAt.zero_iff.2 ⟨_, by simpa [deref] using hcell,
      Or.inr (Or.inr ⟨by simpa [isNested_set_nested] using hn,
        by simp [entries_set_nested, mapLookup_mapDelete_same], rfl⟩)⟩
  | cons k1 rest ih =>
    intro j hl
    simp only [lookupChain] at hl
    cases hj : deref h j with
    | none => simp [hj] at hl
    | some n0 =>
      simp only [hj] at hl
      by_cases hn0 : n0.IsNested = true
      · simp only [hn0, if_true] at hl
        cases hk1 : mapLookup n0.entries k1 with
        | none => simp [hk1] at hl
        | some c =>
          simp only [hk1] at hl
          obtain ⟨i, hi, hb, hacyc⟩ := ih c hl
          cases j with
          | none => simp [deref] at hj
          | some a =>
            simp only [deref] at hj
            rcases cell_after_delete k hp hj with ⟨_, _, hsame⟩ | ⟨hcause, hent, hchg⟩
            · refine ⟨i + 1, by simpa using hi, ?_, ?_⟩
              · exact BreaksAt.succ_iff.2 ⟨n0, c, by simpa [deref] using hsame, hn0, hk1, hb⟩
              · intro hnot
                rw [pathNodes_existing rest hj hn0 hk1] at hnot
                simp [hacyc (fun q hq => hnot q (List.mem_cons_of_mem _ hq))]
            · have hfree : ¬ (∀ q ∈ pathNodes h (some a) (k1 :: rest),
                  q ≠ p ∧ ∀ x, h[q]? = some x → sameMap n x = false) := by
                intro hall
                obtain ⟨hne, hsm⟩ := hall a (pathNodes_head h a k1 rest)
                rcases hcause with he | hs
                · exact hne he
                · rw [hsm n0 hj] at hs
                  cases hs
              by_cases hkk : k1 = k
              · subst hkk
                refine ⟨0, Nat.zero_le _, ?_, fun hnot => absurd hnot hfree⟩
                exact BreaksAt.zero_iff.2 ⟨_, by simpa [deref] using hchg,
                  Or.inr (Or.inr ⟨by simpa [isNested_set_nested] using hn0,
                    by simp [entries_set_nested, mapLookup_mapDelete_same], rfl⟩)⟩
              · refine ⟨i + 1, by simpa using hi, ?_, fun hnot => absurd hnot hfree⟩
                exact BreaksAt.succ_iff.2 ⟨_, c, by simpa [deref] using hchg,
                  by simpa [isNested_set_nested] using hn0,
                  by simp [entries_set_nested, mapLookup_mapDelete_ne _ _ _ (Ne.symm hkk),
                    ← hent, hk1],
                  hb⟩
      · simp [hn0] at hl

theorem exists_snoc_of_ne_nil {keys : List String} (hne : keys ≠ []) :
    ∃ ks k, keys = ks ++ [k] :=
  ⟨keys.dropLast, keys.getLast hne, (List.dropLast_append_getLast hne).symm⟩

/-- C11, counterexample. With `A` and `B` stored under `p` and `q` and holding the same
map (`B.SetMap(m)` with the map `m` returned by `A.GetMap()`), `Get("p", "z")` and
`Get("q", "z")` resolve; `Delete("p", "z")` returns no error and removes the entry `z`
of `B` as well: `Get("q", "z")` then fails and the cell `B` is not what it was. -/
theorem Delete_changes_sharing_node :
    Nested.GetMap (Nested.SetMap [{}, {}, {}, {}] (some 1) (.made (some [])) []).1
      (some 1) [] = .ok (.heldBy 1) ∧
    Nested.Get sharedSiblingsHeap (some 0) ["p", "z"] = .ok (some 3) ∧
    Nested.Get sharedSiblingsHeap (some 0) ["q", "z"] = .ok (some 3) ∧
    lookupChain sharedSiblingsHeap (some 0) ["p"] = some (some 1) ∧
    (Nested.Delete sharedSiblingsHeap (some 0) ["p", "z"]).2 = .ok () ∧
    Nested.Get (Nested.Delete sharedSiblingsHeap (some 0) ["p", "z"]).1 (some 0) ["q", "z"]
      = .error "q: key 'z' not found" ∧
    (sharedSiblingsHeap[2]?.map Nested.Length,
      (Nested.Delete sharedSiblingsHeap (some 0) ["p", "z"]).1[2]?.map Nested.Length)
      = (some 1, some 0) := by
  decide

/-- C11 (amended). `Delete` removes the addressed entry from the map of the parent:
when `Get(keys)` resolves, to `x`, `Delete(keys)` returns no error; afterwards
`Get(keys)` fails with a key-not-found error for the last key (behind the dotted text of
the keys traversed, which are all but the last when neither the parent nor a cell
holding its map is met earlier on the way); the parent, the cell `p` reached by the keys
before the last, has lost the entry of the last key and kept every other entry, its
flags, array and value, having one entry fewer (map keys being unique); every other
cell that does not hold the map of the parent is unchanged, and every other cell that
holds it has the entries of the parent and is unchanged otherwise. -/
theorem Delete_removes_entry (h : Heap) (j x : Ptr) (keys : List String) (hne : keys ≠ [])
    (hg : Nested.Get h j keys = .ok x) :
    (Nested.Delete h j keys).2 = .ok () ∧
    (∃ i, i < keys.length ∧
      Nested.Get (Nested.Delete h j keys).1 j keys =
        .error (prefixed keys i (sepAt keys.length i) (errKeyNotFound (keys.getLast hne)))) ∧
    ∃ p n n2, lookupChain h j keys.dropLast = some (some p) ∧ h[p]? = some n ∧
      mapLookup n.entries (keys.getLast hne) = some x ∧
      (Nested.Delete h j keys).1[p]? = some n2 ∧
      n2.isValue = n.isValue ∧ n2.isArray = n.isArray ∧ n2.array = n.array ∧
      n2.value = n.value ∧
      mapLookup n2.entries (keys.getLast hne) = none ∧
      (∀ k, k ≠ keys.getLast hne → mapLookup n2.entries k = mapLookup n.entries k) ∧
      ((n.entries.map Prod.fst).Nodup → n2.entries.length + 1 = n.entries.length) ∧
      (∀ q y, q ≠ p → h[q]? = some y → sameMap n y = false →
        (Nested.Delete h j keys).1[q]? = some y) ∧
      (∀ q y, q ≠ p → h[q]? = some y → sameMap n y = true →
        (Nested.Delete h j keys).1[q]? = some { y with nested := n2.nested }) ∧
      ((∀ q ∈ pathNodes h j keys.dropLast, q ≠ p ∧ ∀ y, h[q]? = some y → sameMap n y = false) →
        Nested.Get (Nested.Delete h j keys).1 j keys =
          .error (prefixed keys (keys.length - 1) ": "
            (errKeyNotFound (keys.getLast hne)))) := by
  obtain ⟨ks, k, rfl⟩ := exists_snoc_of_ne_nil hne
  have hlast : (ks ++ [k]).getLast hne = k := by simp
  have hdrop : (ks ++ [k]).dropLast = ks := by simp
  obtain ⟨p, n, hl, hp, hn, hk⟩ := Get_ok_parent hg
  have hdel := Delete_resolved hl hp hn hk
  have hplt : p < h.length := getElem?_lt hp
  obtain ⟨i, hi, hb, hacyc⟩ := Get_after_delete k hp hn ks j hl
  have hilt : i < (ks ++ [k]).length := by simp; omega
  simp only [hlast, hdrop, hdel]
  refine ⟨trivial, ⟨i, hilt, ?_⟩, p, n, _, hl, hp, hk, getElem?_putMap_self _ _ hplt, rfl, rfl,
    rfl, rfl, ?_, ?_, ?_, ?_, ?_, ?_⟩
  · rw [Get_error_at _ _ j i _ hb, errAt_eq_prefixed _ i _ hilt]
  · simp [entries_set_nested, mapLookup_mapDelete_same]
  · intro k2 hk2
    simp [entries_set_nested, mapLookup_mapDelete_ne _ _ _ (Ne.symm hk2)]
  · intro hnd
    simpa [entries_set_nested] using mapDelete_length hnd hk
  · intro q y hq hy hs
    exact getElem?_putMap_other _ _ hq hy hs
  · intro q y hq hy hs
    rw [getElem?_putMap_ne _ _ hq, hy]
    simp [hs]
  · intro hnot
    have hi2 := hacyc hnot
    subst hi2
    rw [Get_error_at _ _ j _ _ hb, errAt_eq_prefixed _ _ _ hilt]
    simp [sepAt]

/-- C11, witness: `Delete("nested", "value")` on the test object, as in `Test_Delete`;
`Get("nested", "value")` afterwards fails with "nested: key 'value' not found". -/
theorem Delete_removes_entry_witness :
    Nested.Get testHeap (some 0) ["nested", "value"] = .ok (some 6) ∧
    (Nested.Delete testHeap (some 0) ["nested", "value"]).2 = .ok () ∧
    Nested.Get (Nested.Delete testHeap (some 0) ["nested", "value"]).1 (some 0)
      ["nested", "value"] = .error "nested: key 'value' not found" :=
  ⟨by decide,
    (Delete_removes_entry testHeap (some 0) (some 6) ["nested", "value"] (by decide)
      (by decide)).1,
    by decide⟩

/-- C12, counterexample: after `SetValue(5, "a")` on a freshly constructed node,
`Delete("a")` succeeds and the removed node (cell 1) is still the scalar 5, not an
empty node. And the removed node is not always as it was: after `A.Set(x, "z")` and
`x.SetMap(m)` with the map `m` returned by `A.GetMap()`, the node `x` (cell 1) holds the
map of its parent `A` and is not empty; `A.Delete("z")` empties that map, and `x`
reports `IsEmpty()`. -/
theorem Delete_leaves_removed_node :
    (Nested.Get (Nested.SetValue [{}] (some 0) (.int 5) ["a"]).1 (some 0) ["a"]
        = .ok (some 1) ∧
      (Nested.Delete (Nested.SetValue [{}] (some 0) (.int 5) ["a"]).1 (some 0) ["a"]).2
        = .ok () ∧
      (Nested.Delete (Nested.SetValue [{}] (some 0) (.int 5) ["a"]).1 (some 0) ["a"]).1[1]?
        = some { isValue := true, value := .int 5 } ∧
      ({ isValue := true, value := .int 5 } : Nested).IsEmpty = false) ∧
    (Nested.GetMap (Nested.Set [{}, {}] (some 0) (some 1) ["z"]).1 (some 0) []
        = .ok (.heldBy 0) ∧
      Nested.Get (Nested.SetMap (Nested.Set [{}, {}] (some 0) (some 1) ["z"]).1 (some 1)
        (.heldBy 0) []).1 (some 0) ["z"] = .ok (some 1) ∧
      ((Nested.SetMap (Nested.Set [{}, {}] (some 0) (some 1) ["z"]).1 (some 1)
        (.heldBy 0) []).1.map Nested.IsEmpty) = [false, false] ∧
      (Nested.Delete (Nested.SetMap (Nested.Set [{}, {}] (some 0) (some 1) ["z"]).1 (some 1)
        (.heldBy 0) []).1 (some 0) ["z"]).2 = .ok () ∧
      ((Nested.Delete (Nested.SetMap (Nested.Set [{}, {}] (some 0) (some 1) ["z"]).1 (some 1)
        (.heldBy 0) []).1 (some 0) ["z"]).1.map Nested.IsEmpty) = [true, true]) :=
  ⟨⟨by decide, by decide, rfl, rfl⟩, by decide⟩

/-- C12 (amended). `Delete` only unlinks the removed entry: when `Get(keys)` resolves to
a node `x`, `Delete(keys)` succeeds and changes no cell but the parent `p` and the cells
that hold the map of the parent; the removed node `x` and every node contained in it,
unless it is the parent or holds the map of the parent, are exactly as before, so a
reference to `x` obtained before the call reports `IsEmpty()` after the call exactly if
it did before. -/
theorem Delete_unlinks_only (h : Heap) (j : Ptr) (b : Nat) (keys : List String)
    (hne : keys ≠ []) (hg : Nested.Get h j keys = .ok (some b)) :
    (Nested.Delete h j keys).2 = .ok () ∧
    ∃ p n, lookupChain h j keys.dropLast = some (some p) ∧ h[p]? = some n ∧
      (∀ q y, q ≠ p → h[q]? = some y → sameMap n y = false →
        (Nested.Delete h j keys).1[q]? = some y) ∧
      (∀ c y, Contains h b c → c ≠ p → h[c]? = some y → sameMap n y = false →
        (Nested.Delete h j keys).1[c]? = some y) ∧
      (∀ nb, b ≠ p → h[b]? = some nb → sameMap n nb = false →
        ∃ nb2, (Nested.Delete h j keys).1[b]? = some nb2 ∧ nb2.IsEmpty = nb.IsEmpty) := by
  obtain ⟨ks, k, rfl⟩ := exists_snoc_of_ne_nil hne
  have hdrop : (ks ++ [k]).dropLast = ks := by simp
  obtain ⟨p, n, hl, hp, hn, hk⟩ := Get_ok_parent hg
  have hdel := Delete_resolved hl hp hn hk
  simp only [hdrop, hdel]
  have hframe : ∀ q y, q ≠ p → h[q]? = some y → sameMap n y = false →
      (putMap h p n (mapDelete n.entries k))[q]? = some y :=
    fun q y hq hy hs => getElem?_putMap_other _ _ hq hy hs
  refine ⟨trivial, p, n, hl, hp, hframe, fun c y _ hc hy hs => hframe c y hc hy hs, ?_⟩
  intro nb hbp hb hs
  exact ⟨nb, hframe b nb hbp hb hs, rfl⟩

/-- C12, witness: `Delete("nested", "nested")` on the test object leaves the removed
map (cell 7) with its entry. -/
theorem Delete_unlinks_only_witness :
    Nested.Get testHeap (some 0) ["nested", "nested"] = .ok (some 7) ∧
    (Nested.Delete testHeap (some 0) ["nested", "nested"]).2 = .ok () ∧
    (Nested.Delete testHeap (some 0) ["nested", "nested"]).1[7]?
      = some { nested := some [("value", some 8)] } :=
  ⟨by decide,
    (Delete_unlinks_only testHeap (some 0) 7 ["nested", "nested"] (by decide) (by decide)).1,
    rfl⟩

/-- C14: `Delete(k)` on a freshly constructed node panics (assignment to an entry of the
nil map), and so does `j.Delete(a, k)` after `j.Set(&Nested{}, a)`. -/
theorem Delete_fresh_node_panics (a k : String) :
    Nested.Delete [{}] (some 0) [k] = ([{}], .panic) ∧
    (Nested.Set [{}, {}] (some 0) (some 1) [a]).2 = .ok () ∧
    (Nested.Delete (Nested.Set [{}, {}] (some 0) (some 1) [a]).1 (some 0) [a, k]).2
      = .panic := by
  refine ⟨rfl, rfl, ?_⟩
  have hset : (Nested.Set [{}, {}] (some 0) (some 1) [a]).1 =
      [{ nested := some [(a, some 1)] }, {}] := rfl
  rw [hset]
  have hget : Nested.Get [{ nested := some [(a, some 1)] }, {}] (some 0) [a] = .ok (some 1) := by
    rw [Get_cons]
    simp [deref, Nested.IsValue, Nested.IsArray, Nested.entries, mapLookup]
  simp [Nested.Delete, Nested.IsValue, Nested.IsArray, hget, deleteEntry]

theorem errKeyNotFound_ne_isValue (k : String) : errKeyNotFound k ≠ "is value" := by
  intro hc
  have := congrArg String.data hc
  simp [errKeyNotFound, String.data_append] at this

theorem errKeyNotFound_ne_isArray (k : String) : errKeyNotFound k ≠ "is array" := by
  intro hc
  have := congrArg String.data hc
  simp [errKeyNotFound, String.data_append] at this

/-- The two separators give different messages behind the same prefix. -/
theorem sep_dot_ne_colon (pre err : String) : pre ++ "." ++ err ≠ pre ++ ": " ++ err := by
  intro hc
  have := congrArg String.data hc
  simp [String.data_append] at this

theorem getElem?_snoc_lt (ks : List String) (k : String) {i : Nat} (hi : i < ks.length) :
    (ks ++ [k])[i]? = ks[i]? := List.getElem?_append_left hi

theorem take_snoc_le (ks : List String) (k : String) {i : Nat} (hi : i ≤ ks.length) :
    (ks ++ [k]).take i = ks.take i := List.take_append_of_le_length hi

/-- A break before the last key is a break of the chain without the last key. -/
theorem BreaksAt.of_snoc {h : Heap} {j : Ptr} {ks : List String} {k : String} {i : Nat}
    {err : String} (hi : i < ks.length) (hb : BreaksAt h j (ks ++ [k]) i err) :
    BreaksAt h j ks i err := by
  obtain ⟨k2, x, n, hk, hl, hx, hc⟩ := hb
  rw [getElem?_snoc_lt ks k hi] at hk
  rw [take_snoc_le ks k (le_of_lt hi)] at hl
  exact ⟨k2, x, n, hk, hl, hx, hc⟩

/-- `Delete` passes on the error of `Get` on the keys before the last. -/
theorem Delete_of_Get_error {h : Heap} {j : Ptr} {ks : List String} (k : String) {e : String}
    (hne : ks ≠ []) (hg : Nested.Get h j ks = .error e) :
    Nested.Delete h j (ks ++ [k]) = (h, .error e) := by
  obtain ⟨k1, rest, rfl⟩ := List.exists_cons_of_ne_nil hne
  have hlen : (rest ++ [k]).length ≠ 0 := by simp
  cases j with
  | none => simp [Get_cons, deref] at hg
  | some a =>
    cases ha : h[a]? with
    | none => simp [Get_cons, deref, ha] at hg
    | some n =>
      simp only [List.cons_append, Nested.Delete, ha, hlen, dropLast_snoc_cons, if_false]
      by_cases hv : n.IsValue = true
      · rw [Get_cons] at hg
        simp only [deref, ha, hv, if_true, Result.error.injEq] at hg
        simp [hv, hg]
      · by_cases har : n.IsArray = true
        · rw [Get_cons] at hg
          simp only [deref, ha, hv, har, if_true, if_false, Bool.false_eq_true,
            Result.error.injEq] at hg
          simp [hv, har, hg]
        · simp [hv, har, hg]

/-- `Delete` on a chain whose keys before the last lead to a scalar or an array. -/
theorem Delete_parent_wrong_shape {h : Heap} {j : Ptr} {ks : List String} (k : String)
    {p : Ptr} {np : Nested} (hne : ks ≠ []) (hl : lookupChain h j ks = some p)
    (hp : deref h p = some np) (hnp : np.IsNested = false) :
    Nested.Delete h j (ks ++ [k]) =
      (h, .error (String.intercalate "." ks ++
        (if np.IsValue = true then ": is value" else ": is array"))) := by
  have hget := (Get_ok_iff_lookupChain h _ j p hne).2 hl
  obtain ⟨nj, hnj, hnj1, _⟩ := Get_ok_start hget
  obtain ⟨hvj, harj⟩ := (isNested_iff nj).1 hnj1
  obtain ⟨k1, rest, rfl⟩ := List.exists_cons_of_ne_nil hne
  have hlen : (rest ++ [k]).length ≠ 0 := by simp
  cases j with
  | none => simp [deref] at hnj
  | some a =>
    simp only [deref] at hnj
    cases p with
    | none => simp [deref] at hp
    | some b =>
      simp only [deref] at hp
      simp only [List.cons_append, Nested.Delete, hnj, hvj, harj, hlen, dropLast_snoc_cons,
        hget, hp, if_false, Bool.false_eq_true]
      by_cases hv : np.IsValue = true
      · simp [hv]
      · by_cases har : np.IsArray = true
        · simp [hv, har]
        · exact absurd ((isNested_iff np).2 ⟨by simpa using hv, by simpa using har⟩)
            (by simp [hnp])

theorem prefixed_snoc (ks : List String) (k : String) {i : Nat} (hi : i ≤ ks.length)
    (sep err : String) : prefixed (ks ++ [k]) i sep err = prefixed ks i sep err := by
  simp only [prefixed, take_snoc_le ks k hi]

/-- C13, counterexample: on the test object the chain `value`, `a`, `b` meets the scalar
under `value` before the last key; `Get` reports "value.is value" and `Delete` reports
"value: is value". -/
theorem Delete_error_differs_from_Get :
    BreaksAt testHeap (some 0) ["value", "a", "b"] 1 "is value" ∧
    Nested.Get testHeap (some 0) ["value", "a", "b"] = .error "value.is value" ∧
    (Nested.Delete testHeap (some 0) ["value", "a", "b"]).2 = .error "value: is value" ∧
    (Nested.Delete testHeap (some 0) ["value", "a", "b"]).2 ≠ .error "value.is value" :=
  ⟨⟨"a", some 1, { isValue := true, value := .int 42 }, rfl, by decide, rfl,
      Or.inl ⟨rfl, rfl⟩⟩,
    by decide, by decide, by decide⟩

/-- C13. `Delete` fails like `Get` on the keys before the last: when the traversal of a
chain of `n >= 2` keys breaks after `i` keys at a scalar, an array or a missing key
before the last key, `Delete` leaves the heap unchanged and returns the innermost
message behind the dotted text of the `i` keys traversed, with the separator ": " when
`i = n - 1` or `i = n - 2` and "." otherwise, where `Get` on the whole chain has ": "
only when `i = n - 1`. The two messages are the same when `i = 0` or `i ≠ n - 2`, and
differ when `1 <= i = n - 2`. -/
theorem Delete_error_vs_Get (h : Heap) (j : Ptr) (keys : List String) (i : Nat) (err : String)
    (hn : 2 ≤ keys.length) (hb : BreaksAt h j keys i err)
    (hbefore : i + 1 < keys.length ∨ err = "is value" ∨ err = "is array") :
    Nested.Get h j keys =
      .error (prefixed keys i (if i + 1 = keys.length then ": " else ".") err) ∧
    Nested.Delete h j keys =
      (h, .error (prefixed keys i
        (if i + 1 = keys.length ∨ i + 2 = keys.length then ": " else ".") err)) ∧
    ((i = 0 ∨ i + 2 ≠ keys.length) → ∀ m, Nested.Get h j keys = .error m →
      (Nested.Delete h j keys).2 = .error m) ∧
    (1 ≤ i → i + 2 = keys.length → ∀ m, Nested.Get h j keys = .error m →
      (Nested.Delete h j keys).2 ≠ .error m) := by
  have hne : keys ≠ [] := by
    intro h0; subst h0; simp at hn
  have hget : Nested.Get h j keys =
      .error (prefixed keys i (if i + 1 = keys.length then ": " else ".") err) := by
    rw [Get_error_at h keys j i err hb, errAt_eq_prefixed keys i err hb.lt]
    rfl
  have hdel : Nested.Delete h j keys =
      (h, .error (prefixed keys i
        (if i + 1 = keys.length ∨ i + 2 = keys.length then ": " else ".") err)) := by
    have hilt := hb.lt
    obtain ⟨ks, k, rfl⟩ := exists_snoc_of_ne_nil hne
    have hks : ks ≠ [] := by
      intro h0; subst h0; simp at hn
    simp only [List.length_append, List.length_singleton] at hilt hbefore ⊢
    by_cases hi : i < ks.length
    · have hb2 := hb.of_snoc hi
      rw [Delete_of_Get_error k hks (Get_error_at h ks j i err hb2),
        errAt_eq_prefixed ks i err hi, prefixed_snoc ks k (le_of_lt hi)]
      have h1 : ¬ (i + 1 = ks.length + 1) := by omega
      by_cases h2 : i + 1 = ks.length
      · have h3 : i + 2 = ks.length + 1 := by omega
        simp [sepAt, h1, h2, h3]
      · have h3 : ¬ (i + 2 = ks.length + 1) := by omega
        simp [sepAt, h1, h2, h3]
    · have hi2 : i = ks.length := by omega
      subst hi2
      have hshape : err = "is value" ∨ err = "is array" := by
        rcases hbefore with hlt | hs
        · omega
        · exact hs
      obtain ⟨k2, x, n, hk, hl, hx, hc⟩ := hb
      rw [take_snoc_le ks k (le_refl _), List.take_length] at hl
      have hi0 : ks.length ≠ 0 := fun h0 => hks (List.length_eq_zero.mp h0)
      have hnn : n.IsNested = false ∧
          err = (if n.IsValue = true then "is value" else "is array") := by
        rcases hc with ⟨hv, he⟩ | ⟨hv, ha, he⟩ | ⟨_, _, he⟩
        · exact ⟨by simp only [Nested.IsNested, Nested.IsValue] at hv ⊢; simp [hv],
            by simp [hv, he]⟩
        · exact ⟨by simp only [Nested.IsNested, Nested.IsArray] at ha ⊢; simp [ha],
            by simp [hv, he]⟩
        · rcases hshape with hs | hs
          · exact absurd (he.symm.trans hs) (errKeyNotFound_ne_isValue k2)
          · exact absurd (he.symm.trans hs) (errKeyNotFound_ne_isArray k2)
      rw [Delete_parent_wrong_shape k hks hl hx hnn.1, hnn.2]
      by_cases hv : n.IsValue = true
      · simp [prefixed, hi0, hv, take_snoc_le ks k (le_refl _), String.append_assoc]
      · simp [prefixed, hi0, hv, take_snoc_le ks k (le_refl _), String.append_assoc]
  refine ⟨hget, hdel, ?_, ?_⟩
  · intro hcase m hm
    rw [hget] at hm
    rw [hdel]
    simp only [Result.error.injEq] at hm ⊢
    rw [← hm]
    rcases hcase with h0 | h2
    · simp [prefixed, h0]
    · simp [h2]
  · intro h1 h2 m hm
    rw [hget] at hm
    rw [hdel]
    simp only [Result.error.injEq] at hm
    have hi0 : i ≠ 0 := by omega
    have h3 : ¬ (i + 1 = keys.length) := by omega
    simp only [h3, if_false, prefixed, hi0] at hm
    simp only [h2, or_true, if_true, prefixed, hi0, if_false, ne_eq, Result.error.injEq, ← hm]
    exact fun hc => sep_dot_ne_colon _ _ hc.symm

/-- C13, witness: `Delete("nested", "array", "somekey")` on the test object, as in
`Test_Delete`: the traversal meets the array after two keys, and `Delete` reports the
message of `Get`, "nested.array: is array". -/
theorem Delete_error_vs_Get_witness :
    BreaksAt testHeap (some 0) ["nested", "array", "somekey"] 2 "is array" ∧
    Nested.Get testHeap (some 0) ["nested", "array", "somekey"]
      = .error "nested.array: is array" ∧
    (Nested.Delete testHeap (some 0) ["nested", "array", "somekey"]).2
      = .error "nested.array: is array" :=
  ⟨⟨"somekey", some 9, { isArray := true, array := some [some 10, some 12, some 15] }, rfl,
      by decide, rfl, Or.inr (Or.inl ⟨rfl, rfl, rfl⟩)⟩,
    by decide,
    (Delete_error_vs_Get testHeap (some 0) ["nested", "array", "somekey"] 2 "is array"
      (by decide)
      ⟨"somekey", some 9, { isArray := true, array := some [some 10, some 12, some 15] }, rfl,
        by decide, rfl, Or.inr (Or.inl ⟨rfl, rfl, rfl⟩)⟩
      (Or.inr (Or.inr rfl))).2.2.1 (Or.inr (by decide)) _ (by decide)⟩

/-- Replacing the slice of a cell changes no result of `Get`. -/
theorem Get_set_array {h : Heap} {b : Nat} {x : Nested} (arr : Option (List Ptr))
    (hb : h[b]? = some x) :
    ∀ (keys : List String) (j : Ptr),
      Nested.Get (h.set b { x with array := arr }) j keys = Nested.Get h j keys := by
  have hblt : b < h.length := getElem?_lt hb
  intro keys
  induction keys with
  | nil => intro j; simp [Get_nil]
  | cons k rest ih =>
    intro j
    rw [Get_cons, Get_cons]
    cases j with
    | none => simp [deref]
    | some a =>
      by_cases hab : a = b
      · subst hab
        simp only [deref, List.getElem?_set_self hblt, hb, ih]
        rfl
      · simp only [deref, List.getElem?_set_ne (Ne.symm hab), ih]

theorem isEmpty_set_array (n : Nested) (arr : Option (List Ptr)) :
    ({ n with array := arr } : Nested).IsEmpty = n.IsEmpty := rfl

theorem isValue_set_array (n : Nested) (arr : Option (List Ptr)) :
    ({ n with array := arr } : Nested).IsValue = n.IsValue := rfl

theorem isArray_set_array (n : Nested) (arr : Option (List Ptr)) :
    ({ n with array := arr } : Nested).IsArray = n.IsArray := rfl

theorem isNested_set_array (n : Nested) (arr : Option (List Ptr)) :
    ({ n with array := arr } : Nested).IsNested = n.IsNested := rfl

/-- C20. `ArrayAdd` appends: when `j.GetArray(keys)` returns the sequence `a` (the chain
may be empty) and `j.ArrayAdd(e, keys)` returns no error, `j.GetArray(keys)` afterwards
returns `a` with `e` appended as the last element: one element more, the previous
elements unchanged and in the same order. -/
theorem ArrayAdd_appends (h : Heap) (j e : Ptr) (keys : List String) (a : Option (List Ptr))
    (hget : Nested.GetArray h j keys = .ok a)
    (hadd : (Nested.ArrayAdd h j e keys).2 = .ok ()) :
    Nested.GetArray (Nested.ArrayAdd h j e keys).1 j keys = .ok (some (a.getD [] ++ [e])) ∧
    (a.getD [] ++ [e]).length = (a.getD []).length + 1 ∧
    (∀ i, i < (a.getD []).length → (a.getD [] ++ [e])[i]? = (a.getD [])[i]?) ∧
    (a.getD [] ++ [e])[(a.getD []).length]? = some e := by
  refine ⟨?_, by simp, fun i hi => List.getElem?_append_left hi, by simp⟩
  cases j with
  | none => simp [Nested.GetArray, deref] at hget
  | some r =>
    cases hr : h[r]? with
    | none => simp [Nested.GetArray, deref, hr] at hget
    | some n =>
      have hrlt : r < h.length := getElem?_lt hr
      simp only [Nested.GetArray, deref, hr] at hget
      by_cases he : n.IsEmpty = true
      · simp [he] at hget
      · by_cases hv : n.IsValue = true
        · simp [he, hv] at hget
        · simp only [he, hv, if_false, Bool.false_eq_true] at hget
          have he2 : n.IsEmpty = false := by simpa using he
          have hv2 : n.IsValue = false := by simpa using hv
          by_cases hlen : keys.length = 0
          · have hk : keys = [] := List.length_eq_zero.mp hlen
            subst hk
            by_cases ha : n.IsArray = true
            · simp only [List.length_nil, ha, and_self, if_true, Result.ok.injEq] at hget
              have hnn : n.IsNested = false := by
                simp only [Nested.IsNested, Nested.IsArray] at ha ⊢
                simp [ha]
              simp only [Nested.ArrayAdd, hr, List.length_nil, if_true, hv2, hnn, if_false,
                Bool.false_eq_true, Nested.GetArray, deref, List.getElem?_set_self hrlt]
              simp only [isEmpty_set_array, isValue_set_array, isArray_set_array, he2, hv2, ha,
                and_self, if_true, if_false, Bool.false_eq_true, ← hget]
              rfl
            · have hnn : n.IsNested = true :=
                (isNested_iff n).2 ⟨hv2, by simpa using ha⟩
              simp [ha, hnn] at hget
          · simp only [hlen, false_and, if_false] at hget
            cases hg : Nested.Get h (some r) keys with
            | error m => simp [hg] at hget
            | panic => simp [hg] at hget
            | ok nested =>
              simp only [hg] at hget
              cases nested with
              | none => simp at hget
              | some b =>
                cases hx : h[b]? with
                | none => simp [hx] at hget
                | some x =>
                  simp only [hx] at hget
                  by_cases hxv : x.IsValue = true
                  · simp [hxv] at hget
                  · by_cases hxn : x.IsNested = true
                    · simp [hxv, hxn] at hget
                    · simp only [hxv, hxn, if_false, Bool.false_eq_true,
                        Result.ok.injEq] at hget
                      have hxv2 : x.IsValue = false := by simpa using hxv
                      have hxn2 : x.IsNested = false := by simpa using hxn
                      obtain ⟨n0, hn0, hnest, _⟩ := Get_ok_start hg
                      simp only [deref, hr, Option.some.injEq] at hn0
                      subst hn0
                      obtain ⟨_, ha⟩ := (isNested_iff n).1 hnest
                      have hblt : b < h.length := getElem?_lt hx
                      have hrb : r ≠ b := by
                        intro hrb
                        subst hrb
                        rw [hr] at hx
                        cases hx
                        rw [hnest] at hxn2
                        cases hxn2
                      simp only [Nested.ArrayAdd, hr, hlen, he2, ha, hg, hx, hxv2, hxn2,
                        if_false, Bool.false_eq_true, Nested.GetArray, deref,
                        List.getElem?_set_ne (Ne.symm hrb), hv2, false_and,
                        Get_set_array _ hx, List.getElem?_set_self hblt]
                      simp only [isValue_set_array, isNested_set_array, hxv2, hxn2, if_false,
                        Bool.false_eq_true, ← hget]
                      rfl

/-- C20, witness: `ArrayAdd(e, "array")` on the test object, as in `Test_ArrayAdd`, with
the scalar of cell 1 as the element. -/
theorem ArrayAdd_appends_witness :
    Nested.GetArray testHeap (some 0) ["array"] = .ok (some [some 3, some 4]) ∧
    (Nested.ArrayAdd testHeap (some 0) (some 1) ["array"]).2 = .ok () ∧
    Nested.GetArray (Nested.ArrayAdd testHeap (some 0) (some 1) ["array"]).1 (some 0) ["array"]
      = .ok (some ((some [some 3, some 4] : Option (List Ptr)).getD [] ++ [some 1])) :=
  ⟨by decide, by decide,
    (ArrayAdd_appends testHeap (some 0) (some 1) ["array"] (some [some 3, some 4])
      (by decide) (by decide)).1⟩

/-- C22. No-key `ArrayAdd` rejection: for every element `e`, `ArrayAdd(e)` with no keys
returns the error "is value" on a scalar node and "is nested" on every map-shaped node,
the empty one included, and leaves the heap unchanged; with at least one key on an empty
node it returns the error "is empty", again leaving the heap unchanged. -/
theorem ArrayAdd_rejects (h : Heap) (j e : Ptr) (n : Nested) (hj : deref h j = some n) :
    (n.IsValue = true → Nested.ArrayAdd h j e [] = (h, .error "is value")) ∧
    (n.IsNested = true → Nested.ArrayAdd h j e [] = (h, .error "is nested")) ∧
    (n.IsEmpty = true → n.IsNested = true) ∧
    (n.IsEmpty = true → ∀ keys, keys ≠ [] →
      Nested.ArrayAdd h j e keys = (h, .error "is empty")) := by
  cases j with
  | none => simp [deref] at hj
  | some a =>
    simp only [deref] at hj
    refine ⟨fun hv => ?_, fun hn => ?_, fun he => ?_, fun he keys hne => ?_⟩
    · simp [Nested.ArrayAdd, hj, hv]
    · obtain ⟨hv, _⟩ := (isNested_iff n).1 hn
      simp [Nested.ArrayAdd, hj, hv, hn]
    · simp only [Nested.IsEmpty, Nested.IsNested, Bool.and_eq_true] at he ⊢
      exact he.1
    · have hlen : keys.length ≠ 0 := fun h0 => hne (List.length_eq_zero.mp h0)
      simp [Nested.ArrayAdd, hj, hlen, he]

/-- C22, witness: `ArrayAdd` on the scalar 42 and on a freshly constructed node, with and
without a key, as in `Test_ArrayAdd`. -/
theorem ArrayAdd_rejects_witness :
    Nested.ArrayAdd [{ isValue := true, value := .int 42 }, {}] (some 0) (some 1) []
      = ([{ isValue := true, value := .int 42 }, {}], .error "is value") ∧
    Nested.ArrayAdd [{}, { isValue := true, value := .int 142 }] (some 0) (some 1) []
      = ([{}, { isValue := true, value := .int 142 }], .error "is nested") ∧
    Nested.ArrayAdd [{}, { isValue := true, value := .int 142 }] (some 0) (some 1) ["somekey"]
      = ([{}, { isValue := true, value := .int 142 }], .error "is empty") :=
  ⟨(ArrayAdd_rejects [{ isValue := true, value := .int 42 }, {}] (some 0) (some 1) _ rfl).1 rfl,
    (ArrayAdd_rejects [{}, { isValue := true, value := .int 142 }] (some 0) (some 1) _
      rfl).2.1 rfl,
    (ArrayAdd_rejects [{}, { isValue := true, value := .int 142 }] (some 0) (some 1) _
      rfl).2.2.2 rfl ["somekey"] (by decide)⟩

/-- C21, counterexample: a freshly constructed node is empty, neither a scalar nor a
non-empty map, and `ArrayAdd(e)` with no keys fails on it with "is nested", leaving it
as it was. -/
theorem ArrayAdd_rejects_empty_node :
    ({} : Nested).IsEmpty = true ∧ ({} : Nested).IsValue = false ∧
    Nested.ArrayAdd [{}, { isValue := true, value := .int 142 }] (some 0) (some 1) []
      = ([{}, { isValue := true, value := .int 142 }], .error "is nested") :=
  ⟨rfl, rfl, rfl⟩

/-- C21. No-key `ArrayAdd` acceptance: for every node `j` and element `e`, `j.ArrayAdd(e)`
with no keys succeeds exactly when `j` is an array and not a scalar, and then appends
`e` to the array of `j`, changing nothing else; on an empty node it fails with
"is nested" and the node is not turned into an array. -/
theorem ArrayAdd_no_keys_accepts (h : Heap) (a : Nat) (e : Ptr) (n : Nested)
    (hj : h[a]? = some n) :
    ((Nested.ArrayAdd h (some a) e []).2 = .ok () ↔ (n.IsValue = false ∧ n.IsArray = true)) ∧
    (n.IsValue = false → n.IsArray = true →
      Nested.ArrayAdd h (some a) e [] =
        (h.set a { n with array := some (n.elems ++ [e]) }, .ok ())) ∧
    (n.IsEmpty = true → Nested.ArrayAdd h (some a) e [] = (h, .error "is nested")) := by
  have hacc : n.IsValue = false → n.IsArray = true →
      Nested.ArrayAdd h (some a) e [] =
        (h.set a { n with array := some (n.elems ++ [e]) }, .ok ()) := by
    intro hv ha
    have hn : n.IsNested = false := by
      simp only [Nested.IsNested, Nested.IsArray] at ha ⊢
      simp [ha]
    simp [Nested.ArrayAdd, hj, hv, hn]
  refine ⟨⟨fun hok => ?_, fun hc => by rw [hacc hc.1 hc.2]⟩, hacc, fun he => ?_⟩
  · by_cases hv : n.IsValue = true
    · simp [Nested.ArrayAdd, hj, hv] at hok
    · by_cases hn : n.IsNested = true
      · simp [Nested.ArrayAdd, hj, hv, hn] at hok
      · refine ⟨by simpa using hv, ?_⟩
        simp only [Nested.IsNested, Nested.IsValue, Nested.IsArray] at hv hn ⊢
        cases hav : n.isArray
        · simp [hav] at hn; exact absurd hn hv
        · rfl
  · have hn : n.IsNested = true := by
      simp only [Nested.IsEmpty, Nested.IsNested, Bool.and_eq_true] at he ⊢
      exact he.1
    obtain ⟨hv, _⟩ := (isNested_iff n).1 hn
    simp [Nested.ArrayAdd, hj, hv, hn]

/-- C21, witness: `ArrayAdd` with no keys on the array of the test object. -/
theorem ArrayAdd_no_keys_accepts_witness :
    (Nested.ArrayAdd testHeap (some 2) (some 1) []).2 = .ok () ∧
    Nested.GetArray (Nested.ArrayAdd testHeap (some 2) (some 1) []).1 (some 2) []
      = .ok (some [some 3, some 4, some 1]) :=
  ⟨(ArrayAdd_no_keys_accepts testHeap 2 (some 1) _ rfl).1.2 ⟨rfl, rfl⟩, by decide⟩

/-- The index found by `indexFunc` is the least index of an element satisfying `f`. -/
theorem indexFunc_eq_some_iff (f : Ptr → Bool) (l : List Ptr) :
    ∀ i, indexFunc f l = some i ↔
      ∃ e, l[i]? = some e ∧ f e = true ∧ ∀ k, k < i → ∀ e2, l[k]? = some e2 → f e2 = false := by
  induction l with
  | nil => intro i; simp [indexFunc]
  | cons x xs ih =>
    intro i
    by_cases hx : f x = true
    · simp only [indexFunc, hx, if_true, Option.some.injEq]
      constructor
      · intro h0
        subst h0
        exact ⟨x, by simp, hx, fun k hk => absurd hk (Nat.not_lt_zero k)⟩
      · rintro ⟨e, _, _, hmin⟩
        cases i with
        | zero => rfl
        | succ i =>
          have := hmin 0 (Nat.succ_pos i) x (by simp)
          rw [hx] at this
          cases this
    · have hx2 : f x = false := by simpa using hx
      simp only [indexFunc, hx, if_false, Option.map_eq_some', Bool.false_eq_true]
      constructor
      · rintro ⟨i0, hi0, rfl⟩
        obtain ⟨e, he, hfe, hmin⟩ := (ih i0).1 hi0
        refine ⟨e, by simpa using he, hfe, ?_⟩
        intro k hk e2 hk2
        cases k with
        | zero =>
          simp only [List.getElem?_cons_zero, Option.some.injEq] at hk2
          subst hk2
          exact hx2
        | succ k => exact hmin k (by omega) e2 (by simpa using hk2)
      · rintro ⟨e, he, hfe, hmin⟩
        cases i with
        | zero =>
          simp only [List.getElem?_cons_zero, Option.some.injEq] at he
          subst he
          rw [hfe] at hx2
          cases hx2
        | succ i =>
          refine ⟨i, (ih i).2 ⟨e, by simpa using he, hfe, ?_⟩, rfl⟩
          intro k hk e2 hk2
          exact hmin (k + 1) (by omega) e2 (by simpa using hk2)

theorem indexFunc_eq_none_iff (f : Ptr → Bool) (l : List Ptr) :
    indexFunc f l = none ↔ ∀ e ∈ l, f e = false := by
  induction l with
  | nil => simp [indexFunc]
  | cons x xs ih =>
    by_cases hx : f x = true
    · simp [indexFunc, hx]
    · have hx2 : f x = false := by simpa using hx
      simp [indexFunc, hx2, ih]

theorem findAllLoop_eq (f : Ptr → Bool) (l : List Ptr) :
    ∀ found, findAllLoop f found l = found ++ l.filter f := by
  induction l with
  | nil => intro found; simp [findAllLoop]
  | cons x xs ih =>
    intro found
    by_cases hx : f x = true
    · simp [findAllLoop, hx, ih]
    · simp [findAllLoop, hx, ih]

/-- C24, counterexample: in the array holding one nil pointer (built by `SetArray` on a
freshly constructed node) the element satisfies the predicate "is nil", and
`ArrayFindOne` returns the nil pointer. -/
theorem ArrayFindOne_nil_element :
    Nested.GetArray (Nested.SetArray [{}] (some 0) (some [none]) []).1 (some 0) []
      = .ok (some [none]) ∧
    (fun (_ : Heap) (p : Ptr) => p.isNone)
      (Nested.SetArray [{}] (some 0) (some [none]) []).1 none = true ∧
    Nested.ArrayFindOne (Nested.SetArray [{}] (some 0) (some [none]) []).1 (some 0)
      (fun _ p => p.isNone) [] = .ok none :=
  ⟨by decide, rfl, by decide⟩

/-- C24. `ArrayFindOne` returns the first match: when the target array is `a`,
`ArrayFindOne(f, keys)` returns no error; it returns the element at the least index
whose element satisfies `f`; it returns the nil pointer when no element satisfies `f`,
in particular when the array is empty, and otherwise only when the first element
satisfying `f` is a nil pointer stored in the array. -/
theorem ArrayFindOne_first_match (h : Heap) (j : Ptr) (f : Heap → Ptr → Bool)
    (keys : List String) (a : Option (List Ptr)) (hget : Nested.GetArray h j keys = .ok a) :
    (∃ r, Nested.ArrayFindOne h j f keys = .ok r) ∧
    (∀ (i : Nat) (e : Ptr), (a.getD [])[i]? = some e → f h e = true →
      (∀ k : Nat, k < i → ∀ e2, (a.getD [])[k]? = some e2 → f h e2 = false) →
      Nested.ArrayFindOne h j f keys = .ok e) ∧
    ((∀ e ∈ a.getD [], f h e = false) → Nested.ArrayFindOne h j f keys = .ok none) ∧
    (a.getD [] = [] → Nested.ArrayFindOne h j f keys = .ok none) ∧
    (Nested.ArrayFindOne h j f keys = .ok none →
      (∀ e ∈ a.getD [], f h e = false) ∨
      ∃ i : Nat, (a.getD [])[i]? = some none ∧ f h none = true ∧
        ∀ k : Nat, k < i → ∀ e2, (a.getD [])[k]? = some e2 → f h e2 = false) := by
  have hfirst : ∀ (i : Nat) (e : Ptr), (a.getD [])[i]? = some e → f h e = true →
      (∀ k : Nat, k < i → ∀ e2, (a.getD [])[k]? = some e2 → f h e2 = false) →
      Nested.ArrayFindOne h j f keys = .ok e := by
    intro i e hi hf hmin
    have hidx := (indexFunc_eq_some_iff (f h) (a.getD []) i).2 ⟨e, hi, hf, hmin⟩
    simp [Nested.ArrayFindOne, hget, hidx, hi]
  have hnone : (∀ e ∈ a.getD [], f h e = false) →
      Nested.ArrayFindOne h j f keys = .ok none := by
    intro hall
    have hidx := (indexFunc_eq_none_iff (f h) (a.getD [])).2 hall
    simp [Nested.ArrayFindOne, hget, hidx]
  refine ⟨?_, hfirst, hnone, fun hnil => hnone (by simp [hnil]), ?_⟩
  · cases hidx : indexFunc (f h) (a.getD []) with
    | none => exact ⟨none, hnone ((indexFunc_eq_none_iff _ _).1 hidx)⟩
    | some i =>
      obtain ⟨e, hi, hf, hmin⟩ := (indexFunc_eq_some_iff _ _ i).1 hidx
      exact ⟨e, hfirst i e hi hf hmin⟩
  · intro hres
    cases hidx : indexFunc (f h) (a.getD []) with
    | none => exact Or.inl ((indexFunc_eq_none_iff _ _).1 hidx)
    | some i =>
      obtain ⟨e, hi, hf, hmin⟩ := (indexFunc_eq_some_iff _ _ i).1 hidx
      rw [hfirst i e hi hf hmin] at hres
      simp only [Result.ok.injEq] at hres
      subst hres
      exact Or.inr ⟨i, hi, hf, hmin⟩

/-- C24, witness: in the array of the test object the first scalar holding a string is
cell 4, the second element. -/
theorem ArrayFindOne_first_match_witness :
    Nested.GetArray testHeap (some 0) ["array"] = .ok (some [some 3, some 4]) ∧
    Nested.ArrayFindOne testHeap (some 0)
      (fun h p => match deref h p with
        | some n => n.IsValue && (match n.value with | .string _ => true | _ => false)
        | none => false) ["array"] = .ok (some 4) :=
  ⟨by decide,
    (ArrayFindOne_first_match testHeap (some 0) _ ["array"] (some [some 3, some 4])
      (by decide)).2.1 1 (some 4) rfl rfl (by
        intro k hk e2 hk2
        have hk0 : k = 0 := by omega
        subst hk0
        simp only [Option.getD_some, List.getElem?_cons_zero, Option.some.injEq] at hk2
        subst hk2
        rfl)⟩

/-- C25. `ArrayFindAll` is an order-preserving filter: when the target array is `a`,
`ArrayFindAll(f, keys)` returns no error and exactly the elements of `a` that satisfy
`f`, the same pointers in their original relative order, as a non-nil sequence, which
is empty when none match; the call writes nothing, so the target array is as before. -/
theorem ArrayFindAll_filter (h : Heap) (j : Ptr) (f : Heap → Ptr → Bool)
    (keys : List String) (a : Option (List Ptr)) (hget : Nested.GetArray h j keys = .ok a) :
    Nested.ArrayFindAll h j f keys = .ok (some ((a.getD []).filter (f h))) ∧
    List.Sublist ((a.getD []).filter (f h)) (a.getD []) ∧
    (∀ e, e ∈ (a.getD []).filter (f h) ↔ e ∈ a.getD [] ∧ f h e = true) ∧
    ((∀ e ∈ a.getD [], f h e = false) → Nested.ArrayFindAll h j f keys = .ok (some [])) := by
  have hres : Nested.ArrayFindAll h j f keys = .ok (some ((a.getD []).filter (f h))) := by
    simp [Nested.ArrayFindAll, hget, findAllLoop_eq]
  refine ⟨hres, List.filter_sublist _, fun e => by simp [List.mem_filter], fun hall => ?_⟩
  rw [hres]
  have : (a.getD []).filter (f h) = [] := by
    rw [List.filter_eq_nil_iff]
    intro e he
    simp [hall e he]
  rw [this]

/-- C25, witness: the scalars holding a string in the array of the test object. -/
theorem ArrayFindAll_filter_witness :
    Nested.GetArray testHeap (some 0) ["array"] = .ok (some [some 3, some 4]) ∧
    Nested.ArrayFindAll testHeap (some 0)
      (fun h p => match deref h p with
        | some n => n.IsValue && (match n.value with | .string _ => true | _ => false)
        | none => false) ["array"] = .ok (some [some 4]) :=
  ⟨by decide,
    (ArrayFindAll_filter testHeap (some 0) _ ["array"] (some [some 3, some 4])
      (by decide)).1⟩

mutual
theorem FromObject_extends (lib : GoLib) : ∀ (obj : GoAny) (h : Heap),
    ∃ t, (FromObject lib h obj).1 = h ++ t
  | .map kvObject, h => by
    rw [FromObject]
    obtain ⟨t, ht⟩ := fromObjectEntries_extends lib kvObject h []
    refine ⟨t ++ [{ nested := some (fromObjectEntries lib h [] kvObject).2 }], ?_⟩
    simp only [ht, List.append_assoc]
  | .slice arrayObject, h => by
    rw [FromObject]
    obtain ⟨t, ht⟩ := fromObjectElems_extends lib arrayObject h none
    refine ⟨t ++ [{ isArray := true, array := (fromObjectElems lib h none arrayObject).2 }], ?_⟩
    simp only [ht, List.append_assoc]
  | .float64 value, h => by
    rw [FromObject]
    split
    · exact ⟨_, rfl⟩
    · exact ⟨_, rfl⟩
  | .nil, h => by rw [FromObject]; exact ⟨_, rfl⟩
  | .int n, h => by rw [FromObject]; exact ⟨_, rfl⟩
  | .uint64 n, h => by rw [FromObject]; exact ⟨_, rfl⟩
  | .bool b, h => by rw [FromObject]; exact ⟨_, rfl⟩
  | .string s, h => by rw [FromObject]; exact ⟨_, rfl⟩
  | .other typ id, h => by rw [FromObject]; exact ⟨_, rfl⟩
theorem fromObjectEntries_extends (lib : GoLib) : ∀ (kvs : List (String × GoAny)) (h : Heap)
    (nested : GoMap), ∃ t, (fromObjectEntries lib h nested kvs).1 = h ++ t
  | [], h, nested => by rw [fromObjectEntries]; exact ⟨[], by simp⟩
  | (k, v) :: rest, h, nested => by
    rw [fromObjectEntries]
    obtain ⟨t1, ht1⟩ := FromObject_extends lib v h
    obtain ⟨t2, ht2⟩ := fromObjectEntries_extends lib rest (FromObject lib h v).1
      (mapStore nested k (FromObject lib h v).2)
    exact ⟨t1 ++ t2, by rw [ht2, ht1, List.append_assoc]⟩
theorem fromObjectElems_extends (lib : GoLib) : ∀ (xs : List GoAny) (h : Heap)
    (array : Option (List Ptr)), ∃ t, (fromObjectElems lib h array xs).1 = h ++ t
  | [], h, array => by rw [fromObjectElems]; exact ⟨[], by simp⟩
  | element :: rest, h, array => by
    rw [fromObjectElems]
    obtain ⟨t1, ht1⟩ := FromObject_extends lib element h
    obtain ⟨t2, ht2⟩ := fromObjectElems_extends lib rest (FromObject lib h element).1
      (some (array.getD [] ++ [(FromObject lib h element).2]))
    exact ⟨t1 ++ t2, by rw [ht2, ht1, List.append_assoc]⟩
end

/-- Storing under a key the map does not hold appends the entry. -/
theorem mapStore_of_not_mem {m : GoMap} {k : String} (v : Ptr) (hk : k ∉ m.map Prod.fst) :
    mapStore m k v = m ++ [(k, v)] := by
  induction m with
  | nil => rfl
  | cons e m ih =>
    obtain ⟨k', v'⟩ := e
    simp only [List.map_cons, List.mem_cons, not_or] at hk
    have hne : ¬ (k' = k) := fun h0 => hk.1 h0.symm
    simp [mapStore, hne, ih hk.2]

/-- The loop over the entries of a mapping with keys that are distinct and new to the
map built so far: the keys are appended in order, and under each key the map holds the
pointer returned by `FromObject` on the value, called on a heap that extends the
initial one and is extended by the final one. -/
theorem fromObjectEntries_spec (lib : GoLib) : ∀ (kvs : List (String × GoAny)) (h : Heap)
    (nested : GoMap), (nested.map Prod.fst ++ kvs.map Prod.fst).Nodup →
      (fromObjectEntries lib h nested kvs).2.map Prod.fst =
        nested.map Prod.fst ++ kvs.map Prod.fst ∧
      (∀ k c, mapLookup nested k = some c →
        mapLookup (fromObjectEntries lib h nested kvs).2 k = some c) ∧
      ∀ k v, (k, v) ∈ kvs → ∃ h0 t0 t1, h0 = h ++ t0 ∧
        (fromObjectEntries lib h nested kvs).1 = (FromObject lib h0 v).1 ++ t1 ∧
        mapLookup (fromObjectEntries lib h nested kvs).2 k = some (FromObject lib h0 v).2 := by
  intro kvs
  induction kvs with
  | nil =>
    intro h nested _
    rw [fromObjectEntries]
    exact ⟨by simp, fun _ _ hk => hk, fun _ _ hm => by simp at hm⟩
  | cons e rest ih =>
    obtain ⟨k, v⟩ := e
    intro h nested hnd
    rw [fromObjectEntries]
    have hk : k ∉ nested.map Prod.fst := by
      intro hmem
      rw [List.nodup_append] at hnd
      exact hnd.2.2 hmem (by simp)
    have hstore := mapStore_of_not_mem (FromObject lib h v).2 hk
    have hnd2 : ((mapStore nested k (FromObject lib h v).2).map Prod.fst ++
        rest.map Prod.fst).Nodup := by
      rw [hstore]
      simpa [List.append_assoc] using hnd
    obtain ⟨hkeys, hkeep, hvals⟩ := ih (FromObject lib h v).1
      (mapStore nested k (FromObject lib h v).2) hnd2
    obtain ⟨t1, ht1⟩ := FromObject_extends lib v h
    refine ⟨?_, ?_, ?_⟩
    · rw [hkeys, hstore]
      simp [List.append_assoc]
    · intro k2 c hk2
      apply hkeep
      by_cases hkk : k = k2
      · subst hkk
        rw [mapLookup_none_of_not_mem_keys hk] at hk2
        cases hk2
      · rw [mapLookup_mapStore_ne _ _ _ _ hkk]
        exact hk2
    · intro k2 v2 hm
      rcases List.mem_cons.1 hm with heq | hin
      · cases heq
        obtain ⟨t2, ht2⟩ := fromObjectEntries_extends lib rest (FromObject lib h v).1
          (mapStore nested k (FromObject lib h v).2)
        exact ⟨h, [], t2, by simp, ht2, hkeep k _ (mapLookup_mapStore_same _ _ _)⟩
      · obtain ⟨h0, t0, t1', hh0, hfin, hlook⟩ := hvals k2 v2 hin
        exact ⟨h0, t1 ++ t0, t1', by rw [hh0, ht1, List.append_assoc], hfin, hlook⟩

/-- The loop over the items of a sequence: the pointers returned by `FromObject` on the
items are appended in order to the slice built so far. -/
theorem fromObjectElems_spec (lib : GoLib) : ∀ (xs : List GoAny) (h : Heap)
    (array : Option (List Ptr)),
      ∃ ps : List Ptr, (fromObjectElems lib h array xs).2.getD [] = array.getD [] ++ ps ∧
        ps.length = xs.length ∧
        ∀ (i : Nat) (x : GoAny), xs[i]? = some x → ∃ h0 t0 t1, h0 = h ++ t0 ∧
          (fromObjectElems lib h array xs).1 = (FromObject lib h0 x).1 ++ t1 ∧
          ps[i]? = some (FromObject lib h0 x).2 := by
  intro xs
  induction xs with
  | nil =>
    intro h array
    rw [fromObjectElems]
    exact ⟨[], by simp, rfl, fun i x hi => by simp at hi⟩
  | cons element rest ih =>
    intro h array
    rw [fromObjectElems]
    obtain ⟨ps, hps, hlen, hitems⟩ := ih (FromObject lib h element).1
      (some (array.getD [] ++ [(FromObject lib h element).2]))
    obtain ⟨t1, ht1⟩ := FromObject_extends lib element h
    refine ⟨(FromObject lib h element).2 :: ps, ?_, by simp [hlen], ?_⟩
    · rw [hps]
      simp
    · intro i x hi
      cases i with
      | zero =>
        simp only [List.getElem?_cons_zero, Option.some.injEq] at hi
        subst hi
        obtain ⟨t2, ht2⟩ := fromObjectElems_extends lib rest (FromObject lib h element).1
          (some (array.getD [] ++ [(FromObject lib h element).2]))
        exact ⟨h, [], t2, by simp, ht2, by simp⟩
      | succ i =>
        simp only [List.getElem?_cons_succ] at hi
        obtain ⟨h0, t0, t1', hh0, hfin, hlook⟩ := hitems i x hi
        exact ⟨h0, t1 ++ t0, t1', by rw [hh0, ht1, List.append_assoc], hfin, by simpa using hlook⟩

theorem scalar_cell_appended (h : Heap) (c : Nested) (hv : c.isValue = true)
    (ha : c.isArray = false) :
    ∃ n, deref (h ++ [c], some h.length).1 (h ++ [c], some h.length).2 = some n ∧
      n.IsValue = true ∧ n.IsArray = false ∧ n.IsNested = false :=
  ⟨c, by simp [deref], hv, ha, by simp [Nested.IsNested, hv]⟩

/-- C27. `FromObject` classifies recursively. For a string-keyed mapping `kvs` (keys
pairwise distinct, as in a Go map) `FromObject` returns a map-shaped node holding
exactly the keys of `kvs`, `Length` being their number (so the node is not empty when
the mapping is not), and under each key the node that `FromObject` returns for the
value. For a sequence `xs` it returns an array node, not a scalar, with as many elements
as `xs`, the `i`-th being the node that `FromObject` returns for the `i`-th item. For
every other value it returns a scalar node that is not an array. The calls only
allocate: the heap afterwards extends the heap before, and the heap of each inner call
is extended by the final heap. -/
theorem FromObject_classifies (lib : GoLib) (h : Heap) :
    (∀ kvs : List (String × GoAny), (kvs.map Prod.fst).Nodup →
      ∃ n, deref (FromObject lib h (.map kvs)).1 (FromObject lib h (.map kvs)).2 = some n ∧
        n.IsNested = true ∧ n.entries.map Prod.fst = kvs.map Prod.fst ∧
        n.Length = (kvs.length : Int) ∧ (kvs ≠ [] → n.IsEmpty = false) ∧
        ∀ k v, (k, v) ∈ kvs → ∃ h0 t0 t1, h0 = h ++ t0 ∧
          (FromObject lib h (.map kvs)).1 = (FromObject lib h0 v).1 ++ t1 ∧
          mapLookup n.entries k = some (FromObject lib h0 v).2) ∧
    (∀ xs : List GoAny,
      ∃ n, deref (FromObject lib h (.slice xs)).1 (FromObject lib h (.slice xs)).2 = some n ∧
        n.IsArray = true ∧ n.IsValue = false ∧ n.elems.length = xs.length ∧
        n.Length = (xs.length : Int) ∧
        ∀ (i : Nat) (x : GoAny), xs[i]? = some x → ∃ h0 t0 t1, h0 = h ++ t0 ∧
          (FromObject lib h (.slice xs)).1 = (FromObject lib h0 x).1 ++ t1 ∧
          n.elems[i]? = some (FromObject lib h0 x).2) ∧
    (∀ v : GoAny, (∀ kvs, v ≠ .map kvs) → (∀ xs, v ≠ .slice xs) →
      ∃ n, deref (FromObject lib h v).1 (FromObject lib h v).2 = some n ∧
        n.IsValue = true ∧ n.IsArray = false ∧ n.IsNested = false) ∧
    (∀ v : GoAny, ∃ t, (FromObject lib h v).1 = h ++ t) := by
  refine ⟨?_, ?_, ?_, fun v => FromObject_extends lib v h⟩
  · intro kvs hnd
    obtain ⟨hkeys, _, hvals⟩ := fromObjectEntries_spec lib kvs h [] (by simpa using hnd)
    rw [FromObject]
    refine ⟨{ nested := some (fromObjectEntries lib h [] kvs).2 }, by simp [deref], rfl, ?_, ?_,
      ?_, ?_⟩
    · simpa [Nested.entries] using hkeys
    · have hlen := congrArg List.length hkeys
      simp only [List.map_nil, List.nil_append, List.length_map] at hlen
      simp [Nested.Length, Nested.IsValue, Nested.IsArray, Nested.entries, hlen]
    · intro hne
      have hlen := congrArg List.length hkeys
      simp only [List.map_nil, List.nil_append, List.length_map] at hlen
      have hpos : kvs.length ≠ 0 := fun h0 => hne (List.length_eq_zero.mp h0)
      simp [Nested.IsEmpty, Nested.entries, hlen, hpos]
    · intro k v hm
      obtain ⟨h0, t0, t1, hh0, hfin, hlook⟩ := hvals k v hm
      exact ⟨h0, t0, t1 ++ [{ nested := some (fromObjectEntries lib h [] kvs).2 }], hh0,
        by simp only [hfin, List.append_assoc], by simpa [Nested.entries] using hlook⟩
  · intro xs
    obtain ⟨ps, hps, hlen, hitems⟩ := fromObjectElems_spec lib xs h none
    rw [FromObject]
    have helems : ({ isArray := true, array := (fromObjectElems lib h none xs).2 } :
        Nested).elems = ps := by
      simpa [Nested.elems] using hps
    refine ⟨{ isArray := true, array := (fromObjectElems lib h none xs).2 }, by simp [deref],
      rfl, rfl, by rw [helems, hlen], ?_, ?_⟩
    · simp only [Nested.Length, Nested.IsValue, Nested.IsArray, helems, hlen]
      simp
    · intro i x hi
      obtain ⟨h0, t0, t1, hh0, hfin, hlook⟩ := hitems i x hi
      exact ⟨h0, t0,
        t1 ++ [{ isArray := true, array := (fromObjectElems lib h none xs).2 }], hh0,
        by simp only [hfin, List.append_assoc], by rw [helems]; exact hlook⟩
  · intro v hmap hslice
    cases v with
    | map kvs => exact absurd rfl (hmap kvs)
    | slice xs => exact absurd rfl (hslice xs)
    | float64 value =>
      rw [FromObject]
      split
      · exact scalar_cell_appended h _ rfl rfl
      · exact scalar_cell_appended h _ rfl rfl
    | nil => rw [FromObject]; exact scalar_cell_appended h _ rfl rfl
    | int n => rw [FromObject]; exact scalar_cell_appended h _ rfl rfl
    | uint64 n => rw [FromObject]; exact scalar_cell_appended h _ rfl rfl
    | bool b => rw [FromObject]; exact scalar_cell_appended h _ rfl rfl
    | string s => rw [FromObject]; exact scalar_cell_appended h _ rfl rfl
    | other typ id => rw [FromObject]; exact scalar_cell_appended h _ rfl rfl

/-- C27, witness: `FromObject` on the mapping with the keys `a` and `b`, as in
`Test_FromObject`: a map-shaped node that is not empty. -/
theorem FromObject_classifies_witness :
    ∃ n, deref (FromObject rejectingLib [] (.map [("a", .int 1), ("b", .int 2)])).1
        (FromObject rejectingLib [] (.map [("a", .int 1), ("b", .int 2)])).2 = some n ∧
      n.IsNested = true ∧ n.IsEmpty = false ∧ n.Length = 2 := by
  obtain ⟨n, hn, hnest, _, hlen, hne, _⟩ :=
    (FromObject_classifies rejectingLib []).1 [("a", .int 1), ("b", .int 2)] (by decide)
  exact ⟨n, hn, hnest, hne (by simp), hlen⟩

/-- When both calls of `json.Unmarshal` fail, `FromJSONString` returns a new scalar node
and leaves the rest of the heap as it was. -/
theorem FromJSONString_fallback (lib : GoLib) (h : Heap) (s : String)
    (hmap : lib.unmarshalMap s = none) (hslice : lib.unmarshalSlice s = none) :
    ∃ v, FromJSONString lib h s = (h ++ [{ isValue := true, value := v }], some h.length) ∧
      v = (match lib.parseInt s with
        | some n => GoAny.int n
        | none =>
          match lib.parseFloat s with
          | some x => GoAny.float64 x
          | none =>
            match lib.parseBool s with
            | some b => GoAny.bool b
            | none => GoAny.string s) := by
  refine ⟨_, ?_, rfl⟩
  simp only [FromJSONString, hmap, hslice]

/-- C29, counterexample: "3000000000" is the base-10 text of an integer below 2^63, and
`FromJSONString` returns a scalar holding a float64 (3e9), not that integer. -/
theorem FromJSONString_large_integer :
    decimalValue "3000000000" = some 3000000000 ∧ (3000000000 : Int) < 2 ^ 63 ∧
    parseIntDec 32 "3000000000" = none ∧
    FromJSONString sampleLib [] "3000000000" =
      ([{ isValue := true, value := .float64 0x41E65A0BC0000000 }], some 0) :=
  ⟨by decide, by decide, by decide, by rfl⟩

/-- C29, amended. Integer inference of `FromJSONString`: for a string `s` that is the
base-10 text of an integer `n` (on which both calls of `json.Unmarshal` fail, the text
not being a JSON object or array, and `ParseInt` is called with bit size 32),
`FromJSONString(s)` is a new scalar node holding the integer `n` when `n` is
representable in 32 bits; when it is not, the node is a scalar that does not hold an
integer: it holds the float64 that `ParseFloat` returns when `ParseFloat` succeeds, and
otherwise the boolean that `ParseBool` returns or, when `ParseBool` fails too, the
string `s` itself. -/
theorem FromJSONString_integer (lib : GoLib) (h : Heap) (s : String) (n : Int)
    (hmap : lib.unmarshalMap s = none) (hslice : lib.unmarshalSlice s = none)
    (hint : lib.parseInt s = parseIntDec 32 s) (htext : decimalValue s = some n) :
    (-(2 ^ 31 : Int) ≤ n ∧ n < (2 ^ 31 : Int) →
      FromJSONString lib h s = (h ++ [{ isValue := true, value := .int n }], some h.length)) ∧
    (¬ (-(2 ^ 31 : Int) ≤ n ∧ n < (2 ^ 31 : Int)) →
      ∃ v, FromJSONString lib h s = (h ++ [{ isValue := true, value := v }], some h.length) ∧
        (∀ m : Int, v ≠ .int m) ∧
        v = (match lib.parseFloat s with
          | some x => GoAny.float64 x
          | none =>
            match lib.parseBool s with
            | some b => GoAny.bool b
            | none => GoAny.string s)) := by
  obtain ⟨v, hres, hv⟩ := FromJSONString_fallback lib h s hmap hslice
  constructor
  · intro hrange
    have hp : lib.parseInt s = some n := by
      rw [hint]
      simp only [parseIntDec, htext]
      rw [if_pos (by simpa using hrange)]
    rw [hres, hv, hp]
  · intro hrange
    have hp : lib.parseInt s = none := by
      rw [hint]
      simp only [parseIntDec, htext]
      rw [if_neg (by simpa using hrange)]
    rw [hp] at hv
    refine ⟨v, hres, ?_, hv⟩
    intro m hm
    rw [hv] at hm
    cases hf : lib.parseFloat s with
    | some x => rw [hf] at hm; cases hm
    | none =>
      rw [hf] at hm
      cases hb : lib.parseBool s with
      | some b => rw [hb] at hm; cases hm
      | none => rw [hb] at hm; cases hm

/-- C29, witness: `FromJSONString("42")` is a scalar holding the integer 42, as in
`Test_FromJSONString`; for the text of the integer `10^39`, on which `ParseInt` and
`ParseFloat` return a range error, it is a scalar holding the text itself. -/
theorem FromJSONString_integer_witness :
    decimalValue "42" = some 42 ∧
    FromJSONString sampleLib [] "42" = ([{ isValue := true, value := .int 42 }], some 0) ∧
    decimalValue "1000000000000000000000000000000000000000" =
      some 1000000000000000000000000000000000000000 ∧
    ∃ v, FromJSONString sampleLib [] "1000000000000000000000000000000000000000" =
        ([{ isValue := true, value := v }], some 0) ∧
      (∀ m : Int, v ≠ .int m) ∧ v = .string "1000000000000000000000000000000000000000" :=
  ⟨by decide,
    (FromJSONString_integer sampleLib [] "42" 42 rfl rfl rfl (by decide)).1
      (by decide),
    by decide,
    (FromJSONString_integer sampleLib [] "1000000000000000000000000000000000000000"
      1000000000000000000000000000000000000000 rfl rfl rfl (by decide)).2 (by decide)⟩

/-- C30: on the text `null`, which `json.Unmarshal` accepts into a map (setting it to
nil) without an error, `FromJSONString` returns the node of `FromObject` on the nil map:
an empty map-shaped node, not a scalar. -/
theorem FromJSONString_null_is_map :
    FromJSONString sampleLib [] "null" = ([{ nested := some [] }], some 0) ∧
    ({ nested := some [] } : Nested).IsValue = false ∧
    ({ nested := some [] } : Nested).IsNested = true ∧
    ({ nested := some [] } : Nested).IsEmpty = true :=
  ⟨by rfl, rfl, rfl, rfl⟩

theorem spliceOwner_inv {P : Heap → Prop} (hP : DeletingInv P) (h : Heap) (owner : Ptr)
    (array : List Ptr) (index : Nat) (hf : P h) : P (spliceOwner h owner array index) := by
  cases owner with
  | none => simpa [spliceOwner] using hf
  | some o =>
    cases ho : h[o]? with
    | none => simpa [spliceOwner, ho] using hf
    | some n =>
      simp only [spliceOwner, ho]
      exact hP.slice h o n _ hf ho

/-- The loop of `ArrayDelete` keeps such a property and never returns an error. -/
theorem arrayDeleteLoop_inv {P : Heap → Prop} (hP : DeletingInv P)
    {rec : Heap → Ptr → Option (Heap × Result Unit)}
    (hrec : Keeps P rec) (f : Heap → Ptr → Bool) (owner : Ptr) :
    ∀ (count : Nat) (h : Heap) (array : List Ptr) (h2 : Heap) (r : Result (List Ptr)),
      arrayDeleteLoop rec f owner h array count = some (h2, r) → P h →
        P h2 ∧ ∀ e, r ≠ .error e := by
  intro count
  induction count with
  | zero =>
    intro h array h2 r hc hf
    simp only [arrayDeleteLoop, Option.some.injEq, Prod.mk.injEq] at hc
    exact ⟨hc.1 ▸ hf, fun e he => by rw [← hc.2] at he; cases he⟩
  | succ index ih =>
    intro h array h2 r hc hf
    simp only [arrayDeleteLoop] at hc
    cases he : array[index]? with
    | none =>
      simp only [he, Option.some.injEq, Prod.mk.injEq] at hc
      exact ⟨hc.1 ▸ hf, fun e he => by rw [← hc.2] at he; cases he⟩
    | some element =>
      simp only [he] at hc
      split at hc
      · cases hr : rec h element with
        | none => simp [hr] at hc
        | some x =>
          obtain ⟨h1, r1⟩ := x
          have hf1 := hrec h element h1 r1 hr hf
          have hwb := spliceOwner_inv hP h1 owner array index hf1
          cases r1 with
          | panic =>
            simp only [hr, Option.some.injEq, Prod.mk.injEq] at hc
            exact ⟨hc.1 ▸ hf1, fun e he => by rw [← hc.2] at he; cases he⟩
          | ok v =>
            simp only [hr] at hc
            exact ih _ _ h2 r hc hwb
          | error m =>
            simp only [hr] at hc
            exact ih _ _ h2 r hc hwb
      · exact ih h array h2 r hc hf

theorem Shrunk.shrunk_refl (h : Heap) : Shrunk h h :=
  fun _ n ha => ⟨n, ha, id, id, fun _ _ hk => hk⟩

/-- Replacing a cell by one with no more flags and entries keeps the relation. -/
theorem Shrunk.shrunk_set {h h2 : Heap} (hs : Shrunk h h2) {a : Nat} {n2 v : Nested}
    (ha : h2[a]? = some n2) (hv : v.isValue = true → n2.isValue = true)
    (har : v.isArray = true → n2.isArray = true)
    (he : ∀ k c, mapLookup v.entries k = some c → mapLookup n2.entries k = some c) :
    Shrunk h (h2.set a v) := by
  intro b n hb
  obtain ⟨nb, hnb, h1, h2', h3⟩ := hs b n hb
  by_cases hab : b = a
  · subst hab
    rw [ha] at hnb
    cases hnb
    exact ⟨v, List.getElem?_set_self (getElem?_lt ha), fun x => h1 (hv x),
      fun x => h2' (har x), fun k c hk => h3 k c (he k c hk)⟩
  · exact ⟨nb, by rw [List.getElem?_set_ne (Ne.symm hab)]; exact hnb, h1, h2', h3⟩

theorem Shrunk.shrunk_append {h h2 : Heap} (hs : Shrunk h h2) (l : Heap) :
    Shrunk h (h2 ++ l) := by
  intro b n hb
  obtain ⟨nb, hnb, hrest⟩ := hs b n hb
  exact ⟨nb, by rw [List.getElem?_append_left (getElem?_lt hnb)]; exact hnb, hrest⟩

theorem mapLookup_mapDelete_sub (m : GoMap) (k k2 : String) (c : Ptr)
    (hk : mapLookup (mapDelete m k) k2 = some c) : mapLookup m k2 = some c := by
  by_cases hkk : k = k2
  · subst hkk
    rw [mapLookup_mapDelete_same] at hk
    cases hk
  · rw [mapLookup_mapDelete_ne _ _ _ hkk] at hk
    exact hk

theorem Shrunk.shrunk_trans {h1 h2 h3 : Heap} (h12 : Shrunk h1 h2) (h23 : Shrunk h2 h3) :
    Shrunk h1 h3 := by
  intro a n ha
  obtain ⟨n2, ha2, hv2, har2, hl2⟩ := h12 a n ha
  obtain ⟨n3, ha3, hv3, har3, hl3⟩ := h23 a n2 ha2
  exact ⟨n3, ha3, fun x => hv2 (hv3 x), fun x => har2 (har3 x),
    fun k c hk => hl2 k c (hl3 k c hk)⟩

theorem shrunk_of_waned {h h2 : Heap} (hw : Waned h h2) : Shrunk h h2 := by
  intro a n ha
  obtain ⟨n2, ha2, hw2⟩ := hw.2 a n ha
  exact ⟨n2, ha2, hw2.isValue, hw2.isArray, hw2.lookup⟩

theorem shrunk_clearingInv (h : Heap) : ClearingInv (Shrunk h) where
  value := fun h2 a n hs ha =>
    hs.shrunk_set ha (fun x => by cases x) id (fun _ _ hk => hk)
  array := fun h2 a n hs ha =>
    hs.shrunk_set ha id (fun x => by cases x) (fun _ _ hk => hk)
  entry := fun _ _ _ _ k hs ha hn => hs.shrunk_trans (shrunk_of_waned (Waned.waned_delete ha hn k))

theorem shrunk_deletingInv (h : Heap) : DeletingInv (Shrunk h) where
  toClearingInv := shrunk_clearingInv h
  slice := fun _ _ _ _ hs ha =>
    hs.shrunk_set ha id id (fun _ _ hk => hk)

/-- Along a chain that resolves in `h`, the lookups of a shrunk heap lead to the same
cells. -/
theorem lookupChain_of_shrunk {h h2 : Heap} (hs : Shrunk h h2) :
    ∀ (keys : List String) (j y : Ptr), lookupChain h j keys = some y →
      ∀ (i : Nat) (x : Ptr), lookupChain h2 j (keys.take i) = some x →
        lookupChain h j (keys.take i) = some x := by
  intro keys
  induction keys with
  | nil =>
    intro j y _ i x hx
    simpa [lookupChain] using hx
  | cons k rest ih =>
    intro j y hl i x hx
    cases i with
    | zero => simpa [lookupChain] using hx
    | succ i =>
      simp only [List.take_succ_cons, lookupChain] at hx ⊢
      simp only [lookupChain] at hl
      cases j with
      | none => simp [deref] at hl
      | some a =>
        cases ha : h[a]? with
        | none => simp [deref, ha] at hl
        | some n =>
          simp only [deref, ha] at hl ⊢
          by_cases hn : n.IsNested = true
          · simp only [hn, if_true] at hl ⊢
            cases hk : mapLookup n.entries k with
            | none => simp [hk] at hl
            | some c =>
              simp only [hk] at hl ⊢
              obtain ⟨n2, ha2, _, _, hsub⟩ := hs a n ha
              simp only [deref, ha2] at hx
              by_cases hn2 : n2.IsNested = true
              · simp only [hn2, if_true] at hx
                cases hk2 : mapLookup n2.entries k with
                | none => simp [hk2] at hx
                | some c2 =>
                  simp only [hk2] at hx
                  have := hsub k c2 hk2
                  rw [hk] at this
                  cases this
                  exact ih c y hl i x hx
              · simp [hn2] at hx
          · simp [hn] at hl

/-- A cell met before the end of a chain that resolves is map-shaped. -/
theorem lookupChain_mid_nested {h : Heap} {j y : Ptr} {keys : List String}
    (hl : lookupChain h j keys = some y) {i : Nat} (hi : i < keys.length) {x : Ptr}
    (hx : lookupChain h j (keys.take i) = some x) :
    ∃ n, deref h x = some n ∧ n.IsNested = true := by
  have hsplit : keys = keys.take i ++ keys.drop i := (List.take_append_drop i keys).symm
  rw [hsplit, lookupChain_append, hx] at hl
  simp only [Option.some_bind] at hl
  obtain ⟨k, rest, hk⟩ : ∃ k rest, keys.drop i = k :: rest := by
    cases hd : keys.drop i with
    | nil =>
      have := congrArg List.length hd
      simp only [List.length_drop, List.length_nil] at this
      omega
    | cons k rest => exact ⟨k, rest, rfl⟩
  rw [hk] at hl
  simp only [lookupChain] at hl
  cases hd : deref h x with
  | none => simp [hd] at hl
  | some n =>
    simp only [hd] at hl
    by_cases hn : n.IsNested = true
    · exact ⟨n, rfl, hn⟩
    · simp [hn] at hl

/-- Method `Clear` never returns an error, and it panics on nil. -/
theorem Clear_noError (fuel : Nat) : NoError (Nested.Clear fuel) := by
  refine ⟨fun h p h2 m => Clear_no_error fuel h p h2 m, fun h h2 hc => ?_⟩
  cases fuel with
  | zero => simp [Nested.Clear] at hc
  | succ fuel =>
    rw [Clear_succ] at hc
    simp [clearBody] at hc

theorem HasLink.congr {h h2 : Heap} {c : Nat} {l : Link} {nxt : Nat} (hc : h2[c]? = h[c]?)
    (hl : HasLink h c l nxt) : HasLink h2 c l nxt := by
  obtain ⟨n, hn, hrest⟩ := hl
  exact ⟨n, by rw [hc]; exact hn, hrest⟩

/-- A write to a cell that has no link of the list leaves the links in the heap. -/
theorem Protected.protected_set {h : Heap} {L : List (Nat × Link × Nat)} (hp : Protected h L) {t : Nat}
    (ht : t ∉ L.map Prod.fst) (v : Nested) : Protected (h.set t v) L := by
  intro e he
  have hne : e.1 ≠ t := by
    intro heq
    exact ht (heq ▸ List.mem_map_of_mem Prod.fst he)
  exact HasLink.congr (List.getElem?_set_ne (Ne.symm hne)) (hp e he)

theorem Protected.tail {h : Heap} {e : Nat × Link × Nat} {L : List (Nat × Link × Nat)}
    (hp : Protected h (e :: L)) : Protected h L :=
  fun x hx => hp x (List.mem_cons_of_mem _ hx)

theorem Protected.protected_cons {h : Heap} {L : List (Nat × Link × Nat)} (hp : Protected h L)
    {c : Nat} {l : Link} {nxt : Nat} (hl : HasLink h c l nxt) : Protected h ((c, l, nxt) :: L) := by
  intro e he
  rcases List.mem_cons.1 he with rfl | he
  · exact hl
  · exact hp e he

theorem Closed.closed_cons {L : List (Nat × Link × Nat)} {t : Nat} (hc : Closed L t) (l : Link)
    (x : Nat) : Closed ((t, l, x) :: L) x := by
  intro e he
  rcases List.mem_cons.1 he with rfl | he
  · exact Or.inl rfl
  · rcases hc e he with h1 | h1
    · exact Or.inr (by rw [h1]; simp)
    · exact Or.inr (by simp only [List.map_cons, List.mem_cons]; exact Or.inr h1)

/-- A link of the list does not lead to a cell on which the call returned normally. -/
theorem Closed.not_target {L : List (Nat × Link × Nat)} {t : Nat} (hc : Closed L t)
    {e : Nat × Link × Nat} (he : e ∈ L) {l : Link}
    (hx : e.2.2 ∉ ((t, l, e.2.2) :: L).map Prod.fst) : False := by
  apply hx
  simp only [List.map_cons, List.mem_cons]
  rcases hc e he with h1 | h1
  · exact Or.inl h1
  · exact Or.inr h1

/-- The loop of `Clear` over the elements of an array cell `t`: when it ends normally the
links of the list are in the heap, the cell is the array it was, and no element has a link
of the list or is the cell itself. -/
theorem clearElems_protects {rec : Heap → Ptr → Option (Heap × Result Unit)}
    (hrec : Protects rec) (hne : NoError rec) {L : List (Nat × Link × Nat)} {t : Nat}
    (hcl : Closed L t) (arr : Option (List Ptr)) :
    ∀ (es : List Ptr) (h h2 : Heap), (∀ e ∈ es, e ∈ arr.getD []) → Protected h L →
      (∃ n, h[t]? = some n ∧ n.isValue = false ∧ n.isArray = true ∧ n.array = arr) →
      clearElems rec h es = some (h2, .ok ()) →
      Protected h2 L ∧
        (∃ n, h2[t]? = some n ∧ n.isValue = false ∧ n.isArray = true ∧ n.array = arr) ∧
        ∀ x, some x ∈ es → x ≠ t ∧ x ∉ L.map Prod.fst := by
  intro es
  induction es with
  | nil =>
    intro h h2 _ hp ht hc
    simp only [clearElems, Option.some.injEq, Prod.mk.injEq, and_true] at hc
    subst hc
    exact ⟨hp, ht, fun x hx => by simp at hx⟩
  | cons e es ih =>
    intro h h2 hsub hp ht hc
    simp only [clearElems] at hc
    cases hr : rec h e with
    | none => simp [hr] at hc
    | some res =>
      obtain ⟨h1, r1⟩ := res
      cases r1 with
      | panic => simp [hr] at hc
      | error m => exact absurd hr (hne.1 h e h1 m)
      | ok v =>
        simp only [hr] at hc
        cases e with
        | none => exact absurd hr (hne.2 h h1)
        | some x =>
          obtain ⟨n, hn, hv, ha, harr⟩ := ht
          have hlink : HasLink h t (.elem arr) x :=
            ⟨n, hn, hv, ha, harr, hsub (some x) (List.mem_cons_self _ _)⟩
          obtain ⟨hx, hp1⟩ := hrec h ((t, .elem arr, x) :: L) x h1 (hp.protected_cons hlink)
            (hcl.closed_cons _ x) hr
          obtain ⟨n1, hn1, hv1, ha1, harr1, _⟩ := hp1 (t, .elem arr, x) (List.mem_cons_self _ _)
          obtain ⟨hp2, ht2, hall⟩ := ih h1 h2
            (fun e2 he2 => hsub e2 (List.mem_cons_of_mem _ he2)) hp1.tail
            ⟨n1, hn1, hv1, ha1, harr1⟩ hc
          refine ⟨hp2, ht2, ?_⟩
          intro y hy
          rcases List.mem_cons.1 hy with heq | hy
          · cases heq
            simp only [List.map_cons, List.mem_cons, not_or] at hx
            exact hx
          · exact hall y hy

/-- Deleting the entry under `k` from the map of the cell `t` leaves the links of the list
in the heap, when the link of `t` under `k` led to a cell that has no link of the list and
is not `t`. -/
theorem protected_deleteEntry {h : Heap} {L : List (Nat × Link × Nat)} {t : Nat} (k : String)
    {x : Nat} (hcl : Closed L t) (hp : Protected h ((t, .key k, x) :: L))
    (hx : x ∉ ((t, Link.key k, x) :: L).map Prod.fst) {n1 : Nested} (hn1 : h[t]? = some n1) :
    ∃ h2, deleteEntry h t n1 k = (h2, .ok ()) ∧ Protected h2 L ∧
      ∃ n2, h2[t]? = some n2 ∧ n2.isValue = false ∧ n2.isArray = false := by
  obtain ⟨n, hn, hv, ha, hk⟩ := hp (t, .key k, x) (List.mem_cons_self _ _)
  rw [hn1] at hn
  cases hn
  have hsome : ∃ m, n1.nested = some m := by
    cases hm : n1.nested with
    | none => simp [Nested.entries, hm, mapLookup] at hk
    | some m => exact ⟨m, rfl⟩
  obtain ⟨m, hm⟩ := hsome
  have hent : n1.entries = m := by simp [Nested.entries, hm]
  have htlt := getElem?_lt hn1
  have hdel : deleteEntry h t n1 k = (putMap h t n1 (mapDelete (mapStore m k none) k), .ok ()) := by
    simp [deleteEntry, hm]
  refine ⟨_, hdel, ?_, _, getElem?_putMap_self _ _ htlt, hv, ha⟩
  intro e he
  obtain ⟨ne, hne, hve, hle⟩ := hp e (List.mem_cons_of_mem _ he)
  have hkey : ∀ (y : Nested), y.entries = m → ∀ kc, mapLookup y.entries kc = some (some e.2.2) →
      mapLookup (mapDelete (mapStore m k none) k) kc = some (some e.2.2) := by
    intro y hy kc hkc
    have hkne : k ≠ kc := by
      intro heq
      subst heq
      rw [hy, ← hent, hk] at hkc
      simp only [Option.some.injEq] at hkc
      apply hcl.not_target he (l := Link.key k)
      rw [← hkc]
      exact hx
    rw [mapLookup_mapDelete_ne _ _ _ hkne, mapLookup_mapStore_ne _ _ _ _ hkne, ← hy]
    exact hkc
  by_cases hct : e.1 = t
  · rw [hct] at hne ⊢
    rw [hn1] at hne
    cases hne
    refine ⟨_, getElem?_putMap_self _ _ htlt, hve, ?_⟩
    cases hl : e.2.1 with
    | elem arr =>
      rw [hl] at hle
      simp only at hle
      rw [ha] at hle
      exact absurd hle.1 (by simp)
    | key kc =>
      rw [hl] at hle
      simp only at hle ⊢
      refine ⟨hle.1, ?_⟩
      show mapLookup (mapDelete (mapStore m k none) k) kc = some (some e.2.2)
      exact hkey n1 hent kc hle.2
  · by_cases hs : sameMap n1 ne = true
    · have hcell : (putMap h t n1 (mapDelete (mapStore m k none) k))[e.1]? =
          some { ne with nested := some (mapDelete (mapStore m k none) k) } := by
        rw [getElem?_putMap_ne _ _ hct, hne]
        simp [hs]
      refine ⟨_, hcell, hve, ?_⟩
      have hsame : ne.entries = m := by
        simp only [sameMap, Bool.and_eq_true, decide_eq_true_eq] at hs
        simp [Nested.entries, hs.2, hm]
      cases hl : e.2.1 with
      | elem arr =>
        rw [hl] at hle
        exact hle
      | key kc =>
        rw [hl] at hle
        simp only at hle ⊢
        refine ⟨hle.1, ?_⟩
        show mapLookup (mapDelete (mapStore m k none) k) kc = some (some e.2.2)
        exact hkey ne hsame kc hle.2
    · exact ⟨ne, getElem?_putMap_other _ _ hct hne (by simpa using hs), hve, hle⟩

/-- The loop of `Clear` over the keys of a map cell `t`: when it ends normally the links
of the list are in the heap and the cell has no link of the list under one of the
keys. -/
theorem clearKeys_protects {rec : Heap → Ptr → Option (Heap × Result Unit)}
    (hrec : Protects rec) (hne : NoError rec) {L : List (Nat × Link × Nat)} {t : Nat}
    (hcl : Closed L t) :
    ∀ (ks : List String) (h h2 : Heap), Protected h L →
      (∃ n, h[t]? = some n ∧ n.isValue = false ∧ n.isArray = false) →
      clearKeys rec t h ks = some (h2, .ok ()) →
      Protected h2 L ∧ ∀ k ∈ ks, ∀ nxt, (t, Link.key k, nxt) ∉ L := by
  intro ks
  induction ks with
  | nil =>
    intro h h2 hp _ hc
    simp only [clearKeys, Option.some.injEq, Prod.mk.injEq, and_true] at hc
    subst hc
    exact ⟨hp, fun k hk => by simp at hk⟩
  | cons k ks ih =>
    intro h h2 hp ht hc
    obtain ⟨n, hn, hv, ha⟩ := ht
    simp only [clearKeys, hn] at hc
    cases hk : mapLookup n.entries k with
    | none =>
      simp only [hk] at hc
      obtain ⟨hp2, hall⟩ := ih h h2 hp ⟨n, hn, hv, ha⟩ hc
      refine ⟨hp2, ?_⟩
      intro k2 hk2 nxt hmem
      rcases List.mem_cons.1 hk2 with rfl | hk2
      · obtain ⟨n2, hn2, _, hl⟩ := hp _ hmem
        rw [hn] at hn2
        cases hn2
        simp only at hl
        rw [hk] at hl
        cases hl.2
      · exact hall k2 hk2 nxt hmem
    | some child =>
      simp only [hk] at hc
      cases hr : rec h child with
      | none => simp [hr] at hc
      | some res =>
        obtain ⟨h1, r1⟩ := res
        cases r1 with
        | panic => simp [hr] at hc
        | error m => exact absurd hr (hne.1 h child h1 m)
        | ok v =>
          simp only [hr] at hc
          cases child with
          | none => exact absurd hr (hne.2 h h1)
          | some x =>
            have hlink : HasLink h t (.key k) x := ⟨n, hn, hv, ha, hk⟩
            obtain ⟨hx, hp1⟩ := hrec h ((t, .key k, x) :: L) x h1 (hp.protected_cons hlink)
              (hcl.closed_cons _ x) hr
            obtain ⟨n1, hn1, _, _, _⟩ := hp1 (t, .key k, x) (List.mem_cons_self _ _)
            obtain ⟨h3, hd, hp3, ht3⟩ := protected_deleteEntry k hcl hp1 hx hn1
            simp only [hn1, hd] at hc
            obtain ⟨hp2, hall⟩ := ih h3 h2 hp3 ht3 hc
            refine ⟨hp2, ?_⟩
            intro k2 hk2 nxt hmem
            rcases List.mem_cons.1 hk2 with rfl | hk2
            · obtain ⟨n2, hn2, _, hl⟩ := hp _ hmem
              rw [hn] at hn2
              cases hn2
              simp only at hl
              rw [hk] at hl
              have hnx : nxt = x := by
                have := hl.2
                simp only [Option.some.injEq] at this
                exact this.symm
              subst hnx
              exact hcl.not_target hmem (l := Link.key k2) hx
            · exact hall k2 hk2 nxt hmem

theorem clearBody_protects {rec : Heap → Ptr → Option (Heap × Result Unit)}
    (hrec : Protects rec) (hne : NoError rec) : Protects (clearBody rec) := by
  intro h L t h2 hp hcl hc
  cases ht : h[t]? with
  | none => simp [clearBody, ht] at hc
  | some n =>
    simp only [clearBody, ht] at hc
    by_cases hv : n.IsValue = true
    · rw [if_pos hv] at hc
      simp only [Option.some.injEq, Prod.mk.injEq, and_true] at hc
      subst hc
      have hnot : t ∉ L.map Prod.fst := by
        intro hmem
        obtain ⟨e, he, hfst⟩ := List.mem_map.1 hmem
        obtain ⟨n2, hn2, hv2, _⟩ := hp e he
        rw [hfst, ht] at hn2
        cases hn2
        simp only [Nested.IsValue] at hv
        rw [hv] at hv2
        cases hv2
      exact ⟨hnot, hp.protected_set hnot _⟩
    · rw [if_neg hv] at hc
      have hv2 : n.isValue = false := by simpa [Nested.IsValue] using hv
      by_cases ha : n.IsArray = true
      · rw [if_pos ha] at hc
        have ha2 : n.isArray = true := ha
        cases he : clearElems rec h n.elems with
        | none => simp [he] at hc
        | some res =>
          obtain ⟨h1, r1⟩ := res
          cases r1 with
          | panic => simp [he] at hc
          | error m => simp [he] at hc
          | ok v =>
            simp only [he] at hc
            obtain ⟨hp1, ⟨n1, hn1, _⟩, hall⟩ := clearElems_protects hrec hne hcl n.array n.elems
              h h1 (fun e he => he) hp ⟨n, ht, hv2, ha2, rfl⟩ he
            simp only [hn1, Option.some.injEq, Prod.mk.injEq, and_true] at hc
            subst hc
            have hnot : t ∉ L.map Prod.fst := by
              intro hmem
              obtain ⟨e, he, hfst⟩ := List.mem_map.1 hmem
              obtain ⟨n2, hn2, _, hl⟩ := hp e he
              rw [hfst, ht] at hn2
              cases hn2
              cases hlk : e.2.1 with
              | elem arr =>
                rw [hlk] at hl
                simp only at hl
                have hin : some e.2.2 ∈ n.elems := by
                  simp only [Nested.elems, hl.2.1]
                  exact hl.2.2
                have hx := hall e.2.2 hin
                rcases hcl e he with h1 | h1
                · exact hx.1 h1
                · exact hx.2 h1
              | key k =>
                rw [hlk] at hl
                simp only at hl
                rw [ha2] at hl
                cases hl.1
            exact ⟨hnot, hp1.protected_set hnot _⟩
      · rw [if_neg ha] at hc
        have ha2 : n.isArray = false := by simpa [Nested.IsArray] using ha
        obtain ⟨hp2, hall⟩ := clearKeys_protects hrec hne hcl _ h h2 hp ⟨n, ht, hv2, ha2⟩ hc
        refine ⟨?_, hp2⟩
        intro hmem
        obtain ⟨e, he, hfst⟩ := List.mem_map.1 hmem
        obtain ⟨n2, hn2, _, hl⟩ := hp e he
        rw [hfst, ht] at hn2
        cases hn2
        cases hlk : e.2.1 with
        | elem arr =>
          rw [hlk] at hl
          simp only at hl
          rw [ha2] at hl
          cases hl.1
        | key k =>
          rw [hlk] at hl
          simp only at hl
          have hkin : k ∈ n.entries.map Prod.fst := by
            by_contra hnot
            rw [mapLookup_none_of_not_mem_keys hnot] at hl
            cases hl.2
          apply hall k hkin e.2.2
          have : e = (t, Link.key k, e.2.2) := by
            rw [← hfst, ← hlk]
          rw [← this]
          exact he

/-- A call of `Clear` that returns normally was not made on a cell that a call in
progress is waiting on, and leaves the links that the calls in progress are waiting on in
the heap: their cells keep their flags, their slices and the entries being cleared. -/
theorem Clear_protects : ∀ fuel, Protects (Nested.Clear fuel) := by
  intro fuel
  induction fuel with
  | zero => intro h L t h2 _ _ hc; simp [Nested.Clear] at hc
  | succ fuel ih => exact clearBody_protects ih (Clear_noError fuel)

/-- A call of `Clear` on an element of an array cell that returns normally leaves the
cell an array with the same slice. -/
theorem Clear_keeps_owner {fuel : Nat} {h h2 : Heap} {j b : Nat} {n : Nested}
    (hj : h[j]? = some n) (hv : n.isValue = false) (ha : n.isArray = true)
    (hb : some b ∈ n.elems) (hc : Nested.Clear fuel h (some b) = some (h2, .ok ())) :
    ∃ n2, h2[j]? = some n2 ∧ n2.isValue = false ∧ n2.isArray = true ∧ n2.array = n.array := by
  have hp : Protected h [(j, Link.elem n.array, b)] := by
    intro e he
    simp only [List.mem_singleton] at he
    subst he
    exact ⟨n, hj, hv, ha, rfl, hb⟩
  have hcl : Closed [(j, Link.elem n.array, b)] b := by
    intro e he
    simp only [List.mem_singleton] at he
    subst he
    exact Or.inl rfl
  obtain ⟨_, hp2⟩ := Clear_protects fuel h _ b h2 hp hcl hc
  obtain ⟨n2, hn2, hv2, ha2, harr2, _⟩ := hp2 _ (List.mem_singleton.2 rfl)
  exact ⟨n2, hn2, hv2, ha2, harr2⟩

/-- The loop of `ArrayDelete` on the slice of the array cell `j` itself: when it ends
normally the cell is still flagged as array and not as scalar. -/
theorem arrayDeleteLoop_keeps_owner (fuel : Nat) (f : Heap → Ptr → Bool) (j : Nat) :
    ∀ (count : Nat) (h : Heap) (array : List Ptr) (h1 : Heap) (array1 : List Ptr),
      (∃ n, h[j]? = some n ∧ n.isValue = false ∧ n.isArray = true ∧
        ∀ i, i < count → n.elems[i]? = array[i]?) →
      arrayDeleteLoop (Nested.Clear fuel) f (some j) h array count = some (h1, .ok array1) →
      ∃ n1, h1[j]? = some n1 ∧ n1.isValue = false ∧ n1.isArray = true := by
  intro count
  induction count with
  | zero =>
    intro h array h1 array1 hinv hc
    simp only [arrayDeleteLoop, Option.some.injEq, Prod.mk.injEq] at hc
    obtain ⟨n, hn, hv, ha, _⟩ := hinv
    exact ⟨n, hc.1 ▸ hn, hv, ha⟩
  | succ index ih =>
    intro h array h1 array1 hinv hc
    obtain ⟨n, hn, hv, ha, helems⟩ := hinv
    simp only [arrayDeleteLoop] at hc
    cases he : array[index]? with
    | none => simp [he] at hc
    | some element =>
      simp only [he] at hc
      by_cases hf : f h element = true
      · rw [if_pos hf] at hc
        cases hr : Nested.Clear fuel h element with
        | none => simp [hr] at hc
        | some res =>
          obtain ⟨h2, r⟩ := res
          cases r with
          | panic => simp [hr] at hc
          | error m => exact absurd hr (Clear_no_error fuel h element h2 m)
          | ok v =>
            simp only [hr] at hc
            cases element with
            | none => exact absurd hr ((Clear_noError fuel).2 h h2)
            | some b =>
              have hb : some b ∈ n.elems := by
                have := helems index (Nat.lt_succ_self _)
                rw [he] at this
                exact List.getElem?_mem this
              obtain ⟨n2, hn2, hv2, ha2, harr2⟩ := Clear_keeps_owner hn hv ha hb hr
              have hlt : index < array.length := by
                by_contra hge
                rw [List.getElem?_eq_none (by omega)] at he
                cases he
              apply ih _ _ _ _ ?_ hc
              refine ⟨{ n2 with array := some (spliceBacking n2.elems array index) }, ?_, hv2, ha2,
                ?_⟩
              · simp only [spliceOwner, hn2]
                exact List.getElem?_set_self (getElem?_lt hn2)
              · intro i hi
                show (spliceBacking n2.elems array index)[i]? = _
                have hlen : i < ((array.set index none).take index).length := by
                  simp only [List.length_take, List.length_set]
                  omega
                unfold spliceBacking
                rw [List.append_assoc, List.append_assoc, List.getElem?_append_left hlen,
                  List.getElem?_append_left hlen]
      · rw [if_neg hf] at hc
        exact ih h array h1 array1 ⟨n, hn, hv, ha, fun i hi => helems i (by omega)⟩ hc

/-- What a successful `GetArray` tells: with no keys the node itself is an array and not
a scalar; with keys the chain resolves to such a cell. -/
theorem GetArray_ok_cases {h : Heap} {j : Ptr} {keys : List String} {arr : Option (List Ptr)}
    (hg : Nested.GetArray h j keys = .ok arr) :
    ∃ a n, j = some a ∧ h[a]? = some n ∧ n.IsValue = false ∧
      ((keys = [] ∧ n.IsArray = true ∧ arr = n.array) ∨
       (keys ≠ [] ∧ ∃ b x, Nested.Get h j keys = .ok (some b) ∧ h[b]? = some x ∧
          x.IsValue = false ∧ x.IsArray = true ∧ arr = x.array)) := by
  cases j with
  | none => simp [Nested.GetArray, deref] at hg
  | some a =>
    cases ha : h[a]? with
    | none => simp [Nested.GetArray, deref, ha] at hg
    | some n =>
      simp only [Nested.GetArray, deref, ha] at hg
      by_cases he : n.IsEmpty = true
      · simp [he] at hg
      · by_cases hv : n.IsValue = true
        · simp [he, hv] at hg
        · have hv2 : n.IsValue = false := by simpa using hv
          simp only [he, hv, if_false, Bool.false_eq_true] at hg
          refine ⟨a, n, rfl, ha, hv2, ?_⟩
          by_cases hlen : keys.length = 0
          · have hk : keys = [] := List.length_eq_zero.mp hlen
            subst hk
            by_cases har : n.IsArray = true
            · simp only [List.length_nil, har, and_self, if_true, Result.ok.injEq] at hg
              exact Or.inl ⟨rfl, har, hg.symm⟩
            · have hnn : n.IsNested = true := (isNested_iff n).2 ⟨hv2, by simpa using har⟩
              simp [har, hnn] at hg
          · have hne : keys ≠ [] := fun h0 => hlen (by simp [h0])
            simp only [hlen, false_and, if_false] at hg
            cases hget : Nested.Get h (some a) keys with
            | error m => simp [hget] at hg
            | panic => simp [hget] at hg
            | ok nested =>
              simp only [hget] at hg
              cases nested with
              | none => simp at hg
              | some b =>
                cases hx : h[b]? with
                | none => simp [hx] at hg
                | some x =>
                  simp only [hx] at hg
                  by_cases hxv : x.IsValue = true
                  · simp [hxv] at hg
                  · by_cases hxn : x.IsNested = true
                    · simp [hxv, hxn] at hg
                    · simp only [hxv, hxn, if_false, Bool.false_eq_true,
                        Result.ok.injEq] at hg
                      have hxv2 : x.IsValue = false := by simpa using hxv
                      have hxa : x.IsArray = true := by
                        by_contra hxa
                        exact hxn ((isNested_iff x).2 ⟨hxv2, by simpa using hxa⟩)
                      exact Or.inr ⟨hne, b, x, rfl, hx, hxv2, hxa, hg.symm⟩

/-- After the loop of `ArrayDelete`, writing the result back with `SetArray` returns no
error: the cells on the way have gained no flag, and with no keys the node is still
flagged as array. -/
theorem SetArray_after_shrunk {h h1 : Heap} {j : Ptr} {keys : List String}
    {arr0 : Option (List Ptr)}
    (hown : keys = [] → ∀ a, j = some a → ∃ n1, h1[a]? = some n1 ∧ n1.isArray = true)
    (hg : Nested.GetArray h j keys = .ok arr0) (hs : Shrunk h h1) (arr : Option (List Ptr)) :
    ∀ e, (Nested.SetArray h1 j arr keys).2 ≠ .error e := by
  intro e herr
  obtain ⟨a, n, rfl, ha, hv, hcase⟩ := GetArray_ok_cases hg
  obtain ⟨n1, ha1, hv1, har1, hsub⟩ := hs a n ha
  rcases hcase with ⟨rfl, har, _⟩ | ⟨hne, b, x, hget, _, _, _, _⟩
  · obtain ⟨n1b, hn1b, har1b⟩ := hown rfl a rfl
    rw [ha1] at hn1b
    cases hn1b
    have hcond : ((n1.IsEmpty || n1.IsArray) && ([] : List String).length == 0) = true := by
      simp [Nested.IsArray, har1b]
    unfold Nested.SetArray at herr
    simp only [ha1] at herr
    rw [if_pos hcond] at herr
    cases herr
  · have hlen : keys.length ≠ 0 := fun h0 => hne (List.length_eq_zero.mp h0)
    have hcond : ¬ (((n1.IsEmpty || n1.IsArray) && keys.length == 0) = true) := by
      simp [hlen]
    unfold Nested.SetArray at herr
    simp only [ha1] at herr
    rw [if_neg hcond] at herr
    have hl := (Get_ok_iff_lookupChain h keys (some a) (some b) hne).1 hget
    obtain ⟨i, y, ny, hi, hly, hy, hny⟩ :=
      (Set_error_iff keys _ (some a) (some h1.length) hne).1 ⟨e, herr⟩
    have hs2 : Shrunk h (h1 ++ [{ isArray := true, array := arr }]) := hs.shrunk_append _
    have hly0 := lookupChain_of_shrunk hs2 keys (some a) (some b) hl i y hly
    obtain ⟨n0, hn0, hnest0⟩ := lookupChain_mid_nested hl hi hly0
    cases y with
    | none => simp [deref] at hn0
    | some ya =>
      simp only [deref] at hn0 hy
      obtain ⟨ny2, hy2, hvy, hay, _⟩ := hs2 ya n0 hn0
      rw [hy] at hy2
      cases hy2
      obtain ⟨hv0, ha0⟩ := (isNested_iff n0).1 hnest0
      simp only [Nested.IsNested, Nested.IsValue, Nested.IsArray] at hny hv0 ha0
      cases hvv : ny.isValue
      · cases haa : ny.isArray
        · simp [hvv, haa] at hny
        · have := hay haa
          rw [ha0] at this; cases this
      · have := hvy hvv
        rw [hv0] at this; cases this

/-- C23. Array search and delete surface the errors of `GetArray`: for every heap, node
`j`, predicate `f` and key chain (possibly empty), `ArrayFindOne` and `ArrayFindAll`
return an error exactly when `j.GetArray(keys)` does, with the same message; when
`GetArray` returns an error, `ArrayDelete` returns it and changes nothing; and every error
that `ArrayDelete` returns is the error of `GetArray`: neither the loop nor writing the
result back with `SetArray` returns one. -/
theorem array_ops_surface_GetArray_errors (h : Heap) (j : Ptr)
    (f : Heap → Ptr → Bool) (keys : List String) :
    (∀ e, Nested.ArrayFindOne h j f keys = .error e ↔ Nested.GetArray h j keys = .error e) ∧
    (∀ e, Nested.ArrayFindAll h j f keys = .error e ↔ Nested.GetArray h j keys = .error e) ∧
    (∀ e, Nested.GetArray h j keys = .error e →
      ∀ fuel, Nested.ArrayDelete fuel h j f keys = some (h, .error e)) ∧
    (∀ fuel h2 e, Nested.ArrayDelete fuel h j f keys = some (h2, .error e) →
      Nested.GetArray h j keys = .error e) := by
  refine ⟨fun e => ?_, fun e => ?_, fun e hg fuel => ?_, fun fuel h2 e hd => ?_⟩
  · cases hg : Nested.GetArray h j keys with
    | error m => simp [Nested.ArrayFindOne, hg]
    | panic => simp [Nested.ArrayFindOne, hg]
    | ok arr =>
      simp only [Nested.ArrayFindOne, hg]
      constructor
      · intro hc
        cases hi : indexFunc (f h) (arr.getD []) with
        | none => simp [hi] at hc
        | some i =>
          simp only [hi] at hc
          cases hx : (arr.getD [])[i]? with
          | none => simp [hx] at hc
          | some x => simp [hx] at hc
      · intro hc; cases hc
  · cases hg : Nested.GetArray h j keys with
    | error m => simp [Nested.ArrayFindAll, hg]
    | panic => simp [Nested.ArrayFindAll, hg]
    | ok arr => simp [Nested.ArrayFindAll, hg]
  · simp [Nested.ArrayDelete, hg]
  · cases hg : Nested.GetArray h j keys with
    | error m =>
      simp only [Nested.ArrayDelete, hg, Option.some.injEq, Prod.mk.injEq,
        Result.error.injEq] at hd
      rw [hd.2]
    | panic => simp [Nested.ArrayDelete, hg] at hd
    | ok arr =>
      exfalso
      simp only [Nested.ArrayDelete, hg] at hd
      cases hl : arrayDeleteLoop (Nested.Clear fuel) f (arrayOwner h j keys) h (arr.getD [])
          (arr.getD []).length with
      | none => simp [hl] at hd
      | some x =>
        obtain ⟨h1, r1⟩ := x
        obtain ⟨hs1, hnoerr⟩ := arrayDeleteLoop_inv (shrunk_deletingInv h)
          (Clear_inv (shrunk_clearingInv h) fuel) f _ _ _ _ _ _ hl (Shrunk.shrunk_refl h)
        cases r1 with
        | ok array1 =>
          simp only [hl, Option.some.injEq] at hd
          have hown : keys = [] → ∀ a, j = some a →
              ∃ n1, h1[a]? = some n1 ∧ n1.isArray = true := by
            intro hk a hj
            subst hk hj
            obtain ⟨a2, n, ha2, hn, hv, hcase⟩ := GetArray_ok_cases hg
            cases ha2
            rcases hcase with ⟨_, har, harr⟩ | ⟨hne, _⟩
            · have hl2 : arrayDeleteLoop (Nested.Clear fuel) f (some a) h (arr.getD [])
                  (arr.getD []).length = some (h1, .ok array1) := by
                simpa [arrayOwner] using hl
              obtain ⟨n1, hn1, _, ha1⟩ := arrayDeleteLoop_keeps_owner fuel f a _ h _ h1 array1
                ⟨n, hn, hv, har, fun i _ => by rw [harr]; rfl⟩ hl2
              exact ⟨n1, hn1, ha1⟩
            · exact absurd rfl hne
          have hno := SetArray_after_shrunk hown hg hs1 (arr.map (fun _ => array1)) e
          rw [hd] at hno
          exact hno rfl
        | error m => exact hnoerr m rfl
        | panic => simp [hl] at hd

/-- C23, witness: the failing calls of `Test_ArrayDelete` on the test object;
`ArrayDelete(search, "value")` returns the error of `GetArray("value")`. -/
theorem array_ops_surface_GetArray_errors_witness :
    Nested.GetArray testHeap (some 0) ["value"] = .error "value: is value" ∧
    Nested.ArrayDelete 1 testHeap (some 0) (fun _ _ => true) ["value"]
      = some (testHeap, .error "value: is value") ∧
    Nested.ArrayFindOne testHeap (some 0) (fun _ _ => true) ["value"]
      = .error "value: is value" :=
  ⟨by decide,
    (array_ops_surface_GetArray_errors testHeap (some 0)
      (fun _ _ => true) ["value"]).2.2.1 _ (by decide) 1,
    ((array_ops_surface_GetArray_errors testHeap (some 0)
      (fun _ _ => true) ["value"]).1 _).2 (by decide)⟩

theorem drop_of_getElem? {α : Type} {l : List α} {i : Nat} {x : α} (hi : l[i]? = some x) :
    l.drop i = x :: l.drop (i + 1) := by
  have hlt : i < l.length := by
    by_contra hc
    rw [List.getElem?_eq_none (by omega)] at hi
    cases hi
  rw [List.drop_eq_getElem_cons hlt]
  congr 1
  rw [List.getElem?_eq_getElem hlt] at hi
  exact Option.some.inj hi

theorem take_succ_of_getElem? {α : Type} {l : List α} {i : Nat} {x : α} (hi : l[i]? = some x) :
    l.take (i + 1) = l.take i ++ [x] := by
  rw [List.take_succ, hi]
  rfl

theorem splice_spec {α : Type} (a F : List α) (i : Nat) (x y : α) (hi : a[i]? = some x) :
    ((a.take (i + 1) ++ F).set i y).take i ++ ((a.take (i + 1) ++ F).set i y).drop (i + 1)
      = a.take i ++ F := by
  have hlt : i < a.length := by
    by_contra hc
    rw [List.getElem?_eq_none (by omega)] at hi
    cases hi
  rw [take_succ_of_getElem? hi]
  have hlen : (a.take i).length = i := by simp; omega
  have h1 : ((a.take i ++ [x] ++ F).set i y).take i = a.take i := by
    apply List.ext_getElem?
    intro m
    by_cases hm : m < i
    · rw [List.getElem?_take, if_pos hm, List.getElem?_take, if_pos hm,
        List.getElem?_set_ne (by omega), List.append_assoc,
        List.getElem?_append_left (by omega), List.getElem?_take, if_pos hm]
    · rw [List.getElem?_take, if_neg hm, List.getElem?_take, if_neg hm]
  have h2 : ((a.take i ++ [x] ++ F).set i y).drop (i + 1) = F := by
    apply List.ext_getElem?
    intro m
    rw [List.getElem?_drop, List.getElem?_set_ne (by omega),
      List.getElem?_append_right (by simp; omega)]
    congr 1
    simp only [List.length_append, hlen, List.length_singleton]
    omega
  rw [h1, h2]

theorem wellShaped_set_array (n : Nested) (arr : Option (List Ptr)) :
    ({ n with array := arr } : Nested).wellShaped = n.wellShaped := rfl

theorem EmptyAt_congr {h h2 : Heap} {c : Nat} (hsame : h2[c]? = h[c]?) (he : EmptyAt h c) :
    EmptyAt h2 c := by
  obtain ⟨n, hn, hemp⟩ := he
  exact ⟨n, by rw [hsame]; exact hn, hemp⟩

/-- A visited element that satisfies the predicate is cleared and spliced out. -/
theorem DeleteInv.delete {h : Heap} {f : Heap → Ptr → Bool} {a : List Ptr} {xa idx : Nat}
    {hc h1 : Heap} {arr : List Ptr} {nx : Nested} {b fuel : Nat} (hyp : DeleteHyp h f a xa)
    (hx : h[xa]? = some nx) (inv : DeleteInv h f a xa (idx + 1) hc arr)
    (he : a[idx]? = some (some b)) (hf : f h (some b) = true)
    (hclear : Nested.Clear fuel hc (some b) = some (h1, .ok ())) :
    DeleteInv h f a xa idx (spliceOwner h1 (some xa) arr idx)
      ((arr.set idx none).take idx ++ (arr.set idx none).drop (idx + 1)) := by
  obtain ⟨_, hlen, hframe, hemp⟩ := Clear_post_of_ok inv.shaped inv.own hclear
  have hmem : some b ∈ a := List.getElem?_mem he
  have hbelow : SameOrEmptyBelow h hc b := by
    intro c hcont
    apply inv.all c
    intro hcx
    subst hcx
    exact hyp.notOwner b hmem hcont
  have htrans : ∀ c, Contains hc b c → Contains h b c :=
    fun c hcont => Contains_of_sameOrEmpty hcont hbelow
  have hxnot : ¬ Contains hc b xa := fun hcont => hyp.notOwner b hmem (htrans xa hcont)
  obtain ⟨arrx, hox⟩ := inv.owner nx hx
  have hox1 : h1[xa]? = some { nx with array := arrx } := by
    rw [hframe xa hxnot]; exact hox
  have hxlt : xa < h1.length := getElem?_lt hox1
  have hsplice : spliceOwner h1 (some xa) arr idx =
      h1.set xa { nx with array := some (spliceBacking
        ({ nx with array := arrx } : Nested).elems arr idx) } := by
    simp only [spliceOwner, hox1]
  have hother : ∀ c, c ≠ xa → (spliceOwner h1 (some xa) arr idx)[c]? = h1[c]? := by
    intro c hcx
    rw [hsplice, List.getElem?_set_ne (Ne.symm hcx)]
  have hrel : ∀ c, h1[c]? = hc[c]? ∨ EmptyAt h1 c := by
    intro c
    by_cases hcont : Contains hc b c
    · exact Or.inr (hemp c hcont)
    · exact Or.inl (hframe c hcont)
  have hdrop := drop_of_getElem? he
  refine ⟨Nat.le_of_succ_le inv.bound, ?_, ?_, ?_, ?_, ?_, ?_⟩
  · rw [inv.arr_eq, splice_spec a _ idx (some b) none he, hdrop]
    simp [hf]
  · rw [hsplice]
    apply Shaped_set (Shaped_of_same_or_empty inv.shaped hrel)
    rw [wellShaped_set_array]
    have := inv.shaped _ (List.getElem?_mem hox)
    rw [wellShaped_set_array] at this
    exact this
  · rw [hsplice]
    have hx0 : ({ nx with array := arrx } : Nested).mapId = 0 :=
      (Clear_unshared hclear inv.own).unshared_get hox1
    exact Unshared.unshared_set (Clear_unshared hclear inv.own) xa hx0
  · intro c hcx hout
    rw [hother c hcx]
    have hnot : ¬ Contains hc b c := by
      intro hcont
      exact hout b (by rw [hdrop]; exact List.mem_cons_self _ _) (htrans c hcont)
    rw [hframe c hnot]
    exact inv.same c hcx (fun b2 hb2 => hout b2 (by
      rw [hdrop]; exact List.mem_cons_of_mem _ hb2))
  · intro c hcx
    rcases hrel c with hsame | hempty
    · rcases inv.all c hcx with hs0 | he0
      · exact Or.inl (by rw [hother c hcx, hsame, hs0])
      · exact Or.inr (EmptyAt_congr (by rw [hother c hcx, hsame]) he0)
    · exact Or.inr (EmptyAt_congr (hother c hcx) hempty)
  · intro nx2 hx2
    rw [hx] at hx2
    cases hx2
    exact ⟨_, by rw [hsplice]; exact List.getElem?_set_self hxlt⟩

/-- Storing under a key the map does not hold appends the entry. -/
theorem anyStore_of_not_mem {m : List (String × GoAny)} {k : String} (v : GoAny)
    (hk : k ∉ m.map Prod.fst) : anyStore m k v = m ++ [(k, v)] := by
  induction m with
  | nil => rfl
  | cons e m ih =>
    obtain ⟨k2, v2⟩ := e
    simp only [List.map_cons, List.mem_cons, not_or] at hk
    simp only [anyStore, if_neg (Ne.symm hk.1), ih hk.2, List.cons_append]

/-- A list of answers for a list of questions each of which has one. -/
theorem forall2_of_forall_exists {α β : Type} (R : α → β → Prop) :
    ∀ (xs : List α), (∀ x ∈ xs, ∃ v, R x v) → ∃ vs, List.Forall₂ R xs vs
  | [], _ => ⟨[], List.Forall₂.nil⟩
  | x :: xs, hx => by
    obtain ⟨v, hv⟩ := hx x (List.mem_cons_self x xs)
    obtain ⟨vs, hvs⟩ := forall2_of_forall_exists R xs
      (fun y hy => hx y (List.mem_cons_of_mem x hy))
    exact ⟨v :: vs, List.Forall₂.cons hv hvs⟩

/-- The loop over the elements returns the objects of the elements, in order. -/
theorem toObjectElems_ok (rec : Ptr → Option (Result GoAny)) :
    ∀ (xs : List Ptr) (vs acc : List GoAny),
      List.Forall₂ (fun x v => rec x = some (.ok v)) xs vs →
      toObjectElems rec acc xs = some (.ok (acc ++ vs))
  | [], vs, acc, hxs => by
    cases hxs
    simp [toObjectElems]
  | x :: xs, vs, acc, hxs => by
    cases hxs with
    | cons hv hrest =>
      rw [toObjectElems, hv]
      simp only
      rw [toObjectElems_ok rec xs _ _ hrest, List.append_assoc, List.singleton_append]

/-- The loop over the keys of a map with distinct keys returns the objects of the
entries under their keys. -/
theorem toObjectKeys_ok (rec : Ptr → Option (Result GoAny)) (m : GoMap) :
    ∀ (ks : List String) (vs : List GoAny) (acc : List (String × GoAny)),
      (acc.map Prod.fst ++ ks).Nodup →
      List.Forall₂ (fun k v => rec ((mapLookup m k).getD none) = some (.ok v)) ks vs →
      toObjectKeys rec m acc ks = some (.ok (acc ++ ks.zip vs))
  | [], vs, acc, _, hks => by
    cases hks
    simp [toObjectKeys]
  | k :: ks, vs, acc, hnd, hks => by
    cases hks with
    | @cons _ v _ vs2 hv hrest =>
      have hk : k ∉ acc.map Prod.fst := by
        intro hmem
        have := (List.nodup_append.mp hnd).2.2
        exact this hmem (List.mem_cons_self k ks) 
      rw [toObjectKeys, hv]
      simp only
      rw [anyStore_of_not_mem v hk]
      have hnd2 : ((acc ++ [(k, v)]).map Prod.fst ++ ks).Nodup := by
        simpa [List.map_append, List.append_assoc] using hnd
      rw [toObjectKeys_ok rec m ks vs2 _ hnd2 hrest]
      simp [List.zip_cons_cons]

/-- The object of a scalar is its value. -/
theorem ToObject_value {h : Heap} {a : Nat} {n : Nested} (fuel : Nat) (ha : h[a]? = some n)
    (hv : n.IsValue = true) : Nested.ToObject (fuel + 1) h (some a) = some (.ok n.value) := by
  simp [Nested.ToObject, toObjectBody, deref, ha, hv]

/-- The object of an array is the slice of the objects of its elements. -/
theorem ToObject_array {h : Heap} {a : Nat} {n : Nested} (fuel : Nat) (vs : List GoAny)
    (ha : h[a]? = some n) (hv : n.IsValue = false) (harr : n.IsArray = true)
    (hvs : List.Forall₂ (fun x v => Nested.ToObject fuel h x = some (.ok v)) n.elems vs) :
    Nested.ToObject (fuel + 1) h (some a) = some (.ok (.slice vs)) := by
  simp [Nested.ToObject, toObjectBody, deref, ha, hv, harr,
    toObjectElems_ok (Nested.ToObject fuel h) n.elems vs [] hvs]

/-- The entries of a map with distinct keys are found under their keys. -/
theorem forall2_lookup_of_nodup (R : Ptr → GoAny → Prop) :
    ∀ (m : GoMap) (vs : List GoAny), (m.map Prod.fst).Nodup →
      List.Forall₂ (fun kc v => R kc.2 v) m vs →
      ∀ (m0 : GoMap), (∀ kc ∈ m, mapLookup m0 kc.1 = some kc.2) →
      List.Forall₂ (fun k v => R ((mapLookup m0 k).getD none) v) (m.map Prod.fst) vs
  | [], vs, _, hm, _, _ => by
    cases hm
    exact List.Forall₂.nil
  | kc :: m, vs, hnd, hm, m0, hl => by
    cases hm with
    | cons hv hrest =>
      refine List.Forall₂.cons ?_ ?_
      · rw [hl kc (List.mem_cons_self kc m)]
        exact hv
      · exact forall2_lookup_of_nodup R m _ (List.nodup_cons.mp hnd).2 hrest m0
          (fun e he => hl e (List.mem_cons_of_mem kc he))

/-- The object of a map-shaped node with distinct keys holds the objects of its entries
under their keys. -/
theorem ToObject_map {h : Heap} {a : Nat} {n : Nested} (fuel : Nat) (vs : List GoAny)
    (ha : h[a]? = some n) (hnest : n.IsNested = true)
    (hnd : (n.entries.map Prod.fst).Nodup)
    (hvs : List.Forall₂ (fun kc v => Nested.ToObject fuel h kc.2 = some (.ok v)) n.entries vs) :
    Nested.ToObject (fuel + 1) h (some a) =
      some (.ok (.map ((n.entries.map Prod.fst).zip vs))) := by
  have hv : n.IsValue = false := by
    simp only [Nested.IsNested, Bool.and_eq_true, Bool.not_eq_true'] at hnest
    exact hnest.2
  have harr : n.IsArray = false := by
    simp only [Nested.IsNested, Bool.and_eq_true, Bool.not_eq_true'] at hnest
    exact hnest.1
  have hl : ∀ kc ∈ n.entries, mapLookup n.entries kc.1 = some kc.2 := fun kc hkc =>
    mapLookup_of_mem_nodup hnd hkc
  have h2 := forall2_lookup_of_nodup (fun x v => Nested.ToObject fuel h x = some (.ok v))
    n.entries vs hnd hvs n.entries hl
  have h3 := toObjectKeys_ok (Nested.ToObject fuel h) n.entries (n.entries.map Prod.fst) vs []
    (by simpa using hnd) h2
  simp [Nested.ToObject, toObjectBody, deref, ha, hv, harr, h3]

/-- The loop over the elements returns the same slice under a recursive call that
returns more. -/
theorem toObjectElems_le {r1 r2 : Ptr → Option (Result GoAny)} (hle : RecOkLe r1 r2) :
    ∀ (xs : List Ptr) (acc vs : List GoAny), toObjectElems r1 acc xs = some (.ok vs) →
      toObjectElems r2 acc xs = some (.ok vs)
  | [], acc, vs, hr => by
    simpa [toObjectElems] using hr
  | x :: xs, acc, vs, hr => by
    rw [toObjectElems] at hr
    cases hx : r1 x with
    | none => simp [hx] at hr
    | some r =>
      cases r with
      | ok v =>
        simp only [hx] at hr
        rw [toObjectElems, hle x v hx]
        exact toObjectElems_le hle xs _ vs hr
      | error e => simp [hx] at hr
      | panic => simp [hx] at hr

/-- The loop over the keys returns the same map under a recursive call that returns
more. -/
theorem toObjectKeys_le {r1 r2 : Ptr → Option (Result GoAny)} (hle : RecOkLe r1 r2)
    (m : GoMap) :
    ∀ (ks : List String) (acc vs : List (String × GoAny)),
      toObjectKeys r1 m acc ks = some (.ok vs) → toObjectKeys r2 m acc ks = some (.ok vs)
  | [], acc, vs, hr => by
    simpa [toObjectKeys] using hr
  | k :: ks, acc, vs, hr => by
    rw [toObjectKeys] at hr
    cases hx : r1 ((mapLookup m k).getD none) with
    | none => simp [hx] at hr
    | some r =>
      cases r with
      | ok v =>
        simp only [hx] at hr
        rw [toObjectKeys, hle _ v hx]
        exact toObjectKeys_le hle m ks _ vs hr
      | error e => simp [hx] at hr
      | panic => simp [hx] at hr

/-- The body of `ToObject` returns the same object on a heap in which the node is the
same cell, under a recursive call that returns more. -/
theorem toObjectBody_le {r1 r2 : Ptr → Option (Result GoAny)} (hle : RecOkLe r1 r2)
    {h h2 : Heap} {j : Ptr} (hd : ∀ n, deref h j = some n → deref h2 j = some n) {v : GoAny}
    (hr : toObjectBody r1 h j = some (.ok v)) : toObjectBody r2 h2 j = some (.ok v) := by
  unfold toObjectBody at hr ⊢
  cases hn : deref h j with
  | none => simp [hn] at hr
  | some n =>
    rw [hd n hn]
    simp only [hn] at hr ⊢
    by_cases hv : n.IsValue = true
    · simpa [hv] using hr
    · by_cases harr : n.IsArray = true
      · simp only [hv, harr, if_true, if_false] at hr ⊢
        cases he : toObjectElems r1 [] n.elems with
        | none => simp [he] at hr
        | some r =>
          cases r with
          | ok vs =>
            rw [toObjectElems_le hle _ _ _ he]
            simpa [he] using hr
          | error e => simp [he] at hr
          | panic => simp [he] at hr
      · simp only [hv, harr, if_false] at hr ⊢
        cases he : toObjectKeys r1 n.entries [] (n.entries.map Prod.fst) with
        | none => simp [he] at hr
        | some r =>
          cases r with
          | ok vs =>
            rw [toObjectKeys_le hle _ _ _ _ he]
            simpa [he] using hr
          | error e => simp [he] at hr
          | panic => simp [he] at hr

/-- An object returned within a bound on the depth is returned within every larger
bound, also after further cells have been allocated. -/
theorem ToObject_mono_append (t : Heap) :
    ∀ (fuel fuel2 : Nat) (h : Heap) (j : Ptr) (v : GoAny), fuel ≤ fuel2 →
      Nested.ToObject fuel h j = some (.ok v) →
      Nested.ToObject fuel2 (h ++ t) j = some (.ok v)
  | 0, _, h, j, v, _, hr => by simp [Nested.ToObject] at hr
  | fuel + 1, 0, h, j, v, hle, _ => by omega
  | fuel + 1, fuel2 + 1, h, j, v, hle, hr => by
    rw [Nested.ToObject] at hr ⊢
    refine toObjectBody_le ?_ (fun n hn => deref_append t hn) hr
    intro x w hx
    exact ToObject_mono_append t fuel fuel2 h x w (by omega) hx

/-- An object returned within a bound on the depth is returned within every larger
bound. -/
theorem ToObject_mono {fuel fuel2 : Nat} {h : Heap} {j : Ptr} {v : GoAny} (hle : fuel ≤ fuel2)
    (hr : Nested.ToObject fuel h j = some (.ok v)) :
    Nested.ToObject fuel2 h j = some (.ok v) := by
  have := ToObject_mono_append [] fuel fuel2 h j v hle hr
  simpa using this

/-- On a finite tree of depth less than `d` without nil pointers, `ToObject` returns an
object within the bound `d`. -/
theorem ToObject_of_wellFormed :
    ∀ (d : Nat) (h : Heap) (p : Ptr), wellFormed d h p = true →
      ∃ v, Nested.ToObject d h p = some (.ok v)
  | 0, h, p, hwf => by simp [wellFormed] at hwf
  | d + 1, h, p, hwf => by
    rw [wellFormed] at hwf
    cases hn : deref h p with
    | none => simp [hn] at hwf
    | some n =>
      simp only [hn, Bool.and_eq_true, List.all_eq_true] at hwf
      obtain ⟨hshape, hch⟩ := hwf
      cases p with
      | none => simp [deref] at hn
      | some a =>
        have ha : h[a]? = some n := by simpa [deref] using hn
        by_cases hv : n.IsValue = true
        · exact ⟨_, ToObject_value d ha hv⟩
        · have hv2 : n.IsValue = false := by simpa using hv
          by_cases harr : n.IsArray = true
          · have hchildren : n.children = n.elems := by simp [Nested.children, hv2, harr]
            obtain ⟨vs, hvs⟩ := forall2_of_forall_exists
              (fun x v => Nested.ToObject d h x = some (.ok v)) n.elems
              (fun x hx => ToObject_of_wellFormed d h x (hch x (by rw [hchildren]; exact hx)))
            exact ⟨_, ToObject_array d vs ha hv2 harr hvs⟩
          · have harr2 : n.IsArray = false := by simpa using harr
            have hchildren : n.children = n.entries.map Prod.snd := by
              simp [Nested.children, hv2, harr2]
            have hnd : (n.entries.map Prod.fst).Nodup := by
              simp only [Nested.wellShaped, Bool.and_eq_true, decide_eq_true_eq] at hshape
              exact hshape.1.1
            obtain ⟨vs, hvs⟩ := forall2_of_forall_exists
              (fun (kc : String × Ptr) v => Nested.ToObject d h kc.2 = some (.ok v)) n.entries
              (fun kc hkc => ToObject_of_wellFormed d h kc.2
                (hch kc.2 (by rw [hchildren]; exact List.mem_map_of_mem Prod.snd hkc)))
            refine ⟨_, ToObject_map d vs ha ?_ hnd hvs⟩
            simp [Nested.IsNested, Nested.IsArray, Nested.IsValue] at hv2 harr2 ⊢
            exact ⟨harr2, hv2⟩

/-- What `trim` makes of a text followed by a line feed: the first and last character
are dropped when both are the double quote and there are at least two characters, and
the text is returned as it is otherwise. -/
theorem trim_line (t : String) :
    trim (t ++ "\n") =
      if 2 ≤ t.data.length ∧ t.data.head? = some '"' ∧ t.data.getLast? = some '"' then
        .ok (String.mk t.data.tail.dropLast)
      else .ok t := by
  have hdata : (t ++ "\n").data = t.data ++ ['\n'] := by simp
  unfold trim
  rw [hdata, List.getLast?_append_of_ne_nil _ (by simp)]
  simp only [List.getLast?_singleton, if_true, List.dropLast_concat]

/-- A text that does not begin with the double quote comes back from `trim` as it is. -/
theorem trim_line_of_head {t : String} (hq : t.data.head? ≠ some '"') :
    trim (t ++ "\n") = .ok t := by
  rw [trim_line, if_neg]
  exact fun hc => hq hc.2.1

/-- A text in double quotes comes back from `trim` without them. -/
theorem trim_line_quoted (e : String) : trim ("\"" ++ e ++ "\"" ++ "\n") = .ok e := by
  rw [trim_line, if_pos]
  · congr 1
    have : ("\"" ++ e ++ "\"").data = '"' :: (e.data ++ ['"']) := by simp
    rw [this, List.tail_cons, List.dropLast_concat]
  · have : ("\"" ++ e ++ "\"").data = '"' :: (e.data ++ ['"']) := by simp
    rw [this]
    refine ⟨by simp, by simp, ?_⟩
    rw [← List.cons_append, List.getLast?_append_of_ne_nil _ (by simp)]
    rfl

/-- Reading digits after digits continues from the value read so far. -/
theorem decimalDigits_append : ∀ (xs ys : List Char) (a : Nat),
    decimalDigits a (xs ++ ys) = (decimalDigits a xs).bind (fun v => decimalDigits v ys)
  | [], ys, a => by simp [decimalDigits]
  | c :: xs, ys, a => by
    simp only [List.cons_append, decimalDigits]
    split
    · exact decimalDigits_append xs ys _
    · rfl

/-- The character of a decimal digit is a digit with that value. -/
theorem digitChar_spec (d : Nat) (hd : d < 10) :
    (Nat.digitChar d).isDigit = true ∧ (Nat.digitChar d).toNat - 48 = d ∧
      Nat.digitChar d ≠ '"' ∧ Nat.digitChar d ≠ '+' ∧ Nat.digitChar d ≠ '-' := by
  interval_cases d <;> decide

/-- The decimal digits that `strconv` and `encoding/json` write for a natural number:
a non-empty text of digits that reads back as the number. -/
theorem toDigitsCore_spec : ∀ (fuel n : Nat) (acc : List Char), n < fuel →
    ∃ ds, Nat.toDigitsCore 10 fuel n acc = ds ++ acc ∧ ds ≠ [] ∧
      (∀ c ∈ ds, c.isDigit = true ∧ c ≠ '"' ∧ c ≠ '+' ∧ c ≠ '-') ∧
      decimalDigits 0 ds = some n
  | 0, n, acc, hn => by omega
  | fuel + 1, n, acc, hn => by
    have hd := digitChar_spec (n % 10) (Nat.mod_lt n (by decide))
    rw [Nat.toDigitsCore]
    by_cases h0 : n / 10 = 0
    · simp only [h0, if_true]
      refine ⟨[Nat.digitChar (n % 10)], rfl, by simp, ?_, ?_⟩
      · intro c hc
        simp only [List.mem_singleton] at hc
        subst hc
        exact ⟨hd.1, hd.2.2⟩
      · have hn10 : n % 10 = n := Nat.mod_eq_of_lt (by omega)
        simp only [decimalDigits, hd.1, if_true, hd.2.1, Nat.zero_mul, Nat.zero_add]
        rw [hn10]
    · simp only [h0, if_false]
      obtain ⟨ds, hds, hne, hall, hval⟩ :=
        toDigitsCore_spec fuel (n / 10) (Nat.digitChar (n % 10) :: acc) (by omega)
      refine ⟨ds ++ [Nat.digitChar (n % 10)], ?_, by simp, ?_, ?_⟩
      · rw [hds]; simp
      · intro c hc
        rcases List.mem_append.mp hc with hc | hc
        · exact hall c hc
        · simp only [List.mem_singleton] at hc
          subst hc
          exact ⟨hd.1, hd.2.2⟩
      · rw [decimalDigits_append, hval]
        simp only [Option.some_bind, decimalDigits, hd.1, if_true, hd.2.1]
        congr 1
        omega

/-- The decimal text of a natural number. -/
theorem natToString_spec (n : Nat) :
    ∃ ds, (toString n).data = ds ∧ ds ≠ [] ∧
      (∀ c ∈ ds, c.isDigit = true ∧ c ≠ '"' ∧ c ≠ '+' ∧ c ≠ '-') ∧
      decimalDigits 0 ds = some n := by
  obtain ⟨ds, hds, hne, hall, hval⟩ := toDigitsCore_spec (n + 1) n [] (by omega)
  refine ⟨ds, ?_, hne, hall, hval⟩
  show (Nat.repr n).data = ds
  simp [Nat.repr, Nat.toDigits, hds, List.asString]

/-- The decimal text of an integer does not begin with a double quote. -/
theorem intToString_head (i : Int) : (toString i).data.head? ≠ some '"' := by
  cases i with
  | ofNat n =>
    obtain ⟨ds, hds, hne, hall, _⟩ := natToString_spec n
    show (toString n).data.head? ≠ some '"'
    rw [hds]
    cases ds with
    | nil => exact absurd rfl hne
    | cons c cs =>
      intro hc
      simp only [List.head?_cons, Option.some.injEq] at hc
      exact (hall c (List.mem_cons_self c cs)).2.1 hc
  | negSucc n =>
    show ("-" ++ toString (n + 1)).data.head? ≠ some '"'
    simp

/-- The decimal text of a natural number does not begin with a double quote. -/
theorem natToString_head (n : Nat) : (toString n).data.head? ≠ some '"' :=
  intToString_head (Int.ofNat n)

/-- The decimal text of an integer reads back as the integer. -/
theorem decimalValue_toString (i : Int) : decimalValue (toString i) = some i := by
  cases i with
  | ofNat n =>
    obtain ⟨ds, hds, hne, hall, hval⟩ := natToString_spec n
    show decimalValue (toString n) = some (Int.ofNat n)
    unfold decimalValue
    rw [hds]
    cases ds with
    | nil => exact absurd rfl hne
    | cons c cs =>
      have hc := hall c (List.mem_cons_self c cs)
      simp only [if_neg hc.2.2.1, if_neg hc.2.2.2, hval, Option.map_some']
      rfl
  | negSucc n =>
    obtain ⟨ds, hds, hne, hall, hval⟩ := natToString_spec (n + 1)
    have hdata : (toString (Int.negSucc n)).data = '-' :: ds := by
      show ("-" ++ toString (n + 1)).data = '-' :: ds
      simp [hds]
    unfold decimalValue
    rw [hdata]
    simp only [if_neg (by decide : ¬ ('-' = '+')), if_true, if_neg hne, hval, Option.map_some']
    rfl

/-- The two cases of `jsonEscapeChar`: a character other than the double quote (34), the
backslash (92), the control characters and the separators U+2028 and U+2029 is written
as it is, and every other character is written as two or more characters. -/
theorem jsonEscapeChar_cases (c : Char) :
    ((c.toNat ≠ 34 ∧ c.toNat ≠ 92 ∧ 32 ≤ c.toNat ∧ c.toNat ≠ 8232 ∧ c.toNat ≠ 8233) ∧
      jsonEscapeChar c = [c]) ∨
    (¬ (c.toNat ≠ 34 ∧ c.toNat ≠ 92 ∧ 32 ≤ c.toNat ∧ c.toNat ≠ 8232 ∧ c.toNat ≠ 8233) ∧
      2 ≤ (jsonEscapeChar c).length) := by
  unfold jsonEscapeChar
  by_cases h1 : c.toNat = 34
  · rw [if_pos h1]; exact Or.inr ⟨fun hx => hx.1 h1, Nat.le_refl 2⟩
  rw [if_neg h1]
  by_cases h2 : c.toNat = 92
  · rw [if_pos h2]; exact Or.inr ⟨fun hx => hx.2.1 h2, Nat.le_refl 2⟩
  rw [if_neg h2]
  by_cases h3 : c.toNat = 8
  · rw [if_pos h3]; exact Or.inr ⟨fun hx => by omega, Nat.le_refl 2⟩
  rw [if_neg h3]
  by_cases h4 : c.toNat = 12
  · rw [if_pos h4]; exact Or.inr ⟨fun hx => by omega, Nat.le_refl 2⟩
  rw [if_neg h4]
  by_cases h5 : c.toNat = 10
  · rw [if_pos h5]; exact Or.inr ⟨fun hx => by omega, Nat.le_refl 2⟩
  rw [if_neg h5]
  by_cases h6 : c.toNat = 13
  · rw [if_pos h6]; exact Or.inr ⟨fun hx => by omega, Nat.le_refl 2⟩
  rw [if_neg h6]
  by_cases h7 : c.toNat = 9
  · rw [if_pos h7]; exact Or.inr ⟨fun hx => by omega, Nat.le_refl 2⟩
  rw [if_neg h7]
  by_cases h8 : c.toNat < 32
  · rw [if_pos h8]; exact Or.inr ⟨fun hx => by omega, Nat.le_add_left 2 4⟩
  rw [if_neg h8]
  by_cases h9 : c.toNat = 8232
  · rw [if_pos h9]; exact Or.inr ⟨fun hx => hx.2.2.2.1 h9, Nat.le_add_left 2 4⟩
  rw [if_neg h9]
  by_cases h10 : c.toNat = 8233
  · rw [if_pos h10]; exact Or.inr ⟨fun hx => hx.2.2.2.2 h10, Nat.le_add_left 2 4⟩
  rw [if_neg h10]
  exact Or.inl ⟨⟨h1, h2, by omega, h9, h10⟩, rfl⟩

/-- Characters that `encoding/json` writes as they are. -/
theorem jsonEscapeChar_eq_self_iff (c : Char) :
    jsonEscapeChar c = [c] ↔
      (c.toNat ≠ 34 ∧ c.toNat ≠ 92 ∧ 32 ≤ c.toNat ∧ c.toNat ≠ 8232 ∧ c.toNat ≠ 8233) := by
  rcases jsonEscapeChar_cases c with ⟨h1, h2⟩ | ⟨h1, h2⟩
  · exact ⟨fun _ => h1, fun _ => h2⟩
  · refine ⟨fun hc => ?_, fun hx => absurd hx h1⟩
    rw [hc] at h2
    exact absurd (Nat.le_of_succ_le_succ h2) (Nat.not_succ_le_zero 0)

/-- An escaped character takes more than one character. -/
theorem jsonEscapeChar_length (c : Char) :
    1 ≤ (jsonEscapeChar c).length ∧ ((jsonEscapeChar c).length = 1 → jsonEscapeChar c = [c]) := by
  rcases jsonEscapeChar_cases c with ⟨_, h2⟩ | ⟨_, h2⟩
  · rw [h2]
    exact ⟨Nat.le_refl 1, fun _ => rfl⟩
  · exact ⟨by omega, fun h1 => by omega⟩

/-- Escaping does not shorten a text, and keeps its length only when nothing is
escaped. -/
theorem flatMap_jsonEscapeChar_length : ∀ (l : List Char),
    l.length ≤ (l.flatMap jsonEscapeChar).length ∧
      ((l.flatMap jsonEscapeChar).length = l.length → ∀ c ∈ l, jsonEscapeChar c = [c])
  | [] => by simp
  | c :: l => by
    obtain ⟨h1, h2⟩ := flatMap_jsonEscapeChar_length l
    obtain ⟨h3, h4⟩ := jsonEscapeChar_length c
    simp only [List.flatMap_cons, List.length_append, List.length_cons, List.mem_cons]
    refine ⟨by omega, ?_⟩
    intro hlen c2 hc2
    rcases hc2 with rfl | hc2
    · exact h4 (by omega)
    · exact h2 (by omega) c2 hc2

/-- The content of the JSON string literal of `s` is `s` exactly when no character of `s`
is escaped. -/
theorem jsonEscape_eq_self_iff (s : String) :
    jsonEscape s = s ↔
      ∀ c ∈ s.data,
        c.toNat ≠ 34 ∧ c.toNat ≠ 92 ∧ 32 ≤ c.toNat ∧ c.toNat ≠ 8232 ∧ c.toNat ≠ 8233 := by
  constructor
  · intro hs c hc
    have hdata : s.data.flatMap jsonEscapeChar = s.data := by
      have := congrArg String.data hs
      simpa [jsonEscape] using this
    exact (jsonEscapeChar_eq_self_iff c).mp
      ((flatMap_jsonEscapeChar_length s.data).2 (by rw [hdata]) c hc)
  · intro hs
    have hall : ∀ (l : List Char), (∀ c ∈ l, jsonEscapeChar c = [c]) →
        l.flatMap jsonEscapeChar = l := by
      intro l
      induction l with
      | nil => intro _; rfl
      | cons c l ih =>
        intro hl
        rw [List.flatMap_cons, hl c (List.mem_cons_self c l),
          ih (fun c2 hc2 => hl c2 (List.mem_cons_of_mem c hc2))]
        rfl
    unfold jsonEscape
    rw [hall s.data (fun c hc => (jsonEscapeChar_eq_self_iff c).mpr (hs c hc))]

/-- The text `ToJSONString` returns for a node whose object is `v`. -/
theorem ToJSONString_of_object {rt : GoReflect} {fuel : Nat} {h : Heap} {j : Ptr} {v : GoAny}
    (hv : Nested.ToObject fuel h j = some (.ok v)) :
    Nested.ToJSONString rt fuel h j =
      some (match jsonEncode rt v with
        | some objString => trim (objString ++ "\n")
        | none => .ok "") := by
  unfold Nested.ToJSONString jsonMarshal
  rw [hv]
  simp only
  cases jsonEncode rt v <;> rfl

/-- C32, amended: for a scalar node holding a string `s` that is valid UTF-8 (a sequence
of Unicode characters, as every string of the model is), `ToJSONString` returns the JSON
string literal of `s` without its surrounding quotes, and this text is `s` exactly when
`s` has no double quote (34), no backslash (92), no control character and neither of the
separators U+2028 and U+2029; a scalar integer gives its decimal text and a scalar
boolean gives `true` or `false`. -/
theorem ToJSONString_scalar_text (rt : GoReflect) (fuel : Nat) (h : Heap) (a : Nat) (n : Nested)
    (ha : h[a]? = some n) (hv : n.IsValue = true) :
    (∀ s, n.value = .string s →
      Nested.ToJSONString rt (fuel + 1) h (some a) = some (.ok (jsonEscape s)) ∧
      (jsonEscape s = s ↔
        ∀ c ∈ s.data,
          c.toNat ≠ 34 ∧ c.toNat ≠ 92 ∧ 32 ≤ c.toNat ∧ c.toNat ≠ 8232 ∧ c.toNat ≠ 8233)) ∧
    (∀ i, n.value = .int i →
      Nested.ToJSONString rt (fuel + 1) h (some a) = some (.ok (toString i))) ∧
    (∀ b, n.value = .bool b →
      Nested.ToJSONString rt (fuel + 1) h (some a) =
        some (.ok (if b = true then "true" else "false"))) := by
  have hobj := ToObject_value fuel ha hv
  refine ⟨?_, ?_, ?_⟩
  · intro s hs
    refine ⟨?_, jsonEscape_eq_self_iff s⟩
    rw [ToJSONString_of_object hobj, hs]
    simp only [jsonEncode, jsonString]
    rw [trim_line_quoted]
  · intro i hi
    rw [ToJSONString_of_object hobj, hi]
    simp only [jsonEncode]
    rw [trim_line_of_head (intToString_head i)]
  · intro b hb
    rw [ToJSONString_of_object hobj, hb]
    simp only [jsonEncode]
    cases b <;> rfl

/-- C32, witness: the scalars "string", 42 and true of the tests, set by `SetValue`. -/
theorem ToJSONString_scalar_text_witness :
    Nested.ToJSONString sampleReflect 1 (Nested.SetValue [{}] (some 0) (.string "string") []).1
        (some 0) = some (.ok "string") ∧
      Nested.ToJSONString sampleReflect 1 (Nested.SetValue [{}] (some 0) (.int 42) []).1
        (some 0) = some (.ok "42") ∧
      Nested.ToJSONString sampleReflect 1 (Nested.SetValue [{}] (some 0) (.bool true) []).1
        (some 0) = some (.ok "true") :=
  ⟨((ToJSONString_scalar_text sampleReflect 0
      (Nested.SetValue [{}] (some 0) (.string "string") []).1 0
      { isValue := true, value := .string "string" } rfl rfl).1 "string" rfl).1.trans
      (by rw [(jsonEscape_eq_self_iff "string").mpr (by decide)]),
    (ToJSONString_scalar_text sampleReflect 0 (Nested.SetValue [{}] (some 0) (.int 42) []).1 0
      { isValue := true, value := .int 42 } rfl rfl).2.1 42 rfl,
    (ToJSONString_scalar_text sampleReflect 0 (Nested.SetValue [{}] (some 0) (.bool true) []).1 0
      { isValue := true, value := .bool true } rfl rfl).2.2 true rfl⟩

/-- C32 as stated fails: for the scalar string `a"b`, set by `SetValue`, `ToJSONString`
returns `a\"b`, the quote escaped by a backslash, which is not the string held. -/
theorem ToJSONString_escapes_quote :
    Nested.GetValue (Nested.SetValue [{}] (some 0) (.string "a\"b") []).1 (some 0) [] =
        .ok (.string "a\"b") ∧
      Nested.ToJSONString sampleReflect 1
        (Nested.SetValue [{}] (some 0) (.string "a\"b") []).1 (some 0) = some (.ok "a\\\"b") ∧
      "a\\\"b" ≠ "a\"b" :=
  ⟨rfl, by decide, by decide⟩

/-- The comparison of texts is total. -/
theorem charsLe_total : ∀ (a b : List Char), charsLe a b = true ∨ charsLe b a = true
  | [], _ => Or.inl (by simp [charsLe])
  | _ :: _, [] => Or.inr (by simp [charsLe])
  | a :: as, b :: bs => by
    rw [charsLe, charsLe]
    by_cases h1 : a.toNat < b.toNat
    · exact Or.inl (by rw [if_pos h1])
    · by_cases h2 : b.toNat < a.toNat
      · exact Or.inr (by rw [if_pos h2])
      · rw [if_neg h1, if_neg h2, if_neg h2, if_neg h1]
        exact charsLe_total as bs

/-- The comparison of texts is transitive. -/
theorem charsLe_trans : ∀ (a b c : List Char), charsLe a b = true → charsLe b c = true →
    charsLe a c = true
  | [], _, _, _, _ => by simp [charsLe]
  | _ :: _, [], _, h1, _ => by simp [charsLe] at h1
  | _ :: _, _ :: _, [], _, h2 => by simp [charsLe] at h2
  | a :: as, b :: bs, c :: cs, h1, h2 => by
    rw [charsLe] at h1 h2 ⊢
    by_cases hab : a.toNat < b.toNat
    · by_cases hbc : b.toNat < c.toNat
      · rw [if_pos (by omega)]
      · by_cases hcb : c.toNat < b.toNat
        · rw [if_neg hbc, if_pos hcb] at h2
          exact absurd h2 (by decide)
        · rw [if_pos (by omega)]
    · by_cases hba : b.toNat < a.toNat
      · rw [if_neg hab, if_pos hba] at h1
        exact absurd h1 (by decide)
      · rw [if_neg hab, if_neg hba] at h1
        by_cases hbc : b.toNat < c.toNat
        · rw [if_pos (by omega)]
        · by_cases hcb : c.toNat < b.toNat
          · rw [if_neg hbc, if_pos hcb] at h2
            exact absurd h2 (by decide)
          · rw [if_neg hbc, if_neg hcb] at h2
            rw [if_neg (by omega), if_neg (by omega)]
            exact charsLe_trans as bs cs h1 h2

/-- Two texts each below the other are the same text. -/
theorem charsLe_antisymm : ∀ (a b : List Char), charsLe a b = true → charsLe b a = true →
    a = b
  | [], [], _, _ => rfl
  | [], _ :: _, _, h2 => by simp [charsLe] at h2
  | _ :: _, [], h1, _ => by simp [charsLe] at h1
  | a :: as, b :: bs, h1, h2 => by
    rw [charsLe] at h1 h2
    by_cases hab : a.toNat < b.toNat
    · rw [if_neg (by omega), if_pos hab] at h2
      exact absurd h2 (by decide)
    · by_cases hba : b.toNat < a.toNat
      · rw [if_neg hab, if_pos hba] at h1
        exact absurd h1 (by decide)
      · rw [if_neg hab, if_neg hba] at h1
        rw [if_neg hba, if_neg hab] at h2
        have hc : a = b := by
          rw [← Char.ofNat_toNat a, ← Char.ofNat_toNat b, show a.toNat = b.toNat by omega]
        rw [hc, charsLe_antisymm as bs h1 h2]

/-- The keys come out of `sortKeys` in ascending order. -/
theorem sortKeys_sorted (ks : List String) :
    List.Sorted (fun a b => keyLe a b = true) (sortKeys ks) :=
  @List.sorted_insertionSort String (fun a b => keyLe a b = true) _
    ⟨fun a b => charsLe_total a.data b.data⟩
    ⟨fun a b c => charsLe_trans a.data b.data c.data⟩ ks

/-- The keys that come out of `sortKeys` are the keys that went in. -/
theorem sortKeys_perm (ks : List String) : (sortKeys ks).Perm ks :=
  List.perm_insertionSort _ ks

/-- The order of the keys that come out of `sortKeys` does not depend on the order of
the keys that went in. -/
theorem sortKeys_of_perm {ks ks2 : List String} (hp : ks.Perm ks2) :
    sortKeys ks = sortKeys ks2 :=
  @List.eq_of_perm_of_sorted String (fun a b => keyLe a b = true)
    ⟨fun a b h1 h2 => String.ext (charsLe_antisymm a.data b.data h1 h2)⟩ _ _
    (((sortKeys_perm ks).trans hp).trans (sortKeys_perm ks2).symm)
    (sortKeys_sorted ks) (sortKeys_sorted ks2)

/-- The texts of the elements of a slice each of which has a text. -/
theorem jsonEncodeElems_ok (rt : GoReflect) : ∀ (vs : List GoAny) (ts : List String),
    List.Forall₂ (fun v t => jsonEncode rt v = some t) vs ts →
    jsonEncodeElems rt vs = some ts
  | [], ts, hv => by
    cases hv
    rw [jsonEncodeElems]
  | v :: vs, ts, hv => by
    cases hv with
    | cons h1 hrest =>
      rw [jsonEncodeElems, h1]
      simp only
      rw [jsonEncodeElems_ok rt vs _ hrest]
      rfl

/-- The texts of the values of a map each of which has a text. -/
theorem jsonEncodeEntries_ok (rt : GoReflect) :
    ∀ (ks : List String) (vs : List GoAny) (ts : List String),
      List.Forall₂ (fun v t => jsonEncode rt v = some t) vs ts →
      jsonEncodeEntries rt (ks.zip vs) = some (ks.zip ts)
  | [], vs, ts, _ => by
    simp only [List.zip_nil_left]
    rw [jsonEncodeEntries]
  | k :: ks, vs, ts, hv => by
    cases hv with
    | nil =>
      simp only [List.zip_nil_right]
      rw [jsonEncodeEntries]
    | cons h1 hrest =>
      simp only [List.zip_cons_cons]
      rw [jsonEncodeEntries, h1]
      simp only
      rw [jsonEncodeEntries_ok rt ks _ _ hrest]
      rfl

/-- The text found under a key of a list of encoded entries with distinct keys. -/
theorem textLookup_of_mem {m : List (String × String)} {k t : String}
    (hnd : (m.map Prod.fst).Nodup) (hm : (k, t) ∈ m) : textLookup m k = t := by
  induction m with
  | nil => simp at hm
  | cons e m ih =>
    obtain ⟨k2, t2⟩ := e
    simp only [List.map_cons, List.nodup_cons] at hnd
    rcases List.mem_cons.mp hm with heq | hmem
    · simp only [Prod.mk.injEq] at heq
      simp [textLookup, heq.1, heq.2]
    · have hne : k2 ≠ k := by
        rintro rfl
        exact hnd.1 (List.mem_map_of_mem Prod.fst hmem)
      simp only [textLookup, if_neg hne]
      exact ih hnd.2 hmem

/-- The node behind the pointer has an object, and the object has the JSON text. -/
theorem jsonOf_eq_some {rt : GoReflect} {fuel : Nat} {h : Heap} {p : Ptr} {t : String}
    (hp : jsonOf rt fuel h p = some t) :
    ∃ v, Nested.ToObject fuel h p = some (.ok v) ∧ jsonEncode rt v = some t := by
  unfold jsonOf at hp
  cases hr : Nested.ToObject fuel h p with
  | none => simp [hr] at hp
  | some r =>
    cases r with
    | ok v => exact ⟨v, rfl, by simpa [hr] using hp⟩
    | error e => simp [hr] at hp
    | panic => simp [hr] at hp

/-- Objects with texts, split into the objects and the texts. -/
theorem forall2_split {α : Type} (P : α → GoAny → Prop) (enc : GoAny → Option String)
    (text : α → String) :
    ∀ (m : List α) (vs : List GoAny),
      List.Forall₂ (fun x v => P x v ∧ enc v = some (text x)) m vs →
      List.Forall₂ P m vs ∧ List.Forall₂ (fun v t => enc v = some t) vs (m.map text)
  | [], vs, hm => by
    cases hm
    exact ⟨List.Forall₂.nil, List.Forall₂.nil⟩
  | x :: m, vs, hm => by
    cases hm with
    | cons h1 hrest =>
      obtain ⟨h2, h3⟩ := forall2_split P enc text m _ hrest
      exact ⟨List.Forall₂.cons h1.1 h2, List.Forall₂.cons h1.2 h3⟩

/-- The JSON text of a map-shaped node with distinct keys whose entries have JSON
texts. -/
theorem ToJSONString_map {rt : GoReflect} {fuel : Nat} {h : Heap} {a : Nat} {n : Nested}
    (text : String → String) (ha : h[a]? = some n) (hnest : n.IsNested = true)
    (hnd : (n.entries.map Prod.fst).Nodup)
    (htext : ∀ k c, (k, c) ∈ n.entries → jsonOf rt fuel h c = some (text k)) :
    Nested.ToJSONString rt (fuel + 1) h (some a) =
      some (.ok ("\x7b" ++ String.intercalate ","
        ((sortKeys (n.entries.map Prod.fst)).map (fun k => jsonString k ++ ":" ++ text k))
        ++ "\x7d")) := by
  obtain ⟨vs, hvs⟩ := forall2_of_forall_exists
    (fun (kc : String × Ptr) v => Nested.ToObject fuel h kc.2 = some (.ok v) ∧
      jsonEncode rt v = some (text kc.1)) n.entries
    (fun kc hkc => jsonOf_eq_some (htext kc.1 kc.2 hkc))
  obtain ⟨hobjs, htexts⟩ := forall2_split
    (fun (kc : String × Ptr) v => Nested.ToObject fuel h kc.2 = some (.ok v))
    (jsonEncode rt) (fun kc => text kc.1) n.entries vs hvs
  have hobj := ToObject_map fuel vs ha hnest hnd hobjs
  have hparts := jsonEncodeEntries_ok rt (n.entries.map Prod.fst) vs _ htexts
  have hzip : ∀ (m : GoMap), (m.map Prod.fst).zip (m.map (fun kc => text kc.1)) =
      (m.map Prod.fst).map (fun k => (k, text k)) := by
    intro m
    induction m with
    | nil => rfl
    | cons e m ih => simp only [List.map_cons, List.zip_cons_cons, ih]
  rw [hzip] at hparts
  rw [ToJSONString_of_object hobj]
  simp only [jsonEncode, hparts, Option.map_some']
  have hkeys : ((n.entries.map Prod.fst).map (fun k => (k, text k))).map Prod.fst =
      n.entries.map Prod.fst := by
    rw [List.map_map]
    exact List.map_id _
  rw [hkeys]
  have hlook : ∀ k ∈ sortKeys (n.entries.map Prod.fst),
      jsonString k ++ ":" ++
        textLookup ((n.entries.map Prod.fst).map (fun k => (k, text k))) k =
      jsonString k ++ ":" ++ text k := by
    intro k hk
    have hk2 : k ∈ n.entries.map Prod.fst := (sortKeys_perm _).subset hk
    have hl : textLookup ((n.entries.map Prod.fst).map (fun k => (k, text k))) k = text k :=
      textLookup_of_mem (hkeys.symm ▸ hnd) (List.mem_map.mpr ⟨k, hk2, rfl⟩)
    rw [hl]
  rw [List.map_congr_left hlook, trim_line_of_head]
  simp

/-- The JSON text of an array node whose elements have JSON texts. -/
theorem ToJSONString_array {rt : GoReflect} {fuel : Nat} {h : Heap} {a : Nat} {n : Nested}
    (ts : List String) (ha : h[a]? = some n) (hv : n.IsValue = false)
    (harr : n.IsArray = true)
    (hts : List.Forall₂ (fun x t => jsonOf rt fuel h x = some t) n.elems ts) :
    Nested.ToJSONString rt (fuel + 1) h (some a) =
      some (.ok ("[" ++ String.intercalate "," ts ++ "]")) := by
  have hex : ∀ (xs : List Ptr) (ts : List String),
      List.Forall₂ (fun x t => jsonOf rt fuel h x = some t) xs ts →
      ∃ vs, List.Forall₂ (fun x v => Nested.ToObject fuel h x = some (.ok v)) xs vs ∧
        List.Forall₂ (fun v t => jsonEncode rt v = some t) vs ts := by
    intro xs
    induction xs with
    | nil =>
      intro ts hts
      cases hts
      exact ⟨[], List.Forall₂.nil, List.Forall₂.nil⟩
    | cons x xs ih =>
      intro ts hts
      cases hts with
      | cons h1 hrest =>
        obtain ⟨v, hv1, hv2⟩ := jsonOf_eq_some h1
        obtain ⟨vs, hvs1, hvs2⟩ := ih _ hrest
        exact ⟨v :: vs, List.Forall₂.cons hv1 hvs1, List.Forall₂.cons hv2 hvs2⟩
  obtain ⟨vs, hobjs, htexts⟩ := hex n.elems ts hts
  rw [ToJSONString_of_object (ToObject_array fuel vs ha hv harr hobjs)]
  simp only [jsonEncode, jsonEncodeElems_ok rt vs ts htexts, Option.map_some']
  rw [trim_line_of_head]
  simp

/-- C31 (as the code behaves): for a map-shaped node whose entries have JSON texts,
`ToJSONString` returns `{`, the entries as the JSON string literal of the key, a colon
and the JSON text of the child, joined by commas in ascending order of the keys, and `}`;
the order of the keys in the output depends on the set of keys only, not on the order in
which they were stored; nothing else is written between the parts. For an array node it
returns `[`, the JSON texts of the elements in array order joined by commas, and `]`. An
empty node gives `{}` and an empty array `[]`. The string literal of a key without
characters that need escaping is the key in double quotes. -/
theorem ToJSONString_canonical (rt : GoReflect) (fuel : Nat) (h : Heap) (a : Nat) (n : Nested)
    (ha : h[a]? = some n) (hv : n.IsValue = false) :
    (n.IsArray = false → (n.entries.map Prod.fst).Nodup →
      ∀ text : String → String,
        (∀ k c, (k, c) ∈ n.entries → jsonOf rt fuel h c = some (text k)) →
        Nested.ToJSONString rt (fuel + 1) h (some a) =
          some (.ok ("\x7b" ++ String.intercalate ","
            ((sortKeys (n.entries.map Prod.fst)).map
              (fun k => jsonString k ++ ":" ++ text k)) ++ "\x7d"))) ∧
    (n.IsArray = true → ∀ ts : List String,
      List.Forall₂ (fun x t => jsonOf rt fuel h x = some t) n.elems ts →
      Nested.ToJSONString rt (fuel + 1) h (some a) =
        some (.ok ("[" ++ String.intercalate "," ts ++ "]"))) ∧
    (n.IsArray = false → n.entries = [] →
      Nested.ToJSONString rt (fuel + 1) h (some a) = some (.ok "\x7b\x7d")) ∧
    (n.IsArray = true → n.elems = [] →
      Nested.ToJSONString rt (fuel + 1) h (some a) = some (.ok "[]")) ∧
    (∀ ks : List String, List.Sorted (fun k1 k2 => keyLe k1 k2 = true) (sortKeys ks) ∧
      (sortKeys ks).Perm ks ∧ ∀ ks2, ks.Perm ks2 → sortKeys ks2 = sortKeys ks) ∧
    (∀ k : String,
      (∀ c ∈ k.data,
        c.toNat ≠ 34 ∧ c.toNat ≠ 92 ∧ 32 ≤ c.toNat ∧ c.toNat ≠ 8232 ∧ c.toNat ≠ 8233) →
      jsonString k = "\"" ++ k ++ "\"") := by
  have hnest : n.IsArray = false → n.IsNested = true := by
    intro harr
    simp only [Nested.IsNested, Nested.IsArray, Nested.IsValue] at harr hv ⊢
    simp [harr, hv]
  refine ⟨?_, ?_, ?_, ?_, ?_, ?_⟩
  · intro harr hnd text htext
    exact ToJSONString_map text ha (hnest harr) hnd htext
  · intro harr ts hts
    exact ToJSONString_array ts ha hv harr hts
  · intro harr hempty
    have := @ToJSONString_map rt fuel h a n (fun _ => "") ha (hnest harr)
      (by rw [hempty]; exact List.nodup_nil) (by rw [hempty]; intro k c hkc; cases hkc)
    rw [this, hempty]
    rfl
  · intro harr hempty
    have := @ToJSONString_array rt fuel h a n [] ha hv harr
      (by rw [hempty]; exact List.Forall₂.nil)
    rw [this]
    rfl
  · intro ks
    exact ⟨sortKeys_sorted ks, sortKeys_perm ks, fun ks2 hp => (sortKeys_of_perm hp).symm⟩
  · intro k hk
    unfold jsonString
    rw [(jsonEscape_eq_self_iff k).mpr hk]

/-- C31, witness: the map `b: 1, a: 2` gives the text with `a` before `b`, whichever
key was set first. -/
theorem ToJSONString_canonical_witness :
    Nested.ToJSONString sampleReflect 2 keysBAHeap (some 0) =
        some (.ok "\x7b\"a\":2,\"b\":1\x7d") ∧
      Nested.ToJSONString sampleReflect 2 keysABHeap (some 0) =
        some (.ok "\x7b\"a\":2,\"b\":1\x7d") :=
  ⟨((ToJSONString_canonical sampleReflect 1 keysBAHeap 0
      { nested := some [("b", some 1), ("a", some 2)] } rfl rfl).1 rfl (by decide)
      (fun k => if k = "a" then "2" else "1")
      (by
        intro k c hkc
        simp only [Nested.entries, Option.getD_some, List.mem_cons, Prod.mk.injEq,
          List.mem_nil_iff, or_false] at hkc
        rcases hkc with ⟨rfl, rfl⟩ | ⟨rfl, rfl⟩ <;> rfl)).trans (by decide),
    ((ToJSONString_canonical sampleReflect 1 keysABHeap 0
      { nested := some [("a", some 1), ("b", some 2)] } rfl rfl).1 rfl (by decide)
      (fun k => if k = "a" then "2" else "1")
      (by
        intro k c hkc
        simp only [Nested.entries, Option.getD_some, List.mem_cons, Prod.mk.injEq,
          List.mem_nil_iff, or_false] at hkc
        rcases hkc with ⟨rfl, rfl⟩ | ⟨rfl, rfl⟩ <;> rfl)).trans (by decide)⟩

/-- C31 as stated fails: the node made map-shaped by `SetValue` of a function value under
the key `a` has one entry, the encoder returns an error for the function, and
`ToJSONString` returns the empty text, not a text in braces. -/
theorem ToJSONString_unsupported_leaf :
    (∃ n, (Nested.SetValue [{}] (some 0) (.other "func()" 0) ["a"]).1[0]? = some n ∧
        n.IsNested = true ∧ n.Length = 1) ∧
      Nested.ToJSONString sampleReflect 2
        (Nested.SetValue [{}] (some 0) (.other "func()" 0) ["a"]).1 (some 0) = some (.ok "") :=
  ⟨⟨_, rfl, rfl, rfl⟩, by decide⟩

/-- Values of different dynamic types are not deeply equal. -/
theorem deepEqual_of_typeName_ne (lib : GoLib) (rt : GoReflect) (x y : GoAny)
    (hty : x.typeName ≠ y.typeName) : deepEqual lib rt x y = false := by
  cases x <;> cases y <;> first
    | (rw [deepEqual]; done)
    | exact absurd rfl hty
    | (rw [deepEqual]
       simp only [GoAny.typeName] at hty
       simp [hty])

/-- What `Equals` returns when it returns: the comparison of the two objects. -/
theorem Equals_eq_ok_iff {lib : GoLib} {rt : GoReflect} {fuel : Nat} {h : Heap} {a b : Ptr}
    {r : Bool} :
    Equals lib rt fuel h a b = some (.ok r) ↔
      ∃ v w, Nested.ToObject fuel h a = some (.ok v) ∧ Nested.ToObject fuel h b = some (.ok w) ∧
        r = deepEqual lib rt v w := by
  unfold Equals
  constructor
  · intro hr
    cases ha : Nested.ToObject fuel h a with
    | none => simp [ha] at hr
    | some ra =>
      cases ra with
      | error e => simp [ha] at hr
      | panic => simp [ha] at hr
      | ok v =>
        cases hb : Nested.ToObject fuel h b with
        | none => simp [ha, hb] at hr
        | some rb =>
          cases rb with
          | error e => simp [ha, hb] at hr
          | panic => simp [ha, hb] at hr
          | ok w =>
            simp only [ha, hb, Option.some.injEq, Result.ok.injEq] at hr
            exact ⟨v, w, rfl, rfl, hr.symm⟩
  · rintro ⟨v, w, ha, hb, rfl⟩
    simp [ha, hb]

/-- C34: two scalar nodes whose values have different types are not `Equals`, whatever
the values are, so the integer 5 is not `Equals` to the unsigned 5 or the
floating-point 5. -/
theorem Equals_type_sensitive (lib : GoLib) (rt : GoReflect) (fuel : Nat) (h : Heap)
    (a b : Nat) (na nb : Nested) (ha : h[a]? = some na) (hb : h[b]? = some nb)
    (hva : na.IsValue = true) (hvb : nb.IsValue = true)
    (hty : na.value.typeName ≠ nb.value.typeName) :
    Equals lib rt (fuel + 1) h (some a) (some b) = some (.ok false) := by
  rw [Equals_eq_ok_iff]
  exact ⟨na.value, nb.value, ToObject_value fuel ha hva, ToObject_value fuel hb hvb,
    (deepEqual_of_typeName_ne lib rt _ _ hty).symm⟩

/-- C34, witness: `int` 5 against `uint64` 5, the example of the documentation, and each of
them against `float64` 5. -/
theorem Equals_type_sensitive_witness :
    Equals sampleLib sampleReflect 1 fivesHeap (some 0) (some 1) = some (.ok false) ∧
      Equals sampleLib sampleReflect 1 fivesHeap (some 0) (some 2) = some (.ok false) ∧
      Equals sampleLib sampleReflect 1 fivesHeap (some 1) (some 2) = some (.ok false) :=
  ⟨Equals_type_sensitive sampleLib sampleReflect 0 fivesHeap 0 1
      { isValue := true, value := .int 5 } { isValue := true, value := .uint64 5 } rfl rfl rfl rfl
      (by decide),
    Equals_type_sensitive sampleLib sampleReflect 0 fivesHeap 0 2
      { isValue := true, value := .int 5 }
      { isValue := true, value := .float64 0x4014000000000000 } rfl rfl rfl rfl (by decide),
    Equals_type_sensitive sampleLib sampleReflect 0 fivesHeap 1 2
      { isValue := true, value := .uint64 5 }
      { isValue := true, value := .float64 0x4014000000000000 } rfl rfl rfl rfl (by decide)⟩

/-- Related lists are related index by index. -/
theorem forall2_getElem {α β : Type} {R : α → β → Prop} :
    ∀ {xs : List α} {vs : List β}, List.Forall₂ R xs vs →
      (∀ (i : Nat) x, xs[i]? = some x → ∃ v, vs[i]? = some v ∧ R x v) ∧
      (∀ (i : Nat) v, vs[i]? = some v → ∃ x, xs[i]? = some x ∧ R x v)
  | [], _, hr => by
    cases hr
    exact ⟨fun i x hx => by simp at hx, fun i v hv => by simp at hv⟩
  | x :: xs, _, hr => by
    cases hr with
    | @cons _ v _ vs h1 hrest =>
      obtain ⟨ih1, ih2⟩ := forall2_getElem hrest
      constructor
      · intro i y hy
        cases i with
        | zero =>
          simp only [List.getElem?_cons_zero, Option.some.injEq] at hy
          subst hy
          exact ⟨v, by simp, h1⟩
        | succ i =>
          simp only [List.getElem?_cons_succ] at hy ⊢
          exact ih1 i y hy
      · intro i w hw
        cases i with
        | zero =>
          simp only [List.getElem?_cons_zero, Option.some.injEq] at hw
          subst hw
          exact ⟨x, by simp, h1⟩
        | succ i =>
          simp only [List.getElem?_cons_succ] at hw ⊢
          exact ih2 i w hw

/-- The loop of `DeepEqual` over two slices of the same length succeeds exactly when the
elements are deeply equal index by index. -/
theorem deepEqualElems_iff (lib : GoLib) (rt : GoReflect) :
    ∀ (xs ys : List GoAny), xs.length = ys.length →
      (deepEqualElems lib rt xs ys = true ↔
        ∀ (i : Nat) x y, xs[i]? = some x → ys[i]? = some y → deepEqual lib rt x y = true)
  | [], ys, _ => by
    rw [deepEqualElems]
    simp
  | x :: xs, [], hlen => by simp at hlen
  | x :: xs, y :: ys, hlen => by
    rw [deepEqualElems]
    simp only [Bool.and_eq_true]
    rw [deepEqualElems_iff lib rt xs ys (by simpa using hlen)]
    constructor
    · rintro ⟨h1, h2⟩ i x2 y2 hx hy
      cases i with
      | zero =>
        simp only [List.getElem?_cons_zero, Option.some.injEq] at hx hy
        subst hx hy
        exact h1
      | succ i =>
        simp only [List.getElem?_cons_succ] at hx hy
        exact h2 i x2 y2 hx hy
    · intro hall
      exact ⟨hall 0 x y (by simp) (by simp),
        fun i x2 y2 hx hy => hall (i + 1) x2 y2 (by simpa using hx) (by simpa using hy)⟩

/-- The loop of `DeepEqual` over the keys of the first map succeeds exactly when every
entry of the first map has a deeply equal value under its key in the second. -/
theorem deepEqualEntries_iff (lib : GoLib) (rt : GoReflect) :
    ∀ (m1 m2 : List (String × GoAny)),
      (deepEqualEntries lib rt m1 m2 = true ↔
        ∀ k v, (k, v) ∈ m1 → ∃ w, anyLookup m2 k = some w ∧ deepEqual lib rt v w = true)
  | [], m2 => by
    rw [deepEqualEntries]
    simp
  | (k, v) :: rest, m2 => by
    rw [deepEqualEntries]
    simp only [Bool.and_eq_true]
    rw [deepEqualEntries_iff lib rt rest m2]
    constructor
    · rintro ⟨h1, h2⟩ k2 v2 hmem
      rcases List.mem_cons.mp hmem with heq | hmem
      · simp only [Prod.mk.injEq] at heq
        obtain ⟨rfl, rfl⟩ := heq
        cases hl : anyLookup m2 k2 with
        | none => simp [hl] at h1
        | some w => exact ⟨w, rfl, by simpa [hl] using h1⟩
      · exact h2 k2 v2 hmem
    · intro hall
      refine ⟨?_, fun k2 v2 hmem => hall k2 v2 (List.mem_cons_of_mem _ hmem)⟩
      obtain ⟨w, hw, hd⟩ := hall k v (List.mem_cons_self _ _)
      simp [hw, hd]

/-- The object of a map holds under each key the object of the entry the map holds under
that key. -/
theorem anyLookup_zip {R : Ptr → GoAny → Prop} :
    ∀ {m : GoMap} {vs : List GoAny}, List.Forall₂ (fun kc v => R kc.2 v) m vs →
      ∀ k, (mapLookup m k = none ∧ anyLookup ((m.map Prod.fst).zip vs) k = none) ∨
        ∃ c w, mapLookup m k = some c ∧ anyLookup ((m.map Prod.fst).zip vs) k = some w ∧ R c w
  | [], _, hr, k => by
    cases hr
    exact Or.inl ⟨rfl, rfl⟩
  | (k2, c2) :: m, _, hr, k => by
    cases hr with
    | @cons _ v _ vs h1 hrest =>
      simp only [List.map_cons, List.zip_cons_cons, mapLookup, anyLookup]
      by_cases hk : k2 = k
      · simp only [if_pos hk]
        exact Or.inr ⟨c2, v, rfl, rfl, h1⟩
      · simp only [if_neg hk]
        exact anyLookup_zip hrest k

/-- A key has a value in a map exactly when it is one of its keys. -/
theorem mapLookup_isSome_iff (m : GoMap) (k : String) :
    (∃ c, mapLookup m k = some c) ↔ k ∈ m.map Prod.fst := by
  constructor
  · rintro ⟨c, hc⟩
    by_contra hk
    rw [mapLookup_none_of_not_mem_keys hk] at hc
    cases hc
  · intro hk
    have := mapLookup_isSome_of_mem_keys hk
    cases hl : mapLookup m k with
    | none => simp [hl] at this
    | some c => exact ⟨c, rfl⟩

/-- An entry found in a `map[string]any` is one of its entries. -/
theorem anyLookup_mem {m : List (String × GoAny)} {k : String} {v : GoAny}
    (hk : anyLookup m k = some v) : (k, v) ∈ m := by
  induction m with
  | nil => simp [anyLookup] at hk
  | cons e m ih =>
    obtain ⟨k2, v2⟩ := e
    simp only [anyLookup] at hk
    by_cases hk2 : k2 = k
    · simp only [if_pos hk2, Option.some.injEq] at hk
      subst hk2 hk
      exact List.mem_cons_self _ _
    · simp only [if_neg hk2] at hk
      exact List.mem_cons_of_mem _ (ih hk)

/-- An entry of a `map[string]any` with distinct keys is found under its key. -/
theorem anyLookup_of_mem_nodup {m : List (String × GoAny)} {k : String} {v : GoAny}
    (hnd : (m.map Prod.fst).Nodup) (hm : (k, v) ∈ m) : anyLookup m k = some v := by
  induction m with
  | nil => simp at hm
  | cons e m ih =>
    obtain ⟨k2, v2⟩ := e
    simp only [List.map_cons, List.nodup_cons] at hnd
    rcases List.mem_cons.mp hm with heq | hmem
    · simp only [Prod.mk.injEq] at heq
      simp [anyLookup, heq.1, heq.2]
    · have hne : k2 ≠ k := by
        rintro rfl
        exact hnd.1 (List.mem_map_of_mem Prod.fst hmem)
      simp only [anyLookup, if_neg hne]
      exact ih hnd.2 hmem

/-- Two lists without repetition of the same length, the first contained in the second,
have the same members. -/
theorem mem_iff_of_nodup_subset {l1 l2 : List String} (h1 : l1.Nodup)
    (hsub : ∀ k ∈ l1, k ∈ l2) (hlen : l1.length = l2.length) (k : String) :
    k ∈ l1 ↔ k ∈ l2 :=
  ((List.subperm_of_subset h1 hsub).perm_of_length_le (by omega)).mem_iff

/-- Two lists without repetition with the same members have the same length. -/
theorem length_eq_of_nodup_mem_iff {l1 l2 : List String} (h1 : l1.Nodup) (h2 : l2.Nodup)
    (hmem : ∀ k, k ∈ l1 ↔ k ∈ l2) : l1.length = l2.length :=
  ((List.perm_ext_iff_of_nodup h1 h2).mpr hmem).length_eq

/-- `Equals` on two array nodes whose elements have objects. -/
theorem Equals_arrays {lib : GoLib} {rt : GoReflect} {fuel : Nat} {h : Heap} {a b : Nat}
    {na nb : Nested} (ha : h[a]? = some na) (hb : h[b]? = some nb)
    (hva : na.IsValue = false) (hvb : nb.IsValue = false)
    (haa : na.IsArray = true) (hab : nb.IsArray = true)
    (hea : ∀ x ∈ na.elems, ∃ v, Nested.ToObject fuel h x = some (.ok v))
    (heb : ∀ y ∈ nb.elems, ∃ w, Nested.ToObject fuel h y = some (.ok w)) :
    (∃ r, Equals lib rt (fuel + 1) h (some a) (some b) = some (.ok r)) ∧
    (Equals lib rt (fuel + 1) h (some a) (some b) = some (.ok true) ↔
      na.elems.length = nb.elems.length ∧
      ∀ (i : Nat) x y, na.elems[i]? = some x → nb.elems[i]? = some y →
        Equals lib rt fuel h x y = some (.ok true)) := by
  obtain ⟨va, hfa⟩ := forall2_of_forall_exists _ na.elems hea
  obtain ⟨vb, hfb⟩ := forall2_of_forall_exists _ nb.elems heb
  have hoa := ToObject_array fuel va ha hva haa hfa
  have hob := ToObject_array fuel vb hb hvb hab hfb
  have hla := hfa.length_eq
  have hlb := hfb.length_eq
  obtain ⟨ga1, ga2⟩ := forall2_getElem hfa
  obtain ⟨gb1, gb2⟩ := forall2_getElem hfb
  refine ⟨⟨_, Equals_eq_ok_iff.mpr ⟨_, _, hoa, hob, rfl⟩⟩, ?_⟩
  rw [Equals_eq_ok_iff]
  constructor
  · rintro ⟨v, w, hv, hw, hd⟩
    rw [hoa] at hv
    rw [hob] at hw
    simp only [Option.some.injEq, Result.ok.injEq] at hv hw
    subst hv hw
    rw [deepEqual] at hd
    simp only [Bool.true_eq, Bool.and_eq_true, beq_iff_eq] at hd
    refine ⟨by omega, ?_⟩
    intro i x y hx hy
    obtain ⟨v, hv1, hv2⟩ := ga1 i x hx
    obtain ⟨w, hw1, hw2⟩ := gb1 i y hy
    exact Equals_eq_ok_iff.mpr ⟨v, w, hv2, hw2,
      ((deepEqualElems_iff lib rt va vb hd.1).mp hd.2 i v w hv1 hw1).symm⟩
  · rintro ⟨hlen, hall⟩
    refine ⟨_, _, hoa, hob, ?_⟩
    have hlen2 : va.length = vb.length := by omega
    rw [deepEqual]
    simp only [Bool.true_eq, Bool.and_eq_true, beq_iff_eq]
    refine ⟨hlen2, (deepEqualElems_iff lib rt va vb hlen2).mpr ?_⟩
    intro i v w hv hw
    obtain ⟨x, hx1, hx2⟩ := ga2 i v hv
    obtain ⟨y, hy1, hy2⟩ := gb2 i w hw
    obtain ⟨v2, w2, hv2, hw2, hd⟩ := Equals_eq_ok_iff.mp (hall i x y hx1 hy1)
    rw [hx2] at hv2
    rw [hy2] at hw2
    simp only [Option.some.injEq, Result.ok.injEq] at hv2 hw2
    subst hv2 hw2
    exact hd.symm

/-- `Equals` on two map-shaped nodes with distinct keys whose entries have objects. -/
theorem Equals_maps {lib : GoLib} {rt : GoReflect} {fuel : Nat} {h : Heap} {a b : Nat}
    {na nb : Nested} (ha : h[a]? = some na) (hb : h[b]? = some nb)
    (hna : na.IsNested = true) (hnb : nb.IsNested = true)
    (hda : (na.entries.map Prod.fst).Nodup) (hdb : (nb.entries.map Prod.fst).Nodup)
    (hea : ∀ kc ∈ na.entries, ∃ v, Nested.ToObject fuel h kc.2 = some (.ok v))
    (heb : ∀ kc ∈ nb.entries, ∃ w, Nested.ToObject fuel h kc.2 = some (.ok w)) :
    (∃ r, Equals lib rt (fuel + 1) h (some a) (some b) = some (.ok r)) ∧
    (Equals lib rt (fuel + 1) h (some a) (some b) = some (.ok true) ↔
      (∀ k, k ∈ na.entries.map Prod.fst ↔ k ∈ nb.entries.map Prod.fst) ∧
      ∀ k x y, mapLookup na.entries k = some x → mapLookup nb.entries k = some y →
        Equals lib rt fuel h x y = some (.ok true)) := by
  obtain ⟨va, hfa⟩ := forall2_of_forall_exists
    (fun (kc : String × Ptr) v => Nested.ToObject fuel h kc.2 = some (.ok v)) na.entries hea
  obtain ⟨vb, hfb⟩ := forall2_of_forall_exists
    (fun (kc : String × Ptr) v => Nested.ToObject fuel h kc.2 = some (.ok v)) nb.entries heb
  have hoa := ToObject_map fuel va ha hna hda hfa
  have hob := ToObject_map fuel vb hb hnb hdb hfb
  have hla := hfa.length_eq
  have hlb := hfb.length_eq
  have hza : (((na.entries.map Prod.fst).zip va).map Prod.fst) = na.entries.map Prod.fst :=
    List.map_fst_zip _ _ (by simp [hla])
  have hzb : (((nb.entries.map Prod.fst).zip vb).map Prod.fst) = nb.entries.map Prod.fst :=
    List.map_fst_zip _ _ (by simp [hlb])
  have hlza : ((na.entries.map Prod.fst).zip va).length = na.entries.length := by
    simp [hla]
  have hlzb : ((nb.entries.map Prod.fst).zip vb).length = nb.entries.length := by
    simp [hlb]
  have ca := anyLookup_zip (R := fun c v => Nested.ToObject fuel h c = some (.ok v)) hfa
  have cb := anyLookup_zip (R := fun c v => Nested.ToObject fuel h c = some (.ok v)) hfb
  refine ⟨⟨_, Equals_eq_ok_iff.mpr ⟨_, _, hoa, hob, rfl⟩⟩, ?_⟩
  rw [Equals_eq_ok_iff]
  constructor
  · rintro ⟨v, w, hv, hw, hd⟩
    rw [hoa] at hv
    rw [hob] at hw
    simp only [Option.some.injEq, Result.ok.injEq] at hv hw
    subst hv hw
    rw [deepEqual] at hd
    simp only [Bool.true_eq, Bool.and_eq_true, beq_iff_eq] at hd
    obtain ⟨hlen, hent⟩ := hd
    rw [deepEqualEntries_iff] at hent
    have hsub : ∀ k ∈ na.entries.map Prod.fst, k ∈ nb.entries.map Prod.fst := by
      intro k hk
      obtain ⟨c, hc⟩ := (mapLookup_isSome_iff na.entries k).mpr hk
      rcases ca k with ⟨hnone, _⟩ | ⟨c2, v, _, hv, _⟩
      · rw [hnone] at hc; cases hc
      · obtain ⟨w, hw, _⟩ := hent k v (anyLookup_mem hv)
        have := List.mem_map_of_mem Prod.fst (anyLookup_mem hw)
        rw [hzb] at this
        exact this
    refine ⟨mem_iff_of_nodup_subset hda hsub (by simp only [List.length_map]; omega), ?_⟩
    intro k x y hx hy
    rcases ca k with ⟨hnone, _⟩ | ⟨c2, v, hc2, hv, hrv⟩
    · rw [hnone] at hx; cases hx
    · rw [hx] at hc2
      simp only [Option.some.injEq] at hc2
      subst hc2
      obtain ⟨w, hw, hdw⟩ := hent k v (anyLookup_mem hv)
      rcases cb k with ⟨hnone, _⟩ | ⟨c3, w2, hc3, hw2, hrw⟩
      · rw [hnone] at hy; cases hy
      · rw [hy] at hc3
        simp only [Option.some.injEq] at hc3
        subst hc3
        rw [hw] at hw2
        simp only [Option.some.injEq] at hw2
        subst hw2
        exact Equals_eq_ok_iff.mpr ⟨v, w, hrv, hrw, hdw.symm⟩
  · rintro ⟨hkeys, hall⟩
    refine ⟨_, _, hoa, hob, ?_⟩
    rw [deepEqual]
    simp only [Bool.true_eq, Bool.and_eq_true, beq_iff_eq]
    have hlen := length_eq_of_nodup_mem_iff hda hdb hkeys
    simp only [List.length_map] at hlen
    refine ⟨by omega, (deepEqualEntries_iff lib rt _ _).mpr ?_⟩
    intro k v hmem
    have hk : k ∈ na.entries.map Prod.fst := by
      have := List.mem_map_of_mem Prod.fst hmem
      rw [hza] at this
      exact this
    have hlv := anyLookup_of_mem_nodup (hza.symm ▸ hda) hmem
    rcases ca k with ⟨_, hnone⟩ | ⟨x, v2, hx, hv2, hrv⟩
    · rw [hnone] at hlv; cases hlv
    · rw [hlv] at hv2
      simp only [Option.some.injEq] at hv2
      subst hv2
      obtain ⟨y, hy⟩ := (mapLookup_isSome_iff nb.entries k).mpr ((hkeys k).mp hk)
      rcases cb k with ⟨hnone, _⟩ | ⟨y2, w, hy2, hw, hrw⟩
      · rw [hnone] at hy; cases hy
      · rw [hy] at hy2
        simp only [Option.some.injEq] at hy2
        subst hy2
        obtain ⟨v3, w3, hv3, hw3, hd⟩ := Equals_eq_ok_iff.mp (hall k x y hx hy)
        rw [hrv] at hv3
        rw [hrw] at hw3
        simp only [Option.some.injEq, Result.ok.injEq] at hv3 hw3
        subst hv3 hw3
        exact ⟨_, hw, hd.symm⟩

/-- When the loop over the elements returns a slice, every element has an object. -/
theorem toObjectElems_inv (rec : Ptr → Option (Result GoAny)) :
    ∀ (xs : List Ptr) (acc r : List GoAny), toObjectElems rec acc xs = some (.ok r) →
      ∀ x ∈ xs, ∃ w, rec x = some (.ok w)
  | [], _, _, _ => by simp
  | x :: xs, acc, r, hr => by
    rw [toObjectElems] at hr
    cases hx : rec x with
    | none => simp [hx] at hr
    | some res =>
      cases res with
      | error e => simp [hx] at hr
      | panic => simp [hx] at hr
      | ok v =>
        simp only [hx] at hr
        intro y hy
        rcases List.mem_cons.mp hy with rfl | hy
        · exact ⟨v, hx⟩
        · exact toObjectElems_inv rec xs _ r hr y hy

/-- When the loop over the keys returns a map, the entry under every key has an
object. -/
theorem toObjectKeys_inv (rec : Ptr → Option (Result GoAny)) (m : GoMap) :
    ∀ (ks : List String) (acc r : List (String × GoAny)),
      toObjectKeys rec m acc ks = some (.ok r) →
      ∀ k ∈ ks, ∃ w, rec ((mapLookup m k).getD none) = some (.ok w)
  | [], _, _, _ => by simp
  | k :: ks, acc, r, hr => by
    rw [toObjectKeys] at hr
    cases hx : rec ((mapLookup m k).getD none) with
    | none => simp [hx] at hr
    | some res =>
      cases res with
      | error e => simp [hx] at hr
      | panic => simp [hx] at hr
      | ok v =>
        simp only [hx] at hr
        intro k2 hk2
        rcases List.mem_cons.mp hk2 with rfl | hk2
        · exact ⟨v, hx⟩
        · exact toObjectKeys_inv rec m ks _ r hr k2 hk2

/-- When `ToObject` returns an object for an array or for a map-shaped node with distinct
keys, every node it holds has an object within the smaller bound. -/
theorem ToObject_children_of_ok {fuel : Nat} {h : Heap} {a : Nat} {n : Nested} {v : GoAny}
    (hobj : Nested.ToObject (fuel + 1) h (some a) = some (.ok v)) (ha : h[a]? = some n)
    (hv : n.IsValue = false) (hnd : n.IsArray = false → (n.entries.map Prod.fst).Nodup) :
    ∀ c ∈ n.children, ∃ w, Nested.ToObject fuel h c = some (.ok w) := by
  rw [Nested.ToObject] at hobj
  unfold toObjectBody at hobj
  simp only [deref, ha, hv, Bool.false_eq_true, if_false] at hobj
  intro c hc
  by_cases harr : n.IsArray = true
  · simp only [harr, if_true] at hobj
    simp only [Nested.children, hv, harr, Bool.false_eq_true, if_false, if_true] at hc
    cases he : toObjectElems (Nested.ToObject fuel h) [] n.elems with
    | none => simp [he] at hobj
    | some res =>
      cases res with
      | error e => simp [he] at hobj
      | panic => simp [he] at hobj
      | ok r => exact toObjectElems_inv _ _ _ _ he c hc
  · simp only [harr, if_false] at hobj
    simp only [Nested.children, hv, harr, Bool.false_eq_true, if_false] at hc
    cases he : toObjectKeys (Nested.ToObject fuel h) n.entries [] (n.entries.map Prod.fst) with
    | none => simp [he] at hobj
    | some res =>
      cases res with
      | error e => simp [he] at hobj
      | panic => simp [he] at hobj
      | ok r =>
        obtain ⟨⟨k, c2⟩, hmem, hc2⟩ := List.mem_map.mp hc
        simp only at hc2
        subst hc2
        obtain ⟨w, hw⟩ := toObjectKeys_inv _ _ _ _ _ he k (List.mem_map_of_mem Prod.fst hmem)
        rw [mapLookup_of_mem_nodup (hnd (by simpa using harr)) hmem] at hw
        exact ⟨w, hw⟩

/-- When `Equals` returns a result on two arrays or on two map-shaped nodes with
distinct keys, every node they hold has an object within the smaller bound. -/
theorem Equals_children_of_ok {lib : GoLib} {rt : GoReflect} {fuel : Nat} {h : Heap} {a b : Nat}
    {na nb : Nested} {r : Bool} (heq : Equals lib rt (fuel + 1) h (some a) (some b) = some (.ok r))
    (ha : h[a]? = some na) (hb : h[b]? = some nb)
    (hva : na.IsValue = false) (hvb : nb.IsValue = false)
    (hda : na.IsArray = false → (na.entries.map Prod.fst).Nodup)
    (hdb : nb.IsArray = false → (nb.entries.map Prod.fst).Nodup) :
    (∀ c ∈ na.children, ∃ w, Nested.ToObject fuel h c = some (.ok w)) ∧
    (∀ c ∈ nb.children, ∃ w, Nested.ToObject fuel h c = some (.ok w)) := by
  obtain ⟨v, w, hv, hw, _⟩ := Equals_eq_ok_iff.mp heq
  exact ⟨ToObject_children_of_ok hv ha hva hda, ToObject_children_of_ok hw hb hvb hdb⟩

/-- C35: two array nodes are `Equals` exactly when they have the same length and the
elements at each index are `Equals`; two map-shaped nodes with distinct keys are `Equals`
exactly when they have the same keys and the children under each key are `Equals`,
which does not depend on the order of the entries. `Equals` returns a result for two
such nodes when every node they hold has an object. -/
theorem Equals_structural (lib : GoLib) (rt : GoReflect) (fuel : Nat) (h : Heap) (a b : Nat)
    (na nb : Nested) (ha : h[a]? = some na) (hb : h[b]? = some nb)
    (hva : na.IsValue = false) (hvb : nb.IsValue = false) :
    (na.IsArray = true → nb.IsArray = true →
      (Equals lib rt (fuel + 1) h (some a) (some b) = some (.ok true) ↔
        na.elems.length = nb.elems.length ∧
        ∀ (i : Nat) x y, na.elems[i]? = some x → nb.elems[i]? = some y →
          Equals lib rt fuel h x y = some (.ok true))) ∧
    (na.IsArray = false → nb.IsArray = false →
      (na.entries.map Prod.fst).Nodup → (nb.entries.map Prod.fst).Nodup →
      (Equals lib rt (fuel + 1) h (some a) (some b) = some (.ok true) ↔
        (∀ k, k ∈ na.entries.map Prod.fst ↔ k ∈ nb.entries.map Prod.fst) ∧
        ∀ k x y, mapLookup na.entries k = some x → mapLookup nb.entries k = some y →
          Equals lib rt fuel h x y = some (.ok true))) ∧
    ((na.IsArray = nb.IsArray) →
      (na.IsArray = false → (na.entries.map Prod.fst).Nodup ∧ (nb.entries.map Prod.fst).Nodup) →
      (∀ c ∈ na.children, ∃ v, Nested.ToObject fuel h c = some (.ok v)) →
      (∀ c ∈ nb.children, ∃ w, Nested.ToObject fuel h c = some (.ok w)) →
      ∃ r, Equals lib rt (fuel + 1) h (some a) (some b) = some (.ok r)) := by
  have harrays : ∀ (haa : na.IsArray = true) (hab : nb.IsArray = true)
      (hca : ∀ c ∈ na.children, ∃ v, Nested.ToObject fuel h c = some (.ok v))
      (hcb : ∀ c ∈ nb.children, ∃ w, Nested.ToObject fuel h c = some (.ok w)),
      (∃ r, Equals lib rt (fuel + 1) h (some a) (some b) = some (.ok r)) ∧
      (Equals lib rt (fuel + 1) h (some a) (some b) = some (.ok true) ↔
        na.elems.length = nb.elems.length ∧
        ∀ (i : Nat) x y, na.elems[i]? = some x → nb.elems[i]? = some y →
          Equals lib rt fuel h x y = some (.ok true)) := by
    intro haa hab hca hcb
    refine Equals_arrays ha hb hva hvb haa hab ?_ ?_
    · intro x hx
      exact hca x (by simp only [Nested.children, hva, haa]; exact hx)
    · intro y hy
      exact hcb y (by simp only [Nested.children, hvb, hab]; exact hy)
  have hmaps : ∀ (haa : na.IsArray = false) (hab : nb.IsArray = false)
      (hda : (na.entries.map Prod.fst).Nodup) (hdb : (nb.entries.map Prod.fst).Nodup)
      (hca : ∀ c ∈ na.children, ∃ v, Nested.ToObject fuel h c = some (.ok v))
      (hcb : ∀ c ∈ nb.children, ∃ w, Nested.ToObject fuel h c = some (.ok w)),
      (∃ r, Equals lib rt (fuel + 1) h (some a) (some b) = some (.ok r)) ∧
      (Equals lib rt (fuel + 1) h (some a) (some b) = some (.ok true) ↔
        (∀ k, k ∈ na.entries.map Prod.fst ↔ k ∈ nb.entries.map Prod.fst) ∧
        ∀ k x y, mapLookup na.entries k = some x → mapLookup nb.entries k = some y →
          Equals lib rt fuel h x y = some (.ok true)) := by
    intro haa hab hda hdb hca hcb
    have hna : na.IsNested = true := by
      simp only [Nested.IsNested, Nested.IsArray, Nested.IsValue] at haa hva ⊢
      simp [haa, hva]
    have hnb : nb.IsNested = true := by
      simp only [Nested.IsNested, Nested.IsArray, Nested.IsValue] at hab hvb ⊢
      simp [hab, hvb]
    refine Equals_maps ha hb hna hnb hda hdb ?_ ?_
    · intro kc hkc
      exact hca kc.2 (by
        simp only [Nested.children, hva, haa]
        exact List.mem_map_of_mem Prod.snd hkc)
    · intro kc hkc
      exact hcb kc.2 (by
        simp only [Nested.children, hvb, hab]
        exact List.mem_map_of_mem Prod.snd hkc)
  refine ⟨?_, ?_, ?_⟩
  · intro haa hab
    constructor
    · intro ht
      obtain ⟨hca, hcb⟩ := Equals_children_of_ok ht ha hb hva hvb
        (fun hf => by rw [haa] at hf; cases hf) (fun hf => by rw [hab] at hf; cases hf)
      exact (harrays haa hab hca hcb).2.mp ht
    · rintro ⟨hlen, hall⟩
      have hobj : ∀ (i : Nat) x y, na.elems[i]? = some x → nb.elems[i]? = some y →
          (∃ v, Nested.ToObject fuel h x = some (.ok v)) ∧
          (∃ w, Nested.ToObject fuel h y = some (.ok w)) := by
        intro i x y hx hy
        obtain ⟨v, w, hv, hw, _⟩ := Equals_eq_ok_iff.mp (hall i x y hx hy)
        exact ⟨⟨v, hv⟩, ⟨w, hw⟩⟩
      have hca : ∀ c ∈ na.children, ∃ v, Nested.ToObject fuel h c = some (.ok v) := by
        intro c hc
        simp only [Nested.children, hva, haa, Bool.false_eq_true, if_false, if_true] at hc
        obtain ⟨i, hi⟩ := List.mem_iff_getElem?.mp hc
        have hlt : i < nb.elems.length := by
          have := (List.getElem?_eq_some_iff.mp hi).1
          omega
        exact (hobj i c nb.elems[i] hi (List.getElem?_eq_getElem hlt)).1
      have hcb : ∀ c ∈ nb.children, ∃ w, Nested.ToObject fuel h c = some (.ok w) := by
        intro c hc
        simp only [Nested.children, hvb, hab, Bool.false_eq_true, if_false, if_true] at hc
        obtain ⟨i, hi⟩ := List.mem_iff_getElem?.mp hc
        have hlt : i < na.elems.length := by
          have := (List.getElem?_eq_some_iff.mp hi).1
          omega
        exact (hobj i na.elems[i] c (List.getElem?_eq_getElem hlt) hi).2
      exact (harrays haa hab hca hcb).2.mpr ⟨hlen, hall⟩
  · intro haa hab hda hdb
    constructor
    · intro ht
      obtain ⟨hca, hcb⟩ := Equals_children_of_ok ht ha hb hva hvb (fun _ => hda) (fun _ => hdb)
      exact (hmaps haa hab hda hdb hca hcb).2.mp ht
    · rintro ⟨hkeys, hall⟩
      have hca : ∀ c ∈ na.children, ∃ v, Nested.ToObject fuel h c = some (.ok v) := by
        intro c hc
        simp only [Nested.children, hva, haa, Bool.false_eq_true, if_false] at hc
        obtain ⟨⟨k, c2⟩, hmem, hc2⟩ := List.mem_map.mp hc
        simp only at hc2
        subst hc2
        obtain ⟨y, hy⟩ := (mapLookup_isSome_iff nb.entries k).mpr
          ((hkeys k).mp (List.mem_map_of_mem Prod.fst hmem))
        obtain ⟨v, w, hv, _, _⟩ :=
          Equals_eq_ok_iff.mp (hall k c2 y (mapLookup_of_mem_nodup hda hmem) hy)
        exact ⟨v, hv⟩
      have hcb : ∀ c ∈ nb.children, ∃ w, Nested.ToObject fuel h c = some (.ok w) := by
        intro c hc
        simp only [Nested.children, hvb, hab, Bool.false_eq_true, if_false] at hc
        obtain ⟨⟨k, c2⟩, hmem, hc2⟩ := List.mem_map.mp hc
        simp only at hc2
        subst hc2
        obtain ⟨x, hx⟩ := (mapLookup_isSome_iff na.entries k).mpr
          ((hkeys k).mpr (List.mem_map_of_mem Prod.fst hmem))
        obtain ⟨v, w, _, hw, _⟩ :=
          Equals_eq_ok_iff.mp (hall k x c2 hx (mapLookup_of_mem_nodup hdb hmem))
        exact ⟨w, hw⟩
      exact (hmaps haa hab hda hdb hca hcb).2.mpr ⟨hkeys, hall⟩
  · intro hsame hnodup hca hcb
    by_cases haa : na.IsArray = true
    · exact (harrays haa (hsame ▸ haa) hca hcb).1
    · have haa2 : na.IsArray = false := by simpa using haa
      exact (hmaps haa2 (hsame ▸ haa2) (hnodup haa2).1 (hnodup haa2).2 hca hcb).1

/-- C35, witness: the arrays 1, 2 and 2, 1 are not `Equals`, their first elements not
being `Equals`; the maps with the keys `a`, `b` stored in different orders are `Equals`. -/
theorem Equals_structural_witness :
    Equals sampleLib sampleReflect 2 swappedArraysHeap (some 0) (some 1) ≠ some (.ok true) ∧
      Equals sampleLib sampleReflect 2 twoOrdersHeap (some 0) (some 1) = some (.ok true) :=
  ⟨fun ht => absurd
      ((((Equals_structural sampleLib sampleReflect 1 swappedArraysHeap 0 1
        { isArray := true, array := some [some 2, some 3] }
        { isArray := true, array := some [some 4, some 5] } rfl rfl rfl rfl).1 rfl rfl).mp ht).2
        0 (some 2) (some 4) rfl rfl)
      (by decide),
    ((Equals_structural sampleLib sampleReflect 1 twoOrdersHeap 0 1
        { nested := some [("b", some 2), ("a", some 3)] }
        { nested := some [("a", some 4), ("b", some 5)] } rfl rfl rfl rfl).2.1 rfl rfl
        (by decide) (by decide)).mpr
      ⟨by
        intro k
        simp only [Nested.entries, Option.getD_some, List.map_cons, List.map_nil,
          List.mem_cons, List.mem_nil_iff, or_false]
        exact Or.comm,
      by
        intro k x y hx hy
        simp only [Nested.entries, Option.getD_some, mapLookup] at hx hy
        by_cases hkb : "b" = k
        · subst hkb
          simp only [if_true, if_neg (by decide : ¬ ("a" = "b")), Option.some.injEq] at hx hy
          subst hx hy
          decide
        · by_cases hka : "a" = k
          · subst hka
            simp only [if_true, if_neg (by decide : ¬ ("b" = "a")), Option.some.injEq] at hx hy
            subst hx hy
            decide
          · simp only [if_neg hkb, if_neg hka] at hx
            cases hx⟩⟩

/-- The test holds throughout the elements of a slice exactly when it holds throughout
each of them. -/
theorem allElems_iff (p : GoAny → Bool) : ∀ (xs : List GoAny),
    GoAny.allElems p xs = true ↔ ∀ x ∈ xs, GoAny.all p x = true
  | [] => by simp [GoAny.allElems]
  | x :: xs => by
    rw [GoAny.allElems]
    simp only [Bool.and_eq_true, allElems_iff p xs, List.mem_cons, forall_eq_or_imp]

/-- The test holds throughout the values of a map exactly when it holds throughout each
of them. -/
theorem allEntries_iff (p : GoAny → Bool) : ∀ (kvs : List (String × GoAny)),
    GoAny.allEntries p kvs = true ↔ ∀ k v, (k, v) ∈ kvs → GoAny.all p v = true
  | [] => by simp [GoAny.allEntries]
  | (k, v) :: rest => by
    rw [GoAny.allEntries]
    simp only [Bool.and_eq_true, allEntries_iff p rest, List.mem_cons, Prod.mk.injEq]
    constructor
    · rintro ⟨h1, h2⟩ k2 v2 (⟨rfl, rfl⟩ | hmem)
      · exact h1
      · exact h2 k2 v2 hmem
    · intro hall
      exact ⟨hall k v (Or.inl ⟨rfl, rfl⟩), fun k2 v2 hmem => hall k2 v2 (Or.inr hmem)⟩

mutual
/-- A value that holds no scalar unequal to itself, and whose mappings have distinct
keys, is deeply equal to itself. -/
theorem deepEqual_self (lib : GoLib) (rt : GoReflect) : ∀ (v : GoAny),
    v.all distinctKeys = true → v.all (selfEqual lib rt) = true →
    deepEqual lib rt v v = true
  | .nil, _, _ => by rw [deepEqual]
  | .int n, _, _ => by rw [deepEqual]; simp
  | .uint64 n, _, _ => by rw [deepEqual]; simp
  | .float64 x, _, hs => by
    rw [deepEqual]
    simpa [GoAny.all, selfEqual] using hs
  | .bool b, _, _ => by rw [deepEqual]; simp
  | .string s, _, _ => by rw [deepEqual]; simp
  | .other typ id, _, hs => by
    rw [deepEqual]
    simpa [GoAny.all, selfEqual] using hs
  | .slice xs, hk, hs => by
    rw [GoAny.all] at hk hs
    simp only [Bool.and_eq_true] at hk hs
    rw [deepEqual]
    simp only [beq_self_eq_true, Bool.true_and]
    rw [deepEqualElems_iff lib rt xs xs rfl]
    intro i x y hx hy
    rw [hx] at hy
    simp only [Option.some.injEq] at hy
    subst hy
    exact deepEqualElems_self lib rt xs hk.2 hs.2 x (List.getElem?_mem hx)
  | .map kvs, hk, hs => by
    rw [GoAny.all] at hk hs
    simp only [Bool.and_eq_true] at hk hs
    rw [deepEqual]
    simp only [beq_self_eq_true, Bool.true_and]
    rw [deepEqualEntries_iff]
    intro k v hmem
    refine ⟨v, anyLookup_of_mem_nodup ?_ hmem, deepEqualEntries_self lib rt kvs hk.2 hs.2 k v hmem⟩
    simpa [distinctKeys] using hk.1
/-- The elements of such a slice are deeply equal to themselves. -/
theorem deepEqualElems_self (lib : GoLib) (rt : GoReflect) : ∀ (xs : List GoAny),
    GoAny.allElems distinctKeys xs = true → GoAny.allElems (selfEqual lib rt) xs = true →
    ∀ x ∈ xs, deepEqual lib rt x x = true
  | [], _, _ => by simp
  | x :: xs, hk, hs => by
    rw [GoAny.allElems] at hk hs
    simp only [Bool.and_eq_true] at hk hs
    intro y hy
    rcases List.mem_cons.mp hy with rfl | hy
    · exact deepEqual_self lib rt y hk.1 hs.1
    · exact deepEqualElems_self lib rt xs hk.2 hs.2 y hy
/-- The values of such a map are deeply equal to themselves. -/
theorem deepEqualEntries_self (lib : GoLib) (rt : GoReflect) :
    ∀ (kvs : List (String × GoAny)),
      GoAny.allEntries distinctKeys kvs = true →
      GoAny.allEntries (selfEqual lib rt) kvs = true →
      ∀ k v, (k, v) ∈ kvs → deepEqual lib rt v v = true
  | [], _, _ => by simp
  | (k, v) :: rest, hk, hs => by
    rw [GoAny.allEntries] at hk hs
    simp only [Bool.and_eq_true] at hk hs
    intro k2 v2 hmem
    rcases List.mem_cons.mp hmem with heq | hmem
    · simp only [Prod.mk.injEq] at heq
      obtain ⟨rfl, rfl⟩ := heq
      exact deepEqual_self lib rt v2 hk.1 hs.1
    · exact deepEqualEntries_self lib rt rest hk.2 hs.2 k2 v2 hmem
end

/-- Lists of the same length that are related index by index are related. -/
theorem forall2_of_getElem {α β : Type} {R : α → β → Prop} :
    ∀ (l1 : List α) (l2 : List β), l1.length = l2.length →
      (∀ (i : Nat) a b, l1[i]? = some a → l2[i]? = some b → R a b) → List.Forall₂ R l1 l2
  | [], [], _, _ => List.Forall₂.nil
  | [], _ :: _, hlen, _ => by simp at hlen
  | _ :: _, [], hlen, _ => by simp at hlen
  | a :: l1, b :: l2, hlen, hall =>
    List.Forall₂.cons (hall 0 a b (by simp) (by simp))
      (forall2_of_getElem l1 l2 (by simpa using hlen)
        (fun i x y hx hy => hall (i + 1) x y (by simpa using hx) (by simpa using hy)))

/-- The entries of a mapping are its keys paired with its values. -/
theorem zip_fst_snd {α β : Type} : ∀ (l : List (α × β)),
    (l.map Prod.fst).zip (l.map Prod.snd) = l
  | [] => rfl
  | (a, b) :: l => by
    simp only [List.map_cons, List.zip_cons_cons, zip_fst_snd l]

/-- The cell allocated last before further cells. -/
theorem getElem?_append_cell (h t : Heap) (c : Nested) : (h ++ [c] ++ t)[h.length]? = some c := by
  rw [List.append_assoc, List.getElem?_append_right (Nat.le_refl _)]
  simp

/-- The object of a scalar cell allocated last before further cells. -/
theorem ToObject_scalar_appended (h t : Heap) (v : GoAny) :
    Nested.ToObject 1 (h ++ [{ isValue := true, value := v }] ++ t) (some h.length) =
      some (.ok v) :=
  ToObject_value 0 (getElem?_append_cell h t { isValue := true, value := v }) rfl

mutual
/-- The node `FromObject` makes of a value in which no float64 is replaced by an integer
and every mapping has distinct keys has that value as its object, also after further
cells have been allocated. -/
theorem ToObject_FromObject_eq (lib : GoLib) : ∀ (v : GoAny),
    v.all distinctKeys = true → v.all (keptAsIs lib) = true →
    ∃ fuel, ∀ (h t : Heap),
      Nested.ToObject fuel ((FromObject lib h v).1 ++ t) (FromObject lib h v).2 = some (.ok v)
  | .nil, _, _ => ⟨1, fun h t => by
      rw [FromObject]
      exact ToObject_scalar_appended h t _⟩
  | .int n, _, _ => ⟨1, fun h t => by
      rw [FromObject]
      exact ToObject_scalar_appended h t _⟩
  | .uint64 n, _, _ => ⟨1, fun h t => by
      rw [FromObject]
      exact ToObject_scalar_appended h t _⟩
  | .bool b, _, _ => ⟨1, fun h t => by
      rw [FromObject]
      exact ToObject_scalar_appended h t _⟩
  | .string s, _, _ => ⟨1, fun h t => by
      rw [FromObject]
      exact ToObject_scalar_appended h t _⟩
  | .other typ id, _, _ => ⟨1, fun h t => by
      rw [FromObject]
      exact ToObject_scalar_appended h t _⟩
  | .float64 x, _, hkept => ⟨1, fun h t => by
      have hx : lib.floatEq x (lib.intToFloat (lib.floatToInt x)) = false := by
        simpa [GoAny.all, keptAsIs] using hkept
      rw [FromObject]
      simp only [hx, Bool.false_eq_true, if_false]
      exact ToObject_scalar_appended h t _⟩
  | .slice xs, hk, hkept => by
    rw [GoAny.all] at hk hkept
    simp only [Bool.and_eq_true] at hk hkept
    obtain ⟨fuel, hfuel⟩ := ToObject_FromObject_elems lib xs hk.2 hkept.2
    refine ⟨fuel + 1, fun h t => ?_⟩
    obtain ⟨ps, hps, hlen, hspec⟩ := fromObjectElems_spec lib xs h none
    rw [FromObject]
    simp only
    have hcell : ((fromObjectElems lib h none xs).1 ++
        [({ isArray := true, array := (fromObjectElems lib h none xs).2 } : Nested)] ++ t)[
          (fromObjectElems lib h none xs).1.length]? =
        some { isArray := true, array := (fromObjectElems lib h none xs).2 } :=
      getElem?_append_cell _ _ _
    refine ToObject_array fuel xs hcell rfl rfl ?_
    have helems : ({ isArray := true, array := (fromObjectElems lib h none xs).2 } :
        Nested).elems = ps := by
      simpa [Nested.elems] using hps
    rw [helems]
    refine forall2_of_getElem ps xs hlen ?_
    intro i p x hp hx
    obtain ⟨h0, t0, t1, _, hheap, hptr⟩ := hspec i x hx
    rw [hp] at hptr
    simp only [Option.some.injEq] at hptr
    subst hptr
    rw [hheap, List.append_assoc, List.append_assoc]
    exact hfuel x (List.getElem?_mem hx) h0 _
  | .map kvs, hk, hkept => by
    rw [GoAny.all] at hk hkept
    simp only [Bool.and_eq_true] at hk hkept
    have hnd : (kvs.map Prod.fst).Nodup := by simpa [distinctKeys] using hk.1
    obtain ⟨fuel, hfuel⟩ := ToObject_FromObject_entries lib kvs hk.2 hkept.2
    refine ⟨fuel + 1, fun h t => ?_⟩
    obtain ⟨hkeys, _, hspec⟩ := fromObjectEntries_spec lib kvs h [] (by simpa using hnd)
    simp only [List.map_nil, List.nil_append] at hkeys
    rw [FromObject]
    simp only
    have hcell : ((fromObjectEntries lib h [] kvs).1 ++
        [({ nested := some (fromObjectEntries lib h [] kvs).2 } : Nested)] ++ t)[
          (fromObjectEntries lib h [] kvs).1.length]? =
        some { nested := some (fromObjectEntries lib h [] kvs).2 } :=
      getElem?_append_cell _ _ _
    have hentries : ({ nested := some (fromObjectEntries lib h [] kvs).2 } : Nested).entries =
        (fromObjectEntries lib h [] kvs).2 := rfl
    have hnd2 : ((fromObjectEntries lib h [] kvs).2.map Prod.fst).Nodup := by
      rw [hkeys]; exact hnd
    have hobj := ToObject_map fuel (kvs.map Prod.snd) hcell rfl (by rw [hentries]; exact hnd2)
      (by
        rw [hentries]
        refine forall2_of_getElem _ _ ?_ ?_
        · have := congrArg List.length hkeys
          simpa using this
        · intro i kc v hkc hv
          have hk1 : ((fromObjectEntries lib h [] kvs).2.map Prod.fst)[i]? = some kc.1 := by
            simp [hkc]
          rw [hkeys] at hk1
          simp only [List.getElem?_map] at hk1 hv
          cases hkv : kvs[i]? with
          | none => simp [hkv] at hv
          | some e =>
            simp only [hkv, Option.map_some', Option.some.injEq] at hk1 hv
            have hmem : (kc.1, v) ∈ kvs := by
              have := List.getElem?_mem hkv
              rw [← hk1, ← hv]
              exact this
            obtain ⟨h0, t0, t1, _, hheap, hptr⟩ := hspec kc.1 v hmem
            have hl := mapLookup_of_mem_nodup hnd2 (List.getElem?_mem hkc)
            rw [hl] at hptr
            simp only [Option.some.injEq] at hptr
            rw [hptr, hheap, List.append_assoc, List.append_assoc]
            exact hfuel kc.1 v hmem h0 _)
    rw [hobj, hentries, hkeys, zip_fst_snd]
/-- The nodes `FromObject` makes of the elements of a sequence have the elements as
their objects, within one bound on the depth. -/
theorem ToObject_FromObject_elems (lib : GoLib) : ∀ (xs : List GoAny),
    GoAny.allElems distinctKeys xs = true → GoAny.allElems (keptAsIs lib) xs = true →
    ∃ fuel, ∀ x ∈ xs, ∀ (h t : Heap),
      Nested.ToObject fuel ((FromObject lib h x).1 ++ t) (FromObject lib h x).2 = some (.ok x)
  | [], _, _ => ⟨0, fun x hx => by simp at hx⟩
  | x :: xs, hk, hkept => by
    rw [GoAny.allElems] at hk hkept
    simp only [Bool.and_eq_true] at hk hkept
    obtain ⟨f1, h1⟩ := ToObject_FromObject_eq lib x hk.1 hkept.1
    obtain ⟨f2, h2⟩ := ToObject_FromObject_elems lib xs hk.2 hkept.2
    refine ⟨max f1 f2, fun y hy h t => ?_⟩
    rcases List.mem_cons.mp hy with rfl | hy
    · exact ToObject_mono (Nat.le_max_left f1 f2) (h1 h t)
    · exact ToObject_mono (Nat.le_max_right f1 f2) (h2 y hy h t)
/-- The nodes `FromObject` makes of the values of a mapping have the values as their
objects, within one bound on the depth. -/
theorem ToObject_FromObject_entries (lib : GoLib) : ∀ (kvs : List (String × GoAny)),
    GoAny.allEntries distinctKeys kvs = true → GoAny.allEntries (keptAsIs lib) kvs = true →
    ∃ fuel, ∀ k v, (k, v) ∈ kvs → ∀ (h t : Heap),
      Nested.ToObject fuel ((FromObject lib h v).1 ++ t) (FromObject lib h v).2 = some (.ok v)
  | [], _, _ => ⟨0, fun k v hm => by simp at hm⟩
  | (k, v) :: rest, hk, hkept => by
    rw [GoAny.allEntries] at hk hkept
    simp only [Bool.and_eq_true] at hk hkept
    obtain ⟨f1, h1⟩ := ToObject_FromObject_eq lib v hk.1 hkept.1
    obtain ⟨f2, h2⟩ := ToObject_FromObject_entries lib rest hk.2 hkept.2
    refine ⟨max f1 f2, fun k2 v2 hm h t => ?_⟩
    rcases List.mem_cons.mp hm with heq | hm
    · simp only [Prod.mk.injEq] at heq
      obtain ⟨rfl, rfl⟩ := heq
      exact ToObject_mono (Nat.le_max_left f1 f2) (h1 h t)
    · exact ToObject_mono (Nat.le_max_right f1 f2) (h2 k2 v2 hm h t)
end

/-- C36 (as the code behaves): for a value built from mappings with distinct keys,
sequences and scalar leaves, in which no float64 `x` has `x == float64(int(x))` and
every scalar is deeply equal to itself (no NaN, no function), `ToObject` of the node made
by `FromObject` returns the value itself: a scalar gives the same value of the same type,
a sequence the same elements in the same order, a mapping the same keys with the same
values; and this object is deeply equal to the value. -/
theorem ToObject_inverts_FromObject (lib : GoLib) (rt : GoReflect) (h : Heap) (v : GoAny)
    (hkeys : v.all distinctKeys = true) (hkept : v.all (keptAsIs lib) = true)
    (hself : v.all (selfEqual lib rt) = true) :
    ∃ fuel w, Nested.ToObject fuel (FromObject lib h v).1 (FromObject lib h v).2 =
        some (.ok w) ∧ w = v ∧ deepEqual lib rt w v = true := by
  obtain ⟨fuel, hfuel⟩ := ToObject_FromObject_eq lib v hkeys hkept
  have := hfuel h []
  rw [List.append_nil] at this
  exact ⟨fuel, v, this, rfl, deepEqual_self lib rt v hkeys hself⟩

/-- C36, witness: a mapping holding an integer and a sequence of a string and a
boolean. -/
theorem ToObject_inverts_FromObject_witness :
    ∃ fuel w,
      Nested.ToObject fuel
        (FromObject ieeeLib [] (.map [("a", .int 1), ("l", .slice [.string "x", .bool true])])).1
        (FromObject ieeeLib [] (.map [("a", .int 1), ("l", .slice [.string "x", .bool true])])).2 =
          some (.ok w) ∧
      w = .map [("a", .int 1), ("l", .slice [.string "x", .bool true])] ∧
      deepEqual ieeeLib sampleReflect w
        (.map [("a", .int 1), ("l", .slice [.string "x", .bool true])]) = true :=
  ToObject_inverts_FromObject ieeeLib sampleReflect []
    (.map [("a", .int 1), ("l", .slice [.string "x", .bool true])]) (by decide) (by decide)
    (by decide)

/-- C36 as stated fails: the NaN with bits 0x7FF8000000000001 is a float64 that
`FromObject` keeps as it is, being equal to nothing, `ToObject` returns it, and it is
not deeply equal to itself; the same holds for a function value. -/
theorem ToObject_FromObject_not_equal :
    (GoAny.float64 0x7FF8000000000001).all (keptAsIs ieeeLib) = true ∧
      Nested.ToObject 1 (FromObject ieeeLib [] (.float64 0x7FF8000000000001)).1
        (FromObject ieeeLib [] (.float64 0x7FF8000000000001)).2 =
          some (.ok (.float64 0x7FF8000000000001)) ∧
      deepEqual ieeeLib sampleReflect (.float64 0x7FF8000000000001)
        (.float64 0x7FF8000000000001) = false ∧
      Nested.ToObject 1 (FromObject ieeeLib [] (.other "func()" 0)).1
        (FromObject ieeeLib [] (.other "func()" 0)).2 = some (.ok (.other "func()" 0)) ∧
      deepEqual ieeeLib sampleReflect (.other "func()" 0) (.other "func()" 0) = false :=
  ⟨by decide, rfl, by decide, rfl, by decide⟩

/-- The loop of `FromObject` over the entries of a mapping leaves a map that is not
empty when the map built so far is not empty. -/
theorem fromObjectEntries_ne_nil (lib : GoLib) : ∀ (kvs : List (String × GoAny)) (h : Heap)
    (nested : GoMap), nested ≠ [] → (fromObjectEntries lib h nested kvs).2 ≠ []
  | [], h, nested, hne => by
    rw [fromObjectEntries]
    exact hne
  | (k, v) :: rest, h, nested, _ => by
    rw [fromObjectEntries]
    exact fromObjectEntries_ne_nil lib rest _ _ (mapStore_ne_nil nested k _)

/-- C37 (as the code behaves): for every mapping, `FromObject` returns a map-shaped node,
and `IsEmpty` is true for it exactly when the mapping has no entries; for the mapping
`a: 1, b: 2` of the documentation `IsNested` is true and `IsEmpty` is false, as the test
of `FromObject` asserts. -/
theorem FromObject_map_isEmpty (lib : GoLib) (h : Heap) (kvs : List (String × GoAny)) :
    ∃ n, deref (FromObject lib h (.map kvs)).1 (FromObject lib h (.map kvs)).2 = some n ∧
      n.IsNested = true ∧ (n.IsEmpty = true ↔ kvs = []) := by
  rw [FromObject]
  refine ⟨{ nested := some (fromObjectEntries lib h [] kvs).2 }, ?_, rfl, ?_⟩
  · simp [deref]
  · simp only [Nested.IsEmpty, Nested.entries, Option.getD_some, Bool.not_false, Bool.true_and,
      beq_iff_eq, List.length_eq_zero]
    cases kvs with
    | nil =>
      rw [fromObjectEntries]
      simp
    | cons e rest =>
      obtain ⟨k, v⟩ := e
      rw [fromObjectEntries]
      have := fromObjectEntries_ne_nil lib rest (FromObject lib h v).1
        (mapStore [] k (FromObject lib h v).2) (mapStore_ne_nil [] k _)
      simp [this]

/-- C37 as stated fails: for the mapping `a: 1, b: 2` the node `FromObject` returns
reports `IsNested` and has two entries, so `IsEmpty` is false. -/
theorem FromObject_example_not_empty :
    ∃ n, deref (FromObject sampleLib [] (.map [("a", .int 1), ("b", .int 2)])).1
        (FromObject sampleLib [] (.map [("a", .int 1), ("b", .int 2)])).2 = some n ∧
      n.IsNested = true ∧ n.Length = 2 ∧ ¬ (n.IsNested = true ∧ n.IsEmpty = true) :=
  ⟨{ nested := some [("a", some 0), ("b", some 1)] }, rfl, rfl, rfl, by decide⟩

/-- C38: when `Set` returns an error, the heap is the heap before the call, so that no
node has been created, no entry replaced and `ToObject` returns for every node what it
returned before; with at least one key, the error comes from a node that is not
map-shaped and is reached from the receiver through entries that existed before the
call, and it is that node's `is value` or `is array` wrapped in the keys before it. -/
theorem Set_error_changes_nothing (h : Heap) (j r : Ptr) (keys : List String) (h2 : Heap)
    (e : String) (hset : Nested.Set h j r keys = (h2, .error e)) :
    h2 = h ∧ (∀ fuel p, Nested.ToObject fuel h2 p = Nested.ToObject fuel h p) ∧
    (keys ≠ [] → ∃ i x n, i < keys.length ∧ lookupChain h j (keys.take i) = some x ∧
      deref h x = some n ∧ n.IsNested = false ∧
      e = errAt keys i (if n.IsValue = true then "is value" else "is array")) := by
  have hmain : h2 = h ∧ (keys ≠ [] → ∃ i x n, i < keys.length ∧
      lookupChain h j (keys.take i) = some x ∧ deref h x = some n ∧ n.IsNested = false ∧
      e = errAt keys i (if n.IsValue = true then "is value" else "is array")) := by
    by_cases hk : keys = []
    · subst hk
      rw [Set_nil] at hset
      exact ⟨(Prod.mk.inj hset).1.symm, fun hne => absurd rfl hne⟩
    · obtain ⟨i, x, n, hi, hx, hn, hnest⟩ :=
        (Set_error_iff keys h j r hk).mp ⟨e, by rw [hset]⟩
      have hat := Set_error_at keys h j r i x n hi hx hn hnest
      rw [hset] at hat
      obtain ⟨h1, h3⟩ := Prod.mk.inj hat
      exact ⟨h1, fun _ => ⟨i, x, n, hi, hx, hn, hnest, Result.error.inj h3⟩⟩
  refine ⟨hmain.1, ?_, hmain.2⟩
  intro fuel p
  rw [hmain.1]

/-- C38, witness: on the map `a: 1`, made by `SetValue` on a fresh node, `Set` under the
keys `a`, `b`, `c` returns `a.is value` and leaves the heap as it was. -/
theorem Set_error_changes_nothing_witness :
    (Nested.Set (Nested.SetValue [{}] (some 0) (.int 1) ["a"]).1 (some 0) none
        ["a", "b", "c"]).2 = .error "a.is value" ∧
      (Nested.Set (Nested.SetValue [{}] (some 0) (.int 1) ["a"]).1 (some 0) none
        ["a", "b", "c"]).1 = (Nested.SetValue [{}] (some 0) (.int 1) ["a"]).1 ∧
      ∀ fuel p,
        Nested.ToObject fuel (Nested.Set (Nested.SetValue [{}] (some 0) (.int 1) ["a"]).1
          (some 0) none ["a", "b", "c"]).1 p =
          Nested.ToObject fuel (Nested.SetValue [{}] (some 0) (.int 1) ["a"]).1 p :=
  ⟨rfl,
    (Set_error_changes_nothing (Nested.SetValue [{}] (some 0) (.int 1) ["a"]).1 (some 0) none
      ["a", "b", "c"] _ "a.is value" rfl).1,
    (Set_error_changes_nothing (Nested.SetValue [{}] (some 0) (.int 1) ["a"]).1 (some 0) none
      ["a", "b", "c"] _ "a.is value" rfl).2.1⟩

/-- What a successful `Set` changes: one cell `xm`, reached from the receiver through
the first `m` keys, gets an entry under the next key (the reference when it is the last
key, a new node when the key was missing), and every other cell allocated before the
call stays as it was. -/
theorem Set_effect (keys : List String) :
    ∀ (h : Heap) (j r : Ptr) (h2 : Heap), Unshared h → Nested.Set h j r keys = (h2, .ok ()) →
      ∃ (m xm : Nat) (nm : Nested) (km : String) (p : Ptr), m < keys.length ∧
        keys[m]? = some km ∧ lookupChain h j (keys.take m) = some (some xm) ∧
        h[xm]? = some nm ∧ nm.IsNested = true ∧
        h2[xm]? = some { nm with nested := some (mapStore nm.entries km p) } ∧
        (m + 1 < keys.length → mapLookup nm.entries km = none) ∧
        (∀ b, b < h.length → b ≠ xm → h2[b]? = h[b]?) := by
  induction keys with
  | nil =>
    intro h j r h2 _ hset
    rw [Set_nil] at hset
    cases hset
  | cons k rest ih =>
    intro h j r h2 hu hset
    rcases Set_cases h j with hnot | ⟨a, n, rfl, ha, hn⟩
    · have := (Set_not_nested_heap h j r (k :: rest) hnot).2
      rw [hset] at this
      exact absurd rfl this
    · have halt : a < h.length := by
        rcases List.getElem?_eq_some_iff.mp ha with ⟨hlt, _⟩
        exact hlt
      by_cases hrest : rest = []
      · subst hrest
        rw [Set_last hu r k ha hn] at hset
        have h2eq := (Prod.mk.inj hset).1
        subst h2eq
        refine ⟨0, a, n, k, r, by simp, rfl, rfl, ha, hn, ?_, ?_, ?_⟩
        · rw [List.getElem?_set_self halt]
        · intro hlt
          simp at hlt
        · intro b _ hb
          rw [List.getElem?_set_ne (Ne.symm hb)]
      · cases hk : mapLookup n.entries k with
        | some c =>
          rw [Set_existing r hrest ha hn hk] at hset
          have hrec : Nested.Set h c r rest = (h2, .ok ()) := by
            cases hres : Nested.Set h c r rest with
            | mk h3 res =>
              rw [hres] at hset
              cases res with
              | ok u => exact hset
              | error e => simp at hset
              | panic => exact hset
          obtain ⟨m, xm, nm, km, p, hm, hkm, hchain, hxm, hnm, hcell, hmiss, hframe⟩ :=
            ih h c r h2 hu hrec
          refine ⟨m + 1, xm, nm, km, p, by simp; omega, by simpa using hkm, ?_, hxm, hnm, hcell,
            ?_, hframe⟩
          · rw [List.take_succ_cons, lookupChain]
            simp only [deref, ha, hn, hk, if_true]
            exact hchain
          · intro hlt
            exact hmiss (by simp at hlt; omega)
        | none =>
          rw [Set_missing hu r hrest ha hn hk] at hset
          have hrec : Nested.Set
              (h.set a { n with nested := some (mapStore n.entries k (some h.length)) } ++
                [({} : Nested)]) (some h.length) r rest = (h2, .ok ()) := by
            cases hres : Nested.Set
                (h.set a { n with nested := some (mapStore n.entries k (some h.length)) } ++
                  [({} : Nested)]) (some h.length) r rest with
            | mk h3 res =>
              rw [hres] at hset
              cases res with
              | ok u => exact hset
              | error e => simp at hset
              | panic => exact hset
          have hfresh : (h.set a { n with nested := some (mapStore n.entries k (some h.length)) }
              ++ [({} : Nested)])[h.length]? = some {} := by
            rw [List.getElem?_append_right (by simp)]
            simp
          have hframe := (Set_on_empty rest _ h.length {} r hrest hfresh rfl rfl).2.2.2.2
          rw [hrec] at hframe
          simp only at hframe
          have hold : ∀ b, b < h.length → h2[b]? =
              (h.set a { n with nested := some (mapStore n.entries k (some h.length)) })[b]? := by
            intro b hb
            have hb2 : b < (h.set a { n with
                nested := some (mapStore n.entries k (some h.length)) }).length := by
              simpa using hb
            have hx : (h.set a { n with nested := some (mapStore n.entries k (some h.length)) }
                ++ [({} : Nested)])[b]? = some ((h.set a { n with
                  nested := some (mapStore n.entries k (some h.length)) })[b]) := by
              rw [List.getElem?_append_left hb2, List.getElem?_eq_getElem hb2]
            rw [hframe b _ (by omega) hx (sameMap_private rfl _), List.getElem?_eq_getElem hb2]
          refine ⟨0, a, n, k, some h.length, by simp, by simp, rfl, ha, hn, ?_, fun _ => hk, ?_⟩
          · rw [hold a halt, List.getElem?_set_self halt]
          · intro b hb hne
            rw [hold b hb, List.getElem?_set_ne (Ne.symm hne)]

/-- `Get` returns the same on two heaps on which every step of the traversal goes the
same way. -/
theorem Get_congr_steps {h h2 : Heap} : ∀ (chain : List String) (j : Ptr),
    (∀ (t : Nat) (y : Ptr) (k : String), lookupChain h j (chain.take t) = some y →
      chain[t]? = some k → SameStep h h2 y k) →
    Nested.Get h2 j chain = Nested.Get h j chain
  | [], j, _ => by rw [Get_nil, Get_nil]
  | k :: rest, j, hsame => by
    have h0 := hsame 0 j k rfl (by simp)
    unfold SameStep at h0
    rw [Get_cons, Get_cons]
    cases hn : deref h j with
    | none =>
      cases hn2 : deref h2 j with
      | none => rfl
      | some n2 => simp [hn, hn2] at h0
    | some n =>
      cases hn2 : deref h2 j with
      | none => simp [hn, hn2] at h0
      | some n2 =>
        simp only [hn, hn2] at h0
        obtain ⟨hv, harr, hl⟩ := h0
        simp only [hv, harr, hl]
        by_cases hval : n.IsValue = true
        · simp [hval]
        · by_cases ha : n.IsArray = true
          · simp [hval, ha]
          · simp only [hval, ha, if_false, Bool.false_eq_true]
            cases hk : mapLookup n.entries k with
            | none => rfl
            | some value =>
              simp only
              by_cases hr : rest.length = 0
              · simp [hr]
              · simp only [hr, if_false]
                have hnest : n.IsNested = true :=
                  (isNested_iff n).mpr ⟨by simpa using hval, by simpa using ha⟩
                rw [Get_congr_steps rest value (fun t y k2 hy hk2 =>
                  hsame (t + 1) y k2 (by
                    rw [List.take_succ_cons, lookupChain]
                    simp only [hn, hnest, hk, if_true]
                    exact hy) (by simpa using hk2))]

/-- In a well-formed structure every node reached by a key chain is allocated. -/
theorem lookupChain_allocated : ∀ (ks : List String) (d : Nat) (h : Heap) (j : Ptr) (b : Nat),
    wellFormed d h j = true → lookupChain h j ks = some (some b) → b < h.length
  | [], d, h, j, b, hwf, hl => by
    rw [lookupChain] at hl
    simp only [Option.some.injEq] at hl
    subst hl
    cases d with
    | zero => simp [wellFormed] at hwf
    | succ d =>
      obtain ⟨a, n, ha, hn, _⟩ := (wellFormed_succ_iff d h (some b)).mp hwf
      simp only [Option.some.injEq] at ha
      subst ha
      exact (List.getElem?_eq_some_iff.mp hn).1
  | k :: rest, d, h, j, b, hwf, hl => by
    cases d with
    | zero => simp [wellFormed] at hwf
    | succ d =>
      obtain ⟨a, n, rfl, hn, _, _⟩ := (wellFormed_succ_iff d h j).mp hwf
      rw [lookupChain] at hl
      simp only [deref, hn] at hl
      by_cases hnest : n.IsNested = true
      · simp only [hnest, if_true] at hl
        cases hk : mapLookup n.entries k with
        | none => simp [hk] at hl
        | some y =>
          simp only [hk] at hl
          have hmem : y ∈ n.children := by
            obtain ⟨hv, ha⟩ := (isNested_iff n).mp hnest
            simp only [Nested.children, hv, ha, Bool.false_eq_true, if_false]
            exact mapLookup_mem_values hk
          obtain ⟨x, rfl, hwx⟩ := wellFormed_child hwf hn hmem
          exact lookupChain_allocated rest d h (some x) b hwx hl
      · simp [hnest] at hl

/-- Storing under a key adds one entry when the key was absent and none otherwise. -/
theorem mapStore_length (m : GoMap) (k : String) (v : Ptr) :
    (mapStore m k v).length = m.length + (if mapLookup m k = none then 1 else 0) := by
  induction m with
  | nil => simp [mapStore, mapLookup]
  | cons e m ih =>
    obtain ⟨k2, v2⟩ := e
    by_cases hk : k2 = k
    · simp [mapStore, mapLookup, hk]
    · simp only [mapStore, mapLookup, if_neg hk, List.length_cons, ih]
      omega

/-- After a successful `Set`, `Get` along a key chain that does not have the keys as a
prefix returns what it returned before, when the structure is a tree without shared
nodes and every common prefix of the two chains led to a node before the call. -/
theorem Get_after_Set_other_chain {h : Heap} {j r : Ptr} {keys chain : List String} {d : Nat}
    {h2 : Heap} (hu : Unshared h) (hwf : wellFormed d h j = true) (hns : NoSharedNodes h j)
    (hset : Nested.Set h j r keys = (h2, .ok ()))
    (hk : ¬ keys <+: chain)
    (hres : ∀ p, p <+: chain → p <+: keys → ∃ x, lookupChain h j p = some x) :
    Nested.Get h2 j chain = Nested.Get h j chain := by
  obtain ⟨m, xm, nm, km, p, hm, hkm, hchain, hxm, hnm, hcell, hmiss, hframe⟩ :=
    Set_effect keys h j r h2 hu hset
  apply Get_congr_steps
  intro t y k hy hkt
  cases y with
  | none => simp [SameStep, deref]
  | some b =>
    have hb := lookupChain_allocated _ d h j b hwf hy
    by_cases hbx : b = xm
    · subst hbx
      have htake : chain.take t = keys.take m := hns _ _ b hy hchain
      have ht : t < chain.length := by
        rcases List.getElem?_eq_some_iff.mp hkt with ⟨hlt, _⟩
        exact hlt
      have htm : t = m := by
        have := congrArg List.length htake
        simp only [List.length_take] at this
        omega
      subst htm
      have hne : km ≠ k := by
        rintro rfl
        have htake2 : chain.take (t + 1) = keys.take (t + 1) := by
          rw [List.take_succ, List.take_succ, htake, hkt, hkm]
        have hpre1 : keys.take (t + 1) <+: chain := by
          rw [← htake2]
          exact List.take_prefix _ _
        obtain ⟨x, hx⟩ := hres _ hpre1 (List.take_prefix _ _)
        have hsplit : keys.take (t + 1) = keys.take t ++ [km] := by
          rw [List.take_succ, hkm]
          rfl
        rw [hsplit, lookupChain_append, hchain] at hx
        simp only [Option.some_bind, lookupChain, deref, hxm, hnm, if_true] at hx
        by_cases hlast : t + 1 < keys.length
        · rw [hmiss hlast] at hx
          cases hx
        · have hall : keys.take (t + 1) = keys := List.take_of_length_le (by omega)
          rw [hall] at hpre1
          exact hk hpre1
      unfold SameStep
      simp only [deref, hxm, hcell]
      refine ⟨rfl, rfl, ?_⟩
      simp only [Nested.entries, Option.getD_some]
      exact mapLookup_mapStore_ne _ km k p hne
    · unfold SameStep
      simp only [deref, hframe b hb hbx]
      cases h[b]? with
      | none => trivial
      | some n => exact ⟨rfl, rfl, rfl⟩

/-- The key chains that lead to a node in `nestedPairHeap`. -/
theorem nestedPairHeap_chains (chain : List String) (x : Nat)
    (hx : lookupChain nestedPairHeap (some 0) chain = some (some x)) :
    (chain = [] ∧ x = 0) ∨ (chain = ["a"] ∧ x = 2) ∨ (chain = ["a", "b"] ∧ x = 1) := by
  have hheap : nestedPairHeap =
      [{ nested := some [("a", some 2)] }, { isValue := true, value := .int 1 },
        { nested := some [("b", some 1)] }] := rfl
  rw [hheap] at hx
  cases chain with
  | nil =>
    simp only [lookupChain, Option.some.injEq] at hx
    exact Or.inl ⟨rfl, hx.symm⟩
  | cons k1 rest1 =>
    rw [lookupChain] at hx
    simp only [deref, List.getElem?_cons_zero, Nested.IsNested, Bool.not_false, Bool.and_self,
      if_true, Nested.entries, Option.getD_some, mapLookup] at hx
    by_cases hk1 : "a" = k1
    · subst hk1
      simp only [if_true] at hx
      cases rest1 with
      | nil =>
        simp only [lookupChain, Option.some.injEq] at hx
        exact Or.inr (Or.inl ⟨rfl, hx.symm⟩)
      | cons k2 rest2 =>
        rw [lookupChain] at hx
        simp only [deref, List.getElem?_cons_succ, List.getElem?_cons_zero, Nested.IsNested,
          Bool.not_false, Bool.and_self, if_true, Nested.entries, Option.getD_some,
          mapLookup] at hx
        by_cases hk2 : "b" = k2
        · subst hk2
          simp only [if_true] at hx
          cases rest2 with
          | nil =>
            simp only [lookupChain, Option.some.injEq] at hx
            exact Or.inr (Or.inr ⟨rfl, hx.symm⟩)
          | cons k3 rest3 =>
            rw [lookupChain] at hx
            simp [deref, Nested.IsNested] at hx
        · simp [hk2] at hx
    · simp [hk1] at hx

/-- The structure `nestedPairHeap` has no shared nodes. -/
theorem nestedPairHeap_noShared : NoSharedNodes nestedPairHeap (some 0) := by
  intro c1 c2 x h1 h2
  rcases nestedPairHeap_chains c1 x h1 with ⟨rfl, rfl⟩ | ⟨rfl, rfl⟩ | ⟨rfl, rfl⟩ <;>
    rcases nestedPairHeap_chains c2 _ h2 with ⟨rfl, hx⟩ | ⟨rfl, hx⟩ | ⟨rfl, hx⟩ <;>
    first
      | rfl
      | exact absurd hx (by decide)

/-- A freshly constructed node has no shared nodes. -/
theorem twoFreshHeap_noShared : NoSharedNodes twoFreshHeap (some 0) := by
  intro c1 c2 x h1 h2
  have hnil : ∀ (chain : List String) (y : Nat),
      lookupChain twoFreshHeap (some 0) chain = some (some y) → chain = [] := by
    intro chain y hy
    cases chain with
    | nil => rfl
    | cons k rest =>
      rw [lookupChain] at hy
      simp [deref, twoFreshHeap, Nested.IsNested, Nested.entries, mapLookup] at hy
  rw [hnil c1 x h1, hnil c2 x h2]

/-- The key chains that lead to a node in `emptySiblingsHeap`. -/
theorem emptySiblingsHeap_chains (chain : List String) (x : Nat)
    (hx : lookupChain emptySiblingsHeap (some 0) chain = some (some x)) :
    (chain = [] ∧ x = 0) ∨ (chain = ["p"] ∧ x = 1) ∨ (chain = ["q"] ∧ x = 2) := by
  have hheap : emptySiblingsHeap =
      [{ nested := some [("p", some 1), ("q", some 2)] }, { nested := some [], mapId := 1 },
        { nested := some [], mapId := 1 }, {}] := rfl
  rw [hheap] at hx
  cases chain with
  | nil =>
    simp only [lookupChain, Option.some.injEq] at hx
    exact Or.inl ⟨rfl, hx.symm⟩
  | cons k1 rest1 =>
    rw [lookupChain] at hx
    simp only [deref, List.getElem?_cons_zero, Nested.IsNested, Bool.not_false, Bool.and_self,
      if_true, Nested.entries, Option.getD_some, mapLookup] at hx
    by_cases hk1 : "p" = k1
    · subst hk1
      simp only [if_true] at hx
      cases rest1 with
      | nil =>
        simp only [lookupChain, Option.some.injEq] at hx
        exact Or.inr (Or.inl ⟨rfl, hx.symm⟩)
      | cons k2 rest2 =>
        rw [lookupChain] at hx
        simp [deref, Nested.IsNested, Nested.entries, mapLookup] at hx
    · simp only [hk1, if_false] at hx
      by_cases hk2 : "q" = k1
      · subst hk2
        simp only [if_true] at hx
        cases rest1 with
        | nil =>
          simp only [lookupChain, Option.some.injEq] at hx
          exact Or.inr (Or.inr ⟨rfl, hx.symm⟩)
        | cons k2 rest2 =>
          rw [lookupChain] at hx
          simp [deref, Nested.IsNested, Nested.entries, mapLookup] at hx
      · simp [hk2] at hx

/-- The structure `emptySiblingsHeap` has no shared nodes. -/
theorem emptySiblingsHeap_noShared : NoSharedNodes emptySiblingsHeap (some 0) := by
  intro c1 c2 x h1 h2
  rcases emptySiblingsHeap_chains c1 x h1 with ⟨rfl, rfl⟩ | ⟨rfl, rfl⟩ | ⟨rfl, rfl⟩ <;>
    rcases emptySiblingsHeap_chains c2 _ h2 with ⟨rfl, hx⟩ | ⟨rfl, hx⟩ | ⟨rfl, hx⟩ <;>
    first
      | rfl
      | exact absurd hx (by decide)

/-- C39, amended: on a tree without shared nodes in which no map is held by two nodes,
after a successful `Set` under the keys, `Get` along a key chain that does not have the
keys as a prefix returns what it returned before the call, the same node or the same
error, provided every common prefix of the chain and the keys led to a node before the
call (no node was created on the part the two chains share); with a single key the
`Length` of the receiver grows by one when the key was absent and stays the same when it
was present, whether maps are shared or not. -/
theorem Set_changes_only_path (h : Heap) (j r : Ptr) :
    (∀ (keys chain : List String) (d : Nat) (h2 : Heap), Unshared h →
      wellFormed d h j = true → NoSharedNodes h j →
      Nested.Set h j r keys = (h2, .ok ()) → ¬ keys <+: chain →
      (∀ p, p <+: chain → p <+: keys → ∃ x, lookupChain h j p = some x) →
      Nested.Get h2 j chain = Nested.Get h j chain) ∧
    (∀ (k : String) (a : Nat) (n : Nested) (h2 : Heap), j = some a → h[a]? = some n →
      Nested.Set h j r [k] = (h2, .ok ()) →
      ∃ n2, h2[a]? = some n2 ∧
        n2.Length = n.Length + (if mapLookup n.entries k = none then 1 else 0)) := by
  constructor
  · intro keys chain d h2 hu hwf hns hset hk hres
    exact Get_after_Set_other_chain hu hwf hns hset hk hres
  · intro k a n h2 hj ha hset
    subst hj
    have hn : n.IsNested = true := by
      rcases Set_cases h (some a) with hnot | ⟨a2, n2, ha2, hn2, hnest⟩
      · have := (Set_not_nested_heap h (some a) r [k] hnot).2
        rw [hset] at this
        exact absurd rfl this
      · simp only [Option.some.injEq] at ha2
        subst ha2
        rw [ha] at hn2
        simp only [Option.some.injEq] at hn2
        subst hn2
        exact hnest
    rw [Set_last_gen r k ha hn] at hset
    have h2eq := (Prod.mk.inj hset).1
    subst h2eq
    have halt : a < h.length := (List.getElem?_eq_some_iff.mp ha).1
    refine ⟨_, getElem?_putMap_self _ _ halt, ?_⟩
    obtain ⟨hv, harr⟩ := (isNested_iff n).mp hn
    simp only [Nested.IsValue, Nested.IsArray] at hv harr
    simp only [Nested.Length, Nested.IsValue, Nested.IsArray, ownMap_isValue, ownMap_isArray,
      hv, harr, Bool.false_eq_true, if_false, Nested.entries, Option.getD_some,
      mapStore_length]
    split <;> simp

/-- C39, witness: on the map `a: (b: 1)`, `Set` under `a`, `c` leaves `Get` under `a`, `b`
as it was, and `Set` under the new key `z` makes the `Length` of the root 2. -/
theorem Set_changes_only_path_witness :
    Nested.Get (Nested.Set nestedPairHeap (some 0) none ["a", "c"]).1 (some 0) ["a", "b"] =
        Nested.Get nestedPairHeap (some 0) ["a", "b"] ∧
      ∃ n2, (Nested.Set nestedPairHeap (some 0) none ["z"]).1[0]? = some n2 ∧
        n2.Length = (1 : Int) + (if mapLookup [("a", some 2)] "z" = none then 1 else 0) :=
  ⟨(Set_changes_only_path nestedPairHeap (some 0) none).1 ["a", "c"] ["a", "b"] 3 _
      (by unfold Unshared; decide) (by decide) nestedPairHeap_noShared rfl (by decide)
      (by
        intro p hp1 hp2
        have hp : p ∈ (["a", "b"] : List String).inits := (List.mem_inits _ _).mpr hp1
        simp only [List.inits, List.map_cons, List.map_nil, List.mem_cons,
          List.mem_nil_iff, or_false] at hp
        rcases hp with rfl | rfl | rfl
        · exact ⟨_, rfl⟩
        · exact ⟨_, rfl⟩
        · exact absurd hp2 (by decide)),
    (Set_changes_only_path nestedPairHeap (some 0) none).2 "z" 0
      { nested := some [("a", some 2)] } _ rfl rfl rfl⟩

/-- C39 as stated fails. (1) On a freshly constructed node, a tree without shared nodes,
`Set` under `a`, `b` succeeds; the chain `a`, `x` is not a prefix of `a`, `b` nor the other
way round, and `Get` along it returned `key 'a' not found` before the call and returns
`a: key 'x' not found` after it, the node under `a` having been created. (2) With the
nodes `A` and `B` stored under `p` and `q` and holding the same empty map
(`B.SetMap(m)` with the map `m` returned by `A.GetMap()`), the structure is a
well-formed tree without shared nodes and the only common prefix of `p`, `z` and `q`, `z`
is the empty chain, which leads to the root; `Set` under `p`, `z` succeeds, and `Get`
along `q`, `z` failed before the call and returns the stored node after it. -/
theorem Set_changes_error_of_other_chain :
    (wellFormed 1 twoFreshHeap (some 0) = true ∧ NoSharedNodes twoFreshHeap (some 0) ∧
      (Nested.Set twoFreshHeap (some 0) (some 1) ["a", "b"]).2 = .ok () ∧
      ¬ (["a", "x"] <+: ["a", "b"]) ∧ ¬ (["a", "b"] <+: ["a", "x"]) ∧
      Nested.Get twoFreshHeap (some 0) ["a", "x"] = .error "key 'a' not found" ∧
      Nested.Get (Nested.Set twoFreshHeap (some 0) (some 1) ["a", "b"]).1 (some 0) ["a", "x"] =
        .error "a: key 'x' not found") ∧
    (Nested.GetMap (Nested.SetMap [{}, {}, {}, {}] (some 1) (.made (some [])) []).1
        (some 1) [] = .ok (.heldBy 1) ∧
      wellFormed 2 emptySiblingsHeap (some 0) = true ∧
      NoSharedNodes emptySiblingsHeap (some 0) ∧
      (Nested.Set emptySiblingsHeap (some 0) (some 3) ["p", "z"]).2 = .ok () ∧
      ¬ (["p", "z"] <+: ["q", "z"]) ∧ ¬ (["q", "z"] <+: ["p", "z"]) ∧
      (∀ p, p <+: ["q", "z"] → p <+: ["p", "z"] →
        ∃ x, lookupChain emptySiblingsHeap (some 0) p = some (some x)) ∧
      Nested.Get emptySiblingsHeap (some 0) ["q", "z"] = .error "q: key 'z' not found" ∧
      Nested.Get (Nested.Set emptySiblingsHeap (some 0) (some 3) ["p", "z"]).1 (some 0)
        ["q", "z"] = .ok (some 3)) :=
  ⟨⟨by decide, twoFreshHeap_noShared, rfl, by decide, by decide, by decide, by decide⟩,
    ⟨by decide, by decide, emptySiblingsHeap_noShared, rfl, by decide, by decide,
      (by
        intro p hp1 hp2
        have hp : p ∈ (["q", "z"] : List String).inits := (List.mem_inits _ _).mpr hp1
        simp only [List.inits, List.map_cons, List.map_nil, List.mem_cons,
          List.mem_nil_iff, or_false] at hp
        rcases hp with rfl | rfl | rfl
        · exact ⟨_, rfl⟩
        · exact absurd hp2 (by decide)
        · exact absurd hp2 (by decide)),
      by decide, by decide⟩⟩

/-- The texts of the values of a map, when each value has one. -/
theorem jsonEncodeEntries_eq_some (rt : GoReflect) : ∀ (m : List (String × GoAny)),
    (∀ k v, (k, v) ∈ m → ∃ t, jsonEncode rt v = some t) →
    jsonEncodeEntries rt m = some (m.map (fun kv => (kv.1, (jsonEncode rt kv.2).getD "")))
  | [], _ => by rw [jsonEncodeEntries]; rfl
  | (k, v) :: rest, hall => by
    obtain ⟨t, ht⟩ := hall k v (List.mem_cons_self _ _)
    rw [jsonEncodeEntries, ht]
    simp only
    rw [jsonEncodeEntries_eq_some rt rest (fun k2 v2 hm => hall k2 v2 (List.mem_cons_of_mem _ hm))]
    simp [ht]

/-- The values of a map have no texts when one of them has none. -/
theorem jsonEncodeEntries_eq_none (rt : GoReflect) : ∀ (m : List (String × GoAny)) (k : String)
    (v : GoAny), (k, v) ∈ m → jsonEncode rt v = none → jsonEncodeEntries rt m = none
  | [], k, v, hm, _ => by simp at hm
  | (k2, v2) :: rest, k, v, hm, hv => by
    rw [jsonEncodeEntries]
    cases h2 : jsonEncode rt v2 with
    | none => rfl
    | some t =>
      simp only
      rcases List.mem_cons.mp hm with heq | hmem
      · simp only [Prod.mk.injEq] at heq
        rw [← heq.2, hv] at h2
        cases h2
      · rw [jsonEncodeEntries_eq_none rt rest k v hmem hv]
        rfl

/-- Two slices of the same length whose elements have the same texts index by index
have the same texts. -/
theorem jsonEncodeElems_congr (rt : GoReflect) : ∀ (xs ys : List GoAny),
    xs.length = ys.length →
    (∀ (i : Nat) x y, xs[i]? = some x → ys[i]? = some y → jsonEncode rt x = jsonEncode rt y) →
    jsonEncodeElems rt xs = jsonEncodeElems rt ys
  | [], [], _, _ => rfl
  | [], _ :: _, hlen, _ => by simp at hlen
  | _ :: _, [], hlen, _ => by simp at hlen
  | x :: xs, y :: ys, hlen, hall => by
    rw [jsonEncodeElems, jsonEncodeElems, hall 0 x y (by simp) (by simp),
      jsonEncodeElems_congr rt xs ys (by simpa using hlen)
        (fun i x2 y2 hx hy => hall (i + 1) x2 y2 (by simpa using hx) (by simpa using hy))]

/-- Two maps with distinct keys, the same keys and the same texts under each key have
the same JSON text. -/
theorem jsonEncode_map_congr (rt : GoReflect) (m1 m2 : List (String × GoAny))
    (hd1 : (m1.map Prod.fst).Nodup) (hd2 : (m2.map Prod.fst).Nodup)
    (hlen : m1.length = m2.length)
    (hall : ∀ k v, (k, v) ∈ m1 → ∃ w, anyLookup m2 k = some w ∧
      jsonEncode rt v = jsonEncode rt w) :
    jsonEncode rt (.map m1) = jsonEncode rt (.map m2) := by
  have hsub : ∀ k ∈ m1.map Prod.fst, k ∈ m2.map Prod.fst := by
    intro k hk
    obtain ⟨⟨k2, v⟩, hmem, rfl⟩ := List.mem_map.mp hk
    obtain ⟨w, hw, _⟩ := hall k2 v hmem
    have hmem2 : (k2, w) ∈ m2 := anyLookup_mem hw
    exact List.mem_map.mpr ⟨(k2, w), hmem2, rfl⟩
  have hkeys := mem_iff_of_nodup_subset hd1 hsub (by simpa using hlen)
  have hback : ∀ k w, (k, w) ∈ m2 → ∃ v, (k, v) ∈ m1 ∧ jsonEncode rt v = jsonEncode rt w := by
    intro k w hmem
    have hk : k ∈ m1.map Prod.fst := (hkeys k).mpr (List.mem_map_of_mem Prod.fst hmem)
    obtain ⟨⟨k2, v⟩, hmem1, hk2⟩ := List.mem_map.mp hk
    simp only at hk2
    subst hk2
    obtain ⟨w2, hw2, henc⟩ := hall k2 v hmem1
    rw [anyLookup_of_mem_nodup hd2 hmem] at hw2
    simp only [Option.some.injEq] at hw2
    subst hw2
    exact ⟨v, hmem1, henc⟩
  rw [jsonEncode, jsonEncode]
  by_cases hsome : ∀ k v, (k, v) ∈ m1 → ∃ t, jsonEncode rt v = some t
  · have hsome2 : ∀ k w, (k, w) ∈ m2 → ∃ t, jsonEncode rt w = some t := by
      intro k w hmem
      obtain ⟨v, hv, henc⟩ := hback k w hmem
      obtain ⟨t, ht⟩ := hsome k v hv
      exact ⟨t, by rw [← henc, ht]⟩
    rw [jsonEncodeEntries_eq_some rt m1 hsome, jsonEncodeEntries_eq_some rt m2 hsome2]
    simp only [Option.map_some', Option.some.injEq]
    have hf1 : (m1.map (fun kv => (kv.1, (jsonEncode rt kv.2).getD ""))).map Prod.fst =
        m1.map Prod.fst := by
      rw [List.map_map]; rfl
    have hf2 : (m2.map (fun kv => (kv.1, (jsonEncode rt kv.2).getD ""))).map Prod.fst =
        m2.map Prod.fst := by
      rw [List.map_map]; rfl
    rw [hf1, hf2, sortKeys_of_perm ((List.perm_ext_iff_of_nodup hd1 hd2).mpr hkeys)]
    have hmapeq : (sortKeys (m2.map Prod.fst)).map (fun k => jsonString k ++ ":" ++
          textLookup (m1.map (fun kv => (kv.1, (jsonEncode rt kv.2).getD ""))) k) =
        (sortKeys (m2.map Prod.fst)).map (fun k => jsonString k ++ ":" ++
          textLookup (m2.map (fun kv => (kv.1, (jsonEncode rt kv.2).getD ""))) k) := by
      apply List.map_congr_left
      intro k hk
      have hk2 : k ∈ m2.map Prod.fst := (sortKeys_perm _).subset hk
      obtain ⟨⟨k3, w⟩, hmem2, hk3⟩ := List.mem_map.mp hk2
      simp only at hk3
      subst hk3
      obtain ⟨v, hmem1, henc⟩ := hback k3 w hmem2
      have ht1 : textLookup (m1.map (fun kv => (kv.1, (jsonEncode rt kv.2).getD ""))) k3 =
          (jsonEncode rt v).getD "" :=
        textLookup_of_mem (hf1.symm ▸ hd1) (List.mem_map.mpr ⟨(k3, v), hmem1, rfl⟩)
      have ht2 : textLookup (m2.map (fun kv => (kv.1, (jsonEncode rt kv.2).getD ""))) k3 =
          (jsonEncode rt w).getD "" :=
        textLookup_of_mem (hf2.symm ▸ hd2) (List.mem_map.mpr ⟨(k3, w), hmem2, rfl⟩)
      rw [ht1, ht2, henc]
    rw [hmapeq]
  · have hex : ∃ k v, (k, v) ∈ m1 ∧ jsonEncode rt v = none := by
      by_contra hno
      apply hsome
      intro k v hmem
      cases hv : jsonEncode rt v with
      | none => exact absurd ⟨k, v, hmem, hv⟩ hno
      | some t => exact ⟨t, rfl⟩
    obtain ⟨k, v, hmem, hv⟩ := hex
    obtain ⟨w, hw, henc⟩ := hall k v hmem
    rw [jsonEncodeEntries_eq_none rt m1 k v hmem hv,
      jsonEncodeEntries_eq_none rt m2 k w (anyLookup_mem hw) (by rw [← henc, hv])]

mutual
/-- Two deeply equal values have the same JSON text, when their mappings have distinct
keys, the first holds no float64 zero and no value of a type outside the model, and
float64 values that are `==` and not zero have the same bits. -/
theorem jsonEncode_of_deepEqual (lib : GoLib) (rt : GoReflect)
    (hfloat : ∀ a b, lib.floatEq a b = true → a = b ∨ (a % 2 ^ 63 = 0 ∧ b % 2 ^ 63 = 0)) :
    ∀ (x y : GoAny), deepEqual lib rt x y = true → x.all distinctKeys = true →
      x.all noFloatZero = true → x.all noOther = true → y.all distinctKeys = true →
      jsonEncode rt x = jsonEncode rt y
  | .nil, y, hd, _, _, _, _ => by
    cases y <;> rw [deepEqual] at hd <;> (intros; contradiction)
  | .int a, y, hd, _, _, _, _ => by
    cases y <;> rw [deepEqual] at hd <;>
      first | (intros; contradiction) | skip
    simp only [beq_iff_eq] at hd
    rw [hd]
  | .uint64 a, y, hd, _, _, _, _ => by
    cases y <;> rw [deepEqual] at hd <;>
      first | (intros; contradiction) | skip
    simp only [beq_iff_eq] at hd
    rw [hd]
  | .bool a, y, hd, _, _, _, _ => by
    cases y <;> rw [deepEqual] at hd <;>
      first | (intros; contradiction) | skip
    simp only [beq_iff_eq] at hd
    rw [hd]
  | .string a, y, hd, _, _, _, _ => by
    cases y <;> rw [deepEqual] at hd <;>
      first | (intros; contradiction) | skip
    simp only [beq_iff_eq] at hd
    rw [hd]
  | .float64 a, y, hd, _, hz, _, _ => by
    cases y <;> rw [deepEqual] at hd <;>
      first | (intros; contradiction) | skip
    have ha : a % 2 ^ 63 ≠ 0 := by simpa [GoAny.all, noFloatZero] using hz
    rcases hfloat _ _ hd with heq | ⟨h0, _⟩
    · rw [heq]
    · exact absurd h0 ha
  | .other typ a, y, _, _, _, hno, _ => by
    simp [GoAny.all, noOther] at hno
  | .slice xs, y, hd, hk, hz, hno, hky => by
    cases y <;> rw [deepEqual] at hd <;>
      first | (intros; contradiction) | skip
    rename_i ys
    simp only [Bool.and_eq_true, beq_iff_eq] at hd
    rw [GoAny.all] at hk hz hno hky
    simp only [Bool.and_eq_true] at hk hz hno hky
    have hpoint := (deepEqualElems_iff lib rt xs ys hd.1).mp hd.2
    have hys := (allElems_iff distinctKeys ys).mp hky.2
    rw [jsonEncode, jsonEncode, jsonEncodeElems_congr rt xs ys hd.1 (fun i x y hx hy =>
      jsonEncodeElems_of_deepEqual lib rt hfloat xs hk.2 hz.2 hno.2 x (List.getElem?_mem hx) y
        (hpoint i x y hx hy) (hys y (List.getElem?_mem hy)))]
  | .map kvs, y, hd, hk, hz, hno, hky => by
    cases y <;> rw [deepEqual] at hd <;>
      first | (intros; contradiction) | skip
    rename_i kvs2
    simp only [Bool.and_eq_true, beq_iff_eq] at hd
    rw [GoAny.all] at hk hz hno hky
    simp only [Bool.and_eq_true] at hk hz hno hky
    have hent := (deepEqualEntries_iff lib rt kvs kvs2).mp hd.2
    have hys := (allEntries_iff distinctKeys kvs2).mp hky.2
    refine jsonEncode_map_congr rt kvs kvs2 (by simpa [distinctKeys] using hk.1)
      (by simpa [distinctKeys] using hky.1) hd.1 ?_
    intro k v hmem
    obtain ⟨w, hw, hdw⟩ := hent k v hmem
    exact ⟨w, hw, jsonEncodeEntries_of_deepEqual lib rt hfloat kvs hk.2 hz.2 hno.2 k v hmem w hdw
      (hys k w (anyLookup_mem hw))⟩
/-- The elements of a slice have the same JSON texts as values deeply equal to them. -/
theorem jsonEncodeElems_of_deepEqual (lib : GoLib) (rt : GoReflect)
    (hfloat : ∀ a b, lib.floatEq a b = true → a = b ∨ (a % 2 ^ 63 = 0 ∧ b % 2 ^ 63 = 0)) :
    ∀ (xs : List GoAny), GoAny.allElems distinctKeys xs = true →
      GoAny.allElems noFloatZero xs = true → GoAny.allElems noOther xs = true →
      ∀ x ∈ xs, ∀ y, deepEqual lib rt x y = true → y.all distinctKeys = true →
        jsonEncode rt x = jsonEncode rt y
  | [], _, _, _ => by simp
  | x :: xs, hk, hz, hno => by
    rw [GoAny.allElems] at hk hz hno
    simp only [Bool.and_eq_true] at hk hz hno
    intro x2 hx2 y hd hky
    rcases List.mem_cons.mp hx2 with rfl | hx2
    · exact jsonEncode_of_deepEqual lib rt hfloat x2 y hd hk.1 hz.1 hno.1 hky
    · exact jsonEncodeElems_of_deepEqual lib rt hfloat xs hk.2 hz.2 hno.2 x2 hx2 y hd hky
/-- The values of a map have the same JSON texts as values deeply equal to them. -/
theorem jsonEncodeEntries_of_deepEqual (lib : GoLib) (rt : GoReflect)
    (hfloat : ∀ a b, lib.floatEq a b = true → a = b ∨ (a % 2 ^ 63 = 0 ∧ b % 2 ^ 63 = 0)) :
    ∀ (kvs : List (String × GoAny)), GoAny.allEntries distinctKeys kvs = true →
      GoAny.allEntries noFloatZero kvs = true → GoAny.allEntries noOther kvs = true →
      ∀ k v, (k, v) ∈ kvs → ∀ w, deepEqual lib rt v w = true → w.all distinctKeys = true →
        jsonEncode rt v = jsonEncode rt w
  | [], _, _, _ => by simp
  | (k, v) :: rest, hk, hz, hno => by
    rw [GoAny.allEntries] at hk hz hno
    simp only [Bool.and_eq_true] at hk hz hno
    intro k2 v2 hmem w hd hky
    rcases List.mem_cons.mp hmem with heq | hmem
    · simp only [Prod.mk.injEq] at heq
      obtain ⟨rfl, rfl⟩ := heq
      exact jsonEncode_of_deepEqual lib rt hfloat v2 w hd hk.1 hz.1 hno.1 hky
    · exact jsonEncodeEntries_of_deepEqual lib rt hfloat rest hk.2 hz.2 hno.2 k2 v2 hmem w hd hky
end

/-- Two float64 values that are `==` have the same bits or are both zero. -/
theorem float64Eq_spec (a b : Nat) (hab : float64Eq a b = true) :
    a = b ∨ (a % 2 ^ 63 = 0 ∧ b % 2 ^ 63 = 0) := by
  unfold float64Eq at hab
  simp only [Bool.and_eq_true, Bool.or_eq_true, beq_iff_eq] at hab
  rcases hab.2 with h1 | h2
  · exact Or.inl h1
  · exact Or.inr h2

/-- C40, amended: two nodes that are `Equals` have the same `ToJSONString`, when the
values that `ToObject` returns for the first hold no float64 zero and no value of a type
other than nil, `int`, `uint64`, `float64`, `bool`, `string`, `[]any` and
`map[string]any`; float64 values that are `==` have equal bits or are both zero, and
the mappings held as scalars have distinct keys, as every Go map has. The order in which
keys were stored and the difference between a nil and an empty container do not show in
`ToObject`, so they show neither in `Equals` nor in the text. -/
theorem Equals_same_JSON (lib : GoLib) (rt : GoReflect) (fuel : Nat) (h : Heap) (a b : Ptr)
    (x y : GoAny)
    (hfloat : ∀ u v, lib.floatEq u v = true → u = v ∨ (u % 2 ^ 63 = 0 ∧ v % 2 ^ 63 = 0))
    (ha : Nested.ToObject fuel h a = some (.ok x)) (hb : Nested.ToObject fuel h b = some (.ok y))
    (hkx : x.all distinctKeys = true) (hky : y.all distinctKeys = true)
    (hz : x.all noFloatZero = true) (hno : x.all noOther = true)
    (heq : Equals lib rt fuel h a b = some (.ok true)) :
    Nested.ToJSONString rt fuel h a = Nested.ToJSONString rt fuel h b := by
  obtain ⟨x2, y2, ha2, hb2, hd⟩ := Equals_eq_ok_iff.mp heq
  rw [ha] at ha2
  rw [hb] at hb2
  simp only [Option.some.injEq, Result.ok.injEq] at ha2 hb2
  subst ha2 hb2
  rw [ToJSONString_of_object ha, ToJSONString_of_object hb,
    jsonEncode_of_deepEqual lib rt hfloat x y hd.symm hkx hz hno hky]

/-- C40, witness: the maps with the keys `a`, `b` stored in different orders have the
same text, and so have the node with the nil map and the node with the empty map. -/
theorem Equals_same_JSON_witness :
    Nested.ToJSONString sampleReflect 2 twoOrdersHeap (some 0) =
        Nested.ToJSONString sampleReflect 2 twoOrdersHeap (some 1) ∧
      Nested.ToJSONString sampleReflect 1 nilAndEmptyHeap (some 0) =
        Nested.ToJSONString sampleReflect 1 nilAndEmptyHeap (some 1) :=
  ⟨Equals_same_JSON ieeeLib sampleReflect 2 twoOrdersHeap (some 0) (some 1)
      (.map [("b", .int 1), ("a", .int 2)]) (.map [("a", .int 2), ("b", .int 1)])
      float64Eq_spec rfl rfl (by decide) (by decide) (by decide) (by decide) (by decide),
    Equals_same_JSON ieeeLib sampleReflect 1 nilAndEmptyHeap (some 0) (some 1)
      (.map []) (.map []) float64Eq_spec rfl rfl (by decide) (by decide) (by decide)
      (by decide) (by decide)⟩

/-- C40 as stated fails: the scalar nodes holding the float64 zero and the float64
negative zero are `Equals`, the two values being `==`, and their texts are `0` and
`-0`. -/
theorem Equals_zeros_differ_in_JSON :
    Equals ieeeLib sampleReflect 1 zerosHeap (some 0) (some 1) = some (.ok true) ∧
      Nested.ToJSONString sampleReflect 1 zerosHeap (some 0) = some (.ok "0") ∧
      Nested.ToJSONString sampleReflect 1 zerosHeap (some 1) = some (.ok "-0") :=
  ⟨by decide, by decide, by decide⟩

/-- The round trip holds when `FromJSONString` makes scalars holding the same value of
the text and of the text that `ToJSONString` returns for the first scalar, and the value
is deeply equal to itself. -/
theorem roundTrips_of_scalars {lib : GoLib} {rt : GoReflect} {h : Heap} {s t : String}
    {v : GoAny}
    (h1 : FromJSONString lib h s = (h ++ [{ isValue := true, value := v }], some h.length))
    (ht : jsonEncode rt v = some t ∨ ∃ u, v = .string u ∧ t = jsonEscape u)
    (hhead : (∃ u, v = .string u ∧ t = jsonEscape u) ∨ t.data.head? ≠ some '"')
    (h2 : FromJSONString lib (h ++ [{ isValue := true, value := v }]) t =
      (h ++ [({ isValue := true, value := v } : Nested)] ++ [{ isValue := true, value := v }],
        some (h ++ [({ isValue := true, value := v } : Nested)]).length))
    (hself : deepEqual lib rt v v = true) : RoundTrips lib rt h s := by
  refine ⟨1, t, ?_, ?_⟩
  · rw [h1]
    have hobj : Nested.ToObject 1 (h ++ [{ isValue := true, value := v }]) (some h.length) =
        some (.ok v) := by
      have := ToObject_scalar_appended h [] v
      simpa using this
    rw [ToJSONString_of_object hobj]
    rcases hhead with ⟨u, rfl, rfl⟩ | hq
    · simp only [jsonEncode, jsonString]
      rw [trim_line_quoted]
    · rcases ht with ht | ⟨u, rfl, rfl⟩
      · rw [ht]
        simp only
        rw [trim_line_of_head hq]
      · simp only [jsonEncode, jsonString]
        rw [trim_line_quoted]
  · rw [h1]
    simp only
    rw [h2]
    simp only
    rw [Equals_eq_ok_iff]
    refine ⟨v, v, ?_, ?_, hself.symm⟩
    · have := ToObject_scalar_appended (h ++ [{ isValue := true, value := v }]) [] v
      simpa using this
    · exact ToObject_scalar_appended h [{ isValue := true, value := v }] v

/-- What `parseIntDec` returns lies in the range of the bit size. -/
theorem parseIntDec_range {bitSize : Nat} {s : String} {n : Int}
    (hp : parseIntDec bitSize s = some n) :
    decimalValue s = some n ∧ -(2 ^ (bitSize - 1) : Int) ≤ n ∧ n < (2 ^ (bitSize - 1) : Int) := by
  unfold parseIntDec at hp
  cases hd : decimalValue s with
  | none => simp [hd] at hp
  | some m =>
    simp only [hd] at hp
    split at hp
    · rename_i hr
      simp only [Option.some.injEq] at hp
      subst hp
      exact ⟨rfl, hr⟩
    · cases hp

/-- For a text `s` that is not a JSON object or array, the round trip
`Equals(FromJSONString(ToJSONString(FromJSONString(s))), FromJSONString(s))` is true
when `s` is read as an integer (a decimal text in the 32-bit range, `ParseInt` being the
decimal parser with bit size 32 and no decimal text being an object or an array), when
`s` is read as a boolean whose text `true` or `false` is read back as the same boolean,
and when `s` is read as a string and has no double quote, backslash, control character
or separator U+2028, U+2029. -/
theorem roundTrips_scalar_texts (lib : GoLib) (rt : GoReflect) (h : Heap) (s : String)
    (hmap : lib.unmarshalMap s = none) (hslice : lib.unmarshalSlice s = none)
    (hint : lib.parseInt = parseIntDec 32)
    (hnum : ∀ t, decimalValue t ≠ none →
      lib.unmarshalMap t = none ∧ lib.unmarshalSlice t = none) :
    (∀ n, lib.parseInt s = some n → RoundTrips lib rt h s) ∧
    (∀ b t, lib.parseInt s = none → lib.parseFloat s = none → lib.parseBool s = some b →
      t = (if b = true then "true" else "false") →
      lib.unmarshalMap t = none → lib.unmarshalSlice t = none → lib.parseFloat t = none →
      lib.parseBool t = some b → RoundTrips lib rt h s) ∧
    (lib.parseInt s = none → lib.parseFloat s = none → lib.parseBool s = none →
      (∀ c ∈ s.data,
        c.toNat ≠ 34 ∧ c.toNat ≠ 92 ∧ 32 ≤ c.toNat ∧ c.toNat ≠ 8232 ∧ c.toNat ≠ 8233) →
      RoundTrips lib rt h s) := by
  obtain ⟨v, hres, hv⟩ := FromJSONString_fallback lib h s hmap hslice
  refine ⟨?_, ?_, ?_⟩
  · intro n hn
    rw [hn] at hv
    subst hv
    have hn2 : parseIntDec 32 s = some n := by rw [← hint]; exact hn
    obtain ⟨_, hrange⟩ := parseIntDec_range hn2
    have htext := decimalValue_toString n
    obtain ⟨hm2, hs2⟩ := hnum (toString n) (by rw [htext]; exact Option.some_ne_none n)
    obtain ⟨v2, hres2, hv2⟩ := FromJSONString_fallback lib
      (h ++ [{ isValue := true, value := .int n }]) (toString n) hm2 hs2
    have hp : lib.parseInt (toString n) = some n := by
      rw [hint]
      simp only [parseIntDec, htext]
      rw [if_pos hrange]
    rw [hp] at hv2
    subst hv2
    exact roundTrips_of_scalars hres (Or.inl rfl) (Or.inr (intToString_head n)) hres2
      (by rw [deepEqual]; simp)
  · intro b t hi hf hb ht hm2 hs2 hf2 hb2
    rw [hi, hf, hb] at hv
    subst hv
    obtain ⟨v2, hres2, hv2⟩ := FromJSONString_fallback lib
      (h ++ [{ isValue := true, value := .bool b }]) t hm2 hs2
    have hi2 : lib.parseInt t = none := by
      rw [hint, ht]
      cases b <;> decide
    rw [hi2, hf2, hb2] at hv2
    subst hv2
    refine roundTrips_of_scalars hres (Or.inl ?_) (Or.inr ?_) hres2 (by rw [deepEqual]; simp)
    · rw [ht]; rfl
    · rw [ht]
      cases b <;> decide
  · intro hi hf hb hsafe
    rw [hi, hf, hb] at hv
    subst hv
    have hesc := (jsonEscape_eq_self_iff s).mpr hsafe
    obtain ⟨v2, hres2, hv2⟩ := FromJSONString_fallback lib
      (h ++ [{ isValue := true, value := .string s }]) s hmap hslice
    rw [hi, hf, hb] at hv2
    subst hv2
    exact roundTrips_of_scalars hres (Or.inr ⟨s, rfl, hesc.symm⟩) (Or.inl ⟨s, rfl, hesc.symm⟩)
      hres2 (by rw [deepEqual]; simp)

/-- C37, witness: the mapping `a: 1, b: 2` of the documentation. -/
theorem FromObject_map_isEmpty_witness :
    ∃ n, deref (FromObject sampleLib [] (.map [("a", .int 1), ("b", .int 2)])).1
        (FromObject sampleLib [] (.map [("a", .int 1), ("b", .int 2)])).2 = some n ∧
      n.IsNested = true ∧
      (n.IsEmpty = true ↔ [("a", GoAny.int 1), ("b", GoAny.int 2)] = []) :=
  FromObject_map_isEmpty sampleLib [] [("a", .int 1), ("b", .int 2)]

theorem narrowEntries_keys (lib : GoLib) : ∀ (kvs : List (String × GoAny)),
    (narrowEntries lib kvs).map Prod.fst = kvs.map Prod.fst
  | [] => by simp [narrowEntries]
  | (k, v) :: rest => by simp [narrowEntries, narrowEntries_keys lib rest]

theorem narrowEntries_length (lib : GoLib) (kvs : List (String × GoAny)) :
    (narrowEntries lib kvs).length = kvs.length := by
  have := congrArg List.length (narrowEntries_keys lib kvs)
  simpa using this

theorem narrowElems_length (lib : GoLib) : ∀ (xs : List GoAny),
    (narrowElems lib xs).length = xs.length
  | [] => by simp [narrowElems]
  | x :: xs => by simp [narrowElems, narrowElems_length lib xs]

theorem narrowElems_getElem? (lib : GoLib) : ∀ (xs : List GoAny) (i : Nat),
    (narrowElems lib xs)[i]? = (xs[i]?).map (narrow lib)
  | [], i => by simp [narrowElems]
  | x :: xs, 0 => by simp [narrowElems]
  | x :: xs, i + 1 => by simp [narrowElems, narrowElems_getElem? lib xs i]

theorem anyLookup_narrowEntries (lib : GoLib) : ∀ (kvs : List (String × GoAny)) (k : String),
    anyLookup (narrowEntries lib kvs) k = (anyLookup kvs k).map (narrow lib)
  | [], k => by simp [narrowEntries, anyLookup]
  | (k2, v) :: rest, k => by
    simp only [narrowEntries, anyLookup]
    by_cases hk : k2 = k
    · simp [hk]
    · simp [hk, anyLookup_narrowEntries lib rest k]

theorem mem_narrowEntries (lib : GoLib) : ∀ (kvs : List (String × GoAny)) (k : String)
    (v2 : GoAny), (k, v2) ∈ narrowEntries lib kvs → ∃ v, (k, v) ∈ kvs ∧ v2 = narrow lib v
  | [], k, v2, hm => by simp [narrowEntries] at hm
  | (k0, v0) :: rest, k, v2, hm => by
    simp only [narrowEntries, List.mem_cons, Prod.mk.injEq] at hm
    rcases hm with ⟨rfl, rfl⟩ | hm
    · exact ⟨v0, by simp, rfl⟩
    · obtain ⟨v, hv, he⟩ := mem_narrowEntries lib rest k v2 hm
      exact ⟨v, List.mem_cons_of_mem _ hv, he⟩

mutual
/-- The node that `FromObject` makes of a value is the node it makes of the value it
keeps. -/
theorem FromObject_narrow (lib : GoLib) : ∀ (v : GoAny) (h : Heap),
    FromObject lib h (narrow lib v) = FromObject lib h v
  | .nil, h => by rw [narrow]
  | .int n, h => by rw [narrow]
  | .uint64 n, h => by rw [narrow]
  | .bool b, h => by rw [narrow]
  | .string s, h => by rw [narrow]
  | .other typ id, h => by rw [narrow]
  | .float64 x, h => by
    rw [narrow]
    by_cases hc : lib.floatEq x (lib.intToFloat (lib.floatToInt x)) = true
    · rw [if_pos hc]
      conv_rhs => rw [FromObject]
      rw [if_pos hc, FromObject]
    · rw [if_neg hc]
  | .slice xs, h => by
    rw [narrow, FromObject, FromObject]
    simp only [fromObjectElems_narrow lib xs h none]
  | .map kvs, h => by
    rw [narrow, FromObject, FromObject]
    simp only [fromObjectEntries_narrow lib kvs h []]
theorem fromObjectElems_narrow (lib : GoLib) : ∀ (xs : List GoAny) (h : Heap)
    (array : Option (List Ptr)),
    fromObjectElems lib h array (narrowElems lib xs) = fromObjectElems lib h array xs
  | [], h, array => by rw [narrowElems]
  | x :: xs, h, array => by
    rw [narrowElems, fromObjectElems, fromObjectElems, FromObject_narrow lib x h,
      fromObjectElems_narrow lib xs]
theorem fromObjectEntries_narrow (lib : GoLib) : ∀ (kvs : List (String × GoAny)) (h : Heap)
    (nested : GoMap),
    fromObjectEntries lib h nested (narrowEntries lib kvs) = fromObjectEntries lib h nested kvs
  | [], h, nested => by rw [narrowEntries]
  | (k, v) :: rest, h, nested => by
    rw [narrowEntries, fromObjectEntries, fromObjectEntries, FromObject_narrow lib v h,
      fromObjectEntries_narrow lib rest]
end

mutual
/-- In the value that `FromObject` keeps no float64 is replaced by an integer. -/
theorem narrow_keptAsIs (lib : GoLib) : ∀ (v : GoAny), (narrow lib v).all (keptAsIs lib) = true
  | .nil => by rw [narrow]; rfl
  | .int n => by rw [narrow]; rfl
  | .uint64 n => by rw [narrow]; rfl
  | .bool b => by rw [narrow]; rfl
  | .string s => by rw [narrow]; rfl
  | .other typ id => by rw [narrow]; rfl
  | .float64 x => by
    rw [narrow]
    by_cases hc : lib.floatEq x (lib.intToFloat (lib.floatToInt x)) = true
    · rw [if_pos hc]; rfl
    · rw [if_neg hc]
      simp only [GoAny.all, keptAsIs]
      simpa using hc
  | .slice xs => by
    rw [narrow, GoAny.all]
    simp only [keptAsIs, Bool.true_and]
    exact narrowElems_keptAsIs lib xs
  | .map kvs => by
    rw [narrow, GoAny.all]
    simp only [keptAsIs, Bool.true_and]
    exact narrowEntries_keptAsIs lib kvs
theorem narrowElems_keptAsIs (lib : GoLib) : ∀ (xs : List GoAny),
    GoAny.allElems (keptAsIs lib) (narrowElems lib xs) = true
  | [] => by rw [narrowElems]; rfl
  | x :: xs => by
    rw [narrowElems, GoAny.allElems, narrow_keptAsIs lib x, narrowElems_keptAsIs lib xs]
    rfl
theorem narrowEntries_keptAsIs (lib : GoLib) : ∀ (kvs : List (String × GoAny)),
    GoAny.allEntries (keptAsIs lib) (narrowEntries lib kvs) = true
  | [] => by rw [narrowEntries]; rfl
  | (k, v) :: rest => by
    rw [narrowEntries, GoAny.allEntries, narrow_keptAsIs lib v, narrowEntries_keptAsIs lib rest]
    rfl
end

mutual
/-- The mappings of the value that `FromObject` keeps have the keys they had. -/
theorem narrow_distinctKeys (lib : GoLib) : ∀ (v : GoAny), v.all distinctKeys = true →
    (narrow lib v).all distinctKeys = true
  | .nil, _ => by rw [narrow]; rfl
  | .int n, _ => by rw [narrow]; rfl
  | .uint64 n, _ => by rw [narrow]; rfl
  | .bool b, _ => by rw [narrow]; rfl
  | .string s, _ => by rw [narrow]; rfl
  | .other typ id, _ => by rw [narrow]; rfl
  | .float64 x, _ => by
    rw [narrow]
    split <;> rfl
  | .slice xs, hk => by
    rw [GoAny.all] at hk
    simp only [Bool.and_eq_true] at hk
    rw [narrow, GoAny.all]
    simp only [distinctKeys, Bool.true_and]
    exact narrowElems_distinctKeys lib xs hk.2
  | .map kvs, hk => by
    rw [GoAny.all] at hk
    simp only [Bool.and_eq_true] at hk
    rw [narrow, GoAny.all]
    simp only [Bool.and_eq_true]
    refine ⟨?_, narrowEntries_distinctKeys lib kvs hk.2⟩
    simp only [distinctKeys, narrowEntries_keys] at hk ⊢
    exact hk.1
theorem narrowElems_distinctKeys (lib : GoLib) : ∀ (xs : List GoAny),
    GoAny.allElems distinctKeys xs = true →
    GoAny.allElems distinctKeys (narrowElems lib xs) = true
  | [], _ => by rw [narrowElems]; rfl
  | x :: xs, hk => by
    rw [GoAny.allElems] at hk
    simp only [Bool.and_eq_true] at hk
    rw [narrowElems, GoAny.allElems, narrow_distinctKeys lib x hk.1,
      narrowElems_distinctKeys lib xs hk.2]
    rfl
theorem narrowEntries_distinctKeys (lib : GoLib) : ∀ (kvs : List (String × GoAny)),
    GoAny.allEntries distinctKeys kvs = true →
    GoAny.allEntries distinctKeys (narrowEntries lib kvs) = true
  | [], _ => by rw [narrowEntries]; rfl
  | (k, v) :: rest, hk => by
    rw [GoAny.allEntries] at hk
    simp only [Bool.and_eq_true] at hk
    rw [narrowEntries, GoAny.allEntries, narrow_distinctKeys lib v hk.1,
      narrowEntries_distinctKeys lib rest hk.2]
    rfl
end

/-- The object of the node that `FromObject` makes of a value whose mappings have
distinct keys is the value that `FromObject` keeps, also after further cells have been
allocated. -/
theorem ToObject_FromObject_narrow (lib : GoLib) (v : GoAny) (hk : v.all distinctKeys = true) :
    ∃ fuel, ∀ (h t : Heap),
      Nested.ToObject fuel ((FromObject lib h v).1 ++ t) (FromObject lib h v).2 =
        some (.ok (narrow lib v)) := by
  obtain ⟨fuel, hf⟩ := ToObject_FromObject_eq lib (narrow lib v) (narrow_distinctKeys lib v hk)
    (narrow_keptAsIs lib v)
  refine ⟨fuel, fun h t => ?_⟩
  have := hf h t
  rw [FromObject_narrow] at this
  exact this

/-- A float64 zero, positive or negative, is kept as the integer 0. -/
theorem narrow_zero (lib : GoLib) (hto : lib.floatToInt = float64ToInt)
    (hfrom : lib.intToFloat = intToFloat64) (heq : lib.floatEq = float64Eq) (x : Nat)
    (hx : x % 2 ^ 63 = 0) : narrow lib (.float64 x) = .int 0 := by
  have hexp : float64Exp x = 0 := by
    unfold float64Exp
    omega
  have hT : float64Trunc x = 0 := by
    unfold float64Trunc
    rw [hexp, if_pos (by norm_num)]
  have hw : float64Whole x = 0 := by
    unfold float64Whole
    rw [hT]
    split <;> simp
  have hi : float64ToInt x = 0 := by
    unfold float64ToInt
    rw [hexp, if_neg (by norm_num), hw, if_pos (by norm_num)]
  have hback : intToFloat64 0 = 0 := by decide
  have hnan : ¬ (x / 2 ^ 52 % 2048 = 2047 ∧ x % 2 ^ 52 ≠ 0) := by
    unfold float64Exp at hexp
    omega
  have heq0 : float64Eq x 0 = true := by
    simp only [float64Eq, hnan, hx, decide_False, Bool.not_false, Bool.true_and, beq_self_eq_true,
      Bool.and_true, Bool.or_true, Nat.zero_div, Nat.zero_mod]
    decide
  rw [narrow, hto, hfrom, heq, hi, hback, if_pos heq0]

mutual
/-- Reading the integers of the value that `FromObject` keeps as float64 and keeping the
result gives the same value, for a value as `json.Unmarshal` stores it. -/
theorem narrow_widen_narrow (lib : GoLib) (hto : lib.floatToInt = float64ToInt)
    (hfrom : lib.intToFloat = intToFloat64) (heq : lib.floatEq = float64Eq) :
    ∀ (v : GoAny), v.all decoded = true → narrow lib (widen lib (narrow lib v)) = narrow lib v
  | .nil, _ => by rw [narrow, widen, narrow]
  | .bool b, _ => by rw [narrow, widen, narrow]
  | .string s, _ => by rw [narrow, widen, narrow]
  | .int n, hd => by simp [GoAny.all, decoded] at hd
  | .uint64 n, hd => by simp [GoAny.all, decoded] at hd
  | .other typ id, hd => by simp [GoAny.all, decoded] at hd
  | .float64 x, _ => by
    by_cases hc : lib.floatEq x (lib.intToFloat (lib.floatToInt x)) = true
    · have hn : narrow lib (.float64 x) = .int (lib.floatToInt x) := by
        rw [narrow, if_pos hc]
      rw [hn, widen]
      have hc2 := hc
      rw [heq] at hc2
      rcases float64Eq_spec _ _ hc2 with hxy | ⟨hx0, hy0⟩
      · rw [← hxy, hn]
      · rw [narrow_zero lib hto hfrom heq _ hy0]
        have := narrow_zero lib hto hfrom heq x hx0
        rw [hn] at this
        exact this.symm
    · have hn : narrow lib (.float64 x) = .float64 x := by
        rw [narrow, if_neg hc]
      rw [hn, widen, hn]
  | .slice xs, hd => by
    rw [GoAny.all] at hd
    simp only [Bool.and_eq_true] at hd
    rw [narrow, widen, narrow, narrowElems_widen_narrow lib hto hfrom heq xs hd.2]
  | .map kvs, hd => by
    rw [GoAny.all] at hd
    simp only [Bool.and_eq_true] at hd
    rw [narrow, widen, narrow, narrowEntries_widen_narrow lib hto hfrom heq kvs hd.2]
theorem narrowElems_widen_narrow (lib : GoLib) (hto : lib.floatToInt = float64ToInt)
    (hfrom : lib.intToFloat = intToFloat64) (heq : lib.floatEq = float64Eq) :
    ∀ (xs : List GoAny), GoAny.allElems decoded xs = true →
      narrowElems lib (widenElems lib (narrowElems lib xs)) = narrowElems lib xs
  | [], _ => by rw [narrowElems, widenElems, narrowElems]
  | x :: xs, hd => by
    rw [GoAny.allElems] at hd
    simp only [Bool.and_eq_true] at hd
    rw [narrowElems, widenElems, narrowElems, narrow_widen_narrow lib hto hfrom heq x hd.1,
      narrowElems_widen_narrow lib hto hfrom heq xs hd.2]
theorem narrowEntries_widen_narrow (lib : GoLib) (hto : lib.floatToInt = float64ToInt)
    (hfrom : lib.intToFloat = intToFloat64) (heq : lib.floatEq = float64Eq) :
    ∀ (kvs : List (String × GoAny)), GoAny.allEntries decoded kvs = true →
      narrowEntries lib (widenEntries lib (narrowEntries lib kvs)) = narrowEntries lib kvs
  | [], _ => by rw [narrowEntries, widenEntries, narrowEntries]
  | (k, v) :: rest, hd => by
    rw [GoAny.allEntries] at hd
    simp only [Bool.and_eq_true] at hd
    rw [narrowEntries, widenEntries, narrowEntries, narrow_widen_narrow lib hto hfrom heq v hd.1,
      narrowEntries_widen_narrow lib hto hfrom heq rest hd.2]
end

mutual
/-- The values that `FromObject` keeps of two deeply equal values are deeply equal. -/
theorem narrow_deepEqual (lib : GoLib) (rt : GoReflect) (hto : lib.floatToInt = float64ToInt)
    (hfrom : lib.intToFloat = intToFloat64) (heq : lib.floatEq = float64Eq) :
    ∀ (x y : GoAny), deepEqual lib rt x y = true →
      deepEqual lib rt (narrow lib x) (narrow lib y) = true
  | .nil, y, hd => by
    cases y <;> rw [deepEqual] at hd <;> first | (intros; contradiction) | skip
    rw [narrow, deepEqual]
  | .int a, y, hd => by
    cases y <;> rw [deepEqual] at hd <;> first | (intros; contradiction) | skip
    rw [narrow, narrow, deepEqual]
    exact hd
  | .uint64 a, y, hd => by
    cases y <;> rw [deepEqual] at hd <;> first | (intros; contradiction) | skip
    rw [narrow, narrow, deepEqual]
    exact hd
  | .bool a, y, hd => by
    cases y <;> rw [deepEqual] at hd <;> first | (intros; contradiction) | skip
    rw [narrow, narrow, deepEqual]
    exact hd
  | .string a, y, hd => by
    cases y <;> rw [deepEqual] at hd <;> first | (intros; contradiction) | skip
    rw [narrow, narrow, deepEqual]
    exact hd
  | .other typ a, y, hd => by
    cases y <;> rw [deepEqual] at hd <;> first | (intros; contradiction) | skip
    rw [narrow, narrow, deepEqual]
    exact hd
  | .float64 a, y, hd => by
    cases y <;> rw [deepEqual] at hd <;> first | (intros; contradiction) | skip
    rename_i b
    have hd2 := hd
    rw [heq] at hd2
    rcases float64Eq_spec _ _ hd2 with hab | ⟨ha0, hb0⟩
    · subst hab
      rw [narrow]
      split
      · rw [deepEqual]
        simp
      · rw [deepEqual]
        exact hd
    · rw [narrow_zero lib hto hfrom heq a ha0, narrow_zero lib hto hfrom heq b hb0, deepEqual]
      simp
  | .slice xs, y, hd => by
    cases y <;> rw [deepEqual] at hd <;> first | (intros; contradiction) | skip
    rename_i ys
    simp only [Bool.and_eq_true, beq_iff_eq] at hd
    have hpoint := (deepEqualElems_iff lib rt xs ys hd.1).mp hd.2
    rw [narrow, narrow, deepEqual]
    simp only [Bool.and_eq_true, beq_iff_eq]
    have hlen : (narrowElems lib xs).length = (narrowElems lib ys).length := by
      rw [narrowElems_length, narrowElems_length, hd.1]
    refine ⟨hlen, (deepEqualElems_iff lib rt _ _ hlen).mpr ?_⟩
    intro i x2 y2 hx2 hy2
    rw [narrowElems_getElem?] at hx2 hy2
    cases hx : xs[i]? with
    | none => simp [hx] at hx2
    | some x =>
      cases hy : ys[i]? with
      | none => simp [hy] at hy2
      | some y =>
        simp only [hx, hy, Option.map_some', Option.some.injEq] at hx2 hy2
        subst hx2 hy2
        exact narrowElems_deepEqual lib rt hto hfrom heq xs x (List.getElem?_mem hx) y
          (hpoint i x y hx hy)
  | .map kvs, y, hd => by
    cases y <;> rw [deepEqual] at hd <;> first | (intros; contradiction) | skip
    rename_i kvs2
    simp only [Bool.and_eq_true, beq_iff_eq] at hd
    have hent := (deepEqualEntries_iff lib rt kvs kvs2).mp hd.2
    rw [narrow, narrow, deepEqual]
    simp only [Bool.and_eq_true, beq_iff_eq]
    refine ⟨by rw [narrowEntries_length, narrowEntries_length, hd.1],
      (deepEqualEntries_iff lib rt _ _).mpr ?_⟩
    intro k v2 hmem
    obtain ⟨v, hv, rfl⟩ := mem_narrowEntries lib kvs k v2 hmem
    obtain ⟨w, hw, hdw⟩ := hent k v hv
    refine ⟨narrow lib w, by rw [anyLookup_narrowEntries, hw]; rfl, ?_⟩
    exact narrowEntries_deepEqual lib rt hto hfrom heq kvs k v hv w hdw
theorem narrowElems_deepEqual (lib : GoLib) (rt : GoReflect)
    (hto : lib.floatToInt = float64ToInt) (hfrom : lib.intToFloat = intToFloat64)
    (heq : lib.floatEq = float64Eq) :
    ∀ (xs : List GoAny), ∀ x ∈ xs, ∀ y, deepEqual lib rt x y = true →
      deepEqual lib rt (narrow lib x) (narrow lib y) = true
  | [] => by simp
  | x :: xs => by
    intro x2 hx2 y hd
    rcases List.mem_cons.mp hx2 with rfl | hx2
    · exact narrow_deepEqual lib rt hto hfrom heq x2 y hd
    · exact narrowElems_deepEqual lib rt hto hfrom heq xs x2 hx2 y hd
theorem narrowEntries_deepEqual (lib : GoLib) (rt : GoReflect)
    (hto : lib.floatToInt = float64ToInt) (hfrom : lib.intToFloat = intToFloat64)
    (heq : lib.floatEq = float64Eq) :
    ∀ (kvs : List (String × GoAny)), ∀ k v, (k, v) ∈ kvs → ∀ w, deepEqual lib rt v w = true →
      deepEqual lib rt (narrow lib v) (narrow lib w) = true
  | [] => by simp
  | (k, v) :: rest => by
    intro k2 v2 hmem w hd
    rcases List.mem_cons.mp hmem with heq2 | hmem
    · simp only [Prod.mk.injEq] at heq2
      obtain ⟨rfl, rfl⟩ := heq2
      exact narrow_deepEqual lib rt hto hfrom heq v2 w hd
    · exact narrowEntries_deepEqual lib rt hto hfrom heq rest k2 v2 hmem w hd
end

mutual
/-- A test that follows from another holds throughout a value when the other does. -/
theorem GoAny.all_mono {p q : GoAny → Bool} (hpq : ∀ v, p v = true → q v = true) :
    ∀ (v : GoAny), v.all p = true → v.all q = true
  | .nil, hp => by rw [GoAny.all] at hp ⊢; exact hpq _ hp
  | .int n, hp => by rw [GoAny.all] at hp ⊢; exact hpq _ hp
  | .uint64 n, hp => by rw [GoAny.all] at hp ⊢; exact hpq _ hp
  | .float64 x, hp => by rw [GoAny.all] at hp ⊢; exact hpq _ hp
  | .bool b, hp => by rw [GoAny.all] at hp ⊢; exact hpq _ hp
  | .string s, hp => by rw [GoAny.all] at hp ⊢; exact hpq _ hp
  | .other typ id, hp => by rw [GoAny.all] at hp ⊢; exact hpq _ hp
  | .slice xs, hp => by
    rw [GoAny.all] at hp ⊢
    simp only [Bool.and_eq_true] at hp ⊢
    exact ⟨hpq _ hp.1, GoAny.allElems_mono hpq xs hp.2⟩
  | .map kvs, hp => by
    rw [GoAny.all] at hp ⊢
    simp only [Bool.and_eq_true] at hp ⊢
    exact ⟨hpq _ hp.1, GoAny.allEntries_mono hpq kvs hp.2⟩
theorem GoAny.allElems_mono {p q : GoAny → Bool} (hpq : ∀ v, p v = true → q v = true) :
    ∀ (xs : List GoAny), GoAny.allElems p xs = true → GoAny.allElems q xs = true
  | [], _ => by rw [GoAny.allElems]
  | x :: xs, hp => by
    rw [GoAny.allElems] at hp ⊢
    simp only [Bool.and_eq_true] at hp ⊢
    exact ⟨GoAny.all_mono hpq x hp.1, GoAny.allElems_mono hpq xs hp.2⟩
theorem GoAny.allEntries_mono {p q : GoAny → Bool} (hpq : ∀ v, p v = true → q v = true) :
    ∀ (kvs : List (String × GoAny)), GoAny.allEntries p kvs = true →
      GoAny.allEntries q kvs = true
  | [], _ => by rw [GoAny.allEntries]
  | (k, v) :: rest, hp => by
    rw [GoAny.allEntries] at hp ⊢
    simp only [Bool.and_eq_true] at hp ⊢
    exact ⟨GoAny.all_mono hpq v hp.1, GoAny.allEntries_mono hpq rest hp.2⟩
end

/-- The mappings of a value as `json.Unmarshal` stores it have distinct keys. -/
theorem distinctKeys_of_decoded (v : GoAny) (hd : v.all decoded = true) :
    v.all distinctKeys = true := by
  refine GoAny.all_mono ?_ v hd
  intro x hx
  cases x <;> first | rfl | exact hx

/-- The text of a mapping or a sequence does not begin with a double quote. -/
theorem jsonEncode_container_head (rt : GoReflect) (v : GoAny) (t : String)
    (hv : (∃ kvs, v = .map kvs) ∨ (∃ xs, v = .slice xs)) (ht : jsonEncode rt v = some t) :
    t.data.head? ≠ some '"' := by
  rcases hv with ⟨kvs, rfl⟩ | ⟨xs, rfl⟩
  · rw [jsonEncode] at ht
    cases he : jsonEncodeEntries rt kvs with
    | none => simp [he] at ht
    | some parts =>
      simp only [he, Option.map_some', Option.some.injEq] at ht
      subst ht
      simp only [String.data_append]
      intro hc
      simp at hc
  · rw [jsonEncode] at ht
    cases he : jsonEncodeElems rt xs with
    | none => simp [he] at ht
    | some parts =>
      simp only [he, Option.map_some', Option.some.injEq] at ht
      subst ht
      simp only [String.data_append]
      intro hc
      simp at hc

/-- The round trip holds when `FromJSONString` makes of the text the node of a mapping or
a sequence, of the text that `ToJSONString` returns for it the node of a second value,
and the values that `FromObject` keeps of the two are deeply equal. -/
theorem roundTrips_of_containers {lib : GoLib} {rt : GoReflect} {h : Heap} {s t : String}
    {v v2 : GoAny} (h1 : FromJSONString lib h s = FromObject lib h v)
    (hk : v.all distinctKeys = true) (hk2 : v2.all distinctKeys = true)
    (ht : jsonEncode rt (narrow lib v) = some t) (hhead : t.data.head? ≠ some '"')
    (h2 : ∀ h3, FromJSONString lib h3 t = FromObject lib h3 v2)
    (hd : deepEqual lib rt (narrow lib v2) (narrow lib v) = true) : RoundTrips lib rt h s := by
  obtain ⟨f1, hf1⟩ := ToObject_FromObject_narrow lib v hk
  obtain ⟨f2, hf2⟩ := ToObject_FromObject_narrow lib v2 hk2
  refine ⟨max f1 f2, t, ?_, ?_⟩
  · rw [h1]
    have hobj : Nested.ToObject (max f1 f2) (FromObject lib h v).1 (FromObject lib h v).2 =
        some (.ok (narrow lib v)) := by
      have := hf1 h []
      rw [List.append_nil] at this
      exact ToObject_mono (Nat.le_max_left f1 f2) this
    rw [ToJSONString_of_object hobj, ht]
    simp only
    rw [trim_line_of_head hhead]
  · rw [h1, h2]
    rw [Equals_eq_ok_iff]
    obtain ⟨tail, htail⟩ := FromObject_extends lib v2 (FromObject lib h v).1
    refine ⟨narrow lib v2, narrow lib v, ?_, ?_, hd.symm⟩
    · have := hf2 (FromObject lib h v).1 []
      rw [List.append_nil] at this
      exact ToObject_mono (Nat.le_max_right f1 f2) this
    · rw [htail]
      exact ToObject_mono (Nat.le_max_left f1 f2) (hf1 h tail)

/-- The round trip fails when `FromJSONString` makes a scalar of the text and a scalar
holding a value that is not deeply equal to the first of the text that `ToJSONString`
returns for it. -/
theorem not_roundTrips_of_scalars {lib : GoLib} {rt : GoReflect} {s t : String} {v w : GoAny}
    (h1 : FromJSONString lib [] s = ([{ isValue := true, value := v }], some 0))
    (ht : (match jsonEncode rt v with
      | some objString => trim (objString ++ "\n")
      | none => .ok "") = Result.ok t)
    (h2 : FromJSONString lib [{ isValue := true, value := v }] t =
      ([{ isValue := true, value := v }, { isValue := true, value := w }], some 1))
    (hne : deepEqual lib rt w v = false) : ¬ RoundTrips lib rt [] s := by
  rintro ⟨fuel, t2, ht2, he⟩
  cases fuel with
  | zero => simp [Nested.ToJSONString, Nested.ToObject] at ht2
  | succ fuel =>
    rw [h1] at ht2 he
    simp only at ht2 he
    have hobj : Nested.ToObject (fuel + 1) [{ isValue := true, value := v }] (some 0) =
        some (.ok v) :=
      ToObject_value (n := { isValue := true, value := v }) fuel rfl rfl
    rw [ToJSONString_of_object hobj] at ht2
    have ht3 : t2 = t := (Result.ok.inj (ht.symm.trans (Option.some.inj ht2))).symm
    subst ht3
    rw [h2] at he
    simp only at he
    obtain ⟨a, b, ha, hb, hd⟩ := Equals_eq_ok_iff.mp he
    rw [ToObject_value (n := { isValue := true, value := w }) fuel rfl rfl] at ha
    rw [ToObject_value (n := { isValue := true, value := v }) fuel rfl rfl] at hb
    simp only [Option.some.injEq, Result.ok.injEq] at ha hb
    subst ha hb
    rw [hne] at hd
    cases hd

/-- C33, amended. The round trip
`Equals(FromJSONString(ToJSONString(FromJSONString(s))), FromJSONString(s))` is true:
(1) when `s` is a JSON object, that is, `json.Unmarshal` reads it into a mapping, the
conversions between `float64` and `int` being those of a 64-bit platform, provided
`json.Unmarshal` reads the text that `ToJSONString` returns back into a mapping deeply
equal to the structure with its integers as float64, as `encoding/json` does; (2) when
`s` is a JSON array, under the same condition; (3) when `s` is read as an integer (a
decimal text in the 32-bit range); (4) when `s` is read as a float64 whose text is not read
back as an integer but as the same float64; (5) when `s` is read as a boolean whose text
is read back as the same boolean; (6) when `s` is read as a string that is valid UTF-8 and
has no double quote, backslash, control character or separator U+2028, U+2029. -/
theorem FromJSONString_round_trip (lib : GoLib) (rt : GoReflect) (h : Heap) (s : String) :
    (∀ kvs t kvs2, lib.floatToInt = float64ToInt → lib.intToFloat = intToFloat64 →
      lib.floatEq = float64Eq → lib.unmarshalMap s = some kvs →
      (GoAny.map kvs).all decoded = true →
      jsonEncode rt (narrow lib (.map kvs)) = some t →
      lib.unmarshalMap t = some kvs2 → (GoAny.map kvs2).all decoded = true →
      deepEqual lib rt (.map kvs2) (widen lib (narrow lib (.map kvs))) = true →
      RoundTrips lib rt h s) ∧
    (∀ xs t xs2, lib.floatToInt = float64ToInt → lib.intToFloat = intToFloat64 →
      lib.floatEq = float64Eq → lib.unmarshalMap s = none → lib.unmarshalSlice s = some xs →
      (GoAny.slice xs).all decoded = true →
      jsonEncode rt (narrow lib (.slice xs)) = some t →
      lib.unmarshalMap t = none → lib.unmarshalSlice t = some xs2 →
      (GoAny.slice xs2).all decoded = true →
      deepEqual lib rt (.slice xs2) (widen lib (narrow lib (.slice xs))) = true →
      RoundTrips lib rt h s) ∧
    (lib.unmarshalMap s = none → lib.unmarshalSlice s = none →
      (∀ n, lib.parseInt = parseIntDec 32 →
        (∀ t, decimalValue t ≠ none → lib.unmarshalMap t = none ∧ lib.unmarshalSlice t = none) →
        lib.parseInt s = some n → RoundTrips lib rt h s) ∧
      (∀ x t, lib.parseInt s = none → lib.parseFloat s = some x →
        rt.marshalFloat x = some t → t.data.head? ≠ some '"' →
        lib.unmarshalMap t = none → lib.unmarshalSlice t = none → lib.parseInt t = none →
        lib.parseFloat t = some x → lib.floatEq x x = true → RoundTrips lib rt h s) ∧
      (∀ b t, lib.parseInt = parseIntDec 32 →
        lib.parseInt s = none → lib.parseFloat s = none → lib.parseBool s = some b →
        t = (if b = true then "true" else "false") →
        lib.unmarshalMap t = none → lib.unmarshalSlice t = none → lib.parseFloat t = none →
        lib.parseBool t = some b → RoundTrips lib rt h s) ∧
      (lib.parseInt s = none → lib.parseFloat s = none → lib.parseBool s = none →
        (∀ c ∈ s.data,
          c.toNat ≠ 34 ∧ c.toNat ≠ 92 ∧ 32 ≤ c.toNat ∧ c.toNat ≠ 8232 ∧ c.toNat ≠ 8233) →
        RoundTrips lib rt h s)) := by
  refine ⟨?_, ?_, ?_⟩
  · intro kvs t kvs2 hto hfrom heq hs hdec ht hback hdec2 hsame
    have h1 : FromJSONString lib h s = FromObject lib h (.map kvs) := by
      simp only [FromJSONString, hs]
    have h2 : ∀ h3, FromJSONString lib h3 t = FromObject lib h3 (.map kvs2) := by
      intro h3
      simp only [FromJSONString, hback]
    have hd := narrow_deepEqual lib rt hto hfrom heq _ _ hsame
    rw [narrow_widen_narrow lib hto hfrom heq _ hdec] at hd
    have hnar : narrow lib (.map kvs) = .map (narrowEntries lib kvs) := by rw [narrow]
    exact roundTrips_of_containers h1 (distinctKeys_of_decoded _ hdec)
      (distinctKeys_of_decoded _ hdec2) ht
      (jsonEncode_container_head rt _ t (Or.inl ⟨_, hnar⟩) ht) h2 hd
  · intro xs t xs2 hto hfrom heq hm hs hdec ht hm2 hback hdec2 hsame
    have h1 : FromJSONString lib h s = FromObject lib h (.slice xs) := by
      simp only [FromJSONString, hm, hs]
    have h2 : ∀ h3, FromJSONString lib h3 t = FromObject lib h3 (.slice xs2) := by
      intro h3
      simp only [FromJSONString, hm2, hback]
    have hd := narrow_deepEqual lib rt hto hfrom heq _ _ hsame
    rw [narrow_widen_narrow lib hto hfrom heq _ hdec] at hd
    have hnar : narrow lib (.slice xs) = .slice (narrowElems lib xs) := by rw [narrow]
    exact roundTrips_of_containers h1 (distinctKeys_of_decoded _ hdec)
      (distinctKeys_of_decoded _ hdec2) ht
      (jsonEncode_container_head rt _ t (Or.inr ⟨_, hnar⟩) ht) h2 hd
  · intro hmap hslice
    refine ⟨fun n hint hnum hn => ?_, fun x t hi hf hmf hhead hm2 hs2 hi2 hf2 hself => ?_,
      fun b t hint hi hf hb ht hm2 hs2 hf2 hb2 => ?_, fun hi hf hb hsafe => ?_⟩
    · exact (roundTrips_scalar_texts lib rt h s hmap hslice hint hnum).1 n hn
    · obtain ⟨v, hres, hv⟩ := FromJSONString_fallback lib h s hmap hslice
      rw [hi, hf] at hv
      subst hv
      obtain ⟨v2, hres2, hv2⟩ := FromJSONString_fallback lib
        (h ++ [{ isValue := true, value := .float64 x }]) t hm2 hs2
      rw [hi2, hf2] at hv2
      subst hv2
      exact roundTrips_of_scalars hres (Or.inl (by rw [jsonEncode]; exact hmf)) (Or.inr hhead)
        hres2 (by rw [deepEqual]; exact hself)
    · obtain ⟨v, hres, hv⟩ := FromJSONString_fallback lib h s hmap hslice
      rw [hi, hf, hb] at hv
      subst hv
      obtain ⟨v2, hres2, hv2⟩ := FromJSONString_fallback lib
        (h ++ [{ isValue := true, value := .bool b }]) t hm2 hs2
      have hi2 : lib.parseInt t = none := by
        rw [hint, ht]
        cases b <;> decide
      rw [hi2, hf2, hb2] at hv2
      subst hv2
      refine roundTrips_of_scalars hres (Or.inl ?_) (Or.inr ?_) hres2 (by rw [deepEqual]; simp)
      · rw [ht]; rfl
      · rw [ht]
        cases b <;> decide
    · obtain ⟨v, hres, hv⟩ := FromJSONString_fallback lib h s hmap hslice
      rw [hi, hf, hb] at hv
      subst hv
      have hesc := (jsonEscape_eq_self_iff s).mpr hsafe
      obtain ⟨v2, hres2, hv2⟩ := FromJSONString_fallback lib
        (h ++ [{ isValue := true, value := .string s }]) s hmap hslice
      rw [hi, hf, hb] at hv2
      subst hv2
      exact roundTrips_of_scalars hres (Or.inr ⟨s, rfl, hesc.symm⟩) (Or.inl ⟨s, rfl, hesc.symm⟩)
        hres2 (by rw [deepEqual]; simp)

/-- C33, witness: the object with the keys `b` (1.5) and `a` (1): the node holds 1.5 as a
float64 and 1 as an integer, its text has the keys in sorted order, and reading that
text gives an equal node. -/
theorem FromJSONString_round_trip_witness :
    jsonLib.unmarshalMap "\x7b\"b\":1.5,\"a\":1\x7d" =
      some [("b", .float64 0x3FF8000000000000), ("a", .float64 0x3FF0000000000000)] ∧
    narrow jsonLib (.map [("b", .float64 0x3FF8000000000000), ("a", .float64 0x3FF0000000000000)])
      = .map [("b", .float64 0x3FF8000000000000), ("a", .int 1)] ∧
    jsonEncode jsonReflect (.map [("b", .float64 0x3FF8000000000000), ("a", .int 1)]) =
      some "\x7b\"a\":1,\"b\":1.5\x7d" ∧
    RoundTrips jsonLib jsonReflect [] "\x7b\"b\":1.5,\"a\":1\x7d" :=
  ⟨rfl, by rfl, by decide,
    (FromJSONString_round_trip jsonLib jsonReflect [] "\x7b\"b\":1.5,\"a\":1\x7d").1
      [("b", .float64 0x3FF8000000000000), ("a", .float64 0x3FF0000000000000)]
      "\x7b\"a\":1,\"b\":1.5\x7d"
      [("a", .float64 0x3FF0000000000000), ("b", .float64 0x3FF8000000000000)]
      rfl rfl rfl rfl (by decide) (by decide) rfl (by decide) (by decide)⟩

/-- C33 as stated fails. (1) The JSON string literal `"abc"` is not an object, an array,
a number or a boolean, so `FromJSONString` keeps it as a string with its quotes;
`ToJSONString` escapes the two quotes and strips the outer ones, returning `\"abc\"`,
which `FromJSONString` reads as that string of seven characters, and the two scalars are
not `Equals`. (2) The JSON number `1e3` is read by `ParseFloat` as the float64 1000, which
the scalar holds as a float64; its text is `1000`, which `FromJSONString` reads as the
integer 1000, and the two scalars are not `Equals`, their types being different. -/
theorem FromJSONString_round_trip_fails :
    (FromJSONString sampleLib [] "\"abc\"" =
        ([{ isValue := true, value := .string "\"abc\"" }], some 0) ∧
      Nested.ToJSONString sampleReflect 1 (FromJSONString sampleLib [] "\"abc\"").1
        (FromJSONString sampleLib [] "\"abc\"").2 = some (.ok "\\\"abc\\\"") ∧
      FromJSONString sampleLib (FromJSONString sampleLib [] "\"abc\"").1 "\\\"abc\\\"" =
        ([{ isValue := true, value := .string "\"abc\"" },
          { isValue := true, value := .string "\\\"abc\\\"" }], some 1) ∧
      Equals sampleLib sampleReflect 1
        (FromJSONString sampleLib (FromJSONString sampleLib [] "\"abc\"").1 "\\\"abc\\\"").1
        (FromJSONString sampleLib (FromJSONString sampleLib [] "\"abc\"").1 "\\\"abc\\\"").2
        (FromJSONString sampleLib [] "\"abc\"").2 = some (.ok false) ∧
      ¬ RoundTrips sampleLib sampleReflect [] "\"abc\"") ∧
    (FromJSONString jsonLib [] "1e3" =
        ([{ isValue := true, value := .float64 0x408F400000000000 }], some 0) ∧
      Nested.ToJSONString jsonReflect 1 (FromJSONString jsonLib [] "1e3").1
        (FromJSONString jsonLib [] "1e3").2 = some (.ok "1000") ∧
      FromJSONString jsonLib (FromJSONString jsonLib [] "1e3").1 "1000" =
        ([{ isValue := true, value := .float64 0x408F400000000000 },
          { isValue := true, value := .int 1000 }], some 1) ∧
      Equals jsonLib jsonReflect 1 (FromJSONString jsonLib (FromJSONString jsonLib [] "1e3").1 "1000").1
        (FromJSONString jsonLib (FromJSONString jsonLib [] "1e3").1 "1000").2
        (FromJSONString jsonLib [] "1e3").2 = some (.ok false) ∧
      ¬ RoundTrips jsonLib jsonReflect [] "1e3") :=
  ⟨⟨rfl, by decide, rfl, by decide,
      not_roundTrips_of_scalars (v := .string "\"abc\"") (w := .string "\\\"abc\\\"")
        (t := "\\\"abc\\\"") rfl (by decide) rfl (by decide)⟩,
    ⟨rfl, by decide, rfl, by decide,
      not_roundTrips_of_scalars (v := .float64 0x408F400000000000) (w := .int 1000)
        (t := "1000") rfl (by decide) rfl (by decide)⟩⟩
